import Mathlib

/-!
A verification development for the radix tree of `radix_tree.hpp`.

The C++ class `radix_tree<std::string, T, std::less<std::string>>` together with
`radix_tree_node` and `radix_tree_it` is embedded as follows.

* A key (`std::string`) is a list of characters; `std::less<std::string>` is the
  lexicographic order `<` on `List Char`.
* A node object is a value of the inductive type `radix_tree_node`.  Every node owns
  its children (the destructor of a node deletes them), so the heap reachable from the
  root is a tree and is represented as one.  The field `addr` is the address of the node
  object: it is chosen by `new` (a counter in the tree state) and never changes afterwards.
  An iterator holds a node pointer and is modelled as `Option Nat` (`none` is `nullptr`,
  that is `end()`).
* Inside one operation, a node pointer obtained from `find_node` is represented by the
  position of the node: the list of child-map keys on the way from the root (`Path`).
  `m_parent` is not stored: in the source every assignment to `m_parent` is paired with
  the insertion of the node into the `m_children` of that parent, so the parent of a node is
  the node one step up its path, and the root is the only node without a parent.
* `std::map<K, node*>` is an association list kept sorted by key; iteration order is the
  list order.
* `int` and `size_t` are unbounded (`Nat`, `Int`; differences of lengths are computed in
  `Int` as in the source): lengths of keys and numbers of live nodes are bounded by the
  memory of the machine.  Depths are sums of lengths and therefore natural numbers.
* `assert` is not executed.  Where the source would dereference a null pointer or the
  end iterator of a map, the model returns `none` (or leaves the tree as it is).

The definitions come first: the operations of the class, then the invariant of the tree
(`WF`, `tree_wf`) with the list of its leaves in iteration order (`tree_leaves`), then
sequences of calls (`Op`, `run`), the map from keys to values that a sequence of calls
describes (`model`), the tree whose node objects lie further on in the heap
(`shift_tree`), and the trace of `find_node` and of the choice that `insert` makes
between `append` and `prepend` (`find_node_depths`, `insert_call`).  The theorems follow: the child map, `find_node`, the two ways in
which `insert` adds a leaf (`append`, `prepend`), `erase`, the iterator, `remove_if`,
`prefix_match`, the agreement of every reachable tree with `model`, and the properties of
the interface, each over the trees that `run` reaches from the empty tree; then
`longest_match`, the shape of the tree, the independence of all operations from the
addresses that `new` hands out, the invariants of the child maps and depths, the
termination of `find_node`, the order of iteration, and the restoration of the tree by
`erase` after `insert`.
-/

namespace RadixTree

/-- A key: `std::string`. -/
abbrev Key := List Char

/-- The position of a node: the child-map keys from the root down to the node. -/
abbrev Path := List Key

/-- The template function `radix_length` for `std::string`. -/
def radix_length (key : Key) : Int := (key.length : Int)

/-- The template function `radix_substr` for `std::string`: `key.substr(begin, num)`.
A negative `num` converted to `size_t` is larger than every length, so the rest of the
key is returned.  (`substr` throws when `begin` exceeds the length; the callers pass a
`begin` of at most the length, and the model returns the empty key there.) -/
def radix_substr (key : Key) (b : Nat) (num : Int) : Key :=
  if num < 0 then key.drop b else (key.drop b).take num.toNat

/-- The template function `radix_join` for `std::string`. -/
def radix_join (key1 key2 : Key) : Key := key1 ++ key2

/-- Indexing `key[i]` of `std::string`: the character at `i`, and the terminating
`'\0'` at `i = size()`. -/
def key_at (key : Key) (i : Nat) : Char := key.getD i (Char.ofNat 0)

/-- Class `radix_tree_node`: `addr` is the address of the object, the other fields are
those of the source (`m_parent` is the position in the tree, `m_pred` is `std::less`). -/
inductive radix_tree_node (V : Type) where
  | mk (addr : Nat) (m_children : List (Key × radix_tree_node V)) (m_value : Option (Key × V))
      (m_depth : Nat) (m_is_leaf : Bool) (m_key : Key) : radix_tree_node V

namespace radix_tree_node

variable {V : Type}

def addr : radix_tree_node V → Nat
  | mk a _ _ _ _ _ => a

def m_children : radix_tree_node V → List (Key × radix_tree_node V)
  | mk _ cs _ _ _ _ => cs

def m_value : radix_tree_node V → Option (Key × V)
  | mk _ _ v _ _ _ => v

def m_depth : radix_tree_node V → Nat
  | mk _ _ _ d _ _ => d

def m_is_leaf : radix_tree_node V → Bool
  | mk _ _ _ _ l _ => l

def m_key : radix_tree_node V → Key
  | mk _ _ _ _ _ k => k

/-- Assignment to the field `m_children`. -/
def set_children : radix_tree_node V → List (Key × radix_tree_node V) → radix_tree_node V
  | mk a _ v d l k, cs => mk a cs v d l k

end radix_tree_node

/-- Class `radix_tree`: the size counter, the root (absent until the first insert)
and the next address handed out by `new`. -/
structure radix_tree (V : Type) where
  m_size : Nat
  m_root : Option (radix_tree_node V)
  next_addr : Nat

section Map

variable {β : Type}

/-- The call `m.find(k)` of `std::map`, giving the mapped value. -/
def map_find : List (Key × β) → Key → Option β
  | [], _ => none
  | (k1, v) :: rest, k => if k1 = k then some v else map_find rest k

/-- The call `m.erase(k)` of `std::map`. -/
def map_erase : List (Key × β) → Key → List (Key × β)
  | [], _ => []
  | (k1, v) :: rest, k => if k1 = k then rest else (k1, v) :: map_erase rest k

/-- The assignment `m[k] = v` of `std::map`: the entry is replaced when the key is
present and inserted at its place in the order otherwise. -/
def map_insert : List (Key × β) → Key → β → List (Key × β)
  | [], k, v => [(k, v)]
  | (k1, v1) :: rest, k, v =>
    if k < k1 then (k, v) :: (k1, v1) :: rest
    else if k1 < k then (k1, v1) :: map_insert rest k v
    else (k, v) :: rest

/-- The entry reached by `it = m.find(k); ++it`: `none` when `k` is not a key of the
map, `some none` when the incremented iterator is `m.end()`. -/
def map_next : List (Key × β) → Key → Option (Option (Key × β))
  | [], _ => none
  | (k1, _) :: rest, k => if k1 = k then some rest.head? else map_next rest k

/-- The entry of key `k` is replaced by its image under `f` (the mapped object is
modified in place). -/
def map_update : List (Key × β) → Key → (β → β) → List (Key × β)
  | [], _, _ => []
  | (k1, v) :: rest, k, f => if k1 = k then (k1, f v) :: rest else (k1, v) :: map_update rest k f

end Map

section Tree

variable {V : Type}

/-- The node at a position, `none` when the position does not exist. -/
def node_at : Path → radix_tree_node V → Option (radix_tree_node V)
  | [], n => some n
  | lab :: p, n =>
    match map_find n.m_children lab with
    | some c => node_at p c
    | none => none

/-- The tree in which the node at a position has been given new contents. -/
def replace_at : Path → radix_tree_node V → radix_tree_node V → radix_tree_node V
  | [], _, n1 => n1
  | lab :: p, n, n1 => n.set_children (map_update n.m_children lab (fun c => replace_at p c n1))

mutual
/-- Resolution of a node pointer: the position of the node object at address `a`. -/
def path_of (a : Nat) : radix_tree_node V → Option Path
  | .mk a1 cs _ _ _ _ => if a1 = a then some [] else path_of_children a cs
/-- The search of `path_of` among the children of a node. -/
def path_of_children (a : Nat) : List (Key × radix_tree_node V) → Option Path
  | [] => none
  | (lab, c) :: rest =>
    match path_of a c with
    | some p => some (lab :: p)
    | none => path_of_children a rest
end

/-- Dereference of a node pointer. -/
def node_of (root : radix_tree_node V) (a : Nat) : Option (radix_tree_node V) :=
  match path_of a root with
  | some p => node_at p root
  | none => none

mutual
/-- The private `radix_tree::find_node(key, node, depth)`; the result is the position of
the returned node relative to `node`. -/
def find_node (key : Key) : radix_tree_node V → Nat → Path
  | .mk _ cs _ _ _ _, depth => find_node_loop key depth cs
/-- The `for` loop of `find_node` over the children from the iterator `it` on; an
exhausted loop returns `node` itself (also when there is no child at all). -/
def find_node_loop (key : Key) (depth : Nat) : List (Key × radix_tree_node V) → Path
  | [] => []
  | (first, second) :: rest =>
    if radix_length key - (depth : Int) = 0 then
      if second.m_is_leaf then [first] else find_node_loop key depth rest
    else if !second.m_is_leaf && key_at key depth == key_at first 0 then
      if radix_substr key depth (radix_length first) = first then
        first :: find_node key second (depth + first.length)
      else [first]
    else find_node_loop key depth rest
end

mutual
/-- The private `radix_tree::greedy_match(node, vec)`: the iterators pushed to `vec`. -/
def greedy_match_node : radix_tree_node V → List Nat
  | .mk a cs _ _ l _ => if l then [a] else greedy_match_children cs
/-- The `for` loop of `greedy_match(node, vec)`. -/
def greedy_match_children : List (Key × radix_tree_node V) → List Nat
  | [] => []
  | (_, c) :: rest => greedy_match_node c ++ greedy_match_children rest
end

mutual
/-- The private `radix_tree::begin(node)` (and likewise `radix_tree_it::descend`): the
leftmost leaf below `node`. -/
def descend : radix_tree_node V → Option Nat
  | .mk a cs _ _ l _ => if l then some a else descend_first cs
/-- The step `descend(node->m_children.begin()->second)`. -/
def descend_first : List (Key × radix_tree_node V) → Option Nat
  | [] => none
  | (_, c) :: _ => descend c
end

/-- The method `radix_tree_it::increment(node)`, for the node whose position is given
with the last step first (so that `rq` is the position of `node->m_parent`). -/
def increment_from (root : radix_tree_node V) : List Key → Option Nat
  | [] => none
  | lab :: rq =>
    match node_at rq.reverse root, node_at (rq.reverse ++ [lab]) root with
    | some parent, some node =>
      match map_next parent.m_children node.m_key with
      | some (some (_, sibling)) => descend sibling
      | some none => increment_from root rq
      | none => none
    | _, _ => none

/-- The method `radix_tree_it::increment(node)` on a node pointer. -/
def increment (root : radix_tree_node V) (node : Nat) : Option Nat :=
  match path_of node root with
  | some p => increment_from root p.reverse
  | none => none

/-- The `for` loop of `radix_tree::prepend` computing `count`, started at `count` with
`fuel` iterations left (the loop makes at most `len1` of them). -/
def prepend_count (node_key key : Key) (depth : Nat) (len1 len2 : Int) : Nat → Nat → Nat
  | 0, count => count
  | fuel + 1, count =>
    if (count : Int) < len1 ∧ (count : Int) < len2 then
      if ¬ (key_at node_key count = key_at key (count + depth)) then count
      else prepend_count node_key key depth len1 len2 fuel (count + 1)
    else count

/-- The private `radix_tree::append(parent, val)`; `new` hands out the addresses from
`a` on.  The result is the parent after the call, the returned leaf pointer and the
next free address. -/
def append (a : Nat) (parent : radix_tree_node V) (val : Key × V) :
    radix_tree_node V × Nat × Nat :=
  let nul := radix_substr val.1 0 0
  let depth := parent.m_depth + parent.m_key.length
  let len : Int := radix_length val.1 - (depth : Int)
  if len = 0 then
    let node_c : radix_tree_node V := .mk a [] (some val) depth true nul
    (parent.set_children (map_insert parent.m_children nul node_c), a, a + 1)
  else
    let key_sub := radix_substr val.1 depth len
    let node_cc : radix_tree_node V := .mk (a + 1) [] (some val) ((depth : Int) + len).toNat true nul
    let node_c : radix_tree_node V := .mk a (map_insert [] nul node_cc) (some val) depth false key_sub
    (parent.set_children (map_insert parent.m_children key_sub node_c), a + 1, a + 2)

/-- The private `radix_tree::prepend(node, val)`, where `parent` is `node->m_parent`;
`new` hands out the addresses from `a` on.  The result is the parent after the call,
the returned leaf pointer and the next free address. -/
def prepend (a : Nat) (parent node : radix_tree_node V) (val : Key × V) :
    radix_tree_node V × Nat × Nat :=
  let len1 := radix_length node.m_key
  let len2 : Int := radix_length val.1 - (node.m_depth : Int)
  let count := prepend_count node.m_key val.1 node.m_depth len1 len2 node.m_key.length 0
  let children1 := map_erase parent.m_children node.m_key
  let a_key := radix_substr node.m_key 0 count
  let a_depth := node.m_depth
  let node1 : radix_tree_node V :=
    .mk node.addr node.m_children node.m_value (node.m_depth + count) node.m_is_leaf
      (radix_substr node.m_key count (len1 - (count : Int)))
  let a_children := map_insert [] node1.m_key node1
  let nul := radix_substr val.1 0 0
  if (count : Int) = len2 then
    let node_b : radix_tree_node V := .mk (a + 1) [] (some val) (a_depth + count) true nul
    let node_a : radix_tree_node V :=
      .mk a (map_insert a_children nul node_b) none a_depth false a_key
    (parent.set_children (map_insert children1 a_key node_a), a + 1, a + 2)
  else
    let b_depth := node1.m_depth
    let b_key := radix_substr val.1 b_depth (len2 - (count : Int))
    let node_c : radix_tree_node V := .mk (a + 2) [] (some val) val.1.length true nul
    let node_b : radix_tree_node V := .mk (a + 1) (map_insert [] nul node_c) none b_depth false b_key
    let node_a : radix_tree_node V :=
      .mk a (map_insert a_children b_key node_b) none a_depth false a_key
    (parent.set_children (map_insert children1 a_key node_a), a + 2, a + 3)

/-- The method `radix_tree::insert(val)`: the tree after the call and the returned pair. -/
def insert (t : radix_tree V) (val : Key × V) : radix_tree V × Option Nat × Bool :=
  let t1 : radix_tree V :=
    match t.m_root with
    | some _ => t
    | none =>
      { m_size := t.m_size
        m_root := some (.mk t.next_addr [] none 0 false (radix_substr val.1 0 0))
        next_addr := t.next_addr + 1 }
  match t1.m_root with
  | none => (t1, none, false)
  | some root =>
    let p := find_node val.1 root 0
    match node_at p root with
    | none => (t1, none, false)
    | some node =>
      if node.m_is_leaf then (t1, some node.addr, false)
      else if p = [] then
        let r := append t1.next_addr root val
        ({ m_size := t1.m_size + 1, m_root := some r.1, next_addr := r.2.2 }, some r.2.1, true)
      else if radix_substr val.1 node.m_depth (radix_length node.m_key) = node.m_key then
        let r := append t1.next_addr node val
        ({ m_size := t1.m_size + 1, m_root := some (replace_at p root r.1), next_addr := r.2.2 },
          some r.2.1, true)
      else
        match node_at p.dropLast root with
        | none => (t1, none, false)
        | some parent =>
          let r := prepend t1.next_addr parent node val
          ({ m_size := t1.m_size + 1, m_root := some (replace_at p.dropLast root r.1),
             next_addr := r.2.2 }, some r.2.1, true)

/-- The merge step at the end of `radix_tree::erase(key)`: `grandparent` (already
modified, at position `gq`) is merged with its only child when that child is not a
leaf; the result is the new root. -/
def erase_merge (root : radix_tree_node V) (gq : Path) (grandparent : radix_tree_node V) :
    radix_tree_node V :=
  if gq = [] then grandparent
  else
    match grandparent.m_children with
    | [(_, uncle)] =>
      if uncle.m_is_leaf then replace_at gq root grandparent
      else
        match node_at gq.dropLast root with
        | none => replace_at gq root grandparent
        | some ggp =>
          let uncle1 : radix_tree_node V :=
            .mk uncle.addr uncle.m_children uncle.m_value grandparent.m_depth uncle.m_is_leaf
              (radix_join grandparent.m_key uncle.m_key)
          replace_at gq.dropLast root
            (ggp.set_children
              (map_insert (map_erase ggp.m_children grandparent.m_key) uncle1.m_key uncle1))
    | _ => replace_at gq root grandparent

/-- The method `radix_tree::erase(key)`: the tree after the call and the returned flag. -/
def erase (t : radix_tree V) (key : Key) : radix_tree V × Bool :=
  match t.m_root with
  | none => (t, false)
  | some root =>
    let nul := radix_substr key 0 0
    let p := find_node key root 0
    match node_at p root with
    | none => (t, false)
    | some child =>
      if !child.m_is_leaf then (t, false)
      else if p = [] then (t, false)
      else
        let q := p.dropLast
        match node_at q root with
        | none => (t, false)
        | some parent0 =>
          let parent := parent0.set_children (map_erase parent0.m_children nul)
          let size1 := t.m_size - 1
          if q = [] then
            ({ m_size := size1, m_root := some parent, next_addr := t.next_addr }, true)
          else if parent.m_children.length > 1 then
            ({ m_size := size1, m_root := some (replace_at q root parent),
               next_addr := t.next_addr }, true)
          else if parent.m_children.isEmpty then
            match node_at q.dropLast root with
            | none => (t, false)
            | some grandparent0 =>
              let grandparent :=
                grandparent0.set_children (map_erase grandparent0.m_children parent.m_key)
              ({ m_size := size1, m_root := some (erase_merge root q.dropLast grandparent),
                 next_addr := t.next_addr }, true)
          else
            ({ m_size := size1, m_root := some (erase_merge root q parent),
               next_addr := t.next_addr }, true)

/-- The method `radix_tree::clear()`. -/
def clear (t : radix_tree V) : radix_tree V :=
  { m_size := 0, m_root := none, next_addr := t.next_addr }

/-- The method `radix_tree::size()`. -/
def size (t : radix_tree V) : Nat := t.m_size

/-- The method `radix_tree::end()`: the null iterator. -/
def end_it : Option Nat := none

/-- The method `radix_tree::find(key)`. -/
def find (t : radix_tree V) (key : Key) : Option Nat :=
  match t.m_root with
  | none => none
  | some root =>
    match node_at (find_node key root 0) root with
    | none => none
    | some node => if !node.m_is_leaf then none else some node.addr

/-- The method `radix_tree::begin()`. -/
def begin (t : radix_tree V) : Option Nat :=
  match t.m_root with
  | none => none
  | some root => if t.m_size = 0 then none else descend root

/-- The pre-increment `operator++` of `radix_tree_it`, for an iterator into the tree `t`. -/
def operator_inc (t : radix_tree V) (it : Option Nat) : Option Nat :=
  match it, t.m_root with
  | some node, some root => increment root node
  | _, _ => none

/-- The dereference `*it` of `radix_tree_it`, for an iterator into the tree `t`: the
stored pair `*m_pointee->m_value`. -/
def deref (t : radix_tree V) (it : Option Nat) : Option (Key × V) :=
  match it, t.m_root with
  | some node, some root =>
    match node_of root node with
    | some n => n.m_value
    | none => none
  | _, _ => none

/-- The method `radix_tree::operator[](lhs)`: the tree after the call and the iterator
`it` whose `it->second` is the returned reference. -/
def operator_index [Inhabited V] (t : radix_tree V) (lhs : Key) : radix_tree V × Option Nat :=
  match find t lhs with
  | some node => (t, some node)
  | none =>
    let ret := insert t (lhs, default)
    (ret.1, ret.2.1)

/-- The loop of `radix_tree::remove_if(pred)` from the iterator `it` on, for at most
`fuel` iterations. -/
def remove_if_loop (pred : Key → Bool) : Nat → radix_tree V → Option Nat → radix_tree V
  | 0, t, _ => t
  | fuel + 1, t, it =>
    match it with
    | none => t
    | some node =>
      let backIt := operator_inc t (some node)
      match deref t (some node) with
      | none => t
      | some toDelete =>
        if pred toDelete.1 then remove_if_loop pred fuel (erase t toDelete.1).1 backIt
        else remove_if_loop pred fuel t backIt

/-- The method `radix_tree::remove_if(pred)`; the loop makes one iteration for every
leaf, so `m_size` iterations are allowed for. -/
def remove_if (t : radix_tree V) (pred : Key → Bool) : radix_tree V :=
  remove_if_loop pred t.m_size t (begin t)

/-- The public `radix_tree::greedy_match(key, vec)`: the contents of `vec` after the call. -/
def greedy_match (t : radix_tree V) (key : Key) : List Nat :=
  match t.m_root with
  | none => []
  | some root =>
    let p := find_node key root 0
    match node_at p root with
    | none => []
    | some node0 =>
      match (if node0.m_is_leaf then node_at p.dropLast root else some node0) with
      | none => []
      | some node => greedy_match_node node

/-- The method `radix_tree::prefix_match(key, vec)`: the contents of `vec` after the call. -/
def prefix_match (t : radix_tree V) (key : Key) : List Nat :=
  match t.m_root with
  | none => []
  | some root =>
    let p := find_node key root 0
    match node_at p root with
    | none => []
    | some node0 =>
      match (if node0.m_is_leaf then node_at p.dropLast root else some node0) with
      | none => []
      | some node =>
        let len : Int := radix_length key - (node.m_depth : Int)
        let key_sub1 := radix_substr key node.m_depth len
        let key_sub2 := radix_substr node.m_key 0 len
        if key_sub1 ≠ key_sub2 then [] else greedy_match_node node

/-- A freshly constructed `radix_tree`. -/
def empty_tree : radix_tree V :=
  { m_size := 0, m_root := none, next_addr := 0 }

end Tree

section LongestMatch

variable {V : Type}

/-- The test in the body of the `while` loop of `longest_match`: the child filed under
`nul`, when there is one and it is a leaf. -/
def nul_leaf (nul : Key) (node : radix_tree_node V) : Option Nat :=
  match map_find node.m_children nul with
  | some second => if second.m_is_leaf then some second.addr else none
  | none => none

/-- The `while` loop of `radix_tree::longest_match`, for the node whose position is given
with the last step first: the node is tested and the loop goes on with `node->m_parent`,
until the parent of the root (`nullptr`) is reached. -/
def longest_match_loop (root : radix_tree_node V) (nul : Key) : List Key → Option Nat
  | [] => nul_leaf nul root
  | lab :: rq =>
    match node_at (rq.reverse ++ [lab]) root with
    | none => none
    | some node =>
      match nul_leaf nul node with
      | some a => some a
      | none => longest_match_loop root nul rq

/-- The method `radix_tree::longest_match(key)`. -/
def longest_match (t : radix_tree V) (key : Key) : Option Nat :=
  match t.m_root with
  | none => none
  | some root =>
    let p := find_node key root 0
    match node_at p root with
    | none => none
    | some node =>
      if node.m_is_leaf then some node.addr
      else
        let key_sub := radix_substr key node.m_depth (radix_length node.m_key)
        let nul := radix_substr key 0 0
        if ¬ (key_sub = node.m_key) then
          (if p = [] then none else longest_match_loop root nul p.dropLast.reverse)
        else longest_match_loop root nul p.reverse

end LongestMatch

section Invariant

variable {V : Type}

/-- The keys of a child map are strictly increasing (the class invariant of `std::map`). -/
def map_sorted {β : Type} (m : List (Key × β)) : Prop := m.Pairwise (fun x y => x.1 < y.1)

mutual
/-- The leaves below a node, in the order of the child maps. -/
def leaves : radix_tree_node V → List (radix_tree_node V)
  | .mk a cs v d l k => if l then [.mk a cs v d l k] else leaves_children cs
/-- The leaves below the nodes of a child map. -/
def leaves_children : List (Key × radix_tree_node V) → List (radix_tree_node V)
  | [] => []
  | (_, c) :: rest => leaves c ++ leaves_children rest
end

mutual
/-- The addresses of all node objects below (and including) a node. -/
def addrs : radix_tree_node V → List Nat
  | .mk a cs _ _ _ _ => a :: addrs_children cs
/-- The addresses of all node objects below the nodes of a child map. -/
def addrs_children : List (Key × radix_tree_node V) → List Nat
  | [] => []
  | (_, c) :: rest => addrs c ++ addrs_children rest
end

/-- What a node requires of an entry of its child map: the child is filed under its own
edge label, and a child that is not a leaf has a non-empty label, at least one child,
and no single child that is not a leaf. -/
def child_ok (e : Key × radix_tree_node V) : Prop :=
  e.2.m_key = e.1 ∧
  (e.2.m_is_leaf = false →
    e.1 ≠ [] ∧ e.2.m_children ≠ [] ∧
    ∀ c, e.2.m_children = [c] → c.2.m_is_leaf = true)

/-- No two children that are not leaves have labels with the same first symbol. -/
def heads_distinct (cs : List (Key × radix_tree_node V)) : Prop :=
  ∀ e1 ∈ cs, ∀ e2 ∈ cs, e1.2.m_is_leaf = false → e2.2.m_is_leaf = false →
    e1.1.head? = e2.1.head? → e1.1 = e2.1

/-- The shape invariant of the subtree at a node, where `pre` is the concatenation of
the edge labels of the proper ancestors of the node. -/
inductive WF : Key → radix_tree_node V → Prop where
  | leaf (pre : Key) (a : Nat) (v : V) :
      WF pre (.mk a [] (some (pre, v)) pre.length true [])
  | node (pre : Key) (a : Nat) (cs : List (Key × radix_tree_node V)) (val : Option (Key × V))
      (k : Key) :
      map_sorted cs → (∀ e ∈ cs, child_ok e) → heads_distinct cs →
      (∀ e ∈ cs, WF (pre ++ k) e.2) →
      WF pre (.mk a cs val pre.length false k)

/-- The invariant of a tree: shape, size counter and addresses. -/
def tree_wf (t : radix_tree V) : Prop :=
  match t.m_root with
  | none => t.m_size = 0
  | some root =>
    WF [] root ∧ root.m_is_leaf = false ∧ root.m_key = [] ∧
    t.m_size = (leaves root).length ∧
    (addrs root).Nodup ∧ ∀ a ∈ addrs root, a < t.next_addr

/-- The leaves of a tree in iteration order. -/
def tree_leaves (t : radix_tree V) : List (radix_tree_node V) :=
  match t.m_root with
  | none => []
  | some root => leaves root

/-- The key stored in a node (`m_value->first`). -/
def stored_key (n : radix_tree_node V) : Option Key := n.m_value.map Prod.fst

/-- The concatenation of the edge labels of the proper ancestors of the node at a
position, where `pre` is that of the node the position starts from. -/
def pre_at : Path → radix_tree_node V → Key → Key
  | [], _, pre => pre
  | lab :: q, n, pre =>
    match map_find n.m_children lab with
    | some c => pre_at q c (pre ++ n.m_key)
    | none => pre

/-- The ways in which `find_node` stops at or directly below a node with child map `cs`,
when `rest` is what is left of the key there: at a leaf child (the key ends), at the node
itself (no child matches), or at a child whose label is only partially matched. -/
def anchor_cases (rest : Key) (cs : List (Key × radix_tree_node V)) (res : Path) : Prop :=
  (rest = [] ∧ ∃ e ∈ cs, e.2.m_is_leaf = true ∧ res = [e.1]) ∨
  (rest = [] ∧ (∀ e ∈ cs, e.2.m_is_leaf = false) ∧ res = []) ∨
  (rest ≠ [] ∧ (∀ e ∈ cs, e.2.m_is_leaf = false → key_at rest 0 ≠ key_at e.1 0) ∧ res = []) ∨
  (rest ≠ [] ∧ ∃ e ∈ cs, e.2.m_is_leaf = false ∧ key_at rest 0 = key_at e.1 0 ∧
      ¬ e.1 <+: rest ∧ res = [e.1])

/-- The traversal `for (it = first; it != end(); ++it)` of a tree: the iterators
visited, or `none` when `end()` is not reached within `fuel` increments. -/
def walk (t : radix_tree V) : Nat → Option Nat → Option (List Nat)
  | _, none => some []
  | 0, some _ => none
  | fuel + 1, some node => (walk t fuel (operator_inc t (some node))).map (fun l => node :: l)

/-- Whether `remove_if(pred)` erases the key stored in a leaf. -/
def leaf_pred (pred : Key → Bool) (x : radix_tree_node V) : Bool :=
  match x.m_value with
  | some kv => pred kv.1
  | none => false

/-- Whether the key stored in a leaf begins with `p`. -/
def starts_with (p : Key) (x : radix_tree_node V) : Bool :=
  match x.m_value with
  | some kv => p.isPrefixOf kv.1
  | none => false

end Invariant

section Traces

variable {V : Type}

/-- A call of one of the methods that change a tree: `insert(val)`, `erase(key)`,
`operator[](key)`, `remove_if(pred)` and `clear()`. -/
inductive Op (V : Type) where
  | insert (val : Key × V) : Op V
  | erase (key : Key) : Op V
  | index (key : Key) : Op V
  | remove_if (pred : Key → Bool) : Op V
  | clear : Op V

/-- The tree after a call. -/
def apply_op [Inhabited V] (t : radix_tree V) : Op V → radix_tree V
  | .insert val => (insert t val).1
  | .erase key => (erase t key).1
  | .index key => (operator_index t key).1
  | .remove_if pred => remove_if t pred
  | .clear => clear t

/-- The tree reached from a tree by a sequence of calls. -/
def run_from [Inhabited V] (t : radix_tree V) (ops : List (Op V)) : radix_tree V :=
  ops.foldl apply_op t

/-- The tree reached from the empty tree by a sequence of calls. -/
def run [Inhabited V] (ops : List (Op V)) : radix_tree V := run_from empty_tree ops

/-- What a call does to the map from keys to values that the calls so far have built up:
`insert` and `operator[]` bind a key only when it is absent (`operator[]` to the default
value), `erase` removes a key, `remove_if` removes the keys that satisfy the predicate,
`clear` removes all keys. -/
def model_op [Inhabited V] (m : Key → Option V) : Op V → Key → Option V
  | .insert val => fun k => if k = val.1 then (if (m k).isSome then m k else some val.2) else m k
  | .erase key => fun k => if k = key then none else m k
  | .index key => fun k => if k = key then (if (m k).isSome then m k else some default) else m k
  | .remove_if pred => fun k => if pred k then none else m k
  | .clear => fun _ => none

/-- The history of a sequence of calls, as a map: a key is bound when it was inserted
and not subsequently erased, and it is bound to the value given by the first successful
insert since it was last absent. -/
def model [Inhabited V] (ops : List (Op V)) : Key → Option V :=
  ops.foldl model_op (fun _ => none)

mutual
/-- The number of nodes below (and including) a node whose leaf flag is set. -/
def leaf_nodes : radix_tree_node V → Nat
  | .mk _ cs _ _ l _ => (if l then 1 else 0) + leaf_nodes_children cs
/-- The number of nodes with the leaf flag below the nodes of a child map. -/
def leaf_nodes_children : List (Key × radix_tree_node V) → Nat
  | [] => 0
  | (_, c) :: rest => leaf_nodes c + leaf_nodes_children rest
end

/-- The number of leaf nodes of a tree. -/
def tree_leaf_nodes (t : radix_tree V) : Nat :=
  match t.m_root with
  | none => 0
  | some root => leaf_nodes root

/-- The number of calls of `erase` that return true in the loop of `remove_if`. -/
def remove_if_erased (pred : Key → Bool) : Nat → radix_tree V → Option Nat → Nat
  | 0, _, _ => 0
  | fuel + 1, t, it =>
    match it with
    | none => 0
    | some node =>
      let backIt := operator_inc t (some node)
      match deref t (some node) with
      | none => 0
      | some toDelete =>
        if pred toDelete.1 then
          (if (erase t toDelete.1).2 then 1 else 0)
            + remove_if_erased pred fuel (erase t toDelete.1).1 backIt
        else remove_if_erased pred fuel t backIt

/-- The number of calls of `insert` that return true in a call (`operator[]` calls
`insert` when the key is absent). -/
def inserted_by [Inhabited V] (t : radix_tree V) : Op V → Nat
  | .insert val => if (insert t val).2.2 then 1 else 0
  | .index key =>
    match find t key with
    | some _ => 0
    | none => if (insert t (key, default)).2.2 then 1 else 0
  | _ => 0

/-- The number of calls of `erase` that return true in a call (`remove_if` calls `erase`
for the keys that satisfy the predicate). -/
def erased_by [Inhabited V] (t : radix_tree V) : Op V → Nat
  | .erase key => if (erase t key).2 then 1 else 0
  | .remove_if pred => remove_if_erased pred t.m_size t (begin t)
  | _ => 0

/-- The number N of inserts that return true in a sequence of calls started at `t`. -/
def count_inserted [Inhabited V] : radix_tree V → List (Op V) → Nat
  | _, [] => 0
  | t, op :: ops => inserted_by t op + count_inserted (apply_op t op) ops

/-- The number M of erases that return true in a sequence of calls started at `t`. -/
def count_erased [Inhabited V] : radix_tree V → List (Op V) → Nat
  | _, [] => 0
  | t, op :: ops => erased_by t op + count_erased (apply_op t op) ops

/-- Whether a call is `clear()`. -/
def Op.is_clear : Op V → Bool
  | .clear => true
  | _ => false

/-- The keys of the leaves that a traversal visits. -/
def visited_keys (t : radix_tree V) (its : List Nat) : List Key :=
  its.filterMap (fun a => (deref t (some a)).map Prod.fst)

/-- The pairs stored in the leaves of a tree are the bindings of a map. -/
def agrees (t : radix_tree V) (m : Key → Option V) : Prop :=
  ∀ k v, m k = some v ↔ ∃ x ∈ tree_leaves t, x.m_value = some (k, v)

end Traces

/-- A short sequence of calls on a tree of numbers: two inserts, a refused insert, an
erase and a default insert. -/
def sample_ops : List (Op Nat) :=
  [.insert (['a', 'b'], 1), .insert (['a'], 2), .insert (['a', 'b'], 3), .erase ['a'],
   .index ['a', 'b', 'c']]

/-- The calls that build the tree with the keys abcdef, abcdege, bcdef, cd, ce and c. -/
def prefix_example_ops : List (Op Nat) :=
  [.insert (['a', 'b', 'c', 'd', 'e', 'f'], 1),
   .insert (['a', 'b', 'c', 'd', 'e', 'g', 'e'], 2),
   .insert (['b', 'c', 'd', 'e', 'f'], 3),
   .insert (['c', 'd'], 4),
   .insert (['c', 'e'], 5),
   .insert (['c'], 6)]

/-- The calls that build the tree whose only key is the empty key. -/
def empty_key_ops : List (Op Nat) := [.insert ([], 7)]

/-- A short sequence of calls on a tree of integers. -/
def sample_int_ops : List (Op Int) := [.insert (['a', 'b'], 5), .insert (['a'], -2)]

/-- The calls that leave a tree with a root without children: a key is inserted and
erased. -/
def emptied_ops : List (Op Nat) := [.insert (['a'], 1), .erase ['a']]

/-- The calls that leave a cleared tree. -/
def cleared_ops : List (Op Nat) := [.insert (['a'], 1), .clear]

section Addresses

variable {V : Type}

mutual
/-- The node with every node object below it `s` addresses further on. -/
def shift_node (s : Nat) : radix_tree_node V → radix_tree_node V
  | .mk a cs v d l k => .mk (a + s) (shift_children s cs) v d l k
/-- The child map with every node object below it `s` addresses further on. -/
def shift_children (s : Nat) : List (Key × radix_tree_node V) → List (Key × radix_tree_node V)
  | [] => []
  | (lab, c) :: rest => (lab, shift_node s c) :: shift_children s rest
end

/-- The iterator to the node object `s` addresses further on (`end()` stays `end()`). -/
def shift_it (s : Nat) (it : Option Nat) : Option Nat := it.map (fun a => a + s)

/-- The same tree in a heap in which `new` had handed out `s` addresses more before the
first node of the tree was made: every node object lies `s` addresses further on. -/
def shift_tree (s : Nat) (t : radix_tree V) : radix_tree V :=
  { m_size := t.m_size, m_root := t.m_root.map (shift_node s), next_addr := t.next_addr + s }

end Addresses

section Instrumented

variable {V : Type}

/-- The call that puts the key ab into an empty tree. -/
def value_example_ops : List (Op Nat) := [.insert (['a', 'b'], 1)]

/-- The root of the tree that the sample calls build. -/
def sample_root : radix_tree_node Nat :=
  (run sample_ops).m_root.getD (.mk 0 [] none 0 false [])

/-- The node of the sample tree below the labels ab and c, which is not a leaf. -/
def sample_node : radix_tree_node Nat :=
  (node_at [['a', 'b'], ['c']] sample_root).getD sample_root

/-- The node of the sample tree below the label ab. -/
def sample_ab_node : radix_tree_node Nat :=
  (node_at [['a', 'b']] sample_root).getD sample_root

/-- The only child of the node below the labels ab and c. -/
def sample_child : Key × radix_tree_node Nat := sample_node.m_children.headD ([], sample_root)

mutual
/-- The depths with which `find_node` is called: the depth of the call itself, followed
by those of the recursive calls it makes. -/
def find_node_depths (key : Key) : radix_tree_node V → Nat → List Nat
  | .mk _ cs _ _ _ _, depth => depth :: find_node_depths_loop key depth cs
/-- The depths of the recursive calls made by the `for` loop of `find_node` from the
iterator `it` on. -/
def find_node_depths_loop (key : Key) (depth : Nat) : List (Key × radix_tree_node V) → List Nat
  | [] => []
  | (first, second) :: rest =>
    if radix_length key - (depth : Int) = 0 then
      if second.m_is_leaf then [] else find_node_depths_loop key depth rest
    else if !second.m_is_leaf && key_at key depth == key_at first 0 then
      if radix_substr key depth (radix_length first) = first then
        find_node_depths key second (depth + first.length)
      else []
    else find_node_depths_loop key depth rest
end

/-- The private method that `insert` calls, if any. -/
inductive InsertCall where
  | no_call : InsertCall
  | calls_append : InsertCall
  | calls_prepend : InsertCall
  deriving DecidableEq

/-- The branch that `radix_tree::insert(val)` takes: which of `append` and `prepend` it
calls (none of them when the key is already stored). -/
def insert_call (t : radix_tree V) (val : Key × V) : InsertCall :=
  let t1 : radix_tree V :=
    match t.m_root with
    | some _ => t
    | none =>
      { m_size := t.m_size
        m_root := some (.mk t.next_addr [] none 0 false (radix_substr val.1 0 0))
        next_addr := t.next_addr + 1 }
  match t1.m_root with
  | none => .no_call
  | some root =>
    let p := find_node val.1 root 0
    match node_at p root with
    | none => .no_call
    | some node =>
      if node.m_is_leaf then .no_call
      else if p = [] then .calls_append
      else if radix_substr val.1 node.m_depth (radix_length node.m_key) = node.m_key then
        .calls_append
      else .calls_prepend

/-- The value of `count` after the `for` loop of `radix_tree::prepend(node, val)`. -/
def prepend_call_count (node : radix_tree_node V) (val : Key × V) : Nat :=
  prepend_count node.m_key val.1 node.m_depth (radix_length node.m_key)
    (radix_length val.1 - (node.m_depth : Int)) node.m_key.length 0

/-- The index pairs `(count, count + node->m_depth)` at which the `for` loop of
`radix_tree::prepend` reads `node->m_key` and `val.first`, from `count` on. -/
def prepend_reads (node_key key : Key) (depth : Nat) (len1 len2 : Int) : Nat → Nat → List (Nat × Nat)
  | 0, _ => []
  | fuel + 1, count =>
    if (count : Int) < len1 ∧ (count : Int) < len2 then
      (count, count + depth) ::
        (if ¬ (key_at node_key count = key_at key (count + depth)) then []
         else prepend_reads node_key key depth len1 len2 fuel (count + 1))
    else []

end Instrumented

section MapLemmas
variable {β : Type}

theorem map_sorted_nil : map_sorted ([] : List (Key × β)) := List.Pairwise.nil

theorem map_sorted_cons {e : Key × β} {m : List (Key × β)} :
    map_sorted (e :: m) ↔ (∀ x ∈ m, e.1 < x.1) ∧ map_sorted m := List.pairwise_cons

theorem map_sorted_append {l1 l2 : List (Key × β)} :
    map_sorted (l1 ++ l2) ↔ map_sorted l1 ∧ map_sorted l2 ∧ ∀ x ∈ l1, ∀ y ∈ l2, x.1 < y.1 :=
  List.pairwise_append

theorem map_sorted_key_unique {m : List (Key × β)} (h : map_sorted m) {x y : Key × β}
    (hx : x ∈ m) (hy : y ∈ m) (hk : x.1 = y.1) : x = y := by
  induction m with
  | nil => cases hx
  | cons e m ih =>
    rw [map_sorted_cons] at h
    rcases List.mem_cons.1 hx with rfl | hx1 <;> rcases List.mem_cons.1 hy with rfl | hy1
    · rfl
    · exact absurd (hk ▸ h.1 y hy1) (lt_irrefl _)
    · exact absurd (hk ▸ h.1 x hx1) (lt_irrefl _)
    · exact ih h.2 hx1 hy1

theorem map_split_of_mem {m : List (Key × β)} (h : map_sorted m) {e : Key × β} (he : e ∈ m) :
    ∃ l1 l2, m = l1 ++ e :: l2 ∧ (∀ x ∈ l1, x.1 ≠ e.1) ∧ (∀ x ∈ l2, x.1 ≠ e.1) := by
  obtain ⟨l1, l2, rfl⟩ := List.append_of_mem he
  refine ⟨l1, l2, rfl, ?_, ?_⟩
  · intro x hx
    rw [map_sorted_append] at h
    exact ne_of_lt (h.2.2 x hx e (List.mem_cons_self _ _))
  · intro x hx
    rw [map_sorted_append, map_sorted_cons] at h
    exact (ne_of_lt (h.2.1.1 x hx)).symm

theorem map_find_split (l1 l2 : List (Key × β)) (k : Key) (v : β) (h : ∀ x ∈ l1, x.1 ≠ k) :
    map_find (l1 ++ (k, v) :: l2) k = some v := by
  induction l1 with
  | nil => simp [map_find]
  | cons e l1 ih =>
    obtain ⟨k1, v1⟩ := e
    have h1 : k1 ≠ k := h (k1, v1) (List.mem_cons_self _ _)
    show map_find ((k1, v1) :: (l1 ++ (k, v) :: l2)) k = some v
    rw [map_find, if_neg h1, ih (fun x hx => h x (List.mem_cons_of_mem _ hx))]

theorem map_find_mem {m : List (Key × β)} {k : Key} {v : β} (h : map_find m k = some v) :
    (k, v) ∈ m := by
  induction m with
  | nil => simp [map_find] at h
  | cons e m ih =>
    obtain ⟨k1, v1⟩ := e
    simp only [map_find] at h
    split at h
    · next hk => cases h; subst hk; exact List.mem_cons_self _ _
    · exact List.mem_cons_of_mem _ (ih h)

theorem map_find_none {m : List (Key × β)} {k : Key} :
    map_find m k = none ↔ ∀ x ∈ m, x.1 ≠ k := by
  induction m with
  | nil => simp [map_find]
  | cons e m ih =>
    obtain ⟨k1, v1⟩ := e
    simp only [map_find]
    split
    · next hk =>
      constructor
      · intro h; cases h
      · intro h; exact absurd hk (h (k1, v1) (List.mem_cons_self _ _))
    · next hk =>
      rw [ih]
      constructor
      · intro h x hx
        rcases List.mem_cons.1 hx with rfl | hx
        · exact hk
        · exact h x hx
      · intro h x hx
        exact h x (List.mem_cons_of_mem _ hx)

theorem map_find_of_mem {m : List (Key × β)} (h : map_sorted m) {e : Key × β} (he : e ∈ m) :
    map_find m e.1 = some e.2 := by
  obtain ⟨l1, l2, rfl, h1, -⟩ := map_split_of_mem h he
  exact map_find_split l1 l2 e.1 e.2 h1

theorem map_erase_split (l1 l2 : List (Key × β)) (k : Key) (v : β) (h : ∀ x ∈ l1, x.1 ≠ k) :
    map_erase (l1 ++ (k, v) :: l2) k = l1 ++ l2 := by
  induction l1 with
  | nil => simp [map_erase]
  | cons e l1 ih =>
    obtain ⟨k1, v1⟩ := e
    have h1 : k1 ≠ k := h (k1, v1) (List.mem_cons_self _ _)
    show map_erase ((k1, v1) :: (l1 ++ (k, v) :: l2)) k = (k1, v1) :: (l1 ++ l2)
    rw [map_erase, if_neg h1, ih (fun x hx => h x (List.mem_cons_of_mem _ hx))]

theorem map_erase_absent {m : List (Key × β)} {k : Key} (h : ∀ x ∈ m, x.1 ≠ k) :
    map_erase m k = m := by
  induction m with
  | nil => rfl
  | cons e m ih =>
    obtain ⟨k1, v1⟩ := e
    have h1 : k1 ≠ k := h (k1, v1) (List.mem_cons_self _ _)
    simp only [map_erase, if_neg h1]
    rw [ih (fun x hx => h x (List.mem_cons_of_mem _ hx))]

theorem map_update_split (l1 l2 : List (Key × β)) (k : Key) (v : β) (f : β → β)
    (h : ∀ x ∈ l1, x.1 ≠ k) :
    map_update (l1 ++ (k, v) :: l2) k f = l1 ++ (k, f v) :: l2 := by
  induction l1 with
  | nil => simp [map_update]
  | cons e l1 ih =>
    obtain ⟨k1, v1⟩ := e
    have h1 : k1 ≠ k := h (k1, v1) (List.mem_cons_self _ _)
    show map_update ((k1, v1) :: (l1 ++ (k, v) :: l2)) k f = (k1, v1) :: (l1 ++ (k, f v) :: l2)
    rw [map_update, if_neg h1, ih (fun x hx => h x (List.mem_cons_of_mem _ hx))]

theorem map_next_split (l1 l2 : List (Key × β)) (k : Key) (v : β) (h : ∀ x ∈ l1, x.1 ≠ k) :
    map_next (l1 ++ (k, v) :: l2) k = some l2.head? := by
  induction l1 with
  | nil => simp [map_next]
  | cons e l1 ih =>
    obtain ⟨k1, v1⟩ := e
    have h1 : k1 ≠ k := h (k1, v1) (List.mem_cons_self _ _)
    show map_next ((k1, v1) :: (l1 ++ (k, v) :: l2)) k = some l2.head?
    rw [map_next, if_neg h1, ih (fun x hx => h x (List.mem_cons_of_mem _ hx))]

/-- Inserting an absent key puts the entry between the smaller and the larger keys. -/
theorem map_insert_split (m : List (Key × β)) (k : Key) (v : β) (h : ∀ x ∈ m, x.1 ≠ k) :
    ∃ l1 l2, m = l1 ++ l2 ∧ map_insert m k v = l1 ++ (k, v) :: l2 ∧
      (∀ x ∈ l1, x.1 < k) := by
  induction m with
  | nil => exact ⟨[], [], rfl, rfl, by simp⟩
  | cons e m ih =>
    obtain ⟨k1, v1⟩ := e
    have h1 : k1 ≠ k := h (k1, v1) (List.mem_cons_self _ _)
    simp only [map_insert]
    split
    · exact ⟨[], (k1, v1) :: m, rfl, rfl, by simp⟩
    · next hlt =>
      have h2 : k1 < k := by
        rcases lt_trichotomy k k1 with h3 | h3 | h3
        · exact absurd h3 hlt
        · exact absurd h3.symm h1
        · exact h3
      rw [if_pos h2]
      obtain ⟨l1, l2, e1, e2, e3⟩ := ih (fun x hx => h x (List.mem_cons_of_mem _ hx))
      refine ⟨(k1, v1) :: l1, l2, by rw [e1]; rfl, by rw [e2]; rfl, ?_⟩
      intro x hx
      rcases List.mem_cons.1 hx with rfl | hx
      · exact h2
      · exact e3 x hx

theorem map_sorted_insert {m : List (Key × β)} (h : map_sorted m) (k : Key) (v : β) :
    map_sorted (map_insert m k v) := by
  induction m with
  | nil => simp [map_insert, map_sorted]
  | cons e m ih =>
    obtain ⟨k1, v1⟩ := e
    rw [map_sorted_cons] at h
    simp only [map_insert]
    split
    · next hlt =>
      rw [map_sorted_cons]
      refine ⟨?_, map_sorted_cons.2 h⟩
      intro x hx
      rcases List.mem_cons.1 hx with rfl | hx
      · exact hlt
      · exact lt_trans hlt (h.1 x hx)
    · next hlt =>
      split
      · next hgt =>
        rw [map_sorted_cons]
        refine ⟨?_, ih h.2⟩
        intro x hx
        by_cases hk : ∀ y ∈ m, y.1 ≠ k
        · obtain ⟨l1, l2, e1, e2, -⟩ := map_insert_split m k v hk
          rw [e2] at hx
          rcases List.mem_append.1 hx with hx | hx
          · exact h.1 x (e1 ▸ List.mem_append_left _ hx)
          · rcases List.mem_cons.1 hx with rfl | hx
            · exact hgt
            · exact h.1 x (e1 ▸ List.mem_append_right _ hx)
        · -- the key is present: the entry is replaced
          clear hk
          have : ∀ (l : List (Key × β)), (∀ y ∈ l, k1 < y.1) → ∀ y ∈ map_insert l k v, k1 < y.1 := by
            intro l
            induction l with
            | nil =>
              intro _ y hy
              simp only [map_insert, List.mem_singleton] at hy
              subst hy; exact hgt
            | cons e2 l ihl =>
              obtain ⟨k2, v2⟩ := e2
              intro hl y hy
              simp only [map_insert] at hy
              split at hy
              · rcases List.mem_cons.1 hy with rfl | hy
                · exact hgt
                · exact hl y hy
              · split at hy
                · rcases List.mem_cons.1 hy with rfl | hy
                  · exact hl _ (List.mem_cons_self _ _)
                  · exact ihl (fun z hz => hl z (List.mem_cons_of_mem _ hz)) y hy
                · rcases List.mem_cons.1 hy with rfl | hy
                  · exact hgt
                  · exact hl y (List.mem_cons_of_mem _ hy)
          exact this m h.1 x hx
      · next hgt =>
        have hk : k = k1 := by
          rcases lt_trichotomy k k1 with h3 | h3 | h3
          · exact absurd h3 hlt
          · exact h3
          · exact absurd h3 hgt
        rw [map_sorted_cons]
        exact ⟨fun x hx => hk ▸ h.1 x hx, h.2⟩

theorem map_sorted_erase {m : List (Key × β)} (h : map_sorted m) (k : Key) :
    map_sorted (map_erase m k) := by
  by_cases hk : ∀ x ∈ m, x.1 ≠ k
  · rw [map_erase_absent hk]; exact h
  · push_neg at hk
    obtain ⟨e, he, rfl⟩ := hk
    obtain ⟨l1, l2, rfl, h1, -⟩ := map_split_of_mem h he
    rw [map_erase_split l1 l2 e.1 e.2 h1]
    rw [map_sorted_append] at h ⊢
    rw [map_sorted_cons] at h
    exact ⟨h.1, h.2.1.2, fun x hx y hy => h.2.2 x hx y (List.mem_cons_of_mem _ hy)⟩

end MapLemmas

section Basic
variable {V : Type}

theorem leaves_of_leaf {n : radix_tree_node V} (h : n.m_is_leaf = true) : leaves n = [n] := by
  obtain ⟨a, cs, v, d, l, k⟩ := n
  have hl : l = true := h
  subst hl
  simp [leaves]

theorem leaves_of_internal {n : radix_tree_node V} (h : n.m_is_leaf = false) :
    leaves n = leaves_children n.m_children := by
  obtain ⟨a, cs, v, d, l, k⟩ := n
  have hl : l = false := h
  subst hl
  simp [leaves, radix_tree_node.m_children]

theorem leaves_mk_internal (a : Nat) (cs : List (Key × radix_tree_node V)) (v : Option (Key × V))
    (d : Nat) (k : Key) : leaves (radix_tree_node.mk a cs v d false k) = leaves_children cs := by
  simp [leaves]

theorem leaves_mk_leaf (a : Nat) (cs : List (Key × radix_tree_node V)) (v : Option (Key × V))
    (d : Nat) (k : Key) :
    leaves (radix_tree_node.mk a cs v d true k) = [radix_tree_node.mk a cs v d true k] := by
  simp [leaves]

theorem leaves_children_cons (e : Key × radix_tree_node V) (rest : List (Key × radix_tree_node V)) :
    leaves_children (e :: rest) = leaves e.2 ++ leaves_children rest := by
  obtain ⟨k, c⟩ := e
  simp [leaves_children]

theorem leaves_children_append (l1 l2 : List (Key × radix_tree_node V)) :
    leaves_children (l1 ++ l2) = leaves_children l1 ++ leaves_children l2 := by
  induction l1 with
  | nil => simp [leaves_children]
  | cons e l1 ih =>
    show leaves_children (e :: (l1 ++ l2)) = _
    rw [leaves_children_cons, leaves_children_cons, ih, List.append_assoc]

theorem mem_leaves_children {cs : List (Key × radix_tree_node V)} {x : radix_tree_node V} :
    x ∈ leaves_children cs ↔ ∃ e ∈ cs, x ∈ leaves e.2 := by
  induction cs with
  | nil =>
    constructor
    · intro h; cases h
    · rintro ⟨e, he, -⟩; cases he
  | cons e cs ih =>
    rw [leaves_children_cons, List.mem_append, ih]
    constructor
    · rintro (h | ⟨e1, h1, h2⟩)
      · exact ⟨e, List.mem_cons_self _ _, h⟩
      · exact ⟨e1, List.mem_cons_of_mem _ h1, h2⟩
    · rintro ⟨e1, h1, h2⟩
      rcases List.mem_cons.1 h1 with rfl | h1
      · exact Or.inl h2
      · exact Or.inr ⟨e1, h1, h2⟩

theorem addrs_eq (n : radix_tree_node V) : addrs n = n.addr :: addrs_children n.m_children := by
  obtain ⟨a, cs, v, d, l, k⟩ := n
  simp [addrs, radix_tree_node.addr, radix_tree_node.m_children]

theorem addrs_children_cons (e : Key × radix_tree_node V) (rest : List (Key × radix_tree_node V)) :
    addrs_children (e :: rest) = addrs e.2 ++ addrs_children rest := by
  obtain ⟨k, c⟩ := e
  simp [addrs_children]

theorem addrs_children_append (l1 l2 : List (Key × radix_tree_node V)) :
    addrs_children (l1 ++ l2) = addrs_children l1 ++ addrs_children l2 := by
  induction l1 with
  | nil => simp [addrs_children]
  | cons e l1 ih =>
    show addrs_children (e :: (l1 ++ l2)) = _
    rw [addrs_children_cons, addrs_children_cons, ih, List.append_assoc]

theorem mem_addrs_children {cs : List (Key × radix_tree_node V)} {x : Nat} :
    x ∈ addrs_children cs ↔ ∃ e ∈ cs, x ∈ addrs e.2 := by
  induction cs with
  | nil =>
    constructor
    · intro h; cases h
    · rintro ⟨e, he, -⟩; cases he
  | cons e cs ih =>
    rw [addrs_children_cons, List.mem_append, ih]
    constructor
    · rintro (h | ⟨e1, h1, h2⟩)
      · exact ⟨e, List.mem_cons_self _ _, h⟩
      · exact ⟨e1, List.mem_cons_of_mem _ h1, h2⟩
    · rintro ⟨e1, h1, h2⟩
      rcases List.mem_cons.1 h1 with rfl | h1
      · exact Or.inl h2
      · exact Or.inr ⟨e1, h1, h2⟩

theorem addr_mem_addrs (n : radix_tree_node V) : n.addr ∈ addrs n := by
  rw [addrs_eq]; exact List.mem_cons_self _ _

theorem mk_addr (a : Nat) (cs : List (Key × radix_tree_node V)) (v : Option (Key × V)) (d : Nat)
    (l : Bool) (k : Key) : (radix_tree_node.mk a cs v d l k).addr = a := rfl

theorem mk_children (a : Nat) (cs : List (Key × radix_tree_node V)) (v : Option (Key × V)) (d : Nat)
    (l : Bool) (k : Key) : (radix_tree_node.mk a cs v d l k).m_children = cs := rfl

theorem mk_value (a : Nat) (cs : List (Key × radix_tree_node V)) (v : Option (Key × V)) (d : Nat)
    (l : Bool) (k : Key) : (radix_tree_node.mk a cs v d l k).m_value = v := rfl

theorem mk_depth (a : Nat) (cs : List (Key × radix_tree_node V)) (v : Option (Key × V)) (d : Nat)
    (l : Bool) (k : Key) : (radix_tree_node.mk a cs v d l k).m_depth = d := rfl

theorem mk_is_leaf (a : Nat) (cs : List (Key × radix_tree_node V)) (v : Option (Key × V)) (d : Nat)
    (l : Bool) (k : Key) : (radix_tree_node.mk a cs v d l k).m_is_leaf = l := rfl

theorem mk_key (a : Nat) (cs : List (Key × radix_tree_node V)) (v : Option (Key × V)) (d : Nat)
    (l : Bool) (k : Key) : (radix_tree_node.mk a cs v d l k).m_key = k := rfl

theorem mk_set_children (a : Nat) (cs cs1 : List (Key × radix_tree_node V)) (v : Option (Key × V))
    (d : Nat) (l : Bool) (k : Key) :
    (radix_tree_node.mk a cs v d l k).set_children cs1 = radix_tree_node.mk a cs1 v d l k := rfl

@[simp] theorem set_children_children (n : radix_tree_node V) (cs : List (Key × radix_tree_node V)) :
    (n.set_children cs).m_children = cs := by
  obtain ⟨a, cs0, v, d, l, k⟩ := n; rfl

@[simp] theorem set_children_key (n : radix_tree_node V) (cs : List (Key × radix_tree_node V)) :
    (n.set_children cs).m_key = n.m_key := by
  obtain ⟨a, cs0, v, d, l, k⟩ := n; rfl

@[simp] theorem set_children_is_leaf (n : radix_tree_node V) (cs : List (Key × radix_tree_node V)) :
    (n.set_children cs).m_is_leaf = n.m_is_leaf := by
  obtain ⟨a, cs0, v, d, l, k⟩ := n; rfl

@[simp] theorem set_children_depth (n : radix_tree_node V) (cs : List (Key × radix_tree_node V)) :
    (n.set_children cs).m_depth = n.m_depth := by
  obtain ⟨a, cs0, v, d, l, k⟩ := n; rfl

@[simp] theorem set_children_addr (n : radix_tree_node V) (cs : List (Key × radix_tree_node V)) :
    (n.set_children cs).addr = n.addr := by
  obtain ⟨a, cs0, v, d, l, k⟩ := n; rfl

@[simp] theorem set_children_value (n : radix_tree_node V) (cs : List (Key × radix_tree_node V)) :
    (n.set_children cs).m_value = n.m_value := by
  obtain ⟨a, cs0, v, d, l, k⟩ := n; rfl

theorem set_children_self (n : radix_tree_node V) : n.set_children n.m_children = n := by
  obtain ⟨a, cs0, v, d, l, k⟩ := n; rfl

/-- What the invariant says of a leaf. -/
theorem WF.leaf_form {pre : Key} {n : radix_tree_node V} (h : WF pre n) (hl : n.m_is_leaf = true) :
    ∃ v, n = .mk n.addr [] (some (pre, v)) pre.length true [] := by
  cases h with
  | leaf pre a v => exact ⟨v, rfl⟩
  | node pre a cs val k _ _ _ _ => cases hl

/-- What the invariant says of a node that is not a leaf. -/
theorem WF.node_inv {pre : Key} {n : radix_tree_node V} (h : WF pre n) (hl : n.m_is_leaf = false) :
    map_sorted n.m_children ∧ (∀ e ∈ n.m_children, child_ok e) ∧ heads_distinct n.m_children ∧
    (∀ e ∈ n.m_children, WF (pre ++ n.m_key) e.2) ∧ n.m_depth = pre.length := by
  cases h with
  | leaf pre a v => cases hl
  | node pre a cs val k h1 h2 h3 h4 => exact ⟨h1, h2, h3, h4, rfl⟩

theorem WF.depth_eq {pre : Key} {n : radix_tree_node V} (h : WF pre n) : n.m_depth = pre.length := by
  cases h <;> rfl

/-- The invariant of a node that is not a leaf, from its parts. -/
theorem WF.of_parts {pre : Key} {n : radix_tree_node V} (hl : n.m_is_leaf = false)
    (hd : n.m_depth = pre.length) (h1 : map_sorted n.m_children)
    (h2 : ∀ e ∈ n.m_children, child_ok e) (h3 : heads_distinct n.m_children)
    (h4 : ∀ e ∈ n.m_children, WF (pre ++ n.m_key) e.2) : WF pre n := by
  obtain ⟨a, cs, v, d, l, k⟩ := n
  have e1 : l = false := hl
  have e2 : d = pre.length := hd
  subst e1 e2
  exact WF.node pre a cs v k h1 h2 h3 h4

theorem WF.leaf_children {pre : Key} {n : radix_tree_node V} (h : WF pre n)
    (hl : n.m_is_leaf = true) : n.m_children = [] := by
  obtain ⟨v, e⟩ := h.leaf_form hl
  rw [e]; rfl

theorem WF.leaf_key {pre : Key} {n : radix_tree_node V} (h : WF pre n)
    (hl : n.m_is_leaf = true) : n.m_key = [] := by
  obtain ⟨v, e⟩ := h.leaf_form hl
  rw [e]; rfl

theorem WF.leaf_value {pre : Key} {n : radix_tree_node V} (h : WF pre n)
    (hl : n.m_is_leaf = true) : ∃ v, n.m_value = some (pre, v) := by
  obtain ⟨v, e⟩ := h.leaf_form hl
  exact ⟨v, by rw [e]; rfl⟩

/-- An induction principle for nodes: a property holds of a node when it holds of all
its children. -/
theorem node_induction {P : radix_tree_node V → Prop}
    (h : ∀ n : radix_tree_node V, (∀ e ∈ n.m_children, P e.2) → P n) : ∀ n, P n
  | .mk a cs v d l k =>
    h (.mk a cs v d l k) (fun e (he : e ∈ cs) => node_induction h e.2)
termination_by n => sizeOf n
decreasing_by
  simp_wf
  have h1 := List.sizeOf_lt_of_mem he
  obtain ⟨e1, e2⟩ := e
  simp only [Prod.mk.sizeOf_spec] at h1
  show sizeOf e2 < _
  omega

/-- Below a node with the invariant that is a leaf or has a child there is a leaf. -/
theorem WF.leaves_ne_nil : ∀ (n : radix_tree_node V) (pre : Key), WF pre n →
    (n.m_is_leaf = true ∨ n.m_children ≠ []) → leaves n ≠ [] := by
  intro n
  induction n using node_induction with
  | h n ih =>
    intro pre hw hc
    by_cases hl : n.m_is_leaf = true
    · rw [leaves_of_leaf hl]; exact List.cons_ne_nil _ _
    · have hl : n.m_is_leaf = false := by simpa using hl
      rw [leaves_of_internal hl]
      have hc1 : n.m_children ≠ [] := by
        rcases hc with hc | hc
        · rw [hl] at hc; cases hc
        · exact hc
      obtain ⟨h1, h2, h3, h4, -⟩ := hw.node_inv hl
      obtain ⟨e, rest, hcs⟩ := List.exists_cons_of_ne_nil hc1
      have he : e ∈ n.m_children := hcs ▸ List.mem_cons_self _ _
      rw [hcs, leaves_children_cons]
      intro hnil
      have := (List.append_eq_nil.1 hnil).1
      refine ih e he _ (h4 e he) ?_ this
      by_cases hel : e.2.m_is_leaf = true
      · exact Or.inl hel
      · exact Or.inr ((h2 e he).2 (by simpa using hel)).2.1

/-- Every leaf below a node with the invariant is a leaf node that stores a key
extending the labels down to the node. -/
theorem WF.leaves_form : ∀ (n : radix_tree_node V) (pre : Key), WF pre n →
    ∀ x ∈ leaves n, ∃ r v, x = .mk x.addr [] (some (pre ++ n.m_key ++ r, v))
      (pre ++ n.m_key ++ r).length true [] := by
  intro n
  induction n using node_induction with
  | h n ih =>
    intro pre hw x hx
    by_cases hl : n.m_is_leaf = true
    · rw [leaves_of_leaf hl, List.mem_singleton] at hx
      subst hx
      obtain ⟨v, e⟩ := hw.leaf_form hl
      refine ⟨[], v, ?_⟩
      rw [hw.leaf_key hl, List.append_nil, List.append_nil]
      exact e
    · have hl : n.m_is_leaf = false := by simpa using hl
      rw [leaves_of_internal hl, mem_leaves_children] at hx
      obtain ⟨e, he, hxe⟩ := hx
      obtain ⟨h1, h2, h3, h4, -⟩ := hw.node_inv hl
      obtain ⟨r, v, hr⟩ := ih e he _ (h4 e he) x hxe
      refine ⟨e.2.m_key ++ r, v, ?_⟩
      rw [← List.append_assoc]
      exact hr

end Basic

section FindNode
variable {V : Type}

theorem radix_length_sub (K rest : Key) :
    (radix_length (K ++ rest) - ((K.length : Nat) : Int) = 0) ↔ rest = [] := by
  simp only [radix_length, List.length_append, Nat.cast_add]
  constructor
  · intro h
    have : rest.length = 0 := by omega
    exact List.length_eq_zero.1 this
  · intro h; subst h; simp

theorem key_at_append (K rest : Key) : key_at (K ++ rest) K.length = key_at rest 0 := by
  simp [key_at, List.getD_eq_getElem?_getD, List.getElem?_append_right]

theorem key_at_zero_cons (c : Char) (r : Key) : key_at (c :: r) 0 = c := by
  simp [key_at]

theorem radix_substr_append (K rest first : Key) :
    radix_substr (K ++ rest) K.length (radix_length first) = rest.take first.length := by
  simp [radix_substr, radix_length]

theorem take_eq_iff_starts (rest first : Key) : rest.take first.length = first ↔ first <+: rest := by
  rw [List.prefix_iff_eq_take]
  exact eq_comm

theorem radix_substr_nul (key : Key) : radix_substr key 0 0 = [] := by
  simp [radix_substr]

theorem find_node_eq (key : Key) (n : radix_tree_node V) (depth : Nat) :
    find_node key n depth = find_node_loop key depth n.m_children := by
  obtain ⟨a, cs, v, d, l, k⟩ := n
  simp [find_node, radix_tree_node.m_children]

/-- The five ways in which the loop of `find_node` ends, for a key `K ++ rest` looked up
below a node whose labels down from the root spell `K`. -/
theorem find_node_loop_cases (K rest : Key) (cs : List (Key × radix_tree_node V)) :
    (rest = [] ∧ ∃ e ∈ cs, e.2.m_is_leaf = true ∧
        find_node_loop (K ++ rest) K.length cs = [e.1]) ∨
    (rest = [] ∧ (∀ e ∈ cs, e.2.m_is_leaf = false) ∧
        find_node_loop (K ++ rest) K.length cs = []) ∨
    (rest ≠ [] ∧ (∀ e ∈ cs, e.2.m_is_leaf = false → key_at rest 0 ≠ key_at e.1 0) ∧
        find_node_loop (K ++ rest) K.length cs = []) ∨
    (rest ≠ [] ∧ ∃ e ∈ cs, e.2.m_is_leaf = false ∧ key_at rest 0 = key_at e.1 0 ∧
        ¬ e.1 <+: rest ∧ find_node_loop (K ++ rest) K.length cs = [e.1]) ∨
    (rest ≠ [] ∧ ∃ e ∈ cs, e.2.m_is_leaf = false ∧ key_at rest 0 = key_at e.1 0 ∧
        e.1 <+: rest ∧
        find_node_loop (K ++ rest) K.length cs
          = e.1 :: find_node (K ++ rest) e.2 (K.length + e.1.length)) := by
  induction cs with
  | nil =>
    by_cases hr : rest = []
    · exact Or.inr (Or.inl ⟨hr, (fun e he => nomatch he), rfl⟩)
    · exact Or.inr (Or.inr (Or.inl ⟨hr, (fun e he => nomatch he), rfl⟩))
  | cons e cs ih =>
    obtain ⟨first, second⟩ := e
    by_cases hr : rest = []
    · have h0 : radix_length (K ++ rest) - ((K.length : Nat) : Int) = 0 := (radix_length_sub K rest).2 hr
      by_cases hl : second.m_is_leaf = true
      · refine Or.inl ⟨hr, (first, second), List.mem_cons_self _ _, hl, ?_⟩
        simp only [find_node_loop, if_pos h0, hl, if_true]
      · have hl1 : second.m_is_leaf = false := by simpa using hl
        have hstep : find_node_loop (K ++ rest) K.length ((first, second) :: cs)
            = find_node_loop (K ++ rest) K.length cs := by
          simp only [find_node_loop, if_pos h0, hl1]
          rfl
        rcases ih with ⟨-, e, he, h1, h2⟩ | ⟨-, h1, h2⟩ | ⟨h1, -⟩ | ⟨h1, -⟩ | ⟨h1, -⟩
        · exact Or.inl ⟨hr, e, List.mem_cons_of_mem _ he, h1, by rw [hstep, h2]⟩
        · refine Or.inr (Or.inl ⟨hr, ?_, by rw [hstep, h2]⟩)
          intro e he
          rcases List.mem_cons.1 he with rfl | he
          · exact hl1
          · exact h1 e he
        · exact absurd hr h1
        · exact absurd hr h1
        · exact absurd hr h1
    · have h0 : ¬ (radix_length (K ++ rest) - ((K.length : Nat) : Int) = 0) :=
        fun h => hr ((radix_length_sub K rest).1 h)
      by_cases hm : second.m_is_leaf = false ∧ key_at rest 0 = key_at first 0
      · have hc : (!second.m_is_leaf && key_at (K ++ rest) K.length == key_at first 0) = true := by
          rw [key_at_append, hm.1, hm.2]; simp
        by_cases hp : first <+: rest
        · refine Or.inr (Or.inr (Or.inr (Or.inr
            ⟨hr, (first, second), List.mem_cons_self _ _, hm.1, hm.2, hp, ?_⟩)))
          have hs : radix_substr (K ++ rest) K.length (radix_length first) = first := by
            rw [radix_substr_append]; exact (take_eq_iff_starts rest first).2 hp
          simp only [find_node_loop, if_neg h0, hc, if_true, if_pos hs]
        · refine Or.inr (Or.inr (Or.inr (Or.inl
            ⟨hr, (first, second), List.mem_cons_self _ _, hm.1, hm.2, hp, ?_⟩)))
          have hs : ¬ radix_substr (K ++ rest) K.length (radix_length first) = first := by
            rw [radix_substr_append]; exact fun h => hp ((take_eq_iff_starts rest first).1 h)
          simp only [find_node_loop, if_neg h0, hc, if_true, if_neg hs]
      · have hc : (!second.m_is_leaf && key_at (K ++ rest) K.length == key_at first 0) = false := by
          rw [key_at_append]
          by_cases hl : second.m_is_leaf = false
          · have : ¬ key_at rest 0 = key_at first 0 := fun h => hm ⟨hl, h⟩
            simp [hl, this]
          · have : second.m_is_leaf = true := by simpa using hl
            simp [this]
        have hstep : find_node_loop (K ++ rest) K.length ((first, second) :: cs)
            = find_node_loop (K ++ rest) K.length cs := by
          simp only [find_node_loop, if_neg h0, hc]
          rfl
        rcases ih with ⟨h1, -⟩ | ⟨h1, -⟩ | ⟨-, h1, h2⟩ | ⟨-, e, he, h1, h2, h3, h4⟩ |
          ⟨-, e, he, h1, h2, h3, h4⟩
        · exact absurd h1 hr
        · exact absurd h1 hr
        · refine Or.inr (Or.inr (Or.inl ⟨hr, ?_, by rw [hstep, h2]⟩))
          intro e he hel
          rcases List.mem_cons.1 he with rfl | he
          · exact fun h => hm ⟨hel, h⟩
          · exact h1 e he hel
        · exact Or.inr (Or.inr (Or.inr (Or.inl
            ⟨hr, e, List.mem_cons_of_mem _ he, h1, h2, h3, by rw [hstep, h4]⟩)))
        · exact Or.inr (Or.inr (Or.inr (Or.inr
            ⟨hr, e, List.mem_cons_of_mem _ he, h1, h2, h3, by rw [hstep, h4]⟩)))

theorem node_at_nil (n : radix_tree_node V) : node_at [] n = some n := rfl

theorem node_at_cons (lab : Key) (p : Path) (n : radix_tree_node V) :
    node_at (lab :: p) n = (map_find n.m_children lab).bind (node_at p) := by
  simp only [node_at]
  cases map_find n.m_children lab <;> rfl

theorem node_at_append (p q : Path) (n : radix_tree_node V) :
    node_at (p ++ q) n = (node_at p n).bind (node_at q) := by
  induction p generalizing n with
  | nil => rfl
  | cons lab p ih =>
    show node_at (lab :: (p ++ q)) n = _
    rw [node_at_cons, node_at_cons]
    cases map_find n.m_children lab with
    | none => rfl
    | some c => exact ih c

theorem node_at_child {n : radix_tree_node V} (hs : map_sorted n.m_children)
    {e : Key × radix_tree_node V} (he : e ∈ n.m_children) (p : Path) :
    node_at (e.1 :: p) n = node_at p e.2 := by
  rw [node_at_cons, map_find_of_mem hs he]; rfl

end FindNode

section Landing
variable {V : Type}

theorem stored_key_mk (a : Nat) (cs : List (Key × radix_tree_node V)) (k : Key) (v : V) (d : Nat)
    (l : Bool) (lab : Key) : stored_key (radix_tree_node.mk a cs (some (k, v)) d l lab) = some k := rfl

/-- A leaf below a node lies below exactly one child, and its key goes on with the
label of that child. -/
theorem WF.leaf_child {pre : Key} {m : radix_tree_node V} (hw : WF pre m)
    (hl : m.m_is_leaf = false) {x : radix_tree_node V} (hx : x ∈ leaves m) :
    ∃ e ∈ m.m_children, x ∈ leaves e.2 ∧ ∃ r, stored_key x = some (pre ++ m.m_key ++ (e.1 ++ r)) ∧
      (e.2.m_is_leaf = true → e.1 = [] ∧ r = []) ∧ (e.2.m_is_leaf = false → e.1 ≠ []) := by
  obtain ⟨h1, h2, h3, h4, -⟩ := hw.node_inv hl
  rw [leaves_of_internal hl, mem_leaves_children] at hx
  obtain ⟨e, he, hxe⟩ := hx
  refine ⟨e, he, hxe, ?_⟩
  by_cases hel : e.2.m_is_leaf = true
  · have hk := (h4 e he).leaf_key hel
    rw [(h2 e he).1] at hk
    rw [leaves_of_leaf hel, List.mem_singleton] at hxe
    obtain ⟨v, hv⟩ := (h4 e he).leaf_value hel
    refine ⟨[], ?_, fun _ => ⟨hk, rfl⟩, fun h => (by rw [hel] at h; cases h)⟩
    rw [hxe, stored_key, hv, hk]
    simp
  · have hel : e.2.m_is_leaf = false := by simpa using hel
    obtain ⟨r, v, hr⟩ := (h4 e he).leaves_form e.2 _ x hxe
    refine ⟨r, ?_, fun h => (by rw [hel] at h; cases h), fun _ => ((h2 e he).2 hel).1⟩
    rw [hr, stored_key_mk, (h2 e he).1, List.append_assoc (pre ++ m.m_key)]

theorem key_at_eq_head {rest lab : Key} (hr : rest ≠ []) (hlab : lab ≠ []) :
    key_at rest 0 = key_at lab 0 ↔ rest.head? = lab.head? := by
  obtain ⟨c, r, rfl⟩ := List.exists_cons_of_ne_nil hr
  obtain ⟨d, s, rfl⟩ := List.exists_cons_of_ne_nil hlab
  simp [key_at]

theorem head_of_starts {a b : Key} (h : a <+: b) (ha : a ≠ []) : b.head? = a.head? := by
  obtain ⟨c, r, rfl⟩ := List.exists_cons_of_ne_nil ha
  obtain ⟨t, rfl⟩ := h
  rfl

/-- A leaf whose key extends `K ++ rest` lies below the child whose label begins
like `rest`. -/
theorem WF.leaf_in_child {pre : Key} {m : radix_tree_node V} (hw : WF pre m)
    (hl : m.m_is_leaf = false) {rest : Key} (hr : rest ≠ [])
    {e : Key × radix_tree_node V} (he : e ∈ m.m_children) (hel : e.2.m_is_leaf = false)
    (hh : key_at rest 0 = key_at e.1 0)
    {x : radix_tree_node V} (hx : x ∈ leaves m) {kx : Key} (hkx : stored_key x = some kx)
    (hp : (pre ++ m.m_key ++ rest) <+: kx) : x ∈ leaves e.2 := by
  obtain ⟨h1, h2, h3, h4, -⟩ := hw.node_inv hl
  obtain ⟨e1, he1, hx1, r, hs, hleaf, hint⟩ := hw.leaf_child hl hx
  rw [hkx] at hs
  have hs : kx = pre ++ m.m_key ++ (e1.1 ++ r) := Option.some.inj hs
  rw [hs] at hp
  have hp1 : rest <+: e1.1 ++ r := (List.prefix_append_right_inj _).1 hp
  have hne : e.1 ≠ [] := ((h2 e he).2 hel).1
  by_cases hl1 : e1.2.m_is_leaf = true
  · obtain ⟨e1nil, rnil⟩ := hleaf hl1
    rw [e1nil, rnil] at hp1
    exact absurd (List.prefix_nil.1 hp1) hr
  · have hl1 : e1.2.m_is_leaf = false := by simpa using hl1
    have hne1 : e1.1 ≠ [] := hint hl1
    have hd1 : (e1.1 ++ r).head? = rest.head? := head_of_starts hp1 hr
    have hd2 : (e1.1 ++ r).head? = e1.1.head? := head_of_starts (List.prefix_append _ _) hne1
    have hd3 : rest.head? = e.1.head? := (key_at_eq_head hr hne).1 hh
    have hlab : e1.1 = e.1 := h3 e1 he1 e he hl1 hel (by rw [← hd2, hd1, hd3])
    have : e1 = e := map_sorted_key_unique h1 he1 he hlab
    rw [← this]; exact hx1

theorem pre_at_child {n : radix_tree_node V} (hs : map_sorted n.m_children)
    {e : Key × radix_tree_node V} (he : e ∈ n.m_children) (p : Path) (pre : Key) :
    pre_at (e.1 :: p) n pre = pre_at p e.2 (pre ++ n.m_key) := by
  simp only [pre_at, map_find_of_mem hs he]

/-- Where `find_node` stops: at or directly below an anchor node `m` that lies at the
position `q`, whose labels are a prefix of the key, and below which all leaves lie whose
keys extend the key. -/
theorem find_node_landing : ∀ (n : radix_tree_node V) (pre rest : Key), WF pre n →
    n.m_is_leaf = false →
    ∃ (q : Path) (m : radix_tree_node V) (pre_m rest_m : Key) (res : Path),
      node_at q n = some m ∧ WF pre_m m ∧ m.m_is_leaf = false ∧
      pre ++ n.m_key ++ rest = pre_m ++ m.m_key ++ rest_m ∧
      pre_m = pre_at q n pre ∧
      (∀ x ∈ leaves n, ∀ kx, stored_key x = some kx → (pre ++ n.m_key ++ rest) <+: kx →
        x ∈ leaves m) ∧
      find_node (pre ++ n.m_key ++ rest) n (pre ++ n.m_key).length = q ++ res ∧
      anchor_cases rest_m m.m_children res := by
  intro n
  induction n using node_induction with
  | h n ih =>
    intro pre rest hw hl
    rw [find_node_eq]
    rcases find_node_loop_cases (pre ++ n.m_key) rest n.m_children with
      ⟨hr, e, he, h1, h2⟩ | ⟨hr, h1, h2⟩ | ⟨hr, h1, h2⟩ | ⟨hr, e, he, h1, h2, h3, h4⟩ |
      ⟨hr, e, he, h1, h2, h3, h4⟩
    · exact ⟨[], n, pre, rest, [e.1], rfl, hw, hl, rfl, rfl, fun x hx _ _ _ => hx, h2,
        Or.inl ⟨hr, e, he, h1, rfl⟩⟩
    · exact ⟨[], n, pre, rest, [], rfl, hw, hl, rfl, rfl, fun x hx _ _ _ => hx, h2,
        Or.inr (Or.inl ⟨hr, h1, rfl⟩)⟩
    · exact ⟨[], n, pre, rest, [], rfl, hw, hl, rfl, rfl, fun x hx _ _ _ => hx, h2,
        Or.inr (Or.inr (Or.inl ⟨hr, h1, rfl⟩))⟩
    · exact ⟨[], n, pre, rest, [e.1], rfl, hw, hl, rfl, rfl, fun x hx _ _ _ => hx, h4,
        Or.inr (Or.inr (Or.inr ⟨hr, e, he, h1, h2, h3, rfl⟩))⟩
    · obtain ⟨g1, g2, g3, g4, -⟩ := hw.node_inv hl
      obtain ⟨rest1, hrest⟩ := h3
      have hkey : pre ++ n.m_key ++ rest = (pre ++ n.m_key) ++ e.2.m_key ++ rest1 := by
        rw [(g2 e he).1, ← hrest, List.append_assoc (pre ++ n.m_key)]
      have hdepth : (pre ++ n.m_key).length + e.1.length = ((pre ++ n.m_key) ++ e.2.m_key).length := by
        rw [(g2 e he).1, List.length_append (pre ++ n.m_key)]
      obtain ⟨q, m, pre_m, rest_m, res, k1, k2, k3, k4, k8, k5, k6, k7⟩ :=
        ih e he (pre ++ n.m_key) rest1 (g4 e he) h1
      refine ⟨e.1 :: q, m, pre_m, rest_m, res, ?_, k2, k3, ?_, ?_, ?_, ?_, k7⟩
      · rw [node_at_child g1 he]; exact k1
      · rw [hkey, k4]
      · rw [k8, pre_at_child g1 he]
      · intro x hx kx hkx hp
        have hxe : x ∈ leaves e.2 := hw.leaf_in_child hl hr he h1 h2 hx hkx hp
        refine k5 x hxe kx hkx ?_
        rw [← hkey]; exact hp
      · rw [h4, hdepth, hkey, k6]; rfl

end Landing

section Paths
variable {V : Type}

theorem replace_at_nil (n n1 : radix_tree_node V) : replace_at [] n n1 = n1 := rfl

theorem replace_at_cons (lab : Key) (p : Path) (n n1 : radix_tree_node V) :
    replace_at (lab :: p) n n1
      = n.set_children (map_update n.m_children lab (fun c => replace_at p c n1)) := rfl

/-- A node below which a position exists is not a leaf. -/
theorem WF.internal_of_child {pre : Key} {n : radix_tree_node V} (hw : WF pre n)
    {lab : Key} {c : radix_tree_node V} (h : map_find n.m_children lab = some c) :
    n.m_is_leaf = false := by
  by_cases hl : n.m_is_leaf = true
  · rw [hw.leaf_children hl] at h
    cases h
  · simpa using hl

/-- The first step of a position: the child map splits around the entry taken. -/
theorem node_at_cons_inv {pre : Key} {n : radix_tree_node V} (hw : WF pre n) {lab : Key}
    {p : Path} {m : radix_tree_node V} (h : node_at (lab :: p) n = some m) :
    ∃ c l1 l2, n.m_is_leaf = false ∧ n.m_children = l1 ++ (lab, c) :: l2 ∧
      (∀ x ∈ l1, x.1 ≠ lab) ∧ (∀ x ∈ l2, x.1 ≠ lab) ∧ node_at p c = some m ∧
      WF (pre ++ n.m_key) c ∧ child_ok (lab, c) := by
  rw [node_at_cons] at h
  cases hf : map_find n.m_children lab with
  | none => rw [hf] at h; cases h
  | some c =>
    rw [hf] at h
    have hl := hw.internal_of_child hf
    obtain ⟨g1, g2, g3, g4, -⟩ := hw.node_inv hl
    have hmem := map_find_mem hf
    obtain ⟨l1, l2, e1, e2, e3⟩ := map_split_of_mem g1 hmem
    exact ⟨c, l1, l2, hl, e1, e2, e3, h, g4 _ hmem, g2 _ hmem⟩

theorem pre_at_cons_of_split {n : radix_tree_node V} {l1 l2 : List (Key × radix_tree_node V)}
    {lab : Key} {c : radix_tree_node V} (hcs : n.m_children = l1 ++ (lab, c) :: l2)
    (hn : ∀ x ∈ l1, x.1 ≠ lab) (q : Path) (pre : Key) :
    pre_at (lab :: q) n pre = pre_at q c (pre ++ n.m_key) := by
  simp only [pre_at, hcs, map_find_split l1 l2 lab c hn]

/-- The invariant holds at every position of a tree with the invariant. -/
theorem WF.at_path : ∀ (q : Path) (n : radix_tree_node V) (pre : Key) (m : radix_tree_node V),
    WF pre n → node_at q n = some m → WF (pre_at q n pre) m := by
  intro q
  induction q with
  | nil =>
    intro n pre m hw h
    cases h
    exact hw
  | cons lab q ih =>
    intro n pre m hw h
    obtain ⟨c, l1, l2, -, h2, h3, -, h5, h6, -⟩ := node_at_cons_inv hw h
    rw [pre_at_cons_of_split h2 h3]
    exact ih c _ m h6 h5

theorem pre_at_snoc : ∀ (q : Path) (n : radix_tree_node V) (pre : Key) (par m : radix_tree_node V)
    (lab : Key), WF pre n → node_at q n = some par → map_find par.m_children lab = some m →
    pre_at (q ++ [lab]) n pre = pre_at q n pre ++ par.m_key := by
  intro q
  induction q with
  | nil =>
    intro n pre par m lab hw h hf
    cases h
    simp only [List.nil_append, pre_at, hf]
  | cons l0 q ih =>
    intro n pre par m lab hw h hf
    obtain ⟨c, l1, l2, -, h2, h3, -, h5, h6, -⟩ := node_at_cons_inv hw h
    show pre_at (l0 :: (q ++ [lab])) n pre = _
    rw [pre_at_cons_of_split h2 h3, pre_at_cons_of_split h2 h3]
    exact ih c _ par m lab h6 h5 hf

/-- The parent of a position other than the root. -/
theorem node_at_snoc_inv {pre : Key} {n : radix_tree_node V} (hw : WF pre n) {q : Path}
    {lab : Key} {m : radix_tree_node V} (h : node_at (q ++ [lab]) n = some m) :
    ∃ par l1 l2, node_at q n = some par ∧ WF (pre_at q n pre) par ∧ par.m_is_leaf = false ∧
      par.m_children = l1 ++ (lab, m) :: l2 ∧
      (∀ x ∈ l1, x.1 ≠ lab) ∧ (∀ x ∈ l2, x.1 ≠ lab) ∧
      WF (pre_at q n pre ++ par.m_key) m ∧ child_ok (lab, m) ∧
      pre_at (q ++ [lab]) n pre = pre_at q n pre ++ par.m_key := by
  rw [node_at_append] at h
  cases hq : node_at q n with
  | none => rw [hq] at h; cases h
  | some par =>
    rw [hq] at h
    have h1 : node_at [lab] par = some m := h
    have hwp := WF.at_path _ n pre par hw hq
    obtain ⟨c, l1, l2, g1, g2, g3, g4, g5, g6, g7⟩ := node_at_cons_inv hwp h1
    cases g5
    refine ⟨par, l1, l2, rfl, hwp, g1, g2, g3, g4, g6, g7, ?_⟩
    exact pre_at_snoc q n pre par m lab hw hq (by rw [g2]; exact map_find_split l1 l2 lab m g3)

theorem map_sorted_replace_entry {l1 l2 : List (Key × radix_tree_node V)} {lab : Key}
    {c c1 : radix_tree_node V} (h : map_sorted (l1 ++ (lab, c) :: l2)) :
    map_sorted (l1 ++ (lab, c1) :: l2) := by
  rw [map_sorted_append, map_sorted_cons] at h ⊢
  refine ⟨h.1, ⟨h.2.1.1, h.2.1.2⟩, ?_⟩
  intro x hx y hy
  rcases List.mem_cons.1 hy with rfl | hy
  · exact h.2.2 x hx (lab, c) (List.mem_cons_self _ _)
  · exact h.2.2 x hx y (List.mem_cons_of_mem _ hy)

/-- The entries of a child map in which one child has been replaced correspond to the
entries of the original map. -/
theorem mem_replace_entry {l1 l2 : List (Key × radix_tree_node V)} {lab : Key}
    {c c1 : radix_tree_node V} {e : Key × radix_tree_node V}
    (he : e ∈ l1 ++ (lab, c1) :: l2) :
    (e ∈ l1 ++ (lab, c) :: l2 ∧ e ≠ (lab, c1) ∨ e = (lab, c1)) ∧
    ∃ e0 ∈ l1 ++ (lab, c) :: l2, e0.1 = e.1 ∧ (e0 = e ∨ (e0 = (lab, c) ∧ e = (lab, c1))) := by
  rcases List.mem_append.1 he with h | h
  · by_cases hc : e = (lab, c1)
    · exact ⟨Or.inr hc, (lab, c), by simp, by rw [hc], Or.inr ⟨rfl, hc⟩⟩
    · exact ⟨Or.inl ⟨List.mem_append_left _ h, hc⟩, e, List.mem_append_left _ h, rfl, Or.inl rfl⟩
  · rcases List.mem_cons.1 h with h | h
    · exact ⟨Or.inr h, (lab, c), by simp, by rw [h], Or.inr ⟨rfl, h⟩⟩
    · by_cases hc : e = (lab, c1)
      · exact ⟨Or.inr hc, (lab, c), by simp, by rw [hc], Or.inr ⟨rfl, hc⟩⟩
      · exact ⟨Or.inl ⟨List.mem_append_right _ (List.mem_cons_of_mem _ h), hc⟩, e,
          List.mem_append_right _ (List.mem_cons_of_mem _ h), rfl, Or.inl rfl⟩

/-- Replacing the contents of the node at a position keeps the invariant, provided the
new contents have it at that position and are as acceptable to a parent as the old
contents. -/
theorem WF_replace : ∀ (q : Path) (n : radix_tree_node V) (pre : Key) (m m1 : radix_tree_node V),
    WF pre n → node_at q n = some m → WF (pre_at q n pre) m1 →
    (∀ lab, child_ok (lab, m) → child_ok (lab, m1)) → m1.m_is_leaf = m.m_is_leaf →
    WF pre (replace_at q n m1) ∧ (replace_at q n m1).m_is_leaf = n.m_is_leaf ∧
      (∀ lab, child_ok (lab, n) → child_ok (lab, replace_at q n m1)) := by
  intro q
  induction q with
  | nil =>
    intro n pre m m1 hw h h1 h2 h3
    cases h
    exact ⟨h1, h3, h2⟩
  | cons lab q ih =>
    intro n pre m m1 hw h h1 h2 h3
    obtain ⟨c, l1, l2, hl, hcs, hn1, hn2, hat, hwc, hok⟩ := node_at_cons_inv hw h
    obtain ⟨g1, g2, g3, g4, g5⟩ := hw.node_inv hl
    rw [pre_at_cons_of_split hcs hn1] at h1
    obtain ⟨i1, i2, i3⟩ := ih c (pre ++ n.m_key) m m1 hwc hat h1 h2 h3
    have hrep : replace_at (lab :: q) n m1
        = n.set_children (l1 ++ (lab, replace_at q c m1) :: l2) := by
      rw [replace_at_cons, hcs, map_update_split l1 l2 lab c _ hn1]
    rw [hrep]
    rw [hcs] at g1 g2 g3 g4
    have key_leaf : ∀ e ∈ l1 ++ (lab, replace_at q c m1) :: l2,
        ∃ e0 ∈ l1 ++ (lab, c) :: l2, e0.1 = e.1 ∧ e0.2.m_is_leaf = e.2.m_is_leaf ∧
          (child_ok e0 → child_ok e) ∧ (WF (pre ++ n.m_key) e0.2 → WF (pre ++ n.m_key) e.2) := by
      intro e he
      obtain ⟨-, e0, he0, hk, hc⟩ := mem_replace_entry (c := c) he
      refine ⟨e0, he0, hk, ?_⟩
      rcases hc with hc | ⟨hc1, hc2⟩
      · subst hc; exact ⟨rfl, id, id⟩
      · subst hc1 hc2
        exact ⟨i2.symm, i3 lab, fun _ => i1⟩
    refine ⟨?_, by simp, ?_⟩
    · apply WF.of_parts
      · simpa using hl
      · simpa using g5
      · simpa using map_sorted_replace_entry g1
      · intro e he
        simp only [set_children_children] at he
        obtain ⟨e0, he0, -, -, hc, -⟩ := key_leaf e he
        exact hc (g2 e0 he0)
      · intro e1 he1 e2 he2 hl1 hl2 hh
        simp only [set_children_children] at he1 he2
        obtain ⟨a1, ha1, hk1, hf1, -, -⟩ := key_leaf e1 he1
        obtain ⟨a2, ha2, hk2, hf2, -, -⟩ := key_leaf e2 he2
        rw [← hk1, ← hk2]
        exact g3 a1 ha1 a2 ha2 (hf1.trans hl1) (hf2.trans hl2) (by rw [hk1, hk2]; exact hh)
      · intro e he
        simp only [set_children_children, set_children_key] at he ⊢
        obtain ⟨e0, he0, -, -, -, hc⟩ := key_leaf e he
        exact hc (g4 e0 he0)
    · intro lab0 hc
      obtain ⟨c1, c2⟩ := hc
      refine ⟨by simpa using c1, ?_⟩
      intro hl0
      simp only [set_children_is_leaf, set_children_children] at hl0 ⊢
      obtain ⟨d1, d2, d3⟩ := c2 hl0
      refine ⟨d1, ?_, ?_⟩
      · intro h; cases l1 <;> cases h
      · intro x hx
        have hl1 : l1 = [] := by
          cases l1 with
          | nil => rfl
          | cons a l1 =>
            have := congrArg List.length hx
            simp at this
        subst hl1
        have hl2 : l2 = [] := by
          have := congrArg List.length hx
          simp at this
          exact this
        subst hl2
        simp only [List.nil_append, List.cons.injEq, and_true] at hx
        subst hx
        show (replace_at q c m1).m_is_leaf = true
        rw [i2]
        exact d3 (lab, c) (by rw [hcs]; rfl)

/-- The leaves of a tree around the leaves below one of its positions; the surrounding
leaves stay when the contents of the position are replaced. -/
theorem leaves_replace : ∀ (q : Path) (n : radix_tree_node V) (pre : Key) (m : radix_tree_node V),
    WF pre n → node_at q n = some m →
    ∃ L1 L2, leaves n = L1 ++ leaves m ++ L2 ∧
      ∀ m1, leaves (replace_at q n m1) = L1 ++ leaves m1 ++ L2 := by
  intro q
  induction q with
  | nil =>
    intro n pre m hw h
    cases h
    exact ⟨[], [], by simp, fun m1 => by simp [replace_at_nil]⟩
  | cons lab q ih =>
    intro n pre m hw h
    obtain ⟨c, l1, l2, hl, hcs, hn1, hn2, hat, hwc, hok⟩ := node_at_cons_inv hw h
    obtain ⟨L1, L2, i1, i2⟩ := ih c (pre ++ n.m_key) m hwc hat
    refine ⟨leaves_children l1 ++ L1, L2 ++ leaves_children l2, ?_, ?_⟩
    · rw [leaves_of_internal hl, hcs, leaves_children_append, leaves_children_cons, i1]
      simp only [List.append_assoc]
    · intro m1
      have hrep : replace_at (lab :: q) n m1
          = n.set_children (l1 ++ (lab, replace_at q c m1) :: l2) := by
        rw [replace_at_cons, hcs, map_update_split l1 l2 lab c _ hn1]
      rw [hrep, leaves_of_internal (by simpa using hl), set_children_children,
        leaves_children_append, leaves_children_cons, i2]
      simp only [List.append_assoc]

/-- The addresses of a tree around the addresses below one of its positions; the
surrounding addresses stay when the contents of the position are replaced. -/
theorem addrs_replace : ∀ (q : Path) (n : radix_tree_node V) (pre : Key) (m : radix_tree_node V),
    WF pre n → node_at q n = some m →
    ∃ A1 A2, addrs n = A1 ++ addrs m ++ A2 ∧
      ∀ m1, addrs (replace_at q n m1) = A1 ++ addrs m1 ++ A2 := by
  intro q
  induction q with
  | nil =>
    intro n pre m hw h
    cases h
    exact ⟨[], [], by simp, fun m1 => by simp [replace_at_nil]⟩
  | cons lab q ih =>
    intro n pre m hw h
    obtain ⟨c, l1, l2, hl, hcs, hn1, hn2, hat, hwc, hok⟩ := node_at_cons_inv hw h
    obtain ⟨A1, A2, i1, i2⟩ := ih c (pre ++ n.m_key) m hwc hat
    refine ⟨n.addr :: (addrs_children l1 ++ A1), A2 ++ addrs_children l2, ?_, ?_⟩
    · rw [addrs_eq n, hcs, addrs_children_append, addrs_children_cons, i1]
      simp only [List.append_assoc, List.cons_append]
    · intro m1
      have hrep : replace_at (lab :: q) n m1
          = n.set_children (l1 ++ (lab, replace_at q c m1) :: l2) := by
        rw [replace_at_cons, hcs, map_update_split l1 l2 lab c _ hn1]
      rw [hrep, addrs_eq, set_children_children, set_children_addr,
        addrs_children_append, addrs_children_cons, i2]
      simp only [List.append_assoc, List.cons_append]

theorem leaves_subset_of_node_at {q : Path} {n : radix_tree_node V} {pre : Key}
    {m : radix_tree_node V} (hw : WF pre n) (h : node_at q n = some m) :
    ∀ x ∈ leaves m, x ∈ leaves n := by
  obtain ⟨L1, L2, h1, -⟩ := leaves_replace q n pre m hw h
  intro x hx
  rw [h1]
  exact List.mem_append_left _ (List.mem_append_right _ hx)

end Paths

section FindSpec
variable {V : Type}

/-- The node found by `find_node` is the leaf that stores the key when there is one,
and it is the only candidate for it. -/
theorem find_node_spec (n : radix_tree_node V) (pre rest : Key) (hw : WF pre n)
    (hl : n.m_is_leaf = false) :
    ∃ m, node_at (find_node (pre ++ n.m_key ++ rest) n (pre ++ n.m_key).length) n = some m ∧
      (m.m_is_leaf = true → m ∈ leaves n ∧ stored_key m = some (pre ++ n.m_key ++ rest)) ∧
      (∀ x ∈ leaves n, stored_key x = some (pre ++ n.m_key ++ rest) → x = m) := by
  obtain ⟨q, m, pre_m, rest_m, res, k1, k2, k3, k4, -, k5, k6, k7⟩ :=
    find_node_landing n pre rest hw hl
  obtain ⟨g1, g2, g3, g4, -⟩ := k2.node_inv k3
  rw [k6, node_at_append, k1]
  -- every leaf with the key lies below a child of the anchor, with a known remainder
  have hchild : ∀ x ∈ leaves n, stored_key x = some (pre ++ n.m_key ++ rest) →
      ∃ e ∈ m.m_children, x ∈ leaves e.2 ∧ ∃ r, rest_m = e.1 ++ r ∧
        (e.2.m_is_leaf = true → e.1 = [] ∧ r = []) ∧ (e.2.m_is_leaf = false → e.1 ≠ []) := by
    intro x hx hkx
    have hxm := k5 x hx _ hkx (List.prefix_refl _)
    obtain ⟨e, he, hxe, r, hs, h1, h2⟩ := k2.leaf_child k3 hxm
    rw [hkx, k4] at hs
    exact ⟨e, he, hxe, r, List.append_cancel_left (Option.some.inj hs), h1, h2⟩
  rcases k7 with ⟨hr, e, he, h1, h2⟩ | ⟨hr, h1, h2⟩ | ⟨hr, h1, h2⟩ | ⟨hr, e, he, h1, h2, h3, h4⟩
  · -- the key ends at the anchor, which has a leaf child
    subst h2
    have hn : node_at [e.1] m = some e.2 := by rw [node_at_child g1 he]; rfl
    have hek : e.1 = [] := by
      have := (g4 e he).leaf_key h1
      rw [(g2 e he).1] at this; exact this
    refine ⟨e.2, hn, fun _ => ⟨?_, ?_⟩, ?_⟩
    · exact leaves_subset_of_node_at hw k1 e.2
        (by rw [leaves_of_internal k3, mem_leaves_children]
            exact ⟨e, he, by rw [leaves_of_leaf h1]; exact List.mem_singleton_self _⟩)
    · obtain ⟨v, hv⟩ := (g4 e he).leaf_value h1
      rw [stored_key, hv, k4, hr]; simp
    · intro x hx hkx
      obtain ⟨e1, he1, hxe1, r, hs, h5, h6⟩ := hchild x hx hkx
      rw [hr] at hs
      have he1k : e1.1 = [] := (List.append_eq_nil.1 hs.symm).1
      have : e1 = e := map_sorted_key_unique g1 he1 he (by rw [he1k, hek])
      rw [this, leaves_of_leaf h1, List.mem_singleton] at hxe1
      exact hxe1
  · subst h2
    refine ⟨m, rfl, fun h => (by rw [k3] at h; cases h), ?_⟩
    intro x hx hkx
    obtain ⟨e1, he1, hxe1, r, hs, h5, h6⟩ := hchild x hx hkx
    rw [hr] at hs
    have he1k : e1.1 = [] := (List.append_eq_nil.1 hs.symm).1
    exact absurd he1k (h6 (h1 e1 he1))
  · subst h2
    refine ⟨m, rfl, fun h => (by rw [k3] at h; cases h), ?_⟩
    intro x hx hkx
    obtain ⟨e1, he1, hxe1, r, hs, h5, h6⟩ := hchild x hx hkx
    by_cases hl1 : e1.2.m_is_leaf = true
    · obtain ⟨a1, a2⟩ := h5 hl1
      rw [a1, a2] at hs
      exact absurd hs hr
    · have hl1 : e1.2.m_is_leaf = false := by simpa using hl1
      have hne := h6 hl1
      have hd : rest_m.head? = e1.1.head? := by
        rw [hs]; exact head_of_starts (List.prefix_append _ _) hne
      exact absurd ((key_at_eq_head hr hne).2 hd) (h1 e1 he1 hl1)
  · subst h4
    have hn : node_at [e.1] m = some e.2 := by rw [node_at_child g1 he]; rfl
    refine ⟨e.2, hn, fun h => (by rw [h1] at h; cases h), ?_⟩
    intro x hx hkx
    have hxm := k5 x hx _ hkx (List.prefix_refl _)
    have hxe : x ∈ leaves e.2 :=
      k2.leaf_in_child k3 hr he h1 h2 hxm hkx (by rw [k4])
    obtain ⟨r, v, hrv⟩ := (g4 e he).leaves_form e.2 _ x hxe
    rw [hrv, stored_key_mk, k4, (g2 e he).1, List.append_assoc (pre_m ++ m.m_key)] at hkx
    have := List.append_cancel_left (Option.some.inj hkx)
    exact absurd ⟨r, this⟩ h3

end FindSpec

section Position
variable {β : Type}

theorem key_lt_cons_iff_of_ne {c d : Char} (h : d ≠ c) (xs as : Key) :
    (d :: xs) < (c :: as) ↔ d < c := by
  constructor
  · intro hlt
    cases hlt with
    | rel h1 => exact h1
    | cons _ => exact absurd rfl h
  · intro hlt
    exact List.Lex.rel hlt

/-- A key whose first symbol differs from the common first symbol of `a` and `b` compares
with `a` as it compares with `b`. -/
theorem key_lt_same_head {a b x : Key} (ha : a ≠ []) (hab : a.head? = b.head?)
    (hx : x.head? ≠ a.head?) : (x < a ↔ x < b) ∧ (a < x ↔ b < x) := by
  obtain ⟨c, as, rfl⟩ := List.exists_cons_of_ne_nil ha
  cases b with
  | nil => simp at hab
  | cons c1 bs =>
    have hc : c = c1 := by simpa using hab
    subst hc
    cases x with
    | nil =>
      refine ⟨⟨fun _ => List.Lex.nil, fun _ => List.Lex.nil⟩, ?_, ?_⟩ <;>
      · intro h; cases h
    | cons d xs =>
      have hd : d ≠ c := by
        intro h; apply hx; simp [h]
      exact ⟨by rw [key_lt_cons_iff_of_ne hd, key_lt_cons_iff_of_ne hd],
        by rw [key_lt_cons_iff_of_ne (Ne.symm hd), key_lt_cons_iff_of_ne (Ne.symm hd)]⟩

theorem map_insert_between (l1 l2 : List (Key × β)) (k : Key) (v : β)
    (h1 : ∀ x ∈ l1, x.1 < k) (h2 : ∀ y ∈ l2, k < y.1) :
    map_insert (l1 ++ l2) k v = l1 ++ (k, v) :: l2 := by
  induction l1 with
  | nil =>
    cases l2 with
    | nil => rfl
    | cons y l2 =>
      obtain ⟨ky, vy⟩ := y
      have : k < ky := h2 (ky, vy) (List.mem_cons_self _ _)
      simp only [List.nil_append, map_insert, if_pos this]
  | cons x l1 ih =>
    obtain ⟨kx, vx⟩ := x
    have hlt : kx < k := h1 (kx, vx) (List.mem_cons_self _ _)
    show map_insert ((kx, vx) :: (l1 ++ l2)) k v = (kx, vx) :: (l1 ++ (k, v) :: l2)
    rw [map_insert, if_neg (lt_asymm hlt), if_pos hlt,
      ih (fun x hx => h1 x (List.mem_cons_of_mem _ hx))]

/-- Replacing the entry of a key by an entry whose key compares alike with all other
keys leaves the entry at its place. -/
theorem map_insert_erase_same_pos {l1 l2 : List (Key × β)} {k k1 : Key} {v v1 : β}
    (hs : map_sorted (l1 ++ (k, v) :: l2))
    (h1 : ∀ x ∈ l1, x.1 < k1) (h2 : ∀ y ∈ l2, k1 < y.1) :
    map_insert (map_erase (l1 ++ (k, v) :: l2) k) k1 v1 = l1 ++ (k1, v1) :: l2 := by
  have hn : ∀ x ∈ l1, x.1 ≠ k := by
    intro x hx
    rw [map_sorted_append] at hs
    exact ne_of_lt (hs.2.2 x hx (k, v) (List.mem_cons_self _ _))
  rw [map_erase_split l1 l2 k v hn]
  exact map_insert_between l1 l2 k1 v1 h1 h2

theorem perm_of_count {l1 l2 : List Nat} (h : ∀ x, l1.count x = l2.count x) : l1.Perm l2 :=
  List.perm_iff_count.2 h

end Position

section Append
variable {V : Type}

/-- Filing a new child under a label that is not yet a key of the child map. -/
theorem add_child {pre : Key} {m : radix_tree_node V} (hw : WF pre m) (hl : m.m_is_leaf = false)
    {b : Key} {c : radix_tree_node V} (hlab : ∀ x ∈ m.m_children, x.1 ≠ b)
    (hok : child_ok (b, c)) (hwc : WF (pre ++ m.m_key) c)
    (hh : c.m_is_leaf = false → ∀ e ∈ m.m_children, e.2.m_is_leaf = false →
      e.1.head? ≠ b.head?) :
    WF pre (m.set_children (map_insert m.m_children b c)) ∧
    (∀ l0, child_ok (l0, m) → child_ok (l0, m.set_children (map_insert m.m_children b c))) ∧
    (∃ L1 L2, leaves m = L1 ++ L2 ∧
      leaves (m.set_children (map_insert m.m_children b c)) = L1 ++ leaves c ++ L2) ∧
    (addrs (m.set_children (map_insert m.m_children b c))).Perm (addrs c ++ addrs m) := by
  obtain ⟨g1, g2, g3, g4, g5⟩ := hw.node_inv hl
  obtain ⟨l1, l2, e1, e2, -⟩ := map_insert_split m.m_children b c hlab
  have hmem : ∀ e ∈ map_insert m.m_children b c, e = (b, c) ∨ e ∈ m.m_children := by
    intro e he
    rw [e2] at he
    rw [e1]
    rcases List.mem_append.1 he with h | h
    · exact Or.inr (List.mem_append_left _ h)
    · rcases List.mem_cons.1 h with h | h
      · exact Or.inl h
      · exact Or.inr (List.mem_append_right _ h)
  refine ⟨?_, ?_, ?_, ?_⟩
  · apply WF.of_parts
    · simpa using hl
    · simpa using g5
    · simpa using map_sorted_insert g1 b c
    · intro e he
      simp only [set_children_children] at he
      rcases hmem e he with h | h
      · rw [h]; exact hok
      · exact g2 e h
    · intro x hx y hy hxl hyl hhd
      simp only [set_children_children] at hx hy
      rcases hmem x hx with h | h <;> rcases hmem y hy with h' | h'
      · rw [h, h']
      · subst h
        exact absurd hhd.symm (hh hxl y h' hyl)
      · subst h'
        exact absurd hhd (hh hyl x h hxl)
      · exact g3 x h y h' hxl hyl hhd
    · intro e he
      simp only [set_children_children, set_children_key] at he ⊢
      rcases hmem e he with h | h
      · rw [h]; exact hwc
      · exact g4 e h
  · intro l0 hc
    obtain ⟨c1, c2⟩ := hc
    refine ⟨by simpa using c1, ?_⟩
    intro hl0
    simp only [set_children_is_leaf, set_children_children] at hl0 ⊢
    obtain ⟨d1, d2, d3⟩ := c2 hl0
    refine ⟨d1, ?_, ?_⟩
    · rw [e2]; intro h; cases l1 <;> cases h
    · intro x hx
      rw [e2] at hx
      have hl1 : l1 = [] := by
        cases l1 with
        | nil => rfl
        | cons a l1 =>
          have := congrArg List.length hx
          simp at this
      subst hl1
      have hl2 : l2 = [] := by
        have := congrArg List.length hx
        simp at this
        exact this
      subst hl2
      exact absurd e1 d2
  · refine ⟨leaves_children l1, leaves_children l2, ?_, ?_⟩
    · rw [leaves_of_internal hl, e1, leaves_children_append]
    · rw [leaves_of_internal (by simpa using hl), set_children_children, e2,
        leaves_children_append, leaves_children_cons, List.append_assoc]
  · rw [addrs_eq, addrs_eq m, set_children_children, set_children_addr, e2, e1,
      addrs_children_append, addrs_children_append, addrs_children_cons]
    apply perm_of_count
    intro x
    simp only [List.count_cons, List.count_append]
    omega

theorem map_insert_nil {β : Type} (k : Key) (v : β) : map_insert [] k v = [(k, v)] := rfl

theorem leaf_node_wf (pre : Key) (a : Nat) (v : V) :
    WF pre (radix_tree_node.mk a [] (some (pre, v)) pre.length true []) := WF.leaf pre a v

theorem leaf_child_ok (a : Nat) (val : Option (Key × V)) (d : Nat) :
    child_ok (([] : Key), radix_tree_node.mk a [] val d true []) :=
  ⟨rfl, fun h => by cases h⟩

/-- The internal node with a single leaf child that `append` and `prepend` create for
the rest of a new key. -/
theorem chain_node_wf (K rest : Key) (hr : rest ≠ []) (a b : Nat) (v : V) (val : Option (Key × V)) :
    WF K (radix_tree_node.mk a
      [([], radix_tree_node.mk b [] (some (K ++ rest, v)) (K ++ rest).length true [])]
      val K.length false rest) ∧
    child_ok (rest, radix_tree_node.mk a
      [([], radix_tree_node.mk b [] (some (K ++ rest, v)) (K ++ rest).length true [])]
      val K.length false rest) := by
  constructor
  · apply WF.node
    · exact List.pairwise_singleton _ _
    · intro e he
      rw [List.mem_singleton] at he
      subst he
      exact ⟨rfl, fun h => by cases h⟩
    · intro x hx y hy _ _ _
      rw [List.mem_singleton] at hx hy
      rw [hx, hy]
    · intro e he
      rw [List.mem_singleton] at he
      subst he
      exact WF.leaf (K ++ rest) b v
  · refine ⟨rfl, fun _ => ⟨hr, ?_, ?_⟩⟩
    · intro h; cases h
    · intro c hc
      have : c = ([], radix_tree_node.mk b [] (some (K ++ rest, v)) (K ++ rest).length true []) := by
        have := List.cons.inj hc
        exact this.1.symm
      rw [this]; rfl

/-- The call `append(parent, val)` at a node where `find_node` stopped because no child
matches what is left of the key. -/
theorem append_spec {pre : Key} {m : radix_tree_node V} (hw : WF pre m) (hl : m.m_is_leaf = false)
    (rest : Key) (a : Nat) (v : V)
    (hc : (rest = [] ∧ ∀ e ∈ m.m_children, e.2.m_is_leaf = false) ∨
      (rest ≠ [] ∧ ∀ e ∈ m.m_children, e.2.m_is_leaf = false → key_at rest 0 ≠ key_at e.1 0)) :
    WF pre (append a m (pre ++ m.m_key ++ rest, v)).1 ∧
    (∀ l0, child_ok (l0, m) → child_ok (l0, (append a m (pre ++ m.m_key ++ rest, v)).1)) ∧
    (append a m (pre ++ m.m_key ++ rest, v)).1.m_is_leaf = false ∧
    (∃ L1 L2, leaves m = L1 ++ L2 ∧
      leaves (append a m (pre ++ m.m_key ++ rest, v)).1
        = L1 ++ [radix_tree_node.mk (append a m (pre ++ m.m_key ++ rest, v)).2.1 []
            (some (pre ++ m.m_key ++ rest, v)) (pre ++ m.m_key ++ rest).length true []] ++ L2) ∧
    (∃ fresh, (addrs (append a m (pre ++ m.m_key ++ rest, v)).1).Perm (fresh ++ addrs m) ∧
      fresh.Nodup ∧
      (∀ x ∈ fresh, a ≤ x ∧ x < (append a m (pre ++ m.m_key ++ rest, v)).2.2)) ∧
    a ≤ (append a m (pre ++ m.m_key ++ rest, v)).2.2 := by
  obtain ⟨g1, g2, g3, g4, g5⟩ := hw.node_inv hl
  have hdepth : m.m_depth + m.m_key.length = (pre ++ m.m_key).length := by
    rw [g5, List.length_append]
  have hlen : radix_length (pre ++ m.m_key ++ rest) - (((pre ++ m.m_key).length : Nat) : Int)
      = (rest.length : Int) := by
    simp [radix_length]
  rcases hc with ⟨hr, hnl⟩ | ⟨hr, hnm⟩
  · -- the key ends here: a leaf child under the empty label
    subst hr
    have happ : append a m (pre ++ m.m_key ++ [], v)
        = (m.set_children (map_insert m.m_children []
            (radix_tree_node.mk a [] (some (pre ++ m.m_key ++ [], v))
              (pre ++ m.m_key ++ []).length true [])), a, a + 1) := by
      simp only [append, hdepth, hlen, radix_substr_nul]
      simp
    rw [happ]
    have hlab : ∀ x ∈ m.m_children, x.1 ≠ [] := fun x hx => ((g2 x hx).2 (hnl x hx)).1
    have hwc : WF (pre ++ m.m_key) (radix_tree_node.mk a [] (some (pre ++ m.m_key ++ [], v))
        (pre ++ m.m_key ++ []).length true []) := by
      rw [List.append_nil]; exact WF.leaf _ a v
    obtain ⟨r1, r2, r3, r4⟩ := add_child hw hl hlab (leaf_child_ok a _ _) hwc
      (fun h => by cases h)
    refine ⟨r1, r2, by simpa using hl, ?_, ⟨[a], ?_, List.nodup_singleton a, ?_⟩, by simp⟩
    · obtain ⟨L1, L2, e1, e2⟩ := r3
      refine ⟨L1, L2, e1, ?_⟩
      rw [e2]
      simp [leaves]
    · simpa [addrs, addrs_children] using r4
    · intro x hx
      rw [List.mem_singleton] at hx
      subst hx
      exact ⟨le_refl _, Nat.lt_succ_self _⟩
  · -- an internal child for the rest of the key, with a leaf below it
    have hne : ¬ ((rest.length : Int) = 0) := by
      intro h; exact hr (List.length_eq_zero.1 (by exact_mod_cast h))
    have hsub : radix_substr (pre ++ m.m_key ++ rest) (pre ++ m.m_key).length
        (rest.length : Int) = rest := by
      rw [← radix_length, radix_substr_append, List.take_length]
    have hto : ((((pre ++ m.m_key).length : Nat) : Int) + (rest.length : Int)).toNat
        = (pre ++ m.m_key ++ rest).length := by
      rw [List.length_append (pre ++ m.m_key)]
      exact Int.toNat_ofNat _
    have happ : append a m (pre ++ m.m_key ++ rest, v)
        = (m.set_children (map_insert m.m_children rest
            (radix_tree_node.mk a
              [([], radix_tree_node.mk (a + 1) [] (some (pre ++ m.m_key ++ rest, v))
                (pre ++ m.m_key ++ rest).length true [])]
              (some (pre ++ m.m_key ++ rest, v)) (pre ++ m.m_key).length false rest)),
            a + 1, a + 2) := by
      simp only [append, hdepth, hlen, if_neg hne, hsub, hto, radix_substr_nul, map_insert_nil]
    rw [happ]
    have hlab : ∀ x ∈ m.m_children, x.1 ≠ rest := by
      intro x hx hxr
      by_cases hxl : x.2.m_is_leaf = true
      · have := (g4 x hx).leaf_key hxl
        rw [(g2 x hx).1, hxr] at this
        exact hr this
      · have hxl : x.2.m_is_leaf = false := by simpa using hxl
        exact hnm x hx hxl (by rw [hxr])
    obtain ⟨w1, w2⟩ := chain_node_wf (pre ++ m.m_key) rest hr a (a + 1) v
      (some (pre ++ m.m_key ++ rest, v))
    obtain ⟨r1, r2, r3, r4⟩ := add_child hw hl hlab w2 w1 (by
      intro _ e he hel hhd
      exact hnm e he hel ((key_at_eq_head hr ((g2 e he).2 hel).1).2 hhd.symm))
    refine ⟨r1, r2, by simpa using hl, ?_, ⟨[a, a + 1], ?_, by simp, ?_⟩, by simp⟩
    · obtain ⟨L1, L2, e1, e2⟩ := r3
      refine ⟨L1, L2, e1, ?_⟩
      rw [e2]
      simp [leaves, leaves_children]
    · simpa [addrs, addrs_children] using r4
    · intro x hx
      simp only [List.mem_cons, List.mem_singleton, List.not_mem_nil, or_false] at hx
      show a ≤ x ∧ x < a + 2
      rcases hx with rfl | rfl <;> constructor <;> omega

end Append

section Prepend
variable {V : Type}

/-- The first symbol of the label of another child differs from that of the label of a
child that is not a leaf. -/
theorem WF.other_head_ne {pre : Key} {m : radix_tree_node V} (hw : WF pre m)
    (hl : m.m_is_leaf = false) {e x : Key × radix_tree_node V} (he : e ∈ m.m_children)
    (hel : e.2.m_is_leaf = false) (hx : x ∈ m.m_children) (hne : x.1 ≠ e.1) :
    x.1.head? ≠ e.1.head? := by
  obtain ⟨g1, g2, g3, g4, -⟩ := hw.node_inv hl
  have hlab : e.1 ≠ [] := ((g2 e he).2 hel).1
  by_cases hxl : x.2.m_is_leaf = true
  · have := (g4 x hx).leaf_key hxl
    rw [(g2 x hx).1] at this
    rw [this]
    obtain ⟨c, r, hc⟩ := List.exists_cons_of_ne_nil hlab
    rw [hc]; simp
  · have hxl : x.2.m_is_leaf = false := by simpa using hxl
    exact fun h => hne (g3 x hx e he hxl hel h)

/-- A child that is not a leaf is replaced by another one whose label begins with the
same symbol: the new entry takes the place of the old one in the child map. -/
theorem relabel_child {pre : Key} {m : radix_tree_node V} (hw : WF pre m)
    (hl : m.m_is_leaf = false) {l1 l2 : List (Key × radix_tree_node V)} {lab : Key}
    {c : radix_tree_node V} (hcs : m.m_children = l1 ++ (lab, c) :: l2)
    (hc : c.m_is_leaf = false) {b : Key} {c1 : radix_tree_node V}
    (hc1 : c1.m_is_leaf = false) (hhead : b.head? = lab.head?)
    (hok : child_ok (b, c1)) (hwc : WF (pre ++ m.m_key) c1) :
    map_insert (map_erase m.m_children lab) b c1 = l1 ++ (b, c1) :: l2 ∧
    WF pre (m.set_children (l1 ++ (b, c1) :: l2)) ∧
    (∀ l0, child_ok (l0, m) → child_ok (l0, m.set_children (l1 ++ (b, c1) :: l2))) := by
  obtain ⟨g1, g2, g3, g4, g5⟩ := hw.node_inv hl
  have hmem : (lab, c) ∈ m.m_children := by rw [hcs]; simp
  have hlab : lab ≠ [] := ((g2 _ hmem).2 hc).1
  have hother : ∀ x ∈ l1 ++ l2, x ∈ m.m_children ∧ x.1.head? ≠ lab.head? := by
    intro x hx
    have hxm : x ∈ m.m_children := by
      rw [hcs]
      rcases List.mem_append.1 hx with h | h
      · exact List.mem_append_left _ h
      · exact List.mem_append_right _ (List.mem_cons_of_mem _ h)
    refine ⟨hxm, hw.other_head_ne hl hmem hc hxm ?_⟩
    rw [hcs] at g1
    rw [map_sorted_append, map_sorted_cons] at g1
    rcases List.mem_append.1 hx with h | h
    · exact ne_of_lt (g1.2.2 x h _ (List.mem_cons_self _ _))
    · exact (ne_of_lt (g1.2.1.1 x h)).symm
  have hs := g1
  rw [hcs, map_sorted_append, map_sorted_cons] at hs
  have hlt1 : ∀ x ∈ l1, x.1 < b := by
    intro x hx
    have h1 := hs.2.2 x hx _ (List.mem_cons_self _ _)
    exact (key_lt_same_head hlab hhead.symm (hother x (List.mem_append_left _ hx)).2).1.1 h1
  have hlt2 : ∀ y ∈ l2, b < y.1 := by
    intro y hy
    have h1 := hs.2.1.1 y hy
    exact (key_lt_same_head hlab hhead.symm (hother y (List.mem_append_right _ hy)).2).2.1 h1
  have hsort : map_sorted (l1 ++ (b, c1) :: l2) := by
    rw [map_sorted_append, map_sorted_cons]
    refine ⟨hs.1, ⟨hlt2, hs.2.1.2⟩, ?_⟩
    intro x hx y hy
    rcases List.mem_cons.1 hy with rfl | hy
    · exact hlt1 x hx
    · exact hs.2.2 x hx y (List.mem_cons_of_mem _ hy)
  have hnew : ∀ e ∈ l1 ++ (b, c1) :: l2, e = (b, c1) ∨ e ∈ l1 ++ l2 := by
    intro e he
    rcases List.mem_append.1 he with h | h
    · exact Or.inr (List.mem_append_left _ h)
    · rcases List.mem_cons.1 h with h | h
      · exact Or.inl h
      · exact Or.inr (List.mem_append_right _ h)
  refine ⟨?_, ?_, ?_⟩
  · rw [hcs]
    rw [hcs] at g1
    exact map_insert_erase_same_pos g1 hlt1 hlt2
  · apply WF.of_parts
    · simpa using hl
    · simpa using g5
    · simpa using hsort
    · intro e he
      simp only [set_children_children] at he
      rcases hnew e he with h | h
      · rw [h]; exact hok
      · exact g2 e (hother e h).1
    · intro x hx y hy hxl hyl hhd
      simp only [set_children_children] at hx hy
      rcases hnew x hx with h | h <;> rcases hnew y hy with h' | h'
      · rw [h, h']
      · subst h
        exact absurd (hhd.symm.trans hhead) (hother y h').2
      · subst h'
        exact absurd (hhd.trans hhead) (hother x h).2
      · exact g3 x (hother x h).1 y (hother y h').1 hxl hyl hhd
    · intro e he
      simp only [set_children_children, set_children_key] at he ⊢
      rcases hnew e he with h | h
      · rw [h]; exact hwc
      · exact g4 e (hother e h).1
  · intro l0 hcok
    obtain ⟨c1k, c2⟩ := hcok
    refine ⟨by simpa using c1k, ?_⟩
    intro hl0
    simp only [set_children_is_leaf, set_children_children] at hl0 ⊢
    obtain ⟨d1, d2, d3⟩ := c2 hl0
    refine ⟨d1, ?_, ?_⟩
    · intro h; cases l1 <;> cases h
    · intro x hx
      have hl1 : l1 = [] := by
        cases l1 with
        | nil => rfl
        | cons a l1 =>
          have := congrArg List.length hx
          simp at this
      subst hl1
      have hl2 : l2 = [] := by
        have := congrArg List.length hx
        simp at this
        exact this
      subst hl2
      have := d3 (lab, c) (by rw [hcs]; rfl)
      rw [hc] at this
      cases this

theorem key_at_append_add (K rest : Key) (i : Nat) :
    key_at (K ++ rest) (i + K.length) = key_at rest i := by
  simp [key_at, List.getD_eq_getElem?_getD, List.getElem?_append_right]

theorem take_succ_of_key_at_eq {a b : Key} {i : Nat} (h : a.take i = b.take i)
    (ha : i < a.length) (hb : i < b.length) (hk : key_at a i = key_at b i) :
    a.take (i + 1) = b.take (i + 1) := by
  rw [List.take_succ, List.take_succ, h]
  congr 1
  simp only [key_at, List.getD_eq_getElem?_getD, List.getElem?_eq_getElem ha,
    List.getElem?_eq_getElem hb, Option.getD_some] at hk
  simp [List.getElem?_eq_getElem ha, List.getElem?_eq_getElem hb, hk]

/-- The loop of `prepend` computes the length of the longest common prefix of the label
and of what is left of the key. -/
theorem prepend_count_spec (K rest lab : Key) : ∀ (fuel count : Nat),
    lab.length ≤ count + fuel → count ≤ lab.length → count ≤ rest.length →
    lab.take count = rest.take count →
    count ≤ prepend_count lab (K ++ rest) K.length (radix_length lab)
      (radix_length (K ++ rest) - (K.length : Int)) fuel count ∧
    prepend_count lab (K ++ rest) K.length (radix_length lab)
      (radix_length (K ++ rest) - (K.length : Int)) fuel count ≤ lab.length ∧
    prepend_count lab (K ++ rest) K.length (radix_length lab)
      (radix_length (K ++ rest) - (K.length : Int)) fuel count ≤ rest.length ∧
    lab.take (prepend_count lab (K ++ rest) K.length (radix_length lab)
      (radix_length (K ++ rest) - (K.length : Int)) fuel count)
      = rest.take (prepend_count lab (K ++ rest) K.length (radix_length lab)
      (radix_length (K ++ rest) - (K.length : Int)) fuel count) ∧
    (prepend_count lab (K ++ rest) K.length (radix_length lab)
      (radix_length (K ++ rest) - (K.length : Int)) fuel count < lab.length →
     prepend_count lab (K ++ rest) K.length (radix_length lab)
      (radix_length (K ++ rest) - (K.length : Int)) fuel count < rest.length →
     key_at lab (prepend_count lab (K ++ rest) K.length (radix_length lab)
      (radix_length (K ++ rest) - (K.length : Int)) fuel count)
      ≠ key_at rest (prepend_count lab (K ++ rest) K.length (radix_length lab)
      (radix_length (K ++ rest) - (K.length : Int)) fuel count)) := by
  have hlen2 : radix_length (K ++ rest) - (K.length : Int) = (rest.length : Int) := by
    simp [radix_length]
  rw [hlen2]
  intro fuel
  induction fuel with
  | zero =>
    intro count h1 h2 h3 h4
    simp only [prepend_count]
    exact ⟨le_refl _, h2, h3, h4, fun h => by omega⟩
  | succ fuel ih =>
    intro count h1 h2 h3 h4
    simp only [prepend_count, radix_length]
    by_cases hc : (count : Int) < (lab.length : Int) ∧ (count : Int) < (rest.length : Int)
    · rw [if_pos hc]
      have hc1 : count < lab.length := by exact_mod_cast hc.1
      have hc2 : count < rest.length := by exact_mod_cast hc.2
      by_cases hk : key_at lab count = key_at (K ++ rest) (count + K.length)
      · rw [if_neg (not_not.2 hk)]
        rw [key_at_append_add] at hk
        have := ih (count + 1) (by omega) (by omega) (by omega)
          (take_succ_of_key_at_eq h4 hc1 hc2 hk)
        simp only [radix_length] at this
        exact ⟨by omega, this.2⟩
      · rw [if_pos hk]
        rw [key_at_append_add] at hk
        exact ⟨le_refl _, h2, h3, h4, fun _ _ => hk⟩
    · rw [if_neg hc]
      refine ⟨le_refl _, h2, h3, h4, fun h5 h6 => ?_⟩
      exact absurd ⟨by exact_mod_cast h5, by exact_mod_cast h6⟩ hc

end Prepend

section PrependSpec
variable {V : Type}

theorem radix_substr_take (lab : Key) (c : Nat) : radix_substr lab 0 (c : Int) = lab.take c := by
  simp [radix_substr]

theorem radix_substr_drop (key : Key) (b : Nat) (num : Int)
    (h : (key.length : Int) - (b : Int) ≤ num) : radix_substr key b num = key.drop b := by
  unfold radix_substr
  split
  · rfl
  · apply List.take_of_length_le
    rw [List.length_drop]
    omega

theorem drop_append_add (K rest : Key) (c : Nat) : (K ++ rest).drop (K.length + c) = rest.drop c := by
  rw [← List.drop_drop, List.drop_left]

theorem head_drop_eq_key_at {l : Key} {c : Nat} (h : c < l.length) :
    (l.drop c).head? = some (key_at l c) := by
  rw [List.head?_drop]
  simp [key_at, List.getD_eq_getElem?_getD, List.getElem?_eq_getElem h]

theorem head_take_eq {l : Key} {c : Nat} (h : 0 < c) : (l.take c).head? = l.head? := by
  cases l with
  | nil => simp
  | cons x xs =>
    obtain ⟨c, rfl⟩ := Nat.exists_eq_succ_of_ne_zero (Nat.pos_iff_ne_zero.1 h)
    simp

/-- The call `prepend(node, val)` for a child whose label is only partially matched by
what is left of the key. -/
theorem prepend_spec {pre : Key} {m : radix_tree_node V} (hw : WF pre m) (hl : m.m_is_leaf = false)
    {e : Key × radix_tree_node V} (he : e ∈ m.m_children) (hel : e.2.m_is_leaf = false)
    (rest : Key) (hr : rest ≠ []) (hh : key_at rest 0 = key_at e.1 0) (hp : ¬ e.1 <+: rest)
    (a : Nat) (v : V) :
    WF pre (prepend a m e.2 (pre ++ m.m_key ++ rest, v)).1 ∧
    (∀ l0, child_ok (l0, m) → child_ok (l0, (prepend a m e.2 (pre ++ m.m_key ++ rest, v)).1)) ∧
    (prepend a m e.2 (pre ++ m.m_key ++ rest, v)).1.m_is_leaf = false ∧
    (∃ L1 L2, leaves m = L1 ++ L2 ∧
      leaves (prepend a m e.2 (pre ++ m.m_key ++ rest, v)).1
        = L1 ++ [radix_tree_node.mk (prepend a m e.2 (pre ++ m.m_key ++ rest, v)).2.1 []
            (some (pre ++ m.m_key ++ rest, v)) (pre ++ m.m_key ++ rest).length true []] ++ L2) ∧
    (∃ fresh, (addrs (prepend a m e.2 (pre ++ m.m_key ++ rest, v)).1).Perm (fresh ++ addrs m) ∧
      fresh.Nodup ∧
      (∀ x ∈ fresh, a ≤ x ∧ x < (prepend a m e.2 (pre ++ m.m_key ++ rest, v)).2.2)) ∧
    a ≤ (prepend a m e.2 (pre ++ m.m_key ++ rest, v)).2.2 := by
  obtain ⟨g1, g2, g3, g4, g5⟩ := hw.node_inv hl
  obtain ⟨l1, l2, hcs, hn1, hn2⟩ := map_split_of_mem g1 he
  obtain ⟨lab, node⟩ := e
  have hwn : WF (pre ++ m.m_key) node := g4 _ he
  obtain ⟨n1, n2, n3, n4, n5⟩ := hwn.node_inv hel
  have hokn := g2 _ he
  obtain ⟨na, ncs, nv, nd, nl, nk⟩ := node
  have e1 : nk = lab := hokn.1
  have e2 : nl = false := hel
  have e3 : nd = (pre ++ m.m_key).length := n5
  subst e1 e2 e3
  simp only [mk_children, mk_key] at n1 n2 n3 n4
  obtain ⟨hlab, hncs, hsingle⟩ := hokn.2 rfl
  simp only [mk_children] at hncs hsingle
  -- the common prefix
  obtain ⟨-, c1, c2, c3, c4⟩ := prepend_count_spec (pre ++ m.m_key) rest nk nk.length 0
    (by omega) (Nat.zero_le _) (Nat.zero_le _) (by simp)
  generalize hcdef : prepend_count nk (pre ++ m.m_key ++ rest) (pre ++ m.m_key).length
    (radix_length nk) (radix_length (pre ++ m.m_key ++ rest) - ((pre ++ m.m_key).length : Int))
    nk.length 0 = c at c1 c2 c3 c4
  have hrl : 0 < rest.length := List.length_pos.2 hr
  have hll : 0 < nk.length := List.length_pos.2 hlab
  have hc0 : 0 < c := by
    rcases Nat.eq_zero_or_pos c with h0 | h0
    · subst h0
      exact absurd hh.symm (c4 hll hrl)
    · exact h0
  have hc1 : c < nk.length := by
    rcases Nat.lt_or_ge c nk.length with h | h
    · exact h
    · exfalso
      apply hp
      have : c = nk.length := le_antisymm c1 h
      rw [this, List.take_length] at c3
      exact (take_eq_iff_starts rest nk).1 c3.symm
  have hdk : nk.drop c ≠ [] := by
    intro h
    have := congrArg List.length h
    rw [List.length_drop, List.length_nil] at this
    omega
  have htk : nk.take c ≠ [] := by
    intro h
    have := congrArg List.length h
    rw [List.length_take, List.length_nil] at this
    omega
  have hlen2 : radix_length (pre ++ m.m_key ++ rest) - (((pre ++ m.m_key).length : Nat) : Int)
      = (rest.length : Int) := by simp [radix_length]
  rw [hlen2] at hcdef
  have hs2 : radix_substr nk c (radix_length nk - (c : Int)) = nk.drop c :=
    radix_substr_drop nk c _ (by simp [radix_length])
  -- the re-attached node and the node that takes its place
  have hw1 : WF (pre ++ m.m_key ++ nk.take c)
      (radix_tree_node.mk na ncs nv ((pre ++ m.m_key).length + c) false (nk.drop c)) := by
    have hd : (pre ++ m.m_key).length + c = (pre ++ m.m_key ++ nk.take c).length := by
      rw [List.length_append (pre ++ m.m_key), List.length_take, Nat.min_eq_left (le_of_lt hc1)]
    rw [hd]
    apply WF.node _ _ _ _ _ n1 n2 n3
    intro x hx
    rw [List.append_assoc (pre ++ m.m_key), List.take_append_drop]
    exact n4 x hx
  have hok1 : child_ok (nk.drop c,
      radix_tree_node.mk na ncs nv ((pre ++ m.m_key).length + c) false (nk.drop c)) :=
    ⟨rfl, fun _ => ⟨hdk, hncs, hsingle⟩⟩
  have hwa0 : WF (pre ++ m.m_key)
      (radix_tree_node.mk a [(nk.drop c,
        radix_tree_node.mk na ncs nv ((pre ++ m.m_key).length + c) false (nk.drop c))]
        none (pre ++ m.m_key).length false (nk.take c)) := by
    apply WF.node
    · exact List.pairwise_singleton _ _
    · intro x hx; rw [List.mem_singleton] at hx; rw [hx]; exact hok1
    · intro x hx y hy _ _ _; rw [List.mem_singleton] at hx hy; rw [hx, hy]
    · intro x hx; rw [List.mem_singleton] at hx; rw [hx]; exact hw1
  have hheadA : (nk.take c).head? = nk.head? := head_take_eq hc0
  have hkeyK : pre ++ m.m_key ++ nk.take c ++ rest.drop c = pre ++ m.m_key ++ rest := by
    rw [c3, List.append_assoc (pre ++ m.m_key), List.take_append_drop]
  -- the new child of the split node: a leaf, or an internal node with a leaf
  have hnewchild : ∃ (b_lab : Key) (node_b : radix_tree_node V) (leafaddr next : Nat)
      (fresh : List Nat),
      prepend a m (radix_tree_node.mk na ncs nv (pre ++ m.m_key).length false nk)
          (pre ++ m.m_key ++ rest, v)
        = (m.set_children (map_insert (map_erase m.m_children nk) (nk.take c)
            (radix_tree_node.mk a (map_insert [(nk.drop c,
              radix_tree_node.mk na ncs nv ((pre ++ m.m_key).length + c) false (nk.drop c))]
              b_lab node_b) none (pre ++ m.m_key).length false (nk.take c))), leafaddr, next) ∧
      b_lab ≠ nk.drop c ∧ child_ok (b_lab, node_b) ∧ WF (pre ++ m.m_key ++ nk.take c) node_b ∧
      (node_b.m_is_leaf = false → b_lab.head? ≠ (nk.drop c).head?) ∧
      leaves node_b = [radix_tree_node.mk leafaddr [] (some (pre ++ m.m_key ++ rest, v))
        (pre ++ m.m_key ++ rest).length true []] ∧
      (a :: addrs node_b).Perm fresh ∧ fresh.Nodup ∧ (∀ x ∈ fresh, a ≤ x ∧ x < next) ∧
      a ≤ next := by
    by_cases hcr : c = rest.length
    · have hrest : rest = nk.take c := by
        rw [c3, hcr, List.take_length]
      refine ⟨[], radix_tree_node.mk (a + 1) [] (some (pre ++ m.m_key ++ rest, v))
        ((pre ++ m.m_key).length + c) true [], a + 1, a + 2, [a, a + 1], ?_, ?_, ?_, ?_, ?_, ?_,
        ?_, ?_, ?_, ?_⟩
      · simp only [prepend, mk_key, mk_depth, mk_children, mk_addr, mk_value, mk_is_leaf,
          hcdef, hlen2, hs2, radix_substr_take, radix_substr_nul, map_insert_nil]
        rw [if_pos (by exact_mod_cast hcr)]
      · exact fun h => hdk h.symm
      · exact leaf_child_ok _ _ _
      · have hd : (pre ++ m.m_key).length + c = (pre ++ m.m_key ++ nk.take c).length := by
          rw [List.length_append (pre ++ m.m_key), List.length_take,
            Nat.min_eq_left (le_of_lt hc1)]
        rw [hd]
        have hk : pre ++ m.m_key ++ rest = pre ++ m.m_key ++ nk.take c := by rw [← hrest]
        rw [hk]
        exact WF.leaf _ _ _
      · intro h; cases h
      · have hd : (pre ++ m.m_key).length + c = (pre ++ m.m_key ++ rest).length := by
          rw [List.length_append (pre ++ m.m_key), hcr]
        rw [hd]
        simp [leaves]
      · simp [addrs, addrs_children]
      · simp
      · intro x hx
        simp only [List.mem_cons, List.mem_singleton, List.not_mem_nil, or_false] at hx
        rcases hx with rfl | rfl <;> constructor <;> omega
      · omega
    · have hc2 : c < rest.length := lt_of_le_of_ne c2 hcr
      have hbk : rest.drop c ≠ [] := by
        intro h
        have := congrArg List.length h
        rw [List.length_drop] at this
        simp at this
        omega
      have hs3 : radix_substr (pre ++ m.m_key ++ rest) ((pre ++ m.m_key).length + c)
          ((rest.length : Int) - (c : Int)) = rest.drop c := by
        rw [radix_substr_drop _ _ _ (by
          rw [List.length_append (pre ++ m.m_key)]; push_cast; omega), drop_append_add]
      obtain ⟨w1, w2⟩ := chain_node_wf (pre ++ m.m_key ++ nk.take c) (rest.drop c) hbk (a + 1)
        (a + 2) v none
      rw [hkeyK] at w1 w2
      have hd : (pre ++ m.m_key).length + c = (pre ++ m.m_key ++ nk.take c).length := by
        rw [List.length_append (pre ++ m.m_key), List.length_take,
          Nat.min_eq_left (le_of_lt hc1)]
      refine ⟨rest.drop c, _, a + 2, a + 3, [a, a + 1, a + 2], ?_, ?_, w2, w1, ?_, ?_, ?_, ?_,
        ?_, ?_⟩
      · simp only [prepend, mk_key, mk_depth, mk_children, mk_addr, mk_value, mk_is_leaf,
          hcdef, hlen2, hs2, hs3, radix_substr_take, radix_substr_nul, map_insert_nil]
        rw [if_neg (by exact_mod_cast hcr), hd]
      · intro h
        have h1 := head_drop_eq_key_at hc1
        have h2 := head_drop_eq_key_at hc2
        rw [h, h1] at h2
        exact c4 hc1 hc2 (Option.some.inj h2)
      · intro _ h
        have h1 := head_drop_eq_key_at hc1
        have h2 := head_drop_eq_key_at hc2
        rw [h, h1] at h2
        exact c4 hc1 hc2 (Option.some.inj h2)
      · simp [leaves, leaves_children]
      · simp [addrs, addrs_children]
      · simp
      · intro x hx
        simp only [List.mem_cons, List.mem_singleton, List.not_mem_nil, or_false] at hx
        rcases hx with rfl | rfl | rfl <;> constructor <;> omega
      · omega
  obtain ⟨b_lab, node_b, leafaddr, next, fresh, q1, q2, q3, q4, q5, q6, q7, q8, q9, q10⟩ :=
    hnewchild
  rw [q1]
  -- the split node with both children
  obtain ⟨r1, -, r3, r4⟩ := add_child hwa0 rfl (b := b_lab) (c := node_b)
    (by intro x hx; simp only [mk_children, List.mem_singleton] at hx
        rw [hx]; exact fun h => q2 h.symm)
    q3 q4
    (by intro hb x hx _
        simp only [mk_children, List.mem_singleton] at hx
        rw [hx]; exact fun h => q5 hb h.symm)
  simp only [mk_set_children, mk_children] at r1 r3 r4
  have hoka : child_ok (nk.take c, radix_tree_node.mk a (map_insert [(nk.drop c,
      radix_tree_node.mk na ncs nv ((pre ++ m.m_key).length + c) false (nk.drop c))]
      b_lab node_b) none (pre ++ m.m_key).length false (nk.take c)) := by
    refine ⟨rfl, fun _ => ⟨htk, ?_, ?_⟩⟩
    · obtain ⟨x1, x2, y1, y2, -⟩ := map_insert_split [(nk.drop c,
        radix_tree_node.mk na ncs nv ((pre ++ m.m_key).length + c) false (nk.drop c))] b_lab node_b
        (by intro x hx; rw [List.mem_singleton] at hx; rw [hx]; exact fun h => q2 h.symm)
      simp only [mk_children]
      rw [y2]; intro h; cases x1 <;> cases h
    · intro x hx
      obtain ⟨x1, x2, y1, y2, -⟩ := map_insert_split [(nk.drop c,
        radix_tree_node.mk na ncs nv ((pre ++ m.m_key).length + c) false (nk.drop c))] b_lab node_b
        (by intro x hx; rw [List.mem_singleton] at hx; rw [hx]; exact fun h => q2 h.symm)
      simp only [mk_children] at hx
      rw [y2] at hx
      have h1 := congrArg List.length y1
      have h2 := congrArg List.length hx
      simp at h1 h2
      omega
  obtain ⟨s1, s2, s3⟩ := relabel_child hw hl hcs (mk_is_leaf _ _ _ _ _ _) (b := nk.take c)
    (mk_is_leaf _ _ _ _ _ _) hheadA hoka r1
  rw [s1]
  refine ⟨s2, s3, by simpa using hl, ?_, ⟨fresh, ?_, q8, q9⟩, q10⟩
  · obtain ⟨L1, L2, t1, t2⟩ := r3
    rw [leaves_mk_internal] at t1 t2
    simp only [leaves_children, List.append_nil, leaves_mk_internal] at t1
    rw [leaves_of_internal hl, hcs, leaves_of_internal (by simpa using hl),
      set_children_children, leaves_children_append, leaves_children_append,
      leaves_children_cons, leaves_children_cons]
    simp only [leaves_mk_internal]
    rw [t2, q6, t1]
    exact ⟨leaves_children l1 ++ L1, L2 ++ leaves_children l2, by simp, by simp⟩
  · rw [addrs_eq, addrs_eq m, hcs, set_children_children, set_children_addr,
      addrs_children_append, addrs_children_append, addrs_children_cons, addrs_children_cons]
    have hp1 := r4.trans (List.Perm.append_left (addrs node_b) (List.Perm.refl _))
    simp only [addrs, addrs_children, List.append_nil] at hp1 ⊢
    have hq7 := q7
    rw [List.perm_iff_count] at hp1 hq7 ⊢
    intro x
    have h1 := hp1 x
    have h2 := hq7 x
    simp only [List.count_cons, List.count_append] at h1 h2 ⊢
    omega

end PrependSpec

section InsertSpec
variable {V : Type}

theorem replace_at_key {q : Path} {n m m1 : radix_tree_node V} (h : node_at q n = some m)
    (hk : m1.m_key = m.m_key) : (replace_at q n m1).m_key = n.m_key := by
  cases q with
  | nil => cases h; exact hk
  | cons lab q => rw [replace_at_cons, set_children_key]

theorem append_key (a : Nat) (m : radix_tree_node V) (val : Key × V) :
    (append a m val).1.m_key = m.m_key := by
  unfold append
  simp only []
  split <;> exact set_children_key _ _

theorem prepend_key (a : Nat) (m node : radix_tree_node V) (val : Key × V) :
    (prepend a m node val).1.m_key = m.m_key := by
  unfold prepend
  simp only []
  split <;> exact set_children_key _ _

/-- The tree invariant after the contents of one node have been replaced by contents
with one more leaf and some fresh addresses. -/
theorem replace_grow {root : radix_tree_node V} {next : Nat} (hroot : WF [] root)
    (hrl : root.m_is_leaf = false) (hrk : root.m_key = []) (hnd : (addrs root).Nodup)
    (hlt : ∀ a ∈ addrs root, a < next) {q : Path} {m m1 : radix_tree_node V}
    (hat : node_at q root = some m) (hm1 : WF (pre_at q root []) m1)
    (hok : ∀ l0, child_ok (l0, m) → child_ok (l0, m1)) (hl1 : m1.m_is_leaf = false)
    (hml : m.m_is_leaf = false) (hkey : m1.m_key = m.m_key) {newleaf : radix_tree_node V}
    (hleaves : ∃ L1 L2, leaves m = L1 ++ L2 ∧ leaves m1 = L1 ++ [newleaf] ++ L2) {next1 : Nat}
    (hfresh : ∃ fresh, (addrs m1).Perm (fresh ++ addrs m) ∧ fresh.Nodup ∧
      ∀ x ∈ fresh, next ≤ x ∧ x < next1)
    (hnext : next ≤ next1) :
    WF [] (replace_at q root m1) ∧ (replace_at q root m1).m_is_leaf = false ∧
    (replace_at q root m1).m_key = [] ∧
    (∃ L1 L2, leaves root = L1 ++ L2 ∧ leaves (replace_at q root m1) = L1 ++ [newleaf] ++ L2) ∧
    (addrs (replace_at q root m1)).Nodup ∧ ∀ a ∈ addrs (replace_at q root m1), a < next1 := by
  obtain ⟨w1, w2, -⟩ := WF_replace q root [] m m1 hroot hat hm1 hok (hl1.trans hml.symm)
  obtain ⟨A, B, la, lb⟩ := leaves_replace q root [] m hroot hat
  obtain ⟨A1, A2, aa, ab⟩ := addrs_replace q root [] m hroot hat
  obtain ⟨L1, L2, e1, e2⟩ := hleaves
  obtain ⟨fresh, f1, f2, f3⟩ := hfresh
  have hperm : (addrs (replace_at q root m1)).Perm (fresh ++ addrs root) := by
    rw [ab m1, aa]
    have h1 := f1
    rw [List.perm_iff_count] at h1 ⊢
    intro x
    have := h1 x
    simp only [List.count_append] at this ⊢
    omega
  refine ⟨w1, w2.trans hrl, (replace_at_key hat hkey).trans hrk, ⟨A ++ L1, L2 ++ B, ?_, ?_⟩, ?_, ?_⟩
  · rw [la, e1]; simp
  · rw [lb m1, e2]; simp
  · rw [hperm.nodup_iff, List.nodup_append]
    refine ⟨f2, hnd, ?_⟩
    intro x hx hx1
    have := (f3 x hx).1
    have := hlt x hx1
    omega
  · intro x hx
    rcases List.mem_append.1 (hperm.mem_iff.1 hx) with h | h
    · exact (f3 x h).2
    · exact lt_of_lt_of_le (hlt x h) hnext

theorem find_node_root (key : Key) (root : radix_tree_node V) (hrk : root.m_key = []) :
    find_node key root 0 = find_node ([] ++ root.m_key ++ key) root ([] ++ root.m_key).length := by
  rw [hrk]; rfl

/-- The method `find` on a tree with the invariant: the leaf that stores the key, if any. -/
theorem find_spec {t : radix_tree V} (hw : tree_wf t) (key : Key) :
    (∀ x ∈ tree_leaves t, stored_key x = some key → find t key = some x.addr) ∧
    ((∀ x ∈ tree_leaves t, stored_key x ≠ some key) → find t key = none) ∧
    (∀ a, find t key = some a → ∃ x ∈ tree_leaves t, stored_key x = some key ∧ x.addr = a) := by
  unfold tree_wf at hw
  unfold tree_leaves find
  cases hroot : t.m_root with
  | none =>
    refine ⟨?_, ?_, ?_⟩
    · intro x hx; cases hx
    · intro _; rfl
    · intro a h; cases h
  | some root =>
    rw [hroot] at hw
    simp only [] at hw ⊢
    obtain ⟨h1, h2, h3, -⟩ := hw
    obtain ⟨m, k1, k2, k3⟩ := find_node_spec root [] key h1 h2
    rw [← find_node_root key root h3] at k1
    have hk : [] ++ root.m_key ++ key = key := by rw [h3]; rfl
    rw [hk] at k2 k3
    rw [k1]
    simp only []
    refine ⟨?_, ?_, ?_⟩
    · intro x hx hkx
      have hxm := k3 x hx hkx
      subst hxm
      obtain ⟨r, v, hr⟩ := h1.leaves_form root [] x hx
      have : x.m_is_leaf = true := by rw [hr]; rfl
      simp [this]
    · intro hno
      by_cases hl : m.m_is_leaf = true
      · exact absurd (k2 hl).2 (hno m (k2 hl).1)
      · simp [hl]
    · intro a ha
      by_cases hl : m.m_is_leaf = true
      · simp only [hl, Bool.not_true, Bool.false_eq_true, if_false, Option.some.injEq] at ha
        exact ⟨m, (k2 hl).1, (k2 hl).2, ha⟩
      · simp [hl] at ha

end InsertSpec

section InsertTree
variable {V : Type}

theorem insert_eq_leaf {t : radix_tree V} {root : radix_tree_node V} (hroot : t.m_root = some root)
    (val : Key × V) {node : radix_tree_node V}
    (hnode : node_at (find_node val.1 root 0) root = some node) (hl : node.m_is_leaf = true) :
    insert t val = (t, some node.addr, false) := by
  unfold insert
  simp only [hroot, hnode, hl, if_true]

theorem insert_eq_append {t : radix_tree V} {root : radix_tree_node V} (hroot : t.m_root = some root)
    (val : Key × V) {m : radix_tree_node V}
    (hnode : node_at (find_node val.1 root 0) root = some m) (hl : m.m_is_leaf = false)
    (hcond : find_node val.1 root 0 = [] ∨
      radix_substr val.1 m.m_depth (radix_length m.m_key) = m.m_key) :
    insert t val =
      ({ m_size := t.m_size + 1,
         m_root := some (replace_at (find_node val.1 root 0) root (append t.next_addr m val).1),
         next_addr := (append t.next_addr m val).2.2 },
        some (append t.next_addr m val).2.1, true) := by
  unfold insert
  simp only [hroot, hnode, hl]
  by_cases hp : find_node val.1 root 0 = []
  · rw [hp] at hnode
    cases hnode
    simp [hp, replace_at_nil]
  · rcases hcond with h | h
    · exact absurd h hp
    · simp [hp, h]

theorem insert_eq_prepend {t : radix_tree V} {root : radix_tree_node V}
    (hroot : t.m_root = some root) (val : Key × V) {node par : radix_tree_node V}
    (hnode : node_at (find_node val.1 root 0) root = some node) (hl : node.m_is_leaf = false)
    (hp : find_node val.1 root 0 ≠ [])
    (hcond : ¬ radix_substr val.1 node.m_depth (radix_length node.m_key) = node.m_key)
    (hpar : node_at (find_node val.1 root 0).dropLast root = some par) :
    insert t val =
      ({ m_size := t.m_size + 1,
         m_root := some (replace_at (find_node val.1 root 0).dropLast root
           (prepend t.next_addr par node val).1),
         next_addr := (prepend t.next_addr par node val).2.2 },
        some (prepend t.next_addr par node val).2.1, true) := by
  unfold insert
  simp [hroot, hnode, hl, hp, hcond, hpar]

theorem radix_substr_label (pre lab rest : Key) :
    radix_substr (pre ++ lab ++ rest) pre.length (radix_length lab) = lab := by
  rw [List.append_assoc, radix_substr_append, List.take_left]

/-- Inserting a key that no leaf stores: the returned iterator points to a new leaf
with the pair, the other leaves stay in place, and the invariant is kept. -/
theorem insert_absent_root {t : radix_tree V} (hw : tree_wf t) {root : radix_tree_node V}
    (hroot : t.m_root = some root) (key : Key) (v : V)
    (hno : ∀ x ∈ tree_leaves t, stored_key x ≠ some key) :
    ∃ a, (insert t (key, v)).2 = (some a, true) ∧ tree_wf (insert t (key, v)).1 ∧
      (∃ L1 L2, tree_leaves t = L1 ++ L2 ∧
        tree_leaves (insert t (key, v)).1
          = L1 ++ [radix_tree_node.mk a [] (some (key, v)) key.length true []] ++ L2) ∧
      (insert t (key, v)).1.m_size = t.m_size + 1 ∧
      t.next_addr ≤ (insert t (key, v)).1.next_addr := by
  have hw0 := hw
  unfold tree_wf at hw
  rw [hroot] at hw
  simp only [] at hw
  obtain ⟨h1, h2, h3, h4, h5, h6⟩ := hw
  have hleaves : tree_leaves t = leaves root := by unfold tree_leaves; rw [hroot]
  rw [hleaves] at hno
  obtain ⟨q, m, pre_m, rest_m, res, k1, k2, k3, k4, k8, k5, k6, k7⟩ :=
    find_node_landing root [] key h1 h2
  rw [← find_node_root key root h3] at k6
  have hk : [] ++ root.m_key ++ key = key := by rw [h3]; rfl
  rw [hk] at k4 k5
  obtain ⟨g1, g2, g3, g4, g5⟩ := k2.node_inv k3
  -- the shared conclusion from a local specification
  have finish : ∀ (m1 : radix_tree_node V) (leafaddr next1 : Nat),
      insert t (key, v) = ((⟨t.m_size + 1, some (replace_at q root m1), next1⟩ : radix_tree V),
        some leafaddr, true) →
      WF pre_m m1 → (∀ l0, child_ok (l0, m) → child_ok (l0, m1)) → m1.m_is_leaf = false →
      m1.m_key = m.m_key →
      (∃ L1 L2, leaves m = L1 ++ L2 ∧ leaves m1 = L1 ++
        [radix_tree_node.mk leafaddr [] (some (key, v)) key.length true []] ++ L2) →
      (∃ fresh, (addrs m1).Perm (fresh ++ addrs m) ∧ fresh.Nodup ∧
        ∀ x ∈ fresh, t.next_addr ≤ x ∧ x < next1) →
      t.next_addr ≤ next1 →
      ∃ a, (insert t (key, v)).2 = (some a, true) ∧ tree_wf (insert t (key, v)).1 ∧
      (∃ L1 L2, tree_leaves t = L1 ++ L2 ∧
        tree_leaves (insert t (key, v)).1
          = L1 ++ [radix_tree_node.mk a [] (some (key, v)) key.length true []] ++ L2) ∧
      (insert t (key, v)).1.m_size = t.m_size + 1 ∧
      t.next_addr ≤ (insert t (key, v)).1.next_addr := by
    intro m1 leafaddr next1 heq a1 a2 a3 a4 a5 a6 a7
    rw [k8] at a1
    obtain ⟨b1, b2, b3, b4, b5, b6⟩ := replace_grow h1 h2 h3 h5 h6 k1 a1 a2 a3 k3 a4 a5 a6 a7
    rw [heq]
    refine ⟨leafaddr, rfl, ?_, ?_, rfl, a7⟩
    · unfold tree_wf
      simp only []
      refine ⟨b1, b2, b3, ?_, b5, b6⟩
      obtain ⟨L1, L2, c1, c2⟩ := b4
      rw [h4, c1, c2]
      simp
      omega
    · rw [hleaves]
      unfold tree_leaves
      exact b4
  rcases k7 with ⟨hr, e, he, e1, e2⟩ | ⟨hr, e1, e2⟩ | ⟨hr, e1, e2⟩ | ⟨hr, e, he, e1, e2, e3, e4⟩
  · -- a leaf stores the key: excluded
    exfalso
    have hn : e.2 ∈ leaves root := leaves_subset_of_node_at h1 k1 e.2
      (by rw [leaves_of_internal k3, mem_leaves_children]
          exact ⟨e, he, by rw [leaves_of_leaf e1]; exact List.mem_singleton_self _⟩)
    obtain ⟨v1, hv⟩ := (g4 e he).leaf_value e1
    apply hno e.2 hn
    rw [stored_key, hv, k4, hr]
    simp
  · subst e2
    rw [List.append_nil] at k6
    have hnode : node_at (find_node (key, v).1 root 0) root = some m := by
      show node_at (find_node key root 0) root = some m
      rw [k6]; exact k1
    have hcond : radix_substr (key, v).1 m.m_depth (radix_length m.m_key) = m.m_key := by
      show radix_substr key m.m_depth (radix_length m.m_key) = m.m_key
      rw [k4, g5]; exact radix_substr_label _ _ _
    have heq := insert_eq_append hroot (key, v) hnode k3 (Or.inr hcond)
    have hq : find_node (key, v).1 root 0 = q := k6
    rw [hq] at heq
    obtain ⟨s1, s2, s3, s4, s5, s6⟩ := append_spec k2 k3 rest_m t.next_addr v (Or.inl ⟨hr, e1⟩)
    rw [← k4] at s1 s2 s3 s4 s5 s6
    exact finish _ _ _ heq s1 s2 s3 (append_key _ _ _) s4 s5 s6
  · subst e2
    rw [List.append_nil] at k6
    have hnode : node_at (find_node (key, v).1 root 0) root = some m := by
      show node_at (find_node key root 0) root = some m
      rw [k6]; exact k1
    have hcond : radix_substr (key, v).1 m.m_depth (radix_length m.m_key) = m.m_key := by
      show radix_substr key m.m_depth (radix_length m.m_key) = m.m_key
      rw [k4, g5]; exact radix_substr_label _ _ _
    have heq := insert_eq_append hroot (key, v) hnode k3 (Or.inr hcond)
    have hq : find_node (key, v).1 root 0 = q := k6
    rw [hq] at heq
    obtain ⟨s1, s2, s3, s4, s5, s6⟩ := append_spec k2 k3 rest_m t.next_addr v (Or.inr ⟨hr, e1⟩)
    rw [← k4] at s1 s2 s3 s4 s5 s6
    exact finish _ _ _ heq s1 s2 s3 (append_key _ _ _) s4 s5 s6
  · subst e4
    have hq : find_node (key, v).1 root 0 = q ++ [e.1] := k6
    have hnode : node_at (find_node (key, v).1 root 0) root = some e.2 := by
      rw [hq, node_at_append, k1]
      show node_at [e.1] m = some e.2
      rw [node_at_child g1 he]; rfl
    have hpne : find_node (key, v).1 root 0 ≠ [] := by
      rw [hq]; exact List.append_ne_nil_of_right_ne_nil _ (List.cons_ne_nil _ _)
    have hcond : ¬ radix_substr (key, v).1 e.2.m_depth (radix_length e.2.m_key) = e.2.m_key := by
      show ¬ radix_substr key e.2.m_depth (radix_length e.2.m_key) = e.2.m_key
      rw [k4, (g4 e he).depth_eq, (g2 e he).1, radix_substr_append]
      exact fun h => e3 ((take_eq_iff_starts rest_m e.1).1 h)
    have hpar : node_at (find_node (key, v).1 root 0).dropLast root = some m := by
      rw [hq, List.dropLast_concat]; exact k1
    have heq := insert_eq_prepend hroot (key, v) hnode e1 hpne hcond hpar
    rw [hq, List.dropLast_concat] at heq
    obtain ⟨s1, s2, s3, s4, s5, s6⟩ := prepend_spec k2 k3 he e1 rest_m hr e2 e3 t.next_addr v
    rw [← k4] at s1 s2 s3 s4 s5 s6
    exact finish _ _ _ heq s1 s2 s3 (prepend_key _ _ _ _) s4 s5 s6

theorem insert_root_none {t : radix_tree V} (hroot : t.m_root = none) (val : Key × V) :
    insert t val = insert
      { m_size := t.m_size,
        m_root := some (.mk t.next_addr [] none 0 false []),
        next_addr := t.next_addr + 1 } val := by
  unfold insert
  simp only [hroot, radix_substr_nul]

/-- Inserting a key that no leaf stores, for every tree with the invariant. -/
theorem insert_absent {t : radix_tree V} (hw : tree_wf t) (key : Key) (v : V)
    (hno : ∀ x ∈ tree_leaves t, stored_key x ≠ some key) :
    ∃ a, (insert t (key, v)).2 = (some a, true) ∧ tree_wf (insert t (key, v)).1 ∧
      (∃ L1 L2, tree_leaves t = L1 ++ L2 ∧
        tree_leaves (insert t (key, v)).1
          = L1 ++ [radix_tree_node.mk a [] (some (key, v)) key.length true []] ++ L2) ∧
      (insert t (key, v)).1.m_size = t.m_size + 1 ∧
      t.next_addr ≤ (insert t (key, v)).1.next_addr := by
  cases hroot : t.m_root with
  | some root => exact insert_absent_root hw hroot key v hno
  | none =>
    rw [insert_root_none hroot]
    have hsz : t.m_size = 0 := by
      unfold tree_wf at hw; rw [hroot] at hw; exact hw
    have hl0 : tree_leaves t = [] := by unfold tree_leaves; rw [hroot]
    have hw1 : tree_wf (⟨t.m_size, some (.mk t.next_addr [] none 0 false []),
        t.next_addr + 1⟩ : radix_tree V) := by
      unfold tree_wf
      simp only []
      refine ⟨WF.node [] t.next_addr [] none [] List.Pairwise.nil (fun e he => nomatch he)
        (fun e he => nomatch he) (fun e he => nomatch he), rfl, rfl, ?_, ?_, ?_⟩
      · rw [hsz]; simp [leaves, leaves_children]
      · simp [addrs, addrs_children]
      · intro a ha
        simp only [addrs, addrs_children, List.mem_singleton] at ha
        omega
    obtain ⟨a, r1, r2, r3, r4, r5⟩ := insert_absent_root hw1 rfl key v (by
      intro x hx
      simp [tree_leaves, leaves, leaves_children] at hx)
    refine ⟨a, r1, r2, ?_, r4, ?_⟩
    · rw [hl0]
      obtain ⟨L1, L2, c1, c2⟩ := r3
      simp only [tree_leaves, leaves_mk_internal, leaves_children] at c1
      exact ⟨L1, L2, c1, c2⟩
    · simp only [] at r5
      omega

/-- Inserting a key that a leaf stores changes nothing and returns that leaf. -/
theorem insert_present {t : radix_tree V} (hw : tree_wf t) (key : Key) (v : V)
    {x : radix_tree_node V} (hx : x ∈ tree_leaves t) (hk : stored_key x = some key) :
    insert t (key, v) = (t, some x.addr, false) := by
  unfold tree_wf at hw
  unfold tree_leaves at hx
  cases hroot : t.m_root with
  | none => rw [hroot] at hx; cases hx
  | some root =>
    rw [hroot] at hw hx
    simp only [] at hw hx
    obtain ⟨h1, h2, h3, -⟩ := hw
    obtain ⟨m, k1, k2, k3⟩ := find_node_spec root [] key h1 h2
    rw [← find_node_root key root h3] at k1
    have hkk : [] ++ root.m_key ++ key = key := by rw [h3]; rfl
    rw [hkk] at k3
    have hxm := k3 x hx hk
    subst hxm
    obtain ⟨r, v1, hr⟩ := h1.leaves_form root [] x hx
    have hl : x.m_is_leaf = true := by rw [hr]; rfl
    exact insert_eq_leaf hroot (key, v) k1 hl

end InsertTree

section EraseLocal
variable {V : Type}

/-- The tree invariant after the contents of one node have been replaced by contents
with one leaf less and some addresses less. -/
theorem replace_shrink {root : radix_tree_node V} {next : Nat} (hroot : WF [] root)
    (hrl : root.m_is_leaf = false) (hrk : root.m_key = []) (hnd : (addrs root).Nodup)
    (hlt : ∀ a ∈ addrs root, a < next) {q : Path} {m m1 : radix_tree_node V}
    (hat : node_at q root = some m) (hm1 : WF (pre_at q root []) m1)
    (hok : q ≠ [] → ∀ l0, child_ok (l0, m) → child_ok (l0, m1)) (hl1 : m1.m_is_leaf = false)
    (hml : m.m_is_leaf = false) (hkey : m1.m_key = m.m_key) {x : radix_tree_node V}
    (hleaves : ∃ L1 L2, leaves m = L1 ++ [x] ++ L2 ∧ leaves m1 = L1 ++ L2)
    (hgone : ∃ gone, (gone ++ addrs m1).Perm (addrs m)) :
    WF [] (replace_at q root m1) ∧ (replace_at q root m1).m_is_leaf = false ∧
    (replace_at q root m1).m_key = [] ∧
    (∃ L1 L2, leaves root = L1 ++ [x] ++ L2 ∧ leaves (replace_at q root m1) = L1 ++ L2) ∧
    (addrs (replace_at q root m1)).Nodup ∧ ∀ a ∈ addrs (replace_at q root m1), a < next := by
  have hok1 : ∀ l0, child_ok (l0, m) → child_ok (l0, m1) := by
    by_cases hq : q = []
    · subst hq
      cases hat
      intro l0 h
      have h1 := h.1
      have h2 := (h.2 hrl).1
      simp only [] at h1 h2
      rw [hrk] at h1
      exact absurd h1.symm h2
    · exact hok hq
  obtain ⟨w1, w2, -⟩ := WF_replace q root [] m m1 hroot hat hm1 hok1 (hl1.trans hml.symm)
  obtain ⟨A, B, la, lb⟩ := leaves_replace q root [] m hroot hat
  obtain ⟨A1, A2, aa, ab⟩ := addrs_replace q root [] m hroot hat
  obtain ⟨L1, L2, e1, e2⟩ := hleaves
  obtain ⟨gone, f1⟩ := hgone
  have hperm : (gone ++ addrs (replace_at q root m1)).Perm (addrs root) := by
    rw [ab m1, aa]
    have h1 := f1
    rw [List.perm_iff_count] at h1 ⊢
    intro x
    have := h1 x
    simp only [List.count_append] at this ⊢
    omega
  refine ⟨w1, w2.trans hrl, (replace_at_key hat hkey).trans hrk, ⟨A ++ L1, L2 ++ B, ?_, ?_⟩, ?_, ?_⟩
  · rw [la, e1]; simp
  · rw [lb m1, e2]; simp
  · have := hperm.nodup_iff.2 hnd
    exact (List.nodup_append.1 this).2.1
  · intro a ha
    exact hlt a (hperm.mem_iff.1 (List.mem_append_right _ ha))

/-- Taking one child, below which there is a single leaf, out of the child map. -/
theorem remove_child {pre : Key} {g0 : radix_tree_node V} (hw : WF pre g0)
    (hl : g0.m_is_leaf = false) {l1 l2 : List (Key × radix_tree_node V)} {lab : Key}
    {c x : radix_tree_node V} (hcs : g0.m_children = l1 ++ (lab, c) :: l2)
    (hlc : leaves c = [x]) :
    map_erase g0.m_children lab = l1 ++ l2 ∧
    WF pre (g0.set_children (l1 ++ l2)) ∧
    (∃ L1 L2, leaves g0 = L1 ++ [x] ++ L2 ∧ leaves (g0.set_children (l1 ++ l2)) = L1 ++ L2 ∧
      L1 ++ L2 = leaves_children (l1 ++ l2)) ∧
    (addrs c ++ addrs (g0.set_children (l1 ++ l2))).Perm (addrs g0) := by
  obtain ⟨g1, g2, g3, g4, g5⟩ := hw.node_inv hl
  have hn1 : ∀ y ∈ l1, y.1 ≠ lab := by
    intro y hy
    rw [hcs, map_sorted_append] at g1
    exact ne_of_lt (g1.2.2 y hy _ (List.mem_cons_self _ _))
  have hsub : ∀ e ∈ l1 ++ l2, e ∈ g0.m_children := by
    intro e he
    rw [hcs]
    rcases List.mem_append.1 he with h | h
    · exact List.mem_append_left _ h
    · exact List.mem_append_right _ (List.mem_cons_of_mem _ h)
  refine ⟨?_, ?_, ?_, ?_⟩
  · rw [hcs]; exact map_erase_split l1 l2 lab c hn1
  · apply WF.of_parts
    · simpa using hl
    · simpa using g5
    · simp only [set_children_children]
      rw [hcs, map_sorted_append, map_sorted_cons] at g1
      rw [map_sorted_append]
      exact ⟨g1.1, g1.2.1.2, fun a ha b hb => g1.2.2 a ha b (List.mem_cons_of_mem _ hb)⟩
    · intro e he
      simp only [set_children_children] at he
      exact g2 e (hsub e he)
    · intro a ha b hb
      simp only [set_children_children] at ha hb
      exact g3 a (hsub a ha) b (hsub b hb)
    · intro e he
      simp only [set_children_children, set_children_key] at he ⊢
      exact g4 e (hsub e he)
  · refine ⟨leaves_children l1, leaves_children l2, ?_, ?_, ?_⟩
    · rw [leaves_of_internal hl, hcs, leaves_children_append, leaves_children_cons, hlc]
      simp
    · rw [leaves_of_internal (by simpa using hl), set_children_children, leaves_children_append]
    · rw [leaves_children_append]
  · rw [addrs_eq (g0.set_children _), addrs_eq g0, hcs, set_children_children, set_children_addr,
      addrs_children_append, addrs_children_append, addrs_children_cons]
    apply perm_of_count
    intro y
    simp only [List.count_cons, List.count_append]
    omega

theorem erase_merge_nil (root g : radix_tree_node V) : erase_merge root [] g = g := by
  unfold erase_merge
  simp

theorem erase_merge_single {root g ggp uncle : radix_tree_node V} {gq : Path} {l : Key}
    (hq : gq ≠ []) (hcs : g.m_children = [(l, uncle)]) (hu : uncle.m_is_leaf = false)
    (hggp : node_at gq.dropLast root = some ggp) :
    erase_merge root gq g = replace_at gq.dropLast root
      (ggp.set_children (map_insert (map_erase ggp.m_children g.m_key)
        (radix_join g.m_key uncle.m_key)
        (.mk uncle.addr uncle.m_children uncle.m_value g.m_depth uncle.m_is_leaf
          (radix_join g.m_key uncle.m_key)))) := by
  unfold erase_merge
  simp only [if_neg hq, hcs, hu, hggp, mk_key]
  rfl

theorem erase_merge_other {root g : radix_tree_node V} {gq : Path}
    (hcs : ∀ l uncle, g.m_children = [(l, uncle)] → uncle.m_is_leaf = true) :
    erase_merge root gq g = replace_at gq root g := by
  unfold erase_merge
  by_cases hq : gq = []
  · subst hq; simp [replace_at_nil]
  · rw [if_neg hq]
    split
    · next l uncle h =>
      simp [hcs l uncle h]
    · rfl

end EraseLocal

section EraseTree
variable {V : Type}

/-- The end of `erase`: a node has lost a child below which there was a single leaf, and
`erase_merge` puts the tree back in shape. -/
theorem erase_finish {root : radix_tree_node V} {N : Nat} (hroot : WF [] root)
    (hrl : root.m_is_leaf = false) (hrk : root.m_key = []) (hnd : (addrs root).Nodup)
    (hlt : ∀ a ∈ addrs root, a < N) {gq : Path} {g0 : radix_tree_node V}
    (hat : node_at gq root = some g0) (hg0l : g0.m_is_leaf = false)
    {l1 l2 : List (Key × radix_tree_node V)} {lab : Key} {c x : radix_tree_node V}
    (hcs : g0.m_children = l1 ++ (lab, c) :: l2) (hlc : leaves c = [x])
    (hne : gq = [] ∨ l1 ++ l2 ≠ []) :
    WF [] (erase_merge root gq (g0.set_children (l1 ++ l2))) ∧
    (erase_merge root gq (g0.set_children (l1 ++ l2))).m_is_leaf = false ∧
    (erase_merge root gq (g0.set_children (l1 ++ l2))).m_key = [] ∧
    (∃ L1 L2, leaves root = L1 ++ [x] ++ L2 ∧
      leaves (erase_merge root gq (g0.set_children (l1 ++ l2))) = L1 ++ L2) ∧
    (addrs (erase_merge root gq (g0.set_children (l1 ++ l2)))).Nodup ∧
    ∀ a ∈ addrs (erase_merge root gq (g0.set_children (l1 ++ l2))), a < N := by
  have hwg0 : WF (pre_at gq root []) g0 := WF.at_path gq root [] g0 hroot hat
  obtain ⟨-, wg, ⟨X1, X2, lv0, lv1, lv2⟩, pg⟩ := remove_child hwg0 hg0l hcs hlc
  by_cases hq : gq = []
  · subst hq
    rw [erase_merge_nil]
    have := replace_shrink hroot hrl hrk hnd hlt hat wg (fun h => absurd rfl h)
      (by simpa using hg0l) hg0l (set_children_key _ _) ⟨X1, X2, lv0, lv1⟩ ⟨_, pg⟩
    rw [replace_at_nil] at this
    exact this
  · have hne1 : l1 ++ l2 ≠ [] := by
      rcases hne with h | h
      · exact absurd h hq
      · exact h
    by_cases hm : ∃ l uncle, l1 ++ l2 = [(l, uncle)] ∧ uncle.m_is_leaf = false
    · obtain ⟨l, uncle, hlu, hul⟩ := hm
      have hgq : gq = gq.dropLast ++ [gq.getLast hq] := (List.dropLast_append_getLast hq).symm
      rw [hgq] at hat
      obtain ⟨ggp, k1, k2, a1, a2, a3, a4, a5, a6, a7, a8, a9⟩ := node_at_snoc_inv hroot hat
      rw [← hgq] at a9
      have hgk : g0.m_key = gq.getLast hq := a8.1
      obtain ⟨b1, b2, b3⟩ := a8.2 hg0l
      obtain ⟨g1, g2, g3, g4, g5⟩ := a7.node_inv hg0l
      have hum : (l, uncle) ∈ g0.m_children := by
        have : (l, uncle) ∈ l1 ++ l2 := by rw [hlu]; exact List.mem_singleton_self _
        rw [hcs]
        rcases List.mem_append.1 this with h | h
        · exact List.mem_append_left _ h
        · exact List.mem_append_right _ (List.mem_cons_of_mem _ h)
      have hwu := g4 _ hum
      have hoku := g2 _ hum
      obtain ⟨u1, u2, u3, u4, u5⟩ := hwu.node_inv hul
      obtain ⟨c1, c2, c3⟩ := hoku.2 hul
      rw [erase_merge_single hq (by rw [set_children_children]; exact hlu) hul a1]
      simp only [set_children_key, set_children_depth, radix_join, hul]
      have hw1 : WF (pre_at gq.dropLast root [] ++ ggp.m_key)
          (radix_tree_node.mk uncle.addr uncle.m_children uncle.m_value g0.m_depth false
            (g0.m_key ++ uncle.m_key)) := by
        apply WF.of_parts (mk_is_leaf _ _ _ _ _ _)
        · rw [mk_depth]; exact g5
        · rw [mk_children]; exact u1
        · rw [mk_children]; exact u2
        · rw [mk_children]; exact u3
        · intro e he
          rw [mk_children] at he
          rw [mk_key, ← List.append_assoc]
          exact u4 e he
      have hok1 : child_ok (g0.m_key ++ uncle.m_key,
          radix_tree_node.mk uncle.addr uncle.m_children uncle.m_value g0.m_depth false
            (g0.m_key ++ uncle.m_key)) := by
        refine ⟨rfl, fun _ => ⟨?_, c2, c3⟩⟩
        intro h
        rw [hgk] at h
        exact b1 (List.append_eq_nil.1 h).1
      have hhead : (g0.m_key ++ uncle.m_key).head? = (gq.getLast hq).head? := by
        rw [hgk]
        exact head_of_starts (List.prefix_append _ _) b1
      obtain ⟨s1, s2, s3⟩ := relabel_child a2 a3 a4 hg0l (mk_is_leaf _ _ _ _ _ _) hhead hok1 hw1
      rw [hgk] at s1 ⊢
      rw [s1]
      rw [hgk] at s2 s3
      refine replace_shrink hroot hrl hrk hnd hlt a1 s2 (fun _ => s3) (by simpa using a3) a3
        (set_children_key _ _) ?_ ?_
      · refine ⟨leaves_children k1 ++ X1, X2 ++ leaves_children k2, ?_, ?_⟩
        · rw [leaves_of_internal a3, a4, leaves_children_append, leaves_children_cons, lv0]
          simp
        · rw [leaves_of_internal (by simpa using a3), set_children_children,
            leaves_children_append, leaves_children_cons]
          simp only [leaves_mk_internal]
          have : X1 ++ X2 = leaves_children uncle.m_children := by
            rw [lv2, hlu, leaves_children_cons, leaves_of_internal hul]
            simp [leaves_children]
          rw [← this]
          simp
      · refine ⟨addrs c ++ [g0.addr], ?_⟩
        rw [addrs_eq (ggp.set_children _), addrs_eq ggp, a4, set_children_children,
          set_children_addr, addrs_children_append,
          addrs_children_append, addrs_children_cons, addrs_children_cons]
        have hp1 := pg
        rw [addrs_eq (g0.set_children _), set_children_children, set_children_addr, hlu,
          addrs_children_cons, addrs_eq uncle] at hp1
        simp only [addrs_children, List.append_nil] at hp1
        simp only [addrs]
        rw [List.perm_iff_count] at hp1 ⊢
        intro y
        have := hp1 y
        simp only [List.count_cons, List.count_append, List.count_nil] at this ⊢
        omega
    · have hother : ∀ l uncle, (g0.set_children (l1 ++ l2)).m_children = [(l, uncle)] →
          uncle.m_is_leaf = true := by
        intro l uncle h
        rw [set_children_children] at h
        by_cases hu : uncle.m_is_leaf = true
        · exact hu
        · exact absurd ⟨l, uncle, h, by simpa using hu⟩ hm
      rw [erase_merge_other hother]
      refine replace_shrink hroot hrl hrk hnd hlt hat wg ?_ (by simpa using hg0l) hg0l
        (set_children_key _ _) ⟨X1, X2, lv0, lv1⟩ ⟨_, pg⟩
      intro _ l0 hc
      refine ⟨by simpa using hc.1, fun _ => ⟨(hc.2 hg0l).1, ?_, ?_⟩⟩
      · simpa using hne1
      · intro cc hcc
        exact hother cc.1 cc.2 hcc

end EraseTree

section EraseSpec
variable {V : Type}

/-- Erasing a key that no leaf stores changes nothing. -/
theorem erase_absent {t : radix_tree V} (hw : tree_wf t) (key : Key)
    (hno : ∀ x ∈ tree_leaves t, stored_key x ≠ some key) : erase t key = (t, false) := by
  unfold tree_wf at hw
  unfold tree_leaves at hno
  unfold erase
  cases hroot : t.m_root with
  | none => rfl
  | some root =>
    rw [hroot] at hw hno
    simp only [] at hw hno ⊢
    obtain ⟨h1, h2, h3, -⟩ := hw
    obtain ⟨m, k1, k2, k3⟩ := find_node_spec root [] key h1 h2
    rw [← find_node_root key root h3] at k1
    have hkk : [] ++ root.m_key ++ key = key := by rw [h3]; rfl
    rw [hkk] at k2
    rw [k1]
    simp only []
    have hl : m.m_is_leaf = false := by
      by_cases hl : m.m_is_leaf = true
      · exact absurd (k2 hl).2 (hno m (k2 hl).1)
      · simpa using hl
    simp [hl]

theorem erase_eq_root {t : radix_tree V} {root : radix_tree_node V} (hroot : t.m_root = some root)
    (key : Key) {child parent0 : radix_tree_node V}
    (hnode : node_at (find_node key root 0) root = some child) (hl : child.m_is_leaf = true)
    (hp : find_node key root 0 ≠ [])
    (hpar : node_at (find_node key root 0).dropLast root = some parent0)
    (hq : (find_node key root 0).dropLast = []) :
    erase t key = ((⟨t.m_size - 1,
      some (parent0.set_children (map_erase parent0.m_children [])), t.next_addr⟩ :
        radix_tree V), true) := by
  unfold erase
  simp only [hroot, hnode, hl, hpar, radix_substr_nul, if_neg hp, Bool.not_true,
    Bool.false_eq_true, if_false]
  simp only [hq, if_true]

theorem erase_eq_many {t : radix_tree V} {root : radix_tree_node V} (hroot : t.m_root = some root)
    (key : Key) {child parent0 : radix_tree_node V}
    (hnode : node_at (find_node key root 0) root = some child) (hl : child.m_is_leaf = true)
    (hp : find_node key root 0 ≠ [])
    (hpar : node_at (find_node key root 0).dropLast root = some parent0)
    (hq : (find_node key root 0).dropLast ≠ [])
    (hlen : (map_erase parent0.m_children []).length > 1) :
    erase t key = ((⟨t.m_size - 1,
      some (replace_at (find_node key root 0).dropLast root
        (parent0.set_children (map_erase parent0.m_children []))), t.next_addr⟩ :
        radix_tree V), true) := by
  unfold erase
  simp only [hroot, hnode, hl, hpar, radix_substr_nul, if_neg hp, Bool.not_true,
    Bool.false_eq_true, if_false, if_neg hq, set_children_children, if_pos hlen]

theorem erase_eq_empty {t : radix_tree V} {root : radix_tree_node V} (hroot : t.m_root = some root)
    (key : Key) {child parent0 gp0 : radix_tree_node V}
    (hnode : node_at (find_node key root 0) root = some child) (hl : child.m_is_leaf = true)
    (hp : find_node key root 0 ≠ [])
    (hpar : node_at (find_node key root 0).dropLast root = some parent0)
    (hq : (find_node key root 0).dropLast ≠ [])
    (hemp : map_erase parent0.m_children [] = [])
    (hgp : node_at (find_node key root 0).dropLast.dropLast root = some gp0) :
    erase t key = ((⟨t.m_size - 1,
      some (erase_merge root (find_node key root 0).dropLast.dropLast
        (gp0.set_children (map_erase gp0.m_children parent0.m_key))), t.next_addr⟩ :
        radix_tree V), true) := by
  unfold erase
  simp [hroot, hnode, hl, hpar, radix_substr_nul, hp, hq, hemp, hgp]

theorem erase_eq_one {t : radix_tree V} {root : radix_tree_node V} (hroot : t.m_root = some root)
    (key : Key) {child parent0 : radix_tree_node V}
    (hnode : node_at (find_node key root 0) root = some child) (hl : child.m_is_leaf = true)
    (hp : find_node key root 0 ≠ [])
    (hpar : node_at (find_node key root 0).dropLast root = some parent0)
    (hq : (find_node key root 0).dropLast ≠ [])
    (hlen : ¬ (map_erase parent0.m_children []).length > 1)
    (hemp : map_erase parent0.m_children [] ≠ []) :
    erase t key = ((⟨t.m_size - 1,
      some (erase_merge root (find_node key root 0).dropLast
        (parent0.set_children (map_erase parent0.m_children []))), t.next_addr⟩ :
        radix_tree V), true) := by
  unfold erase
  have h1 : ¬ (map_erase parent0.m_children []).isEmpty = true := by
    rw [List.isEmpty_iff]; exact hemp
  simp only [hroot, hnode, hl, hpar, radix_substr_nul, if_neg hp, Bool.not_true,
    Bool.false_eq_true, if_false, if_neg hq, set_children_children, if_neg hlen, if_neg h1]

end EraseSpec

section ErasePresent
variable {V : Type}

/-- Erasing a key that a leaf stores: that leaf disappears, the other leaves stay in
place, and the invariant is kept. -/
theorem erase_present {t : radix_tree V} (hw : tree_wf t) (key : Key)
    {x : radix_tree_node V} (hx : x ∈ tree_leaves t) (hk : stored_key x = some key) :
    (erase t key).2 = true ∧ tree_wf (erase t key).1 ∧
    (∃ L1 L2, tree_leaves t = L1 ++ [x] ++ L2 ∧ tree_leaves (erase t key).1 = L1 ++ L2) ∧
    (erase t key).1.m_size = t.m_size - 1 ∧ (erase t key).1.next_addr = t.next_addr := by
  unfold tree_wf at hw
  cases hroot : t.m_root with
  | none => unfold tree_leaves at hx; rw [hroot] at hx; cases hx
  | some root =>
    have hleaves : tree_leaves t = leaves root := by unfold tree_leaves; rw [hroot]
    rw [hroot] at hw
    rw [hleaves] at hx
    simp only [] at hw
    obtain ⟨h1, h2, h3, h4, h5, h6⟩ := hw
    obtain ⟨m', j1, j2, j3⟩ := find_node_spec root [] key h1 h2
    obtain ⟨q, m, pre_m, rest_m, res, k1, k2, k3, k4, k8, k5, k6, k7⟩ :=
      find_node_landing root [] key h1 h2
    rw [← find_node_root key root h3] at j1 k6
    have hkk : [] ++ root.m_key ++ key = key := by rw [h3]; rfl
    rw [hkk] at j3
    have hxm := j3 x hx hk
    subst hxm
    obtain ⟨r0, v0, hr0⟩ := h1.leaves_form root [] x hx
    have hxl : x.m_is_leaf = true := by rw [hr0]; rfl
    obtain ⟨g1, g2, g3, g4, g5⟩ := k2.node_inv k3
    -- the shared conclusion
    have finish : ∀ (root1 : radix_tree_node V),
        erase t key = ((⟨t.m_size - 1, some root1, t.next_addr⟩ : radix_tree V), true) →
        (WF [] root1 ∧ root1.m_is_leaf = false ∧ root1.m_key = [] ∧
          (∃ L1 L2, leaves root = L1 ++ [x] ++ L2 ∧ leaves root1 = L1 ++ L2) ∧
          (addrs root1).Nodup ∧ ∀ a ∈ addrs root1, a < t.next_addr) →
        (erase t key).2 = true ∧ tree_wf (erase t key).1 ∧
        (∃ L1 L2, tree_leaves t = L1 ++ [x] ++ L2 ∧ tree_leaves (erase t key).1 = L1 ++ L2) ∧
        (erase t key).1.m_size = t.m_size - 1 ∧ (erase t key).1.next_addr = t.next_addr := by
      intro root1 heq ⟨b1, b2, b3, b4, b5, b6⟩
      rw [heq]
      refine ⟨rfl, ?_, ?_, rfl, rfl⟩
      · unfold tree_wf
        simp only []
        refine ⟨b1, b2, b3, ?_, b5, b6⟩
        obtain ⟨L1, L2, c1, c2⟩ := b4
        rw [h4, c1, c2]
        simp
      · rw [hleaves]
        unfold tree_leaves
        exact b4
    have hnotleaf : ∀ n : radix_tree_node V, node_at (find_node key root 0) root = some n →
        n.m_is_leaf = false → False := by
      intro n hn hnl
      rw [j1] at hn
      cases hn
      rw [hxl] at hnl
      cases hnl
    rcases k7 with ⟨hr, e, he, e1, e2⟩ | ⟨hr, e1, e2⟩ | ⟨hr, e1, e2⟩ | ⟨hr, e, he, e1, e2, e3, e4⟩
    · subst e2
      have hek : e.1 = [] := by
        have := (g4 e he).leaf_key e1
        rw [(g2 e he).1] at this; exact this
      have hnode : node_at (find_node key root 0) root = some e.2 := by
        rw [k6, node_at_append, k1]
        show node_at [e.1] m = some e.2
        rw [node_at_child g1 he]; rfl
      have hex : e.2 = x := by
        rw [j1] at hnode
        exact (Option.some.inj hnode).symm
      have hpne : find_node key root 0 ≠ [] := by
        rw [k6]; exact List.append_ne_nil_of_right_ne_nil _ (List.cons_ne_nil _ _)
      have hdl : (find_node key root 0).dropLast = q := by rw [k6, List.dropLast_concat]
      have hpar : node_at (find_node key root 0).dropLast root = some m := by rw [hdl]; exact k1
      obtain ⟨l1, l2, hcs, -, -⟩ := map_split_of_mem g1 he
      have hcs1 : m.m_children = l1 ++ ([], x) :: l2 := by
        rw [hcs]
        have : e = ([], x) := Prod.ext hek hex
        rw [this]
      have hlx : leaves x = [x] := leaves_of_leaf hxl
      obtain ⟨r1, -, -, -⟩ := remove_child k2 k3 hcs1 hlx
      by_cases hq : q = []
      · -- the parent is the root
        have heq := erase_eq_root hroot key j1 hxl hpne hpar (by rw [hdl]; exact hq)
        rw [r1] at heq
        have := erase_finish h1 h2 h3 h5 h6 k1 k3 hcs1 hlx (Or.inl hq) (N := t.next_addr)
        rw [hq, erase_merge_nil] at this
        exact finish _ heq this
      · by_cases hlen : (l1 ++ l2).length > 1
        · have heq := erase_eq_many hroot key j1 hxl hpne hpar (by rw [hdl]; exact hq)
            (by rw [r1]; exact hlen)
          rw [r1, hdl] at heq
          have hne : l1 ++ l2 ≠ [] := by
            intro h; rw [h] at hlen; simp at hlen
          have := erase_finish h1 h2 h3 h5 h6 k1 k3 hcs1 hlx (Or.inr hne) (N := t.next_addr)
          rw [erase_merge_other (by
            intro l uncle h
            rw [set_children_children] at h
            rw [h] at hlen
            simp at hlen)] at this
          exact finish _ heq this
        · by_cases hemp : l1 ++ l2 = []
          · -- the parent is left without children and is removed from the grandparent
            have hgq : q = q.dropLast ++ [q.getLast hq] := (List.dropLast_append_getLast hq).symm
            have k1' := k1
            rw [hgq] at k1'
            obtain ⟨gp0, n1, n2, a1, a2, a3, a4, a5, a6, a7, a8, a9⟩ := node_at_snoc_inv h1 k1'
            have hmk : m.m_key = q.getLast hq := a8.1
            have heq := erase_eq_empty hroot key j1 hxl hpne hpar (by rw [hdl]; exact hq)
              (by rw [r1]; exact hemp) (by rw [hdl]; exact a1)
            rw [hdl, hmk] at heq
            have hl12 : l1 = [] ∧ l2 = [] := List.append_eq_nil.1 hemp
            have hlm : leaves m = [x] := by
              rw [leaves_of_internal k3, hcs1, hl12.1, hl12.2]
              simp [leaves_children, hlx]
            obtain ⟨r2, -, -, -⟩ := remove_child a2 a3 a4 hlm
            rw [r2] at heq
            have hne : q.dropLast = [] ∨ n1 ++ n2 ≠ [] := by
              by_cases hqq : q.dropLast = []
              · exact Or.inl hqq
              · right
                intro hn
                have hn12 : n1 = [] ∧ n2 = [] := List.append_eq_nil.1 hn
                have hgq2 : q.dropLast = q.dropLast.dropLast ++ [q.dropLast.getLast hqq] :=
                  (List.dropLast_append_getLast hqq).symm
                have a1' := a1
                rw [hgq2] at a1'
                obtain ⟨-, -, -, -, -, -, -, -, -, -, c8, -⟩ := node_at_snoc_inv h1 a1'
                have := (c8.2 a3).2.2 (q.getLast hq, m) (by
                  show gp0.m_children = _
                  rw [a4, hn12.1, hn12.2]; rfl)
                rw [k3] at this
                cases this
            exact finish _ heq
              (erase_finish h1 h2 h3 h5 h6 a1 a3 a4 hlm hne (N := t.next_addr))
          · have heq := erase_eq_one hroot key j1 hxl hpne hpar (by rw [hdl]; exact hq)
              (by rw [r1]; exact hlen) (by rw [r1]; exact hemp)
            rw [r1, hdl] at heq
            exact finish _ heq
              (erase_finish h1 h2 h3 h5 h6 k1 k3 hcs1 hlx (Or.inr hemp) (N := t.next_addr))
    · subst e2
      exact absurd k3 (by
        intro h
        exact hnotleaf m (by rw [k6, List.append_nil]; exact k1) h)
    · subst e2
      exact absurd k3 (by
        intro h
        exact hnotleaf m (by rw [k6, List.append_nil]; exact k1) h)
    · subst e4
      exfalso
      refine hnotleaf e.2 ?_ e1
      rw [k6, node_at_append, k1]
      show node_at [e.1] m = some e.2
      rw [node_at_child g1 he]; rfl

end ErasePresent

section Iteration
variable {V : Type}

theorem split_unique {α : Type} {l : List α} (hnd : l.Nodup) {x : α} :
    ∀ {A B A1 B1 : List α}, l = A ++ [x] ++ B → l = A1 ++ [x] ++ B1 → A = A1 ∧ B = B1 := by
  induction l with
  | nil =>
    intro A B A1 B1 h1 _
    have := congrArg List.length h1
    simp at this
    omega
  | cons a l ih =>
    intro A B A1 B1 h1 h2
    rw [List.nodup_cons] at hnd
    cases A with
    | nil =>
      cases A1 with
      | nil =>
        simp only [List.nil_append, List.singleton_append, List.cons.injEq] at h1 h2
        exact ⟨rfl, h1.2.symm.trans h2.2⟩
      | cons a1 A1 =>
        simp only [List.nil_append, List.singleton_append, List.cons.injEq, List.cons_append,
          List.append_assoc] at h1 h2
        exfalso
        apply hnd.1
        rw [h2.2, h1.1]
        simp
    | cons a0 A =>
      cases A1 with
      | nil =>
        simp only [List.nil_append, List.singleton_append, List.cons.injEq, List.cons_append,
          List.append_assoc] at h1 h2
        exfalso
        apply hnd.1
        rw [h1.2, h2.1]
        simp
      | cons a1 A1 =>
        simp only [List.cons_append, List.cons.injEq] at h1 h2
        obtain ⟨e1, e2⟩ := ih hnd.2 h1.2 h2.2
        exact ⟨by rw [← h1.1, ← h2.1, e1], e2⟩

theorem leaves_children_addr_sublist (cs : List (Key × radix_tree_node V))
    (h : ∀ e ∈ cs, ((leaves e.2).map radix_tree_node.addr).Sublist (addrs e.2)) :
    ((leaves_children cs).map radix_tree_node.addr).Sublist (addrs_children cs) := by
  induction cs with
  | nil => simp [leaves_children, addrs_children]
  | cons e cs ih =>
    rw [leaves_children_cons, addrs_children_cons, List.map_append]
    exact List.Sublist.append (h e (List.mem_cons_self _ _))
      (ih (fun e1 he1 => h e1 (List.mem_cons_of_mem _ he1)))

/-- The addresses of the leaves are among the addresses of the nodes, in the same order. -/
theorem leaves_addr_sublist : ∀ n : radix_tree_node V,
    ((leaves n).map radix_tree_node.addr).Sublist (addrs n) := by
  intro n
  induction n using node_induction with
  | h n ih =>
    rw [addrs_eq]
    by_cases hl : n.m_is_leaf = true
    · rw [leaves_of_leaf hl]
      simp
    · rw [leaves_of_internal (by simpa using hl)]
      exact List.Sublist.cons _ (leaves_children_addr_sublist _ ih)

theorem leaves_nodup {n : radix_tree_node V} (h : (addrs n).Nodup) : (leaves n).Nodup :=
  List.Nodup.of_map _ (List.Nodup.sublist (leaves_addr_sublist n) h)

theorem leaves_addr_inj {n : radix_tree_node V} (h : (addrs n).Nodup) {x y : radix_tree_node V}
    (hx : x ∈ leaves n) (hy : y ∈ leaves n) (hxy : x.addr = y.addr) : x = y :=
  List.inj_on_of_nodup_map (List.Nodup.sublist (leaves_addr_sublist n) h) hx hy hxy

theorem addr_mem_of_node_at {q : Path} {n m : radix_tree_node V} {pre : Key} (hw : WF pre n)
    (h : node_at q n = some m) : ∀ a ∈ addrs m, a ∈ addrs n := by
  obtain ⟨A1, A2, e, -⟩ := addrs_replace q n pre m hw h
  intro a ha
  rw [e]
  exact List.mem_append_left _ (List.mem_append_right _ ha)

theorem path_of_eq (a : Nat) (n : radix_tree_node V) :
    path_of a n = if n.addr = a then some [] else path_of_children a n.m_children := by
  obtain ⟨a1, cs, v, d, l, k⟩ := n
  simp [path_of, mk_addr, mk_children]

theorem path_of_children_cons (a : Nat) (e : Key × radix_tree_node V)
    (rest : List (Key × radix_tree_node V)) :
    path_of_children a (e :: rest) =
      match path_of a e.2 with
      | some p => some (e.1 :: p)
      | none => path_of_children a rest := by
  obtain ⟨k, c⟩ := e
  rfl

theorem path_of_none : ∀ (n : radix_tree_node V) (a : Nat), a ∉ addrs n → path_of a n = none := by
  intro n
  induction n using node_induction with
  | h n ih =>
    intro a ha
    rw [addrs_eq] at ha
    rw [path_of_eq, if_neg (fun h => ha (by rw [h]; exact List.mem_cons_self _ _))]
    have ha1 : a ∉ addrs_children n.m_children := fun h => ha (List.mem_cons_of_mem _ h)
    have : ∀ (cs : List (Key × radix_tree_node V)), (∀ e ∈ cs, e ∈ n.m_children) →
        a ∉ addrs_children cs → path_of_children a cs = none := by
      intro cs
      induction cs with
      | nil => intro _ _; rfl
      | cons e cs ihc =>
        intro hsub hna
        rw [addrs_children_cons] at hna
        rw [path_of_children_cons,
          ih e (hsub e (List.mem_cons_self _ _)) a (fun h => hna (List.mem_append_left _ h))]
        exact ihc (fun e1 he1 => hsub e1 (List.mem_cons_of_mem _ he1))
          (fun h => hna (List.mem_append_right _ h))
    exact this _ (fun e he => he) ha1

theorem path_of_children_split (a : Nat) (l1 l2 : List (Key × radix_tree_node V)) (lab : Key)
    (c : radix_tree_node V) (p : Path) (h1 : a ∉ addrs_children l1)
    (hc : path_of a c = some p) :
    path_of_children a (l1 ++ (lab, c) :: l2) = some (lab :: p) := by
  induction l1 with
  | nil => rw [List.nil_append, path_of_children_cons, hc]
  | cons e l1 ih =>
    rw [addrs_children_cons] at h1
    show path_of_children a (e :: (l1 ++ (lab, c) :: l2)) = _
    rw [path_of_children_cons, path_of_none e.2 a (fun h => h1 (List.mem_append_left _ h))]
    exact ih (fun h => h1 (List.mem_append_right _ h))

/-- The address of the node at a position resolves to that position. -/
theorem path_of_node_at : ∀ (p : Path) (n : radix_tree_node V) (pre : Key) (m : radix_tree_node V),
    WF pre n → (addrs n).Nodup → node_at p n = some m → path_of m.addr n = some p := by
  intro p
  induction p with
  | nil =>
    intro n pre m hw hnd h
    cases h
    rw [path_of_eq, if_pos rfl]
  | cons lab p ih =>
    intro n pre m hw hnd h
    obtain ⟨c, l1, l2, hl, hcs, hn1, hn2, hat, hwc, hok⟩ := node_at_cons_inv hw h
    have hmc : m.addr ∈ addrs c := addr_mem_of_node_at hwc hat m.addr (addr_mem_addrs m)
    rw [addrs_eq, hcs, addrs_children_append, addrs_children_cons, List.nodup_cons] at hnd
    obtain ⟨hnd1, hnd2⟩ := hnd
    have hd1 := List.nodup_append.1 hnd2
    have hd2 := List.nodup_append.1 hd1.2.1
    rw [path_of_eq, hcs]
    have hne : n.addr ≠ m.addr := by
      intro h
      apply hnd1
      rw [h]
      exact List.mem_append_right _ (List.mem_append_left _ hmc)
    rw [if_neg hne]
    apply path_of_children_split
    · intro h
      exact hd1.2.2 h (List.mem_append_left _ hmc)
    · exact ih c _ m hwc hd2.1 hat

/-- Every leaf below a node lies at some position. -/
theorem leaf_has_path : ∀ (n : radix_tree_node V) (pre : Key), WF pre n →
    ∀ x ∈ leaves n, ∃ p, node_at p n = some x := by
  intro n
  induction n using node_induction with
  | h n ih =>
    intro pre hw x hx
    by_cases hl : n.m_is_leaf = true
    · rw [leaves_of_leaf hl, List.mem_singleton] at hx
      exact ⟨[], by rw [hx]; rfl⟩
    · have hl : n.m_is_leaf = false := by simpa using hl
      obtain ⟨g1, g2, g3, g4, -⟩ := hw.node_inv hl
      rw [leaves_of_internal hl, mem_leaves_children] at hx
      obtain ⟨e, he, hxe⟩ := hx
      obtain ⟨p, hp⟩ := ih e he _ (g4 e he) x hxe
      exact ⟨e.1 :: p, by rw [node_at_child g1 he]; exact hp⟩

theorem descend_eq (n : radix_tree_node V) :
    descend n = if n.m_is_leaf then some n.addr else descend_first n.m_children := by
  obtain ⟨a1, cs, v, d, l, k⟩ := n
  simp [descend, mk_addr, mk_children, mk_is_leaf]

/-- The leftmost leaf below a node is the first of its leaves. -/
theorem descend_spec : ∀ (n : radix_tree_node V) (pre : Key), WF pre n →
    descend n = (leaves n).head?.map radix_tree_node.addr := by
  intro n
  induction n using node_induction with
  | h n ih =>
    intro pre hw
    rw [descend_eq]
    by_cases hl : n.m_is_leaf = true
    · rw [if_pos hl, leaves_of_leaf hl]; rfl
    · have hl : n.m_is_leaf = false := by simpa using hl
      obtain ⟨g1, g2, g3, g4, -⟩ := hw.node_inv hl
      rw [if_neg (by simp [hl]), leaves_of_internal hl]
      cases hcs : n.m_children with
      | nil => rfl
      | cons e rest =>
        have he : e ∈ n.m_children := by rw [hcs]; exact List.mem_cons_self _ _
        rw [leaves_children_cons]
        have hne : leaves e.2 ≠ [] := by
          apply (g4 e he).leaves_ne_nil
          by_cases hel : e.2.m_is_leaf = true
          · exact Or.inl hel
          · exact Or.inr ((g2 e he).2 (by simpa using hel)).2.1
        obtain ⟨y, ys, hy⟩ := List.exists_cons_of_ne_nil hne
        have h1 := ih e he _ (g4 e he)
        rw [hy] at h1 ⊢
        obtain ⟨k, c⟩ := e
        simp only [descend_first]
        exact h1

theorem increment_from_cons (root : radix_tree_node V) (lab : Key) (rq : List Key)
    {par m : radix_tree_node V} (h1 : node_at rq.reverse root = some par)
    (h2 : node_at (rq.reverse ++ [lab]) root = some m) :
    (∀ k sibling, map_next par.m_children m.m_key = some (some (k, sibling)) →
      increment_from root (lab :: rq) = descend sibling) ∧
    (map_next par.m_children m.m_key = some none →
      increment_from root (lab :: rq) = increment_from root rq) := by
  constructor
  · intro k sibling h
    simp only [increment_from, h1, h2, h]
  · intro h
    simp only [increment_from, h1, h2, h]

/-- The successor computed by `increment` is the first of the leaves that follow the
leaves below the node. -/
theorem increment_from_spec (root : radix_tree_node V) (hw : WF [] root) :
    ∀ (rq : List Key) (lab : Key) (m : radix_tree_node V),
    node_at (rq.reverse ++ [lab]) root = some m →
    ∃ B A, leaves root = B ++ leaves m ++ A ∧
      increment_from root (lab :: rq) = A.head?.map radix_tree_node.addr := by
  intro rq
  induction rq with
  | nil =>
    intro lab m h
    obtain ⟨par, l1, l2, a1, a2, a3, a4, a5, a6, a7, a8, -⟩ := node_at_snoc_inv hw h
    obtain ⟨inc1, inc2⟩ := increment_from_cons root lab [] a1 h
    have hmk : m.m_key = lab := a8.1
    rw [hmk, a4, map_next_split l1 l2 lab m a5] at inc1 inc2
    cases l2 with
    | nil =>
      have hpr : par = root := by
        have : node_at [] root = some par := a1
        exact (Option.some.inj this).symm
      subst hpr
      refine ⟨leaves_children l1, [], ?_, ?_⟩
      · rw [leaves_of_internal a3, a4, leaves_children_append, leaves_children_cons]
        simp [leaves_children]
      · rw [inc2 rfl]; rfl
    | cons s l2 =>
      obtain ⟨g1, g2, g3, g4, -⟩ := a2.node_inv a3
      have hs : s ∈ par.m_children := by rw [a4]; simp
      have hne : leaves s.2 ≠ [] := by
        apply (g4 s hs).leaves_ne_nil
        by_cases hel : s.2.m_is_leaf = true
        · exact Or.inl hel
        · exact Or.inr ((g2 s hs).2 (by simpa using hel)).2.1
      obtain ⟨y, ys, hy⟩ := List.exists_cons_of_ne_nil hne
      have hpr : par = root := by
        have : node_at [] root = some par := a1
        exact (Option.some.inj this).symm
      subst hpr
      refine ⟨leaves_children l1, leaves s.2 ++ leaves_children l2, ?_, ?_⟩
      · rw [leaves_of_internal a3, a4, leaves_children_append, leaves_children_cons,
          leaves_children_cons]
        simp
      · rw [inc1 s.1 s.2 rfl, descend_spec s.2 _ (g4 s hs), hy]
        rfl
  | cons lab1 rq ih =>
    intro lab m h
    obtain ⟨par, l1, l2, a1, a2, a3, a4, a5, a6, a7, a8, -⟩ := node_at_snoc_inv hw h
    obtain ⟨inc1, inc2⟩ := increment_from_cons root lab (lab1 :: rq) a1 h
    have hmk : m.m_key = lab := a8.1
    rw [hmk, a4, map_next_split l1 l2 lab m a5] at inc1 inc2
    cases l2 with
    | nil =>
      simp only [List.reverse_cons] at a1
      obtain ⟨B, A, e1, e2⟩ := ih lab1 par a1
      refine ⟨B ++ leaves_children l1, A, ?_, ?_⟩
      · rw [e1, leaves_of_internal a3, a4, leaves_children_append, leaves_children_cons]
        simp [leaves_children]
      · rw [inc2 rfl]; exact e2
    | cons s l2 =>
      obtain ⟨g1, g2, g3, g4, -⟩ := a2.node_inv a3
      have hs : s ∈ par.m_children := by rw [a4]; simp
      have hne : leaves s.2 ≠ [] := by
        apply (g4 s hs).leaves_ne_nil
        by_cases hel : s.2.m_is_leaf = true
        · exact Or.inl hel
        · exact Or.inr ((g2 s hs).2 (by simpa using hel)).2.1
      obtain ⟨y, ys, hy⟩ := List.exists_cons_of_ne_nil hne
      obtain ⟨B0, A0, e0, -⟩ := leaves_replace _ root [] par hw a1
      refine ⟨B0 ++ leaves_children l1, leaves s.2 ++ leaves_children l2 ++ A0, ?_, ?_⟩
      · rw [e0, leaves_of_internal a3, a4, leaves_children_append, leaves_children_cons,
          leaves_children_cons]
        simp
      · rw [inc1 s.1 s.2 rfl, descend_spec s.2 _ (g4 s hs), hy]
        rfl

end Iteration

section TreeIteration
variable {V : Type}

theorem tree_leaves_root {t : radix_tree V} {root : radix_tree_node V}
    (h : t.m_root = some root) : tree_leaves t = leaves root := by
  unfold tree_leaves; rw [h]

theorem tree_wf_root {t : radix_tree V} (hw : tree_wf t) {root : radix_tree_node V}
    (h : t.m_root = some root) :
    WF [] root ∧ root.m_is_leaf = false ∧ root.m_key = [] ∧
    t.m_size = (leaves root).length ∧ (addrs root).Nodup ∧ ∀ a ∈ addrs root, a < t.next_addr := by
  unfold tree_wf at hw; rw [h] at hw; exact hw

theorem tree_wf_size {t : radix_tree V} (hw : tree_wf t) : t.m_size = (tree_leaves t).length := by
  cases h : t.m_root with
  | none =>
    unfold tree_wf at hw; rw [h] at hw
    unfold tree_leaves; rw [h]; exact hw
  | some root => rw [tree_leaves_root h]; exact (tree_wf_root hw h).2.2.2.1

theorem tree_leaves_nodup {t : radix_tree V} (hw : tree_wf t) : (tree_leaves t).Nodup := by
  cases h : t.m_root with
  | none => unfold tree_leaves; rw [h]; exact List.nodup_nil
  | some root => rw [tree_leaves_root h]; exact leaves_nodup (tree_wf_root hw h).2.2.2.2.1

/-- Every leaf of a tree with the invariant is a leaf node that stores a pair. -/
theorem tree_leaf_form {t : radix_tree V} (hw : tree_wf t) {x : radix_tree_node V}
    (hx : x ∈ tree_leaves t) :
    ∃ k v, x = .mk x.addr [] (some (k, v)) k.length true [] := by
  cases h : t.m_root with
  | none => unfold tree_leaves at hx; rw [h] at hx; cases hx
  | some root =>
    rw [tree_leaves_root h] at hx
    obtain ⟨r, v, hr⟩ := (tree_wf_root hw h).1.leaves_form root [] x hx
    exact ⟨_, v, hr⟩

theorem tree_leaf_addr_inj {t : radix_tree V} (hw : tree_wf t) {x y : radix_tree_node V}
    (hx : x ∈ tree_leaves t) (hy : y ∈ tree_leaves t) (hxy : x.addr = y.addr) : x = y := by
  cases h : t.m_root with
  | none => unfold tree_leaves at hx; rw [h] at hx; cases hx
  | some root =>
    rw [tree_leaves_root h] at hx hy
    exact leaves_addr_inj (tree_wf_root hw h).2.2.2.2.1 hx hy hxy

/-- Two leaves of a tree with the invariant that store the same key are the same leaf. -/
theorem tree_leaf_key_inj {t : radix_tree V} (hw : tree_wf t) {x y : radix_tree_node V}
    (hx : x ∈ tree_leaves t) (hy : y ∈ tree_leaves t) (hxy : stored_key x = stored_key y) :
    x = y := by
  obtain ⟨k, v, hk⟩ := tree_leaf_form hw hx
  have hkx : stored_key x = some k := by rw [hk]; rfl
  have h1 := (find_spec hw k).1 x hx hkx
  have h2 := (find_spec hw k).1 y hy (hxy ▸ hkx)
  rw [h1] at h2
  exact tree_leaf_addr_inj hw hx hy (Option.some.inj h2)

/-- The dereference of an iterator to a leaf gives the pair stored in the leaf. -/
theorem deref_spec {t : radix_tree V} (hw : tree_wf t) {x : radix_tree_node V}
    (hx : x ∈ tree_leaves t) : deref t (some x.addr) = x.m_value := by
  cases h : t.m_root with
  | none => unfold tree_leaves at hx; rw [h] at hx; cases hx
  | some root =>
    rw [tree_leaves_root h] at hx
    obtain ⟨h1, h2, h3, h4, h5, h6⟩ := tree_wf_root hw h
    obtain ⟨p, hp⟩ := leaf_has_path root [] h1 x hx
    have := path_of_node_at p root [] x h1 h5 hp
    unfold deref node_of
    simp only [h, this, hp]

/-- The method `begin` gives the first leaf. -/
theorem begin_spec {t : radix_tree V} (hw : tree_wf t) :
    begin t = (tree_leaves t).head?.map radix_tree_node.addr := by
  cases h : t.m_root with
  | none => unfold begin tree_leaves; rw [h]; rfl
  | some root =>
    obtain ⟨h1, h2, h3, h4, h5, h6⟩ := tree_wf_root hw h
    rw [tree_leaves_root h]
    unfold begin
    simp only [h]
    by_cases hs : t.m_size = 0
    · rw [if_pos hs]
      rw [hs] at h4
      have : leaves root = [] := List.length_eq_zero.1 h4.symm
      rw [this]; rfl
    · rw [if_neg hs]
      exact descend_spec root [] h1

/-- The increment of an iterator to a leaf gives the next leaf, or `end()` after the
last one. -/
theorem operator_inc_spec {t : radix_tree V} (hw : tree_wf t) {L1 L2 : List (radix_tree_node V)}
    {x : radix_tree_node V} (h : tree_leaves t = L1 ++ [x] ++ L2) :
    operator_inc t (some x.addr) = L2.head?.map radix_tree_node.addr := by
  cases hr : t.m_root with
  | none =>
    unfold tree_leaves at h; rw [hr] at h
    have := congrArg List.length h
    simp at this
    omega
  | some root =>
    rw [tree_leaves_root hr] at h
    obtain ⟨h1, h2, h3, h4, h5, h6⟩ := tree_wf_root hw hr
    have hx : x ∈ leaves root := by rw [h]; simp
    obtain ⟨p, hp⟩ := leaf_has_path root [] h1 x hx
    obtain ⟨r, v, hxf⟩ := h1.leaves_form root [] x hx
    have hxl : x.m_is_leaf = true := by rw [hxf]; rfl
    have hpath := path_of_node_at p root [] x h1 h5 hp
    unfold operator_inc increment
    simp only [hr, hpath]
    cases hrev : p.reverse with
    | nil =>
      have : p = [] := List.reverse_eq_nil_iff.1 hrev
      subst this
      cases hp
      rw [h2] at hxl
      cases hxl
    | cons lab rq =>
      have hpe : p = rq.reverse ++ [lab] := by
        have := congrArg List.reverse hrev
        rw [List.reverse_reverse, List.reverse_cons] at this
        exact this
      rw [hpe] at hp
      obtain ⟨B, A, e1, e2⟩ := increment_from_spec root h1 rq lab x hp
      rw [leaves_of_leaf hxl] at e1
      rw [e2]
      have := split_unique (leaves_nodup h5) e1 h
      rw [this.2]

/-- The traversal from a leaf on visits the leaf and the leaves after it. -/
theorem walk_spec {t : radix_tree V} (hw : tree_wf t) :
    ∀ (L2 L1 : List (radix_tree_node V)) (fuel : Nat), tree_leaves t = L1 ++ L2 →
    L2.length ≤ fuel →
    walk t fuel (L2.head?.map radix_tree_node.addr) = some (L2.map radix_tree_node.addr) := by
  intro L2
  induction L2 with
  | nil =>
    intro L1 fuel _ _
    cases fuel <;> rfl
  | cons x L2 ih =>
    intro L1 fuel h hf
    cases fuel with
    | zero => simp at hf
    | succ fuel =>
      simp only [List.head?_cons, Option.map_some', walk, List.map_cons]
      have h1 : tree_leaves t = L1 ++ [x] ++ L2 := by rw [h]; simp
      rw [operator_inc_spec hw h1, ih (L1 ++ [x]) fuel h1 (by simpa using hf)]
      rfl

end TreeIteration

section RemoveIf
variable {V : Type}

theorem remove_if_loop_none (pred : Key → Bool) (fuel : Nat) (t : radix_tree V) :
    remove_if_loop pred fuel t none = t := by
  cases fuel <;> rfl

theorem remove_if_loop_succ (pred : Key → Bool) (fuel : Nat) (t : radix_tree V) (node : Nat)
    (kv : Key × V) (h : deref t (some node) = some kv) :
    remove_if_loop pred (fuel + 1) t (some node) =
      if pred kv.1 then remove_if_loop pred fuel (erase t kv.1).1 (operator_inc t (some node))
      else remove_if_loop pred fuel t (operator_inc t (some node)) := by
  simp only [remove_if_loop, h]

/-- The loop of `remove_if`: the leaves already visited stay, and of the leaves still to
be visited those stay whose key does not satisfy the predicate. -/
theorem remove_if_loop_spec (pred : Key → Bool) :
    ∀ (Todo Done : List (radix_tree_node V)) (t : radix_tree V) (fuel : Nat),
    tree_wf t → tree_leaves t = Done ++ Todo → Todo.length ≤ fuel →
    tree_wf (remove_if_loop pred fuel t (Todo.head?.map radix_tree_node.addr)) ∧
    tree_leaves (remove_if_loop pred fuel t (Todo.head?.map radix_tree_node.addr))
      = Done ++ Todo.filter (fun x => !leaf_pred pred x) ∧
    (remove_if_loop pred fuel t (Todo.head?.map radix_tree_node.addr)).m_size + 
      (Todo.filter (fun x => leaf_pred pred x)).length = t.m_size := by
  intro Todo
  induction Todo with
  | nil =>
    intro Done t fuel hw h _
    simp only [List.head?_nil, Option.map_none', remove_if_loop_none, List.filter_nil,
      List.append_nil, List.length_nil, Nat.add_zero]
    exact ⟨hw, by simpa using h, trivial⟩
  | cons x Todo ih =>
    intro Done t fuel hw h hf
    cases fuel with
    | zero => simp at hf
    | succ fuel =>
      have hf1 : Todo.length ≤ fuel := by simpa using hf
      have h1 : tree_leaves t = Done ++ [x] ++ Todo := by rw [h]; simp
      have hx : x ∈ tree_leaves t := by rw [h1]; simp
      obtain ⟨k, v, hxf⟩ := tree_leaf_form hw hx
      have hval : x.m_value = some (k, v) := by rw [hxf]; rfl
      have hd : deref t (some x.addr) = some (k, v) := by rw [deref_spec hw hx, hval]
      have hlp : leaf_pred pred x = pred k := by unfold leaf_pred; rw [hval]
      simp only [List.head?_cons, Option.map_some']
      rw [remove_if_loop_succ pred fuel t x.addr (k, v) hd, operator_inc_spec hw h1]
      by_cases hp : pred k = true
      · simp only [hp, if_true]
        have hk : stored_key x = some k := by unfold stored_key; rw [hval]; rfl
        obtain ⟨-, e2, ⟨L1, L2, e3, e4⟩, e5, -⟩ := erase_present hw k hx hk
        obtain ⟨u1, u2⟩ := split_unique (tree_leaves_nodup hw) e3 h1
        rw [u1, u2] at e4
        obtain ⟨r1, r2, r3⟩ := ih Done (erase t k).1 fuel e2 e4 hf1
        refine ⟨r1, ?_, ?_⟩
        · rw [r2, List.filter_cons_of_neg (by simp [hlp, hp])]
        · rw [List.filter_cons_of_pos (by simp [hlp, hp]), List.length_cons, e5] at *
          have hpos : 0 < t.m_size := by
            rw [tree_wf_size hw, h1]; simp
          omega
      · have hp : pred k = false := by simpa using hp
        simp only [hp, Bool.false_eq_true, if_false]
        obtain ⟨r1, r2, r3⟩ := ih (Done ++ [x]) t fuel hw h1 hf1
        refine ⟨r1, ?_, ?_⟩
        · rw [r2, List.filter_cons_of_pos (by simp [hlp, hp])]
          simp
        · rw [List.filter_cons_of_neg (by simp [hlp, hp])]
          exact r3

/-- The method `remove_if` keeps exactly the leaves whose key does not satisfy the
predicate, in their order. -/
theorem remove_if_spec {t : radix_tree V} (hw : tree_wf t) (pred : Key → Bool) :
    tree_wf (remove_if t pred) ∧
    tree_leaves (remove_if t pred) = (tree_leaves t).filter (fun x => !leaf_pred pred x) := by
  unfold remove_if
  rw [begin_spec hw]
  obtain ⟨r1, r2, -⟩ := remove_if_loop_spec pred (tree_leaves t) [] t t.m_size hw rfl
    (by rw [tree_wf_size hw])
  exact ⟨r1, by simpa using r2⟩

end RemoveIf

section PrefixMatch
variable {V : Type}

theorem greedy_match_children_eq (cs : List (Key × radix_tree_node V))
    (h : ∀ e ∈ cs, greedy_match_node e.2 = (leaves e.2).map radix_tree_node.addr) :
    greedy_match_children cs = (leaves_children cs).map radix_tree_node.addr := by
  induction cs with
  | nil => rfl
  | cons e cs ih =>
    obtain ⟨k, c⟩ := e
    simp only [greedy_match_children, leaves_children, List.map_append]
    rw [h (k, c) (List.mem_cons_self _ _), ih (fun e1 he1 => h e1 (List.mem_cons_of_mem _ he1))]

/-- The private `greedy_match` pushes the leaves below the node, in order. -/
theorem greedy_match_node_eq : ∀ n : radix_tree_node V,
    greedy_match_node n = (leaves n).map radix_tree_node.addr := by
  intro n
  induction n using node_induction with
  | h n ih =>
    have := greedy_match_children_eq n.m_children ih
    obtain ⟨a, cs, v, d, l, k⟩ := n
    cases l
    · simp only [greedy_match_node, leaves_mk_internal, Bool.false_eq_true, if_false]
      exact this
    · simp [greedy_match_node, leaves_mk_leaf, mk_addr]

theorem starts_with_iff {p : Key} {x : radix_tree_node V} {k : Key} (h : stored_key x = some k) :
    starts_with p x = true ↔ p <+: k := by
  unfold starts_with
  unfold stored_key at h
  cases hv : x.m_value with
  | none => rw [hv] at h; cases h
  | some kv =>
    rw [hv] at h
    simp only [Option.map_some', Option.some.injEq] at h
    simp only [h, List.isPrefixOf_iff_prefix]

/-- When the leaves with a property are those below one position, filtering the leaves
of the tree gives the leaves below that position. -/
theorem filter_leaves_subtree {root s : radix_tree_node V} {ps : Path} (hw : WF [] root)
    (hnd : (addrs root).Nodup) (hat : node_at ps root = some s) (P : radix_tree_node V → Bool)
    (h1 : ∀ x ∈ leaves root, P x = true → x ∈ leaves s) (h2 : ∀ x ∈ leaves s, P x = true) :
    (leaves root).filter P = leaves s := by
  obtain ⟨B, A, e, -⟩ := leaves_replace ps root [] s hw hat
  have hn := leaves_nodup hnd
  rw [e] at hn
  have hn1 := List.nodup_append.1 hn
  have hn2 := List.nodup_append.1 hn1.1
  rw [e, List.filter_append, List.filter_append]
  have hB : B.filter P = [] := by
    rw [List.filter_eq_nil_iff]
    intro x hx hp
    have := h1 x (by rw [e]; simp [hx]) hp
    exact hn2.2.2 hx this
  have hA : A.filter P = [] := by
    rw [List.filter_eq_nil_iff]
    intro x hx hp
    have := h1 x (by rw [e]; simp [hx]) hp
    exact hn1.2.2 (List.mem_append_right _ this) hx
  have hS : (leaves s).filter P = leaves s := by
    rw [List.filter_eq_self]
    exact h2
  rw [hB, hA, hS]
  simp

theorem prefix_match_eq {t : radix_tree V} {root : radix_tree_node V} (hroot : t.m_root = some root)
    {K s : Key} {node0 node : radix_tree_node V}
    (h0 : node_at (find_node (K ++ s) root 0) root = some node0)
    (h1 : (if node0.m_is_leaf then node_at (find_node (K ++ s) root 0).dropLast root
      else some node0) = some node)
    (hd : node.m_depth = K.length) :
    (s <+: node.m_key → prefix_match t (K ++ s) = greedy_match_node node) ∧
    (¬ s <+: node.m_key → prefix_match t (K ++ s) = []) := by
  have hlen : radix_length (K ++ s) - ((K.length : Nat) : Int) = (s.length : Int) := by
    simp [radix_length]
  have hs1 : radix_substr (K ++ s) K.length (s.length : Int) = s := by
    rw [← radix_length, radix_substr_append, List.take_length]
  have hs2 : radix_substr node.m_key 0 (s.length : Int) = node.m_key.take s.length :=
    radix_substr_take _ _
  unfold prefix_match
  simp only [hroot, h0, h1, hd, hlen, hs1, hs2]
  constructor
  · intro hp
    have : s = node.m_key.take s.length := List.prefix_iff_eq_take.1 hp
    simp [← this]
  · intro hp
    have : ¬ s = node.m_key.take s.length := fun h => hp (List.prefix_iff_eq_take.2 h)
    simp [this]

/-- The method `prefix_match` gives the leaves whose key begins with the query, in the
order of the iteration. -/
theorem prefix_match_spec {t : radix_tree V} (hw : tree_wf t) (key : Key) :
    prefix_match t key
      = ((tree_leaves t).filter (starts_with key)).map radix_tree_node.addr := by
  cases hroot : t.m_root with
  | none => unfold prefix_match tree_leaves; rw [hroot]; rfl
  | some root =>
    rw [tree_leaves_root hroot]
    obtain ⟨h1, h2, h3, h4, h5, h6⟩ := tree_wf_root hw hroot
    obtain ⟨q, m, pre_m, rest_m, res, k1, k2, k3, k4, k8, k5, k6, k7⟩ :=
      find_node_landing root [] key h1 h2
    rw [← find_node_root key root h3] at k6
    have hkk : [] ++ root.m_key ++ key = key := by rw [h3]; rfl
    rw [hkk] at k4 k5
    obtain ⟨g1, g2, g3, g4, g5⟩ := k2.node_inv k3
    have hkey_of : ∀ x ∈ leaves root, ∃ kx, stored_key x = some kx := by
      intro x hx
      obtain ⟨r, v, hr⟩ := h1.leaves_form root [] x hx
      exact ⟨_, by rw [hr]; rfl⟩
    -- the leaves picked by the filter lie below the anchor
    have hin : ∀ x ∈ leaves root, starts_with key x = true → x ∈ leaves m := by
      intro x hx hp
      obtain ⟨kx, hkx⟩ := hkey_of x hx
      exact k5 x hx kx hkx ((starts_with_iff hkx).1 hp)
    have hall : rest_m = [] → ∀ x ∈ leaves m, starts_with key x = true := by
      intro hr x hx
      obtain ⟨r, v, hrv⟩ := k2.leaves_form m _ x hx
      have hkx : stored_key x = some (pre_m ++ m.m_key ++ r) := by rw [hrv]; rfl
      rw [starts_with_iff hkx, k4, hr, List.append_nil]
      exact List.prefix_append _ _
    have hnone : (∀ x ∈ leaves root, starts_with key x = false) →
        ((leaves root).filter (starts_with key)).map radix_tree_node.addr = [] := by
      intro h
      have : (leaves root).filter (starts_with key) = [] := by
        rw [List.filter_eq_nil_iff]
        intro x hx hp
        rw [h x hx] at hp
        cases hp
      rw [this]; rfl
    rcases k7 with ⟨hr, e, he, e1, e2⟩ | ⟨hr, e1, e2⟩ | ⟨hr, e1, e2⟩ | ⟨hr, e, he, e1, e2, e3, e4⟩
    · subst e2
      have hnode : node_at (find_node key root 0) root = some e.2 := by
        rw [k6, node_at_append, k1]
        show node_at [e.1] m = some e.2
        rw [node_at_child g1 he]; rfl
      have hpar : (if e.2.m_is_leaf then node_at (find_node key root 0).dropLast root
          else some e.2) = some m := by
        rw [if_pos e1, k6, List.dropLast_concat]; exact k1
      have hk : key = pre_m ++ m.m_key := by rw [k4, hr, List.append_nil]
      have := (prefix_match_eq (t := t) (K := pre_m) (s := m.m_key) hroot (by rw [← hk]; exact hnode)
        (by rw [← hk]; exact hpar) g5).1 (List.prefix_refl _)
      rw [← hk] at this
      rw [this, greedy_match_node_eq, filter_leaves_subtree h1 h5 k1 _ hin (hall hr)]
    · subst e2
      rw [List.append_nil] at k6
      have hnode : node_at (find_node key root 0) root = some m := by rw [k6]; exact k1
      have hpar : (if m.m_is_leaf then node_at (find_node key root 0).dropLast root
          else some m) = some m := by
        rw [if_neg (by simp [k3])]
      have hk : key = pre_m ++ m.m_key := by rw [k4, hr, List.append_nil]
      have := (prefix_match_eq (t := t) (K := pre_m) (s := m.m_key) hroot (by rw [← hk]; exact hnode)
        (by rw [← hk]; exact hpar) g5).1 (List.prefix_refl _)
      rw [← hk] at this
      rw [this, greedy_match_node_eq, filter_leaves_subtree h1 h5 k1 _ hin (hall hr)]
    · subst e2
      rw [List.append_nil] at k6
      have hnode : node_at (find_node key root 0) root = some m := by rw [k6]; exact k1
      have hpar : (if m.m_is_leaf then node_at (find_node key root 0).dropLast root
          else some m) = some m := by
        rw [if_neg (by simp [k3])]
      have hk : key = pre_m ++ (m.m_key ++ rest_m) := by rw [k4, List.append_assoc]
      have := (prefix_match_eq (t := t) (K := pre_m) (s := m.m_key ++ rest_m) hroot
        (by rw [← hk]; exact hnode) (by rw [← hk]; exact hpar) g5).2 (by
          intro h
          have := h.length_le
          rw [List.length_append] at this
          have : rest_m.length = 0 := by omega
          exact hr (List.length_eq_zero.1 this))
      rw [← hk] at this
      rw [this]
      symm
      apply hnone
      intro x hx
      by_contra hp
      have hp : starts_with key x = true := by simpa using hp
      have hxm := hin x hx hp
      obtain ⟨kx, hkx⟩ := hkey_of x hx
      obtain ⟨e', he', hxe', r, hs, hleaf, hint⟩ := k2.leaf_child k3 hxm
      rw [hkx] at hs
      have hs : kx = pre_m ++ m.m_key ++ (e'.1 ++ r) := Option.some.inj hs
      have hpre := (starts_with_iff hkx).1 hp
      rw [hs, k4] at hpre
      have hp1 : rest_m <+: e'.1 ++ r := (List.prefix_append_right_inj _).1 hpre
      by_cases hl1 : e'.2.m_is_leaf = true
      · obtain ⟨a1, a2⟩ := hleaf hl1
        rw [a1, a2] at hp1
        exact hr (List.prefix_nil.1 hp1)
      · have hl1 : e'.2.m_is_leaf = false := by simpa using hl1
        have hne := hint hl1
        have hd1 : (e'.1 ++ r).head? = rest_m.head? := head_of_starts hp1 hr
        have hd2 : (e'.1 ++ r).head? = e'.1.head? := head_of_starts (List.prefix_append _ _) hne
        exact e1 e' he' hl1 ((key_at_eq_head hr hne).2 (by rw [← hd1, hd2]))
    · subst e4
      have hnode : node_at (find_node key root 0) root = some e.2 := by
        rw [k6, node_at_append, k1]
        show node_at [e.1] m = some e.2
        rw [node_at_child g1 he]; rfl
      have hpar : (if e.2.m_is_leaf then node_at (find_node key root 0).dropLast root
          else some e.2) = some e.2 := by
        rw [if_neg (by simp [e1])]
      have hk : key = (pre_m ++ m.m_key) ++ rest_m := k4
      have hpm := prefix_match_eq (t := t) (K := pre_m ++ m.m_key) (s := rest_m) hroot
        (by rw [← hk]; exact hnode) (by rw [← hk]; exact hpar) (g4 e he).depth_eq
      rw [← hk, (g2 e he).1] at hpm
      have hine : ∀ x ∈ leaves root, starts_with key x = true → x ∈ leaves e.2 := by
        intro x hx hp
        obtain ⟨kx, hkx⟩ := hkey_of x hx
        exact k2.leaf_in_child k3 hr he e1 e2 (hin x hx hp) hkx
          (by rw [← k4]; exact (starts_with_iff hkx).1 hp)
      by_cases hpe : rest_m <+: e.1
      · rw [hpm.1 hpe, greedy_match_node_eq, filter_leaves_subtree h1 h5 hnode _ hine]
        intro x hx
        obtain ⟨r, v, hrv⟩ := (g4 e he).leaves_form e.2 _ x hx
        have hkx : stored_key x = some (pre_m ++ m.m_key ++ e.2.m_key ++ r) := by rw [hrv]; rfl
        rw [starts_with_iff hkx, k4, (g2 e he).1, List.append_assoc (pre_m ++ m.m_key)]
        exact (List.prefix_append_right_inj _).2 (hpe.trans (List.prefix_append _ _))
      · rw [hpm.2 hpe]
        symm
        apply hnone
        intro x hx
        by_contra hp
        have hp : starts_with key x = true := by simpa using hp
        have hxe := hine x hx hp
        obtain ⟨r, v, hrv⟩ := (g4 e he).leaves_form e.2 _ x hxe
        have hkx : stored_key x = some (pre_m ++ m.m_key ++ e.2.m_key ++ r) := by rw [hrv]; rfl
        have hpre := (starts_with_iff hkx).1 hp
        rw [k4, (g2 e he).1, List.append_assoc (pre_m ++ m.m_key)] at hpre
        have hp1 : rest_m <+: e.1 ++ r := (List.prefix_append_right_inj _).1 hpre
        rcases List.prefix_or_prefix_of_prefix hp1 (List.prefix_append e.1 r) with h | h
        · exact hpe h
        · exact e3 h

end PrefixMatch

section Refinement
variable {V : Type}

theorem stored_key_of_value {x : radix_tree_node V} {k : Key} {v : V}
    (h : x.m_value = some (k, v)) : stored_key x = some k := by
  unfold stored_key; rw [h]; rfl

theorem agrees_absent {t : radix_tree V} {m : Key → Option V} (hw : tree_wf t)
    (ha : agrees t m) {k : Key} (hk : m k = none) :
    ∀ x ∈ tree_leaves t, stored_key x ≠ some k := by
  intro x hx hs
  obtain ⟨k1, v1, hf⟩ := tree_leaf_form hw hx
  have hv : x.m_value = some (k1, v1) := by rw [hf]; rfl
  rw [stored_key_of_value hv] at hs
  have hk1 : k1 = k := Option.some.inj hs
  subst hk1
  have := (ha k1 v1).2 ⟨x, hx, hv⟩
  rw [hk] at this
  cases this

theorem agrees_present {t : radix_tree V} {m : Key → Option V}
    (ha : agrees t m) {k : Key} {v : V} (hk : m k = some v) :
    ∃ x ∈ tree_leaves t, x.m_value = some (k, v) ∧ stored_key x = some k := by
  obtain ⟨x, hx, hv⟩ := (ha k v).1 hk
  exact ⟨x, hx, hv, stored_key_of_value hv⟩

theorem agrees_insert_absent {t t1 : radix_tree V} {m : Key → Option V}
    (ha : agrees t m) {k0 : Key} {v0 : V} (hk : m k0 = none) {a : Nat}
    {L1 L2 : List (radix_tree_node V)} (h1 : tree_leaves t = L1 ++ L2)
    (h2 : tree_leaves t1 = L1 ++ [radix_tree_node.mk a [] (some (k0, v0)) k0.length true []] ++ L2) :
    agrees t1 (fun k => if k = k0 then (if (m k).isSome then m k else some v0) else m k) := by
  intro k v
  simp only []
  by_cases hkk : k = k0
  · subst hkk
    rw [if_pos rfl, hk]
    simp only [Option.isSome_none, Bool.false_eq_true, if_false, Option.some.injEq]
    constructor
    · intro hv
      subst hv
      exact ⟨radix_tree_node.mk a [] (some (k, v0)) k.length true [], by rw [h2]; simp, rfl⟩
    · rintro ⟨x, hx, hxv⟩
      rw [h2] at hx
      have hx' : x ∈ L1 ++ L2 ∨ x = radix_tree_node.mk a [] (some (k, v0)) k.length true [] := by
        simp only [List.mem_append, List.mem_singleton] at hx ⊢
        tauto
      rcases hx' with h | h
      · have := (ha k v).2 ⟨x, by rw [h1]; exact h, hxv⟩
        rw [hk] at this; cases this
      · rw [h] at hxv
        simp only [mk_value, Option.some.injEq, Prod.mk.injEq, true_and] at hxv
        exact hxv
  · rw [if_neg hkk, ha k v]
    constructor
    · rintro ⟨x, hx, hxv⟩
      refine ⟨x, ?_, hxv⟩
      rw [h1] at hx
      rw [h2]
      simp only [List.mem_append, List.mem_singleton] at hx ⊢
      tauto
    · rintro ⟨x, hx, hxv⟩
      refine ⟨x, ?_, hxv⟩
      rw [h2] at hx
      rw [h1]
      simp only [List.mem_append, List.mem_singleton] at hx ⊢
      rcases hx with (h | h) | h
      · exact Or.inl h
      · rw [h] at hxv
        simp only [mk_value, Option.some.injEq, Prod.mk.injEq] at hxv
        exact absurd hxv.1.symm hkk
      · exact Or.inr h

theorem agrees_insert [Inhabited V] {t : radix_tree V} {m : Key → Option V} (hw : tree_wf t)
    (ha : agrees t m) (k0 : Key) (v0 : V) :
    tree_wf (insert t (k0, v0)).1 ∧
    agrees (insert t (k0, v0)).1
      (fun k => if k = k0 then (if (m k).isSome then m k else some v0) else m k) := by
  cases hk : m k0 with
  | some v =>
    obtain ⟨x, hx, hv, hs⟩ := agrees_present ha hk
    rw [insert_present hw k0 v0 hx hs]
    refine ⟨hw, ?_⟩
    intro k v1
    simp only []
    by_cases hkk : k = k0
    · subst hkk
      rw [if_pos rfl, hk]
      simp only [Option.isSome_some, if_true]
      rw [← hk]; exact ha k v1
    · rw [if_neg hkk]; exact ha k v1
  | none =>
    obtain ⟨a, r1, r2, ⟨L1, L2, r3, r4⟩, -, -⟩ := insert_absent hw k0 v0 (agrees_absent hw ha hk)
    exact ⟨r2, agrees_insert_absent ha hk r3 r4⟩

theorem agrees_erase {t : radix_tree V} {m : Key → Option V} (hw : tree_wf t)
    (ha : agrees t m) (k0 : Key) :
    tree_wf (erase t k0).1 ∧ agrees (erase t k0).1 (fun k => if k = k0 then none else m k) := by
  cases hk : m k0 with
  | none =>
    rw [erase_absent hw k0 (agrees_absent hw ha hk)]
    refine ⟨hw, ?_⟩
    intro k v
    simp only []
    by_cases hkk : k = k0
    · subst hkk
      rw [if_pos rfl, ← ha k v, hk]
    · rw [if_neg hkk]; exact ha k v
  | some v0 =>
    obtain ⟨x, hx, hv, hs⟩ := agrees_present ha hk
    obtain ⟨-, r2, ⟨L1, L2, r3, r4⟩, -, -⟩ := erase_present hw k0 hx hs
    refine ⟨r2, ?_⟩
    have hnd := tree_leaves_nodup hw
    rw [r3] at hnd
    have hxn : x ∉ L1 ++ L2 := by
      intro h
      have h1 := List.nodup_append.1 hnd
      have h2 := List.nodup_append.1 h1.1
      rcases List.mem_append.1 h with h3 | h3
      · exact h2.2.2 h3 (List.mem_singleton_self _)
      · exact h1.2.2 (List.mem_append_right _ (List.mem_singleton_self _)) h3
    intro k v
    simp only []
    by_cases hkk : k = k0
    · subst hkk
      rw [if_pos rfl]
      constructor
      · intro h; cases h
      · rintro ⟨y, hy, hyv⟩
        exfalso
        rw [r4] at hy
        have hyt : y ∈ tree_leaves t := by
          rw [r3]
          simp only [List.mem_append, List.mem_singleton] at hy ⊢
          tauto
        have := tree_leaf_key_inj hw hyt hx (by rw [stored_key_of_value hyv, hs])
        rw [this] at hy
        exact hxn hy
    · rw [if_neg hkk, ha k v]
      constructor
      · rintro ⟨y, hy, hyv⟩
        refine ⟨y, ?_, hyv⟩
        rw [r3] at hy
        rw [r4]
        simp only [List.mem_append, List.mem_singleton] at hy ⊢
        rcases hy with (h | h) | h
        · exact Or.inl h
        · rw [h, hv] at hyv
          simp only [Option.some.injEq, Prod.mk.injEq] at hyv
          exact absurd hyv.1.symm hkk
        · exact Or.inr h
      · rintro ⟨y, hy, hyv⟩
        refine ⟨y, ?_, hyv⟩
        rw [r4] at hy
        rw [r3]
        simp only [List.mem_append, List.mem_singleton] at hy ⊢
        tauto

theorem agrees_remove_if {t : radix_tree V} {m : Key → Option V} (hw : tree_wf t)
    (ha : agrees t m) (pred : Key → Bool) :
    tree_wf (remove_if t pred) ∧
    agrees (remove_if t pred) (fun k => if pred k then none else m k) := by
  obtain ⟨r1, r2⟩ := remove_if_spec hw pred
  refine ⟨r1, ?_⟩
  intro k v
  simp only []
  rw [r2]
  by_cases hp : pred k = true
  · rw [if_pos hp]
    constructor
    · intro h; cases h
    · rintro ⟨y, hy, hyv⟩
      rw [List.mem_filter] at hy
      have : leaf_pred pred y = true := by unfold leaf_pred; rw [hyv]; exact hp
      rw [this] at hy
      simp at hy
  · rw [if_neg hp, ha k v]
    constructor
    · rintro ⟨y, hy, hyv⟩
      refine ⟨y, ?_, hyv⟩
      rw [List.mem_filter]
      have : leaf_pred pred y = pred k := by unfold leaf_pred; rw [hyv]
      rw [this]
      exact ⟨hy, by simpa using hp⟩
    · rintro ⟨y, hy, hyv⟩
      exact ⟨y, (List.mem_filter.1 hy).1, hyv⟩

theorem operator_index_eq [Inhabited V] {t : radix_tree V} {m : Key → Option V} (hw : tree_wf t)
    (ha : agrees t m) (k0 : Key) :
    (m k0 = none → operator_index t k0 = ((insert t (k0, default)).1, (insert t (k0, default)).2.1)) ∧
    (∀ v, m k0 = some v → operator_index t k0 = (t, find t k0)) := by
  constructor
  · intro hk
    have := (find_spec hw k0).2.1 (agrees_absent hw ha hk)
    unfold operator_index
    rw [this]
  · intro v hk
    obtain ⟨x, hx, hv, hs⟩ := agrees_present ha hk
    have := (find_spec hw k0).1 x hx hs
    unfold operator_index
    rw [this]

/-- Every call keeps the invariant, and the leaves of the tree follow the map of the
history. -/
theorem step_agrees [Inhabited V] {t : radix_tree V} {m : Key → Option V} (hw : tree_wf t)
    (ha : agrees t m) (op : Op V) :
    tree_wf (apply_op t op) ∧ agrees (apply_op t op) (model_op m op) := by
  cases op with
  | insert val =>
    obtain ⟨k0, v0⟩ := val
    exact agrees_insert hw ha k0 v0
  | erase key => exact agrees_erase hw ha key
  | index key =>
    show tree_wf (operator_index t key).1 ∧ agrees (operator_index t key).1 _
    cases hk : m key with
    | none =>
      rw [(operator_index_eq hw ha key).1 hk]
      exact agrees_insert hw ha key default
    | some v =>
      rw [(operator_index_eq hw ha key).2 v hk]
      refine ⟨hw, ?_⟩
      intro k v1
      simp only [model_op]
      by_cases hkk : k = key
      · subst hkk
        rw [if_pos rfl, hk]
        simp only [Option.isSome_some, if_true]
        rw [← hk]; exact ha k v1
      · rw [if_neg hkk]; exact ha k v1
  | remove_if pred => exact agrees_remove_if hw ha pred
  | clear =>
    refine ⟨rfl, ?_⟩
    intro k v
    simp only [model_op, apply_op, clear, tree_leaves]
    constructor
    · intro h; cases h
    · rintro ⟨x, hx, -⟩; cases hx

theorem run_from_agrees [Inhabited V] : ∀ (ops : List (Op V)) (t : radix_tree V)
    (m : Key → Option V), tree_wf t → agrees t m →
    tree_wf (run_from t ops) ∧ agrees (run_from t ops) (ops.foldl model_op m) := by
  intro ops
  induction ops with
  | nil => intro t m hw ha; exact ⟨hw, ha⟩
  | cons op ops ih =>
    intro t m hw ha
    obtain ⟨h1, h2⟩ := step_agrees hw ha op
    exact ih _ _ h1 h2

theorem empty_tree_wf : tree_wf (empty_tree : radix_tree V) := rfl

theorem empty_tree_agrees : agrees (empty_tree : radix_tree V) (fun _ => none) := by
  intro k v
  constructor
  · intro h; cases h
  · rintro ⟨x, hx, -⟩; cases hx

/-- Every tree reached from the empty tree has the invariant, and the pairs in its
leaves are the bindings of the history. -/
theorem run_agrees [Inhabited V] (ops : List (Op V)) :
    tree_wf (run ops) ∧ agrees (run ops) (model ops) :=
  run_from_agrees ops empty_tree _ empty_tree_wf empty_tree_agrees

end Refinement

section Support
variable {V : Type}

theorem run_from_append [Inhabited V] (t : radix_tree V) (ops : List (Op V)) (op : Op V) :
    run_from t (ops ++ [op]) = apply_op (run_from t ops) op := by
  unfold run_from
  rw [List.foldl_append]; rfl

theorem run_snoc [Inhabited V] (ops : List (Op V)) (op : Op V) :
    run (ops ++ [op]) = apply_op (run ops) op := run_from_append _ _ _

theorem run_wf [Inhabited V] (ops : List (Op V)) : tree_wf (run ops) := (run_agrees ops).1

theorem deref_none (t : radix_tree V) : deref t none = none := rfl

theorem leaf_nodes_eq (n : radix_tree_node V) :
    leaf_nodes n = (if n.m_is_leaf then 1 else 0) + leaf_nodes_children n.m_children := by
  obtain ⟨a, cs, v, d, l, k⟩ := n
  simp [leaf_nodes, mk_is_leaf, mk_children]

theorem leaf_nodes_children_eq (cs : List (Key × radix_tree_node V))
    (h : ∀ e ∈ cs, leaf_nodes e.2 = (leaves e.2).length) :
    leaf_nodes_children cs = (leaves_children cs).length := by
  induction cs with
  | nil => rfl
  | cons e cs ih =>
    obtain ⟨k, c⟩ := e
    simp only [leaf_nodes_children, leaves_children, List.length_append]
    rw [h (k, c) (List.mem_cons_self _ _), ih (fun e1 he1 => h e1 (List.mem_cons_of_mem _ he1))]

/-- In a tree with the invariant the nodes with the leaf flag are the leaves reached by
the traversal. -/
theorem leaf_nodes_spec : ∀ (n : radix_tree_node V) (pre : Key), WF pre n →
    leaf_nodes n = (leaves n).length := by
  intro n
  induction n using node_induction with
  | h n ih =>
    intro pre hw
    rw [leaf_nodes_eq]
    by_cases hl : n.m_is_leaf = true
    · rw [leaves_of_leaf hl, hw.leaf_children hl, if_pos hl]; rfl
    · have hl : n.m_is_leaf = false := by simpa using hl
      obtain ⟨g1, g2, g3, g4, -⟩ := hw.node_inv hl
      rw [leaves_of_internal hl, if_neg (by simp [hl]), Nat.zero_add]
      exact leaf_nodes_children_eq _ (fun e he => ih e he _ (g4 e he))

theorem tree_leaf_nodes_spec {t : radix_tree V} (hw : tree_wf t) :
    tree_leaf_nodes t = (tree_leaves t).length := by
  cases h : t.m_root with
  | none => unfold tree_leaf_nodes tree_leaves; rw [h]; rfl
  | some root =>
    rw [tree_leaves_root h]
    unfold tree_leaf_nodes; rw [h]
    exact leaf_nodes_spec root [] (tree_wf_root hw h).1

/-- The loop of `remove_if` calls `erase` with success once for every leaf whose key
satisfies the predicate. -/
theorem remove_if_erased_spec (pred : Key → Bool) :
    ∀ (Todo Done : List (radix_tree_node V)) (t : radix_tree V) (fuel : Nat),
    tree_wf t → tree_leaves t = Done ++ Todo → Todo.length ≤ fuel →
    remove_if_erased pred fuel t (Todo.head?.map radix_tree_node.addr)
      = (Todo.filter (fun x => leaf_pred pred x)).length := by
  intro Todo
  induction Todo with
  | nil =>
    intro Done t fuel hw h _
    cases fuel <;> rfl
  | cons x Todo ih =>
    intro Done t fuel hw h hf
    cases fuel with
    | zero => simp at hf
    | succ fuel =>
      have hf1 : Todo.length ≤ fuel := by simpa using hf
      have h1 : tree_leaves t = Done ++ [x] ++ Todo := by rw [h]; simp
      have hx : x ∈ tree_leaves t := by rw [h1]; simp
      obtain ⟨k, v, hxf⟩ := tree_leaf_form hw hx
      have hval : x.m_value = some (k, v) := by rw [hxf]; rfl
      have hd : deref t (some x.addr) = some (k, v) := by rw [deref_spec hw hx, hval]
      have hlp : leaf_pred pred x = pred k := by unfold leaf_pred; rw [hval]
      simp only [List.head?_cons, Option.map_some', remove_if_erased, hd]
      rw [operator_inc_spec hw h1]
      by_cases hp : pred k = true
      · simp only [hp, if_true]
        have hk : stored_key x = some k := by unfold stored_key; rw [hval]; rfl
        obtain ⟨e1, e2, ⟨L1, L2, e3, e4⟩, e5, -⟩ := erase_present hw k hx hk
        obtain ⟨u1, u2⟩ := split_unique (tree_leaves_nodup hw) e3 h1
        rw [u1, u2] at e4
        rw [e1, ih Done (erase t k).1 fuel e2 e4 hf1,
          List.filter_cons_of_pos (by simp [hlp, hp]), List.length_cons]
        simp only [if_true]
        omega
      · have hp : pred k = false := by simpa using hp
        simp only [hp, Bool.false_eq_true, if_false]
        rw [ih (Done ++ [x]) t fuel hw h1 hf1, List.filter_cons_of_neg (by simp [hlp, hp])]

/-- A call other than `clear` changes the size by the number of successful inserts
minus the number of successful erases. -/
theorem step_size [Inhabited V] {t : radix_tree V} (hw : tree_wf t) (op : Op V)
    (hc : op.is_clear = false) :
    (apply_op t op).m_size + erased_by t op = t.m_size + inserted_by t op := by
  have hins : ∀ (k : Key) (v : V), (insert t (k, v)).1.m_size
      = t.m_size + (if (insert t (k, v)).2.2 then 1 else 0) := by
    intro k v
    by_cases h : ∃ x ∈ tree_leaves t, stored_key x = some k
    · obtain ⟨x, hx, hs⟩ := h
      rw [insert_present hw k v hx hs]
      simp
    · have h' : ∀ x ∈ tree_leaves t, stored_key x ≠ some k := fun x hx hs => h ⟨x, hx, hs⟩
      obtain ⟨a, r1, -, -, r4, -⟩ := insert_absent hw k v h'
      rw [r4]
      have : (insert t (k, v)).2.2 = true := by rw [r1]
      rw [this]
      simp
  cases op with
  | insert val =>
    obtain ⟨k, v⟩ := val
    simp only [apply_op, erased_by, inserted_by, Nat.add_zero]
    exact hins k v
  | erase key =>
    simp only [apply_op, erased_by, inserted_by, Nat.add_zero]
    by_cases h : ∃ x ∈ tree_leaves t, stored_key x = some key
    · obtain ⟨x, hx, hs⟩ := h
      obtain ⟨e1, -, -, e5, -⟩ := erase_present hw key hx hs
      rw [e1, e5]
      have hpos : 0 < t.m_size := by
        rw [tree_wf_size hw]
        exact List.length_pos_of_mem hx
      simp only [if_true]
      omega
    · have h' : ∀ x ∈ tree_leaves t, stored_key x ≠ some key := fun x hx hs => h ⟨x, hx, hs⟩
      rw [erase_absent hw key h']
      simp
  | index key =>
    simp only [apply_op, erased_by, inserted_by, Nat.add_zero]
    unfold operator_index
    cases hf : find t key with
    | some a => simp
    | none =>
      simp only []
      exact hins key default
  | remove_if pred =>
    simp only [apply_op, erased_by, inserted_by, Nat.add_zero]
    unfold remove_if
    rw [begin_spec hw]
    obtain ⟨-, -, r3⟩ := remove_if_loop_spec pred (tree_leaves t) [] t t.m_size hw rfl
      (by rw [tree_wf_size hw])
    rw [remove_if_erased_spec pred (tree_leaves t) [] t t.m_size hw rfl
      (by rw [tree_wf_size hw])]
    exact r3
  | clear => cases hc

theorem run_from_size [Inhabited V] : ∀ (ops : List (Op V)) (t : radix_tree V)
    (m : Key → Option V), tree_wf t → agrees t m →
    (∀ op ∈ ops, op.is_clear = false) →
    (run_from t ops).m_size + count_erased t ops = t.m_size + count_inserted t ops := by
  intro ops
  induction ops with
  | nil => intro t _ _ _ _; rfl
  | cons op ops ih =>
    intro t m hw ha hc
    have h1 := step_size hw op (hc op (List.mem_cons_self _ _))
    obtain ⟨s1, s2⟩ := step_agrees hw ha op
    have h2 := ih (apply_op t op) _ s1 s2 (fun o ho => hc o (List.mem_cons_of_mem _ ho))
    simp only [count_erased, count_inserted]
    have : run_from t (op :: ops) = run_from (apply_op t op) ops := rfl
    rw [this]
    omega

end Support

section TreeLevel
variable {V : Type}

theorem find_none_absent {t : radix_tree V} (hw : tree_wf t) {k : Key} (h : find t k = none) :
    ∀ x ∈ tree_leaves t, stored_key x ≠ some k := by
  intro x hx hs
  have := (find_spec hw k).1 x hx hs
  rw [h] at this
  cases this

theorem find_some_leaf {t : radix_tree V} (hw : tree_wf t) {k : Key} {a : Nat}
    (h : find t k = some a) :
    ∃ x ∈ tree_leaves t, stored_key x = some k ∧ x.addr = a := (find_spec hw k).2.2 a h

theorem find_isSome_iff {t : radix_tree V} (hw : tree_wf t) (k : Key) :
    find t k ≠ none ↔ ∃ x ∈ tree_leaves t, stored_key x = some k := by
  constructor
  · intro h
    cases hf : find t k with
    | none => exact absurd hf h
    | some a =>
      obtain ⟨x, hx, hs, -⟩ := find_some_leaf hw hf
      exact ⟨x, hx, hs⟩
  · rintro ⟨x, hx, hs⟩ h
    exact find_none_absent hw h x hx hs

theorem leaf_stored_key {t : radix_tree V} (hw : tree_wf t) {x : radix_tree_node V}
    (hx : x ∈ tree_leaves t) : ∃ k v, x.m_value = some (k, v) ∧ stored_key x = some k := by
  obtain ⟨k, v, hk⟩ := tree_leaf_form hw hx
  exact ⟨k, v, by rw [hk]; rfl, by rw [hk]; rfl⟩

theorem stored_key_eq_of_value {x : radix_tree_node V} {k : Key} {v : V}
    (h : x.m_value = some (k, v)) : stored_key x = some k := by
  unfold stored_key; rw [h]; rfl

/-- The keys visited at the addresses of leaves of the tree are the keys of those
leaves. -/
theorem visited_keys_map {t : radix_tree V} (hw : tree_wf t) :
    ∀ (L : List (radix_tree_node V)), (∀ x ∈ L, x ∈ tree_leaves t) →
    visited_keys t (L.map radix_tree_node.addr) = L.filterMap stored_key := by
  intro L
  induction L with
  | nil => intro _; rfl
  | cons x L ih =>
    intro h
    have hx := h x (List.mem_cons_self _ _)
    have ih1 := ih (fun y hy => h y (List.mem_cons_of_mem _ hy))
    unfold visited_keys at ih1 ⊢
    obtain ⟨k, v, hv, hs⟩ := leaf_stored_key hw hx
    rw [List.map_cons, List.filterMap_cons, List.filterMap_cons, deref_spec hw hx, hv, hs]
    simp only [Option.map_some']
    rw [ih1]

theorem mem_filterMap_stored_key {L : List (radix_tree_node V)} {k : Key} :
    k ∈ L.filterMap stored_key ↔ ∃ x ∈ L, stored_key x = some k := by
  rw [List.mem_filterMap]

/-- No key is stored in two leaves: the keys of distinct leaves are distinct. -/
theorem keys_nodup {t : radix_tree V} (hw : tree_wf t) :
    ∀ (L : List (radix_tree_node V)), (∀ x ∈ L, x ∈ tree_leaves t) → L.Nodup →
    (L.filterMap stored_key).Nodup := by
  intro L
  induction L with
  | nil => intro _ _; exact List.nodup_nil
  | cons x L ih =>
    intro h hn
    have hx := h x (List.mem_cons_self _ _)
    obtain ⟨k, v, hv, hs⟩ := leaf_stored_key hw hx
    rw [List.filterMap_cons, hs]
    simp only []
    rw [List.nodup_cons] at hn ⊢
    refine ⟨?_, ih (fun y hy => h y (List.mem_cons_of_mem _ hy)) hn.2⟩
    intro hk
    obtain ⟨y, hy, hys⟩ := mem_filterMap_stored_key.mp hk
    have : x = y := tree_leaf_key_inj hw hx (h y (List.mem_cons_of_mem _ hy)) (by rw [hs, hys])
    exact hn.1 (this ▸ hy)

/-- Inserting a pair whose key is stored returns the iterator of `find` and false, and
leaves the tree as it was. -/
theorem insert_stored {t : radix_tree V} (hw : tree_wf t) {k : Key} {a : Nat} (v : V)
    (h : find t k = some a) : insert t (k, v) = (t, some a, false) := by
  obtain ⟨x, hx, hs, ha⟩ := find_some_leaf hw h
  rw [insert_present hw k v hx hs, ha]

/-- Inserting a pair whose key is not stored returns true and an iterator to a leaf that
stores the pair. -/
theorem insert_new {t : radix_tree V} (hw : tree_wf t) {k : Key} (v : V)
    (h : find t k = none) :
    ∃ a, (insert t (k, v)).2 = (some a, true) ∧
      deref (insert t (k, v)).1 (some a) = some (k, v) ∧
      find (insert t (k, v)).1 k = some a ∧
      size (insert t (k, v)).1 = size t + 1 := by
  obtain ⟨a, r1, r2, ⟨L1, L2, r3, r4⟩, r5, -⟩ := insert_absent hw k v (find_none_absent hw h)
  have hx : radix_tree_node.mk a [] (some (k, v)) k.length true []
      ∈ tree_leaves (insert t (k, v)).1 := by rw [r4]; simp
  refine ⟨a, r1, ?_, ?_, r5⟩
  · have := deref_spec r2 hx
    rw [mk_addr, mk_value] at this
    exact this
  · have := (find_spec r2 k).1 _ hx rfl
    rw [mk_addr] at this
    exact this

/-- Erasing a stored key returns true, takes one from the size, and removes that key and
no other. -/
theorem erase_stored {t : radix_tree V} (hw : tree_wf t) {k : Key} {a : Nat}
    (h : find t k = some a) :
    (erase t k).2 = true ∧ size (erase t k).1 + 1 = size t ∧ find (erase t k).1 k = none ∧
    ∀ k1, k1 ≠ k → find (erase t k).1 k1 = find t k1 ∧
      deref (erase t k).1 (find t k1) = deref t (find t k1) := by
  obtain ⟨x, hx, hs, ha⟩ := find_some_leaf hw h
  obtain ⟨e1, e2, ⟨L1, L2, e3, e4⟩, e5, -⟩ := erase_present hw k hx hs
  have hnd := tree_leaves_nodup hw
  have hsub : ∀ y ∈ tree_leaves (erase t k).1, y ∈ tree_leaves t ∧ y ≠ x := by
    intro y hy
    rw [e4] at hy
    rw [e3] at hnd ⊢
    refine ⟨by simp only [List.mem_append, List.mem_singleton] at hy ⊢; tauto, ?_⟩
    rintro rfl
    have := List.nodup_middle.mp (by simpa using hnd)
    rw [List.nodup_cons] at this
    exact this.1 hy
  have hsup : ∀ y ∈ tree_leaves t, y ≠ x → y ∈ tree_leaves (erase t k).1 := by
    intro y hy hne
    rw [e4]
    rw [e3] at hy
    simp only [List.mem_append, List.mem_singleton] at hy ⊢
    tauto
  refine ⟨e1, ?_, ?_, ?_⟩
  · have hpos : 0 < t.m_size := by
      rw [tree_wf_size hw]; exact List.length_pos_of_mem hx
    show (erase t k).1.m_size + 1 = t.m_size
    omega
  · apply (find_spec e2 k).2.1
    intro y hy hys
    obtain ⟨h1, h2⟩ := hsub y hy
    exact h2 (tree_leaf_key_inj hw h1 hx (by rw [hys, hs]))
  · intro k1 hk1
    cases hf : find t k1 with
    | none =>
      refine ⟨?_, rfl⟩
      apply (find_spec e2 k1).2.1
      intro y hy hys
      exact find_none_absent hw hf y (hsub y hy).1 hys
    | some a1 =>
      obtain ⟨y, hy, hys, hya⟩ := find_some_leaf hw hf
      have hne : y ≠ x := by
        rintro rfl
        rw [hs] at hys
        exact hk1 (Option.some.inj hys).symm
      have hy1 := hsup y hy hne
      refine ⟨?_, ?_⟩
      · rw [(find_spec e2 k1).1 y hy1 hys, hya]
      · rw [← hya, deref_spec e2 hy1, deref_spec hw hy]

/-- Erasing a key that is not stored returns false and leaves the tree as it was. -/
theorem erase_not_stored {t : radix_tree V} (hw : tree_wf t) {k : Key}
    (h : find t k = none) : erase t k = (t, false) :=
  erase_absent hw k (find_none_absent hw h)

/-- Iteration from `begin()` visits the leaves of the tree in order and reaches `end()`
after one increment per leaf. -/
theorem walk_begin {t : radix_tree V} (hw : tree_wf t) (extra : Nat) :
    walk t (size t + extra) (begin t) = some ((tree_leaves t).map radix_tree_node.addr) := by
  rw [begin_spec hw]
  apply walk_spec hw (tree_leaves t) [] _ rfl
  show _ ≤ t.m_size + extra
  rw [tree_wf_size hw]
  omega

theorem prefix_match_keys {t : radix_tree V} (hw : tree_wf t) (p : Key) :
    visited_keys t (prefix_match t p)
      = ((tree_leaves t).filter (starts_with p)).filterMap stored_key := by
  rw [prefix_match_spec hw p]
  exact visited_keys_map hw _ (fun x hx => (List.mem_filter.mp hx).1)

theorem mem_prefix_match {t : radix_tree V} (hw : tree_wf t) (p : Key) (a : Nat) :
    a ∈ prefix_match t p ↔
      ∃ x ∈ tree_leaves t, x.addr = a ∧ ∃ k, stored_key x = some k ∧ p <+: k := by
  rw [prefix_match_spec hw p, List.mem_map]
  constructor
  · rintro ⟨x, hx, rfl⟩
    obtain ⟨h1, h2⟩ := List.mem_filter.mp hx
    obtain ⟨k, v, -, hs⟩ := leaf_stored_key hw h1
    exact ⟨x, h1, rfl, k, hs, (starts_with_iff hs).mp h2⟩
  · rintro ⟨x, hx, rfl, k, hs, hp⟩
    exact ⟨x, List.mem_filter.mpr ⟨hx, (starts_with_iff hs).mpr hp⟩, rfl⟩

end TreeLevel

section Claims
variable {V : Type}

/-- C1: after any sequence of calls on an initially empty tree, a key that the history
binds to a value (it was inserted and not erased since, and the value is that of the
first successful insert since the key was last absent) is found: `find` returns an
iterator other than `end()` whose leaf stores that key with that value. -/
theorem C1_find_stored [Inhabited V] (ops : List (Op V)) (k : Key) (v : V)
    (h : model ops k = some v) :
    ∃ a, find (run ops) k = some a ∧ find (run ops) k ≠ end_it ∧
      deref (run ops) (some a) = some (k, v) := by
  obtain ⟨hw, ha⟩ := run_agrees ops
  obtain ⟨x, hx, hv⟩ := (ha k v).mp h
  have hf := (find_spec hw k).1 x hx (stored_key_eq_of_value hv)
  refine ⟨x.addr, hf, ?_, ?_⟩
  · rw [hf]; exact fun h => Option.noConfusion h
  · rw [deref_spec hw hx, hv]

theorem C1_find_stored_witness :
    model sample_ops ['a', 'b'] = some 1 ∧
    ∃ a, find (run sample_ops) ['a', 'b'] = some a ∧
      find (run sample_ops) ['a', 'b'] ≠ end_it ∧
      deref (run sample_ops) (some a) = some (['a', 'b'], 1) :=
  ⟨by decide, C1_find_stored sample_ops ['a', 'b'] 1 (by decide)⟩

/-- C2: after any sequence of calls on an initially empty tree, a key that the history
does not bind (it was never inserted, or the last call that names it was a successful
erase) is not found: `find` returns `end()`. -/
theorem C2_find_absent [Inhabited V] (ops : List (Op V)) (k : Key)
    (h : model ops k = none) : find (run ops) k = end_it := by
  obtain ⟨hw, ha⟩ := run_agrees ops
  apply (find_spec hw k).2.1
  intro x hx hs
  obtain ⟨k1, v, hv, hs1⟩ := leaf_stored_key hw hx
  rw [hs] at hs1
  cases hs1
  have := (ha k v).mpr ⟨x, hx, hv⟩
  rw [h] at this
  cases this

theorem C2_find_absent_witness :
    model sample_ops ['a'] = none ∧ find (run sample_ops) ['a'] = end_it :=
  ⟨by decide, C2_find_absent sample_ops ['a'] (by decide)⟩

/-- C3: on a reachable tree that stores the key `k` with the value `v0`, `insert((k, v))`
returns the iterator of the existing leaf and false; the tree is as it was, so the
iterator still points to `(k, v0)`, the size is unchanged and `find(k)` still yields
`v0`. -/
theorem C3_insert_duplicate [Inhabited V] (ops : List (Op V)) (k : Key) (v0 v : V) (a : Nat)
    (hf : find (run ops) k = some a) (hd : deref (run ops) (some a) = some (k, v0)) :
    (insert (run ops) (k, v)).2 = (some a, false) ∧
    deref (insert (run ops) (k, v)).1 (some a) = some (k, v0) ∧
    size (insert (run ops) (k, v)).1 = size (run ops) ∧
    find (insert (run ops) (k, v)).1 k = some a ∧
    (insert (run ops) (k, v)).1 = run ops := by
  rw [insert_stored (run_wf ops) v hf]
  exact ⟨rfl, hd, rfl, hf, rfl⟩

theorem C3_insert_duplicate_witness :
    find (run sample_ops) ['a', 'b'] = some 2 ∧
    deref (run sample_ops) (some 2) = some (['a', 'b'], 1) ∧
    (insert (run sample_ops) (['a', 'b'], 7)).2 = (some 2, false) ∧
    deref (insert (run sample_ops) (['a', 'b'], 7)).1 (some 2) = some (['a', 'b'], 1) ∧
    size (insert (run sample_ops) (['a', 'b'], 7)).1 = size (run sample_ops) ∧
    find (insert (run sample_ops) (['a', 'b'], 7)).1 ['a', 'b'] = some 2 ∧
    (insert (run sample_ops) (['a', 'b'], 7)).1 = run sample_ops :=
  ⟨by decide, by decide,
    C3_insert_duplicate sample_ops ['a', 'b'] 1 7 2 (by decide) (by decide)⟩

/-- C4: on a reachable tree that does not store the key `k`, `insert((k, v))` returns
true and an iterator that points to `(k, v)`; in particular this is so right after
`erase(k)`, whether or not that erase removed anything. -/
theorem C4_insert_fresh [Inhabited V] (ops : List (Op V)) (k : Key) (v : V) :
    (find (run ops) k = end_it →
      ∃ a, (insert (run ops) (k, v)).2 = (some a, true) ∧
        deref (insert (run ops) (k, v)).1 (some a) = some (k, v)) ∧
    (∃ a, (insert (erase (run ops) k).1 (k, v)).2 = (some a, true) ∧
        deref (insert (erase (run ops) k).1 (k, v)).1 (some a) = some (k, v)) := by
  constructor
  · intro h
    obtain ⟨a, r1, r2, -⟩ := insert_new (run_wf ops) v h
    exact ⟨a, r1, r2⟩
  · have hrun : (erase (run ops) k).1 = run (ops ++ [Op.erase k]) :=
      (run_snoc ops (Op.erase k)).symm
    rw [hrun]
    have hw := run_wf (ops ++ [Op.erase k])
    have hnone : find (run (ops ++ [Op.erase k])) k = none := by
      rw [← hrun]
      cases hf : find (run ops) k with
      | none => rw [erase_not_stored (run_wf ops) hf]; exact hf
      | some a => exact (erase_stored (run_wf ops) hf).2.2.1
    obtain ⟨a, r1, r2, -⟩ := insert_new hw v hnone
    exact ⟨a, r1, r2⟩

theorem C4_insert_fresh_witness :
    find (run sample_ops) ['a'] = end_it ∧
    (∃ a, (insert (run sample_ops) (['a'], 9)).2 = (some a, true) ∧
        deref (insert (run sample_ops) (['a'], 9)).1 (some a) = some (['a'], 9)) ∧
    (∃ a, (insert (erase (run sample_ops) ['a']).1 (['a'], 9)).2 = (some a, true) ∧
        deref (insert (erase (run sample_ops) ['a']).1 (['a'], 9)).1 (some a)
          = some (['a'], 9)) :=
  ⟨by decide, (C4_insert_fresh sample_ops ['a'] 9).1 (by decide),
    (C4_insert_fresh sample_ops ['a'] 9).2⟩

/-- C5: on a reachable tree that stores the key `k`, `erase(k)` returns true and takes
exactly one from the size; afterwards `find(k)` is `end()`, and every other key is found
as before, at the same leaf and with the same value. -/
theorem C5_erase_stored [Inhabited V] (ops : List (Op V)) (k : Key) (a : Nat)
    (hf : find (run ops) k = some a) :
    (erase (run ops) k).2 = true ∧
    size (erase (run ops) k).1 + 1 = size (run ops) ∧
    find (erase (run ops) k).1 k = end_it ∧
    ∀ k1, k1 ≠ k → find (erase (run ops) k).1 k1 = find (run ops) k1 ∧
      deref (erase (run ops) k).1 (find (run ops) k1) = deref (run ops) (find (run ops) k1) :=
  erase_stored (run_wf ops) hf

theorem C5_erase_stored_witness :
    find (run sample_ops) ['a', 'b'] = some 2 ∧
    (erase (run sample_ops) ['a', 'b']).2 = true ∧
    size (erase (run sample_ops) ['a', 'b']).1 + 1 = size (run sample_ops) ∧
    find (erase (run sample_ops) ['a', 'b']).1 ['a', 'b'] = end_it ∧
    ∀ k1, k1 ≠ ['a', 'b'] →
      find (erase (run sample_ops) ['a', 'b']).1 k1 = find (run sample_ops) k1 ∧
      deref (erase (run sample_ops) ['a', 'b']).1 (find (run sample_ops) k1)
        = deref (run sample_ops) (find (run sample_ops) k1) :=
  ⟨by decide, C5_erase_stored sample_ops ['a', 'b'] 2 (by decide)⟩

/-- C6: on a reachable tree that does not store the key `k`, `erase(k)` returns false and
the tree is unchanged. -/
theorem C6_erase_absent [Inhabited V] (ops : List (Op V)) (k : Key)
    (hf : find (run ops) k = end_it) :
    (erase (run ops) k).2 = false ∧ (erase (run ops) k).1 = run ops := by
  rw [erase_not_stored (run_wf ops) hf]
  exact ⟨rfl, rfl⟩

theorem C6_erase_absent_witness :
    find (run sample_ops) ['a'] = end_it ∧
    (erase (run sample_ops) ['a']).2 = false ∧
    (erase (run sample_ops) ['a']).1 = run sample_ops :=
  ⟨by decide, C6_erase_absent sample_ops ['a'] (by decide)⟩

/-- C7: after any sequence of insert, erase, operator[], remove_if and clear calls on an
initially empty tree, `size()` is the number of leaf nodes of the tree; and when no call
is `clear`, `size()` is N - M, with N the number of inserts that returned true (those made
by `operator[]` included) and M the number of erases that returned true (those made by
`remove_if` included). -/
theorem C7_size_law [Inhabited V] (ops : List (Op V)) :
    size (run ops) = tree_leaf_nodes (run ops) ∧
    ((∀ op ∈ ops, op.is_clear = false) →
      count_erased empty_tree ops ≤ count_inserted empty_tree ops ∧
      size (run ops) = count_inserted empty_tree ops - count_erased empty_tree ops) := by
  constructor
  · rw [tree_leaf_nodes_spec (run_wf ops)]
    exact tree_wf_size (run_wf ops)
  · intro hc
    have h := run_from_size ops empty_tree _ empty_tree_wf empty_tree_agrees hc
    have h0 : (empty_tree : radix_tree V).m_size = 0 := rfl
    rw [h0] at h
    have hs : size (run ops) = (run_from empty_tree ops).m_size := rfl
    rw [hs]
    omega

theorem C7_size_law_witness :
    (∀ op ∈ sample_ops, op.is_clear = false) ∧
    size (run sample_ops) = tree_leaf_nodes (run sample_ops) ∧
    count_erased empty_tree sample_ops ≤ count_inserted empty_tree sample_ops ∧
    size (run sample_ops)
      = count_inserted empty_tree sample_ops - count_erased empty_tree sample_ops :=
  ⟨by decide, (C7_size_law sample_ops).1, (C7_size_law sample_ops).2 (by decide)⟩

/-- C8: on every reachable tree, starting at `begin()` and applying `++` reaches `end()`
after exactly `size()` steps (whatever the bound on the number of steps, as long as it is
at least the size); no key is visited twice, and the keys visited are exactly the stored
keys, those that `find` finds. -/
theorem C8_iteration [Inhabited V] (ops : List (Op V)) (extra : Nat) :
    ∃ its, walk (run ops) (size (run ops) + extra) (begin (run ops)) = some its ∧
      its.length = size (run ops) ∧
      (visited_keys (run ops) its).Nodup ∧
      ∀ k, k ∈ visited_keys (run ops) its ↔ find (run ops) k ≠ end_it := by
  have hw := run_wf ops
  refine ⟨_, walk_begin hw extra, ?_, ?_, ?_⟩
  · rw [List.length_map]; exact (tree_wf_size hw).symm
  · rw [visited_keys_map hw _ (fun x hx => hx)]
    exact keys_nodup hw _ (fun x hx => hx) (tree_leaves_nodup hw)
  · intro k
    rw [visited_keys_map hw _ (fun x hx => hx), mem_filterMap_stored_key]
    exact (find_isSome_iff hw k).symm

/-- C9: on every reachable tree, for every stored key `k` (found by `find` at a leaf) and
every prefix `p` of `k`, the empty prefix and `k` itself included, the output of
`prefix_match(p)` contains the iterator of the leaf of `k`; in particular the output of
`prefix_match("")` contains it, for every stored key. -/
theorem C9_prefix_match_complete [Inhabited V] (ops : List (Op V)) (k p : Key) (a : Nat)
    (hf : find (run ops) k = some a) (hp : p <+: k) :
    a ∈ prefix_match (run ops) p ∧ a ∈ prefix_match (run ops) [] ∧
    a ∈ prefix_match (run ops) k := by
  have hw := run_wf ops
  obtain ⟨x, hx, hs, ha⟩ := find_some_leaf hw hf
  exact ⟨(mem_prefix_match hw p a).mpr ⟨x, hx, ha, k, hs, hp⟩,
    (mem_prefix_match hw [] a).mpr ⟨x, hx, ha, k, hs, List.nil_prefix⟩,
    (mem_prefix_match hw k a).mpr ⟨x, hx, ha, k, hs, List.prefix_refl k⟩⟩

theorem C9_prefix_match_complete_witness :
    find (run sample_ops) ['a', 'b', 'c'] = some 6 ∧ ['a', 'b'] <+: ['a', 'b', 'c'] ∧
    6 ∈ prefix_match (run sample_ops) ['a', 'b'] ∧ 6 ∈ prefix_match (run sample_ops) [] ∧
    6 ∈ prefix_match (run sample_ops) ['a', 'b', 'c'] :=
  ⟨by decide, ⟨['c'], rfl⟩,
    C9_prefix_match_complete sample_ops ['a', 'b', 'c'] ['a', 'b'] 6 (by decide) ⟨['c'], rfl⟩⟩

/-- C10: on every reachable tree and for every query `p`, every iterator in the output of
`prefix_match(p)` points to a stored key that begins with `p`, and no key is there twice;
so the output is empty when no stored key begins with `p`, as for the queries cc and
abcdfe on the tree with the keys abcdef, abcdege, bcdef, cd, ce and c. -/
theorem C10_prefix_match_sound [Inhabited V] (ops : List (Op V)) (p : Key) :
    (∀ a ∈ prefix_match (run ops) p, ∃ k v, deref (run ops) (some a) = some (k, v) ∧
      p <+: k ∧ find (run ops) k = some a) ∧
    (visited_keys (run ops) (prefix_match (run ops) p)).Nodup ∧
    (prefix_match (run ops) p).Nodup ∧
    ((∀ k, find (run ops) k ≠ end_it → ¬ p <+: k) → prefix_match (run ops) p = []) ∧
    prefix_match (run prefix_example_ops) ['c', 'c'] = [] ∧
    prefix_match (run prefix_example_ops) ['a', 'b', 'c', 'd', 'f', 'e'] = [] := by
  have hw := run_wf ops
  have hsound : ∀ a ∈ prefix_match (run ops) p, ∃ k v,
      deref (run ops) (some a) = some (k, v) ∧ p <+: k ∧ find (run ops) k = some a := by
    intro a ha
    obtain ⟨x, hx, hxa, k, hs, hp⟩ := (mem_prefix_match hw p a).mp ha
    obtain ⟨k1, v, hv, hs1⟩ := leaf_stored_key hw hx
    rw [hs] at hs1
    cases hs1
    refine ⟨k, v, ?_, hp, ?_⟩
    · rw [← hxa, deref_spec hw hx, hv]
    · rw [(find_spec hw k).1 x hx hs, hxa]
  have hnd : ((tree_leaves (run ops)).filter (starts_with p)).Nodup :=
    (tree_leaves_nodup hw).sublist (List.filter_sublist _)
  refine ⟨hsound, ?_, ?_, ?_, by decide, by decide⟩
  · rw [prefix_match_keys hw p]
    exact keys_nodup hw _ (fun x hx => (List.mem_filter.mp hx).1) hnd
  · rw [prefix_match_spec hw p]
    refine List.Nodup.map_on ?_ hnd
    intro x hx y hy hxy
    exact tree_leaf_addr_inj hw (List.mem_filter.mp hx).1 (List.mem_filter.mp hy).1 hxy
  · intro h
    apply List.eq_nil_iff_forall_not_mem.mpr
    intro a ha
    obtain ⟨k, v, -, hp, hk⟩ := hsound a ha
    exact h k (by rw [hk]; exact fun h => Option.noConfusion h) hp

end Claims

section LongestMatchLemmas
variable {V : Type}

theorem nul_leaf_some {pre : Key} {m : radix_tree_node V} (hw : WF pre m)
    (hl : m.m_is_leaf = false) {a : Nat} (h : nul_leaf [] m = some a) :
    ∃ e ∈ m.m_children, e.2.m_is_leaf = true ∧ e.2.addr = a := by
  unfold nul_leaf at h
  cases hf : map_find m.m_children [] with
  | none => rw [hf] at h; cases h
  | some c =>
    rw [hf] at h
    simp only [] at h
    by_cases hc : c.m_is_leaf = true
    · rw [if_pos hc] at h
      exact ⟨([], c), map_find_mem hf, hc, Option.some.inj h⟩
    · rw [if_neg hc] at h; cases h

theorem nul_leaf_none {pre : Key} {m : radix_tree_node V} (hw : WF pre m)
    (hl : m.m_is_leaf = false) (h : nul_leaf [] m = none) :
    ∀ e ∈ m.m_children, e.2.m_is_leaf = false := by
  obtain ⟨g1, g2, g3, g4, -⟩ := hw.node_inv hl
  intro e he
  by_cases hel : e.2.m_is_leaf = true
  · exfalso
    have hk : e.1 = [] := by rw [← (g2 e he).1]; exact (g4 e he).leaf_key hel
    have hf := map_find_of_mem g1 he
    rw [hk] at hf
    unfold nul_leaf at h
    rw [hf] at h
    simp only [hel, if_true] at h
    cases h
  · simpa using hel

/-- A child that is a leaf stores the key spelled by the labels down to its parent. -/
theorem leaf_child_key {pre : Key} {m : radix_tree_node V} (hw : WF pre m)
    (hl : m.m_is_leaf = false) {e : Key × radix_tree_node V} (he : e ∈ m.m_children)
    (hel : e.2.m_is_leaf = true) :
    e.2 ∈ leaves m ∧ stored_key e.2 = some (pre ++ m.m_key) := by
  obtain ⟨g1, g2, g3, g4, -⟩ := hw.node_inv hl
  constructor
  · rw [leaves_of_internal hl, mem_leaves_children]
    exact ⟨e, he, by rw [leaves_of_leaf hel]; exact List.mem_singleton_self _⟩
  · obtain ⟨v, hv⟩ := (g4 e he).leaf_form hel
    rw [hv]; rfl

/-- When no leaf below a child that is not a leaf has a key that begins the query, a
leaf below the node whose key begins the query is a child of the node. -/
theorem leaf_at_anchor {pre : Key} {m : radix_tree_node V} (hw : WF pre m)
    (hl : m.m_is_leaf = false) {K : Key}
    (hc : ∀ e ∈ m.m_children, e.2.m_is_leaf = false → ∀ y ∈ leaves e.2, ∀ ky,
      stored_key y = some ky → ¬ ky <+: K)
    {y : radix_tree_node V} (hy : y ∈ leaves m) {ky : Key} (hky : stored_key y = some ky)
    (hp : ky <+: K) :
    ky = pre ++ m.m_key ∧ ∃ e ∈ m.m_children, e.2.m_is_leaf = true := by
  obtain ⟨e, he, hye, r, hs, hleaf, hint⟩ := hw.leaf_child hl hy
  by_cases hel : e.2.m_is_leaf = true
  · obtain ⟨h1, h2⟩ := hleaf hel
    rw [hky, h1, h2] at hs
    simp only [List.append_nil, Option.some.injEq] at hs
    exact ⟨hs, e, he, hel⟩
  · have hel : e.2.m_is_leaf = false := by simpa using hel
    exact absurd hp (hc e he hel y hye ky hky)

/-- The labels down to a node begin the labels down to every node below it. -/
theorem pre_at_starts : ∀ (q : Path) (n : radix_tree_node V) (pre : Key) (m : radix_tree_node V),
    WF pre n → node_at q n = some m → (pre ++ n.m_key) <+: (pre_at q n pre ++ m.m_key) := by
  intro q
  induction q with
  | nil =>
    intro n pre m hw h
    cases h
    exact List.prefix_refl _
  | cons lab q ih =>
    intro n pre m hw h
    obtain ⟨c, l1, l2, hl, hcs, h1, h2, hat, hwc, hok⟩ := node_at_cons_inv hw h
    rw [pre_at_cons_of_split hcs h1]
    exact (List.prefix_append _ _).trans (ih c (pre ++ n.m_key) m hwc hat)

/-- Two children that are not leaves and have leaves whose keys are comparable with the
same query are the same child: the labels of such children begin differently. -/
theorem same_child_of_starts {pre : Key} {n : radix_tree_node V} (hw : WF pre n)
    (hl : n.m_is_leaf = false) {e c : Key × radix_tree_node V} (he : e ∈ n.m_children)
    (hc : c ∈ n.m_children) (hel : e.2.m_is_leaf = false) (hcl : c.2.m_is_leaf = false)
    {K r : Key} (h1 : (pre ++ n.m_key ++ (e.1 ++ r)) <+: K)
    (h2 : (pre ++ n.m_key ++ c.1) <+: K) : e = c := by
  obtain ⟨g1, g2, g3, g4, -⟩ := hw.node_inv hl
  have hne : e.1 ≠ [] := ((g2 e he).2 hel).1
  have hnc : c.1 ≠ [] := ((g2 c hc).2 hcl).1
  obtain ⟨t1, ht1⟩ := h1
  obtain ⟨t2, ht2⟩ := h2
  have : e.1 ++ (r ++ t1) = c.1 ++ t2 := by
    have h := ht1.trans ht2.symm
    simp only [List.append_assoc] at h
    exact List.append_cancel_left (List.append_cancel_left h)
  have hh : e.1.head? = c.1.head? := by
    rw [← head_of_starts (List.prefix_append e.1 (r ++ t1)) hne, this,
      head_of_starts (List.prefix_append c.1 t2) hnc]
  exact map_sorted_key_unique g1 he hc (g3 e he c hc hel hcl hh)

end LongestMatchLemmas

section LongestMatchLoop
variable {V : Type}

/-- A leaf whose key begins the query lies below the node that a position along the query
leads to, or its key is no longer than the labels down to that node. -/
theorem leaves_off_path (K : Key) : ∀ (q : Path) (n : radix_tree_node V) (pre : Key)
    (m : radix_tree_node V), WF pre n → node_at q n = some m → m.m_is_leaf = false →
    (pre_at q n pre ++ m.m_key) <+: K →
    ∀ y ∈ leaves n, ∀ ky, stored_key y = some ky → ky <+: K →
      y ∈ leaves m ∨ ky.length ≤ (pre_at q n pre ++ m.m_key).length := by
  intro q
  induction q with
  | nil =>
    intro n pre m hw h hml hK y hy ky hky hp
    cases h
    exact Or.inl hy
  | cons lab q ih =>
    intro n pre m hw h hml hK y hy ky hky hp
    obtain ⟨c, l1, l2, hl, hcs, h1, h2, hat, hwc, hok⟩ := node_at_cons_inv hw h
    have hpre := pre_at_cons_of_split hcs h1 q pre
    rw [hpre] at hK ⊢
    have hcm : (lab, c) ∈ n.m_children := by rw [hcs]; simp
    have hcl : c.m_is_leaf = false := by
      cases q with
      | nil => cases hat; exact hml
      | cons lab2 q2 => exact (node_at_cons_inv hwc hat).choose_spec.choose_spec.choose_spec.1
    have hst := pre_at_starts q c (pre ++ n.m_key) m hwc hat
    obtain ⟨e, he, hye, r, hs, hleaf, hint⟩ := hw.leaf_child hl hy
    rw [hky] at hs
    have hs := Option.some.inj hs
    by_cases hel : e.2.m_is_leaf = true
    · right
      obtain ⟨e1, e2⟩ := hleaf hel
      rw [hs, e1, e2]
      simp only [List.append_nil]
      exact ((List.prefix_append _ _).trans hst).length_le
    · have hel : e.2.m_is_leaf = false := by simpa using hel
      have hck : c.m_key = lab := hok.1
      have hec : e = (lab, c) :=
        same_child_of_starts hw hl he hcm hel hcl (hs ▸ hp)
          (by rw [← hck]; exact hst.trans hK)
      subst hec
      exact ih c (pre ++ n.m_key) m hwc hat hml hK y hye ky hky hp

/-- The loop of `longest_match`, started at a node that the query leads to and below
which only a child that is a leaf can hold a key that begins the query: it returns a leaf
whose key begins the query and is the longest such key in the tree, and `end()` when the
tree holds no such key. -/
theorem longest_match_loop_spec {root : radix_tree_node V} (hw : WF [] root) (K : Key) :
    ∀ (rq : List Key) (m : radix_tree_node V), node_at rq.reverse root = some m →
    m.m_is_leaf = false → (pre_at rq.reverse root [] ++ m.m_key) <+: K →
    (∀ e ∈ m.m_children, e.2.m_is_leaf = false → ∀ y ∈ leaves e.2, ∀ ky,
      stored_key y = some ky → ¬ ky <+: K) →
    (∀ a, longest_match_loop root [] rq = some a →
      ∃ x ∈ leaves root, x.addr = a ∧ ∃ kx, stored_key x = some kx ∧ kx <+: K ∧
        ∀ y ∈ leaves root, ∀ ky, stored_key y = some ky → ky <+: K →
          ky.length ≤ kx.length) ∧
    (longest_match_loop root [] rq = none →
      ∀ y ∈ leaves root, ∀ ky, stored_key y = some ky → ¬ ky <+: K) := by
  intro rq
  induction rq with
  | nil =>
    intro m hat hml hK hc
    cases hat
    simp only [List.reverse_nil, pre_at] at hK
    simp only [longest_match_loop]
    constructor
    · intro a ha
      obtain ⟨e, he, hel, hea⟩ := nul_leaf_some hw hml ha
      obtain ⟨k1, k2⟩ := leaf_child_key hw hml he hel
      refine ⟨e.2, k1, hea, _, k2, hK, ?_⟩
      intro y hy ky hky hp
      rw [(leaf_at_anchor hw hml hc hy hky hp).1]
    · intro hn y hy ky hky hp
      obtain ⟨-, e, he, hel⟩ := leaf_at_anchor hw hml hc hy hky hp
      rw [nul_leaf_none hw hml hn e he] at hel
      cases hel
  | cons lab rq ih =>
    intro m hat hml hK hc
    rw [List.reverse_cons] at hat hK
    obtain ⟨par, l1, l2, hpar, hwpar, hparl, hcs, h1, h2, hwm, hok, hpre⟩ :=
      node_at_snoc_inv hw hat
    rw [hpre] at hK
    have hsub := leaves_subset_of_node_at hw hat
    simp only [longest_match_loop, hat]
    cases hnl : nul_leaf [] m with
    | some a1 =>
      simp only []
      constructor
      · intro a ha
        cases ha
        obtain ⟨e, he, hel, hea⟩ := nul_leaf_some hwm hml hnl
        obtain ⟨k1, k2⟩ := leaf_child_key hwm hml he hel
        refine ⟨e.2, hsub _ k1, hea, _, k2, hK, ?_⟩
        intro y hy ky hky hp
        have hK2 : (pre_at (rq.reverse ++ [lab]) root [] ++ m.m_key) <+: K := by
          rw [hpre]; exact hK
        rcases leaves_off_path K _ root [] m hw hat hml hK2 y hy ky hky hp with h | h
        · rw [(leaf_at_anchor hwm hml hc h hky hp).1]
        · rw [hpre] at h; exact h
      · intro h; cases h
    | none =>
      simp only []
      have hparK : (pre_at rq.reverse root [] ++ par.m_key) <+: K :=
        (List.prefix_append _ _).trans hK
      have hmem : (lab, m) ∈ par.m_children := by rw [hcs]; simp
      have hmk : m.m_key = lab := hok.1
      apply ih par hpar hparl hparK
      intro e he hel y hy ky hky hp
      obtain ⟨r, v, hyf⟩ := (hwpar.node_inv hparl).2.2.2.1 e he |>.leaves_form e.2 _ y hy
      have hky2 : ky = pre_at rq.reverse root [] ++ par.m_key ++ e.2.m_key ++ r := by
        rw [hyf] at hky
        exact (Option.some.inj hky).symm
      have hek : e.2.m_key = e.1 := ((hwpar.node_inv hparl).2.1 e he).1
      have hem : e = (lab, m) := by
        apply same_child_of_starts hwpar hparl he hmem hel hml (K := K) (r := r)
        · rw [← hek, ← List.append_assoc, ← hky2]; exact hp
        · show (pre_at rq.reverse root [] ++ par.m_key ++ lab) <+: K
          rw [← hmk]; exact hK
      subst hem
      obtain ⟨-, e, he, hel2⟩ := leaf_at_anchor hwm hml hc hy hky hp
      rw [nul_leaf_none hwm hml hnl e he] at hel2
      cases hel2

end LongestMatchLoop

section LongestMatchSpec
variable {V : Type}

theorem longest_match_eval {t : radix_tree V} {root : radix_tree_node V}
    (hroot : t.m_root = some root) {key : Key} {node : radix_tree_node V}
    (h0 : node_at (find_node key root 0) root = some node) :
    (node.m_is_leaf = true → longest_match t key = some node.addr) ∧
    (node.m_is_leaf = false →
      radix_substr key node.m_depth (radix_length node.m_key) = node.m_key →
      longest_match t key = longest_match_loop root [] (find_node key root 0).reverse) ∧
    (node.m_is_leaf = false →
      radix_substr key node.m_depth (radix_length node.m_key) ≠ node.m_key →
      find_node key root 0 ≠ [] →
      longest_match t key
        = longest_match_loop root [] (find_node key root 0).dropLast.reverse) := by
  refine ⟨?_, ?_, ?_⟩
  · intro hl
    unfold longest_match
    rw [hroot]
    simp only [h0, hl, if_true]
  · intro hl hs
    unfold longest_match
    rw [hroot]
    simp only [h0, hl, Bool.false_eq_true, if_false, hs, not_true_eq_false, radix_substr_nul]
  · intro hl hs hp
    unfold longest_match
    rw [hroot]
    simp only [h0, hl, Bool.false_eq_true, if_false, radix_substr_nul]
    rw [if_pos hs, if_neg hp]

/-- The method `longest_match` on a tree with the invariant: the leaf returned stores a key
that begins the query and is the longest such key, and `end()` is returned when no stored
key begins the query. -/
theorem longest_match_spec {t : radix_tree V} (hw : tree_wf t) (K : Key) :
    (∀ a, longest_match t K = some a →
      ∃ x ∈ tree_leaves t, x.addr = a ∧ ∃ kx, stored_key x = some kx ∧ kx <+: K ∧
        ∀ y ∈ tree_leaves t, ∀ ky, stored_key y = some ky → ky <+: K →
          ky.length ≤ kx.length) ∧
    (longest_match t K = none →
      ∀ y ∈ tree_leaves t, ∀ ky, stored_key y = some ky → ¬ ky <+: K) := by
  cases hroot : t.m_root with
  | none =>
    have h0 : longest_match t K = none := by unfold longest_match; rw [hroot]
    have h1 : tree_leaves t = [] := by unfold tree_leaves; rw [hroot]
    rw [h0, h1]
    exact ⟨fun a h => (nomatch h), fun _ y hy => (nomatch hy)⟩
  | some root =>
    rw [tree_leaves_root hroot]
    obtain ⟨h1, h2, h3, h4, h5, h6⟩ := tree_wf_root hw hroot
    obtain ⟨q, m, pre_m, rest_m, res, k1, k2, k3, k4, k8, k5, k6, k7⟩ :=
      find_node_landing root [] K h1 h2
    rw [← find_node_root K root h3] at k6
    have hkk : [] ++ root.m_key ++ K = K := by rw [h3]; rfl
    rw [hkk] at k4 k5
    obtain ⟨g1, g2, g3, g4, g5⟩ := k2.node_inv k3
    have hpreK : (pre_at q.reverse.reverse root [] ++ m.m_key) <+: K := by
      rw [List.reverse_reverse, ← k8, k4]
      exact List.prefix_append _ _
    have hat : node_at q.reverse.reverse root = some m := by
      rw [List.reverse_reverse]; exact k1
    -- the key of a leaf below a child of the anchor that is not a leaf
    have hbelow : ∀ e ∈ m.m_children, e.2.m_is_leaf = false → ∀ y ∈ leaves e.2, ∀ ky,
        stored_key y = some ky → ky <+: K → e.1 ≠ [] ∧ e.1 <+: rest_m := by
      intro e he hel y hy ky hky hp
      obtain ⟨r, v, hyf⟩ := (g4 e he).leaves_form e.2 _ y hy
      have hky2 : ky = pre_m ++ m.m_key ++ e.2.m_key ++ r := by
        rw [hyf] at hky
        exact (Option.some.inj hky).symm
      rw [(g2 e he).1] at hky2
      rw [hky2, k4, List.append_assoc (pre_m ++ m.m_key)] at hp
      have hp1 : e.1 ++ r <+: rest_m := (List.prefix_append_right_inj _).1 hp
      exact ⟨((g2 e he).2 hel).1, (List.prefix_append _ _).trans hp1⟩
    have hmsub : radix_substr K m.m_depth (radix_length m.m_key) = m.m_key := by
      rw [k4, g5, List.append_assoc, radix_substr_append]
      simp
    rcases k7 with ⟨hr, e, he, e1, e2⟩ | ⟨hr, e1, e2⟩ | ⟨hr, e1, e2⟩ | ⟨hr, e, he, e1, e2, e3, e4⟩
    · subst e2
      have hnode : node_at (find_node K root 0) root = some e.2 := by
        rw [k6, node_at_append, k1]
        show node_at [e.1] m = some e.2
        rw [node_at_child g1 he]; rfl
      rw [(longest_match_eval hroot hnode).1 e1]
      obtain ⟨c1, c2⟩ := leaf_child_key k2 k3 he e1
      have hk : K = pre_m ++ m.m_key := by rw [k4, hr, List.append_nil]
      refine ⟨?_, fun h => (nomatch h)⟩
      intro a ha
      cases ha
      refine ⟨e.2, leaves_subset_of_node_at h1 k1 _ c1, rfl, K, by rw [c2, ← hk],
        List.prefix_refl _, ?_⟩
      intro y hy ky hky hp
      exact hp.length_le
    · subst e2
      rw [List.append_nil] at k6
      have hnode : node_at (find_node K root 0) root = some m := by rw [k6]; exact k1
      rw [(longest_match_eval hroot hnode).2.1 k3 hmsub, k6]
      apply longest_match_loop_spec h1 K q.reverse m hat k3 hpreK
      intro e he hel y hy ky hky hp
      obtain ⟨b1, b2⟩ := hbelow e he hel y hy ky hky hp
      rw [hr] at b2
      exact b1 (List.prefix_nil.1 b2)
    · subst e2
      rw [List.append_nil] at k6
      have hnode : node_at (find_node K root 0) root = some m := by rw [k6]; exact k1
      rw [(longest_match_eval hroot hnode).2.1 k3 hmsub, k6]
      apply longest_match_loop_spec h1 K q.reverse m hat k3 hpreK
      intro e he hel y hy ky hky hp
      obtain ⟨b1, b2⟩ := hbelow e he hel y hy ky hky hp
      exact e1 e he hel ((key_at_eq_head hr b1).2 (head_of_starts b2 b1))
    · subst e4
      have hnode : node_at (find_node K root 0) root = some e.2 := by
        rw [k6, node_at_append, k1]
        show node_at [e.1] m = some e.2
        rw [node_at_child g1 he]; rfl
      have hne : find_node K root 0 ≠ [] := by rw [k6]; simp
      have hsub : radix_substr K e.2.m_depth (radix_length e.2.m_key) ≠ e.2.m_key := by
        rw [(g4 e he).depth_eq, (g2 e he).1, k4, radix_substr_append]
        exact fun h => e3 ((take_eq_iff_starts rest_m e.1).1 h)
      rw [(longest_match_eval hroot hnode).2.2 e1 hsub hne, k6, List.dropLast_concat]
      apply longest_match_loop_spec h1 K q.reverse m hat k3 hpreK
      intro e' he' hel' y hy ky hky hp
      obtain ⟨b1, b2⟩ := hbelow e' he' hel' y hy ky hky hp
      have hh : e'.1.head? = e.1.head? := by
        rw [← head_of_starts b2 b1]
        exact (key_at_eq_head hr ((g2 e he).2 e1).1).1 e2
      have := g3 e' he' e he hel' e1 hh
      rw [this] at b2
      exact e3 b2

end LongestMatchSpec

section Queries
variable {V : Type}

/-- The method `find_node` from the root returns a node of the tree, and a leaf it returns
has a parent. -/
theorem find_node_valid {t : radix_tree V} (hw : tree_wf t) {root : radix_tree_node V}
    (hroot : t.m_root = some root) (key : Key) :
    ∃ node0, node_at (find_node key root 0) root = some node0 ∧
      ∃ node, (if node0.m_is_leaf then node_at (find_node key root 0).dropLast root
        else some node0) = some node ∧ node.m_is_leaf = false ∧
        ∃ p, node_at p root = some node := by
  obtain ⟨h1, h2, h3, h4, h5, h6⟩ := tree_wf_root hw hroot
  obtain ⟨m, k1, -, -⟩ := find_node_spec root [] key h1 h2
  rw [← find_node_root key root h3] at k1
  refine ⟨m, k1, ?_⟩
  by_cases hl : m.m_is_leaf = true
  · rw [if_pos hl]
    by_cases hp : find_node key root 0 = []
    · rw [hp] at k1
      cases k1
      rw [h2] at hl
      cases hl
    · rw [← List.dropLast_append_getLast hp] at k1
      obtain ⟨par, l1, l2, hpar, -, hparl, -⟩ := node_at_snoc_inv h1 k1
      exact ⟨par, hpar, hparl, _, hpar⟩
  · rw [if_neg hl]
    exact ⟨m, rfl, by simpa using hl, _, k1⟩

/-- The public `greedy_match` returns the leaves below the node that `find_node` returns,
or below its parent when that node is a leaf. -/
theorem greedy_match_spec {t : radix_tree V} (hw : tree_wf t) {root : radix_tree_node V}
    (hroot : t.m_root = some root) (key : Key) :
    ∃ node0 node, node_at (find_node key root 0) root = some node0 ∧
      (if node0.m_is_leaf then node_at (find_node key root 0).dropLast root
        else some node0) = some node ∧
      greedy_match t key = (leaves node).map radix_tree_node.addr ∧
      ∀ x ∈ leaves node, x ∈ leaves root := by
  obtain ⟨node0, h0, node, h1, -, p, hp⟩ := find_node_valid hw hroot key
  refine ⟨node0, node, h0, h1, ?_, leaves_subset_of_node_at (tree_wf_root hw hroot).1 hp⟩
  unfold greedy_match
  rw [hroot]
  simp only [h0, h1, greedy_match_node_eq]

/-- The output of `prefix_match` is empty or that of `greedy_match`. -/
theorem prefix_match_or (t : radix_tree V) (key : Key) :
    prefix_match t key = [] ∨ prefix_match t key = greedy_match t key := by
  unfold prefix_match greedy_match
  cases t.m_root with
  | none => exact Or.inl rfl
  | some root =>
    simp only []
    cases node_at (find_node key root 0) root with
    | none => exact Or.inl rfl
    | some node0 =>
      simp only []
      cases (if node0.m_is_leaf then node_at (find_node key root 0).dropLast root
        else some node0) with
      | none => exact Or.inl rfl
      | some node =>
        simp only []
        by_cases h : radix_substr key node.m_depth (radix_length key - (node.m_depth : Int))
            ≠ radix_substr node.m_key 0 (radix_length key - (node.m_depth : Int))
        · rw [if_pos h]; exact Or.inl rfl
        · rw [if_neg h]; exact Or.inr rfl

/-- A tree with the invariant and size zero has no leaf. -/
theorem tree_leaves_of_size_zero {t : radix_tree V} (hw : tree_wf t) (h : size t = 0) :
    tree_leaves t = [] := by
  have : (tree_leaves t).length = 0 := by rw [← tree_wf_size hw]; exact h
  exact List.length_eq_zero.1 this

/-- Every query on a tree without a leaf comes back empty. -/
theorem queries_of_no_leaf {t : radix_tree V} (hw : tree_wf t) (h : tree_leaves t = [])
    (q : Key) :
    find t q = none ∧ longest_match t q = none ∧ prefix_match t q = [] ∧
    greedy_match t q = [] ∧ erase t q = (t, false) ∧ begin t = none := by
  have hno : ∀ x ∈ tree_leaves t, stored_key x ≠ some q := by
    intro x hx; rw [h] at hx; cases hx
  refine ⟨(find_spec hw q).2.1 hno, ?_, ?_, ?_, erase_absent hw q hno, ?_⟩
  · cases hl : longest_match t q with
    | none => rfl
    | some a =>
      obtain ⟨x, hx, -⟩ := (longest_match_spec hw q).1 a hl
      rw [h] at hx; cases hx
  · rw [prefix_match_spec hw q, h]; rfl
  · cases hroot : t.m_root with
    | none => unfold greedy_match; rw [hroot]
    | some root =>
      obtain ⟨node0, node, -, -, h3, h4⟩ := greedy_match_spec hw hroot q
      rw [tree_leaves_root hroot] at h
      rw [h3]
      have : leaves node = [] := by
        apply List.eq_nil_iff_forall_not_mem.mpr
        intro x hx
        have := h4 x hx
        rw [h] at this
        cases this
      rw [this]; rfl
  · rw [begin_spec hw, h]; rfl

/-- A stored key is its own longest match. -/
theorem longest_match_of_find {t : radix_tree V} {k : Key} {a : Nat} (h : find t k = some a) :
    longest_match t k = some a := by
  unfold find at h
  unfold longest_match
  cases hroot : t.m_root with
  | none => rw [hroot] at h; cases h
  | some root =>
    rw [hroot] at h
    simp only [] at h ⊢
    cases hn : node_at (find_node k root 0) root with
    | none => rw [hn] at h; cases h
    | some node =>
      rw [hn] at h
      simp only [] at h ⊢
      by_cases hl : node.m_is_leaf = true
      · simp only [hl, Bool.not_true, Bool.false_eq_true, if_false, if_true] at h ⊢
        exact h
      · have hl : node.m_is_leaf = false := by simpa using hl
        simp [hl] at h

/-- The longest match of the empty key is what `find` finds for it. -/
theorem longest_match_nil {t : radix_tree V} (hw : tree_wf t) :
    longest_match t [] = find t [] := by
  cases hf : find t [] with
  | some a => exact longest_match_of_find hf
  | none =>
    cases hl : longest_match t [] with
    | none => rfl
    | some a =>
      exfalso
      obtain ⟨x, hx, -, kx, hk, hp, -⟩ := (longest_match_spec hw []).1 a hl
      rw [List.prefix_nil.1 hp] at hk
      exact find_none_absent hw hf x hx hk

end Queries

section Shape
variable {V : Type}

/-- When no stored key begins with the first symbol of the query, `find_node` stays at the
root: `greedy_match` returns all leaves and `prefix_match` none. -/
theorem greedy_match_no_head {t : radix_tree V} (hw : tree_wf t) (c : Char) (rest : Key)
    (h : ∀ x ∈ tree_leaves t, ∀ kx, stored_key x = some kx → kx.head? ≠ some c) :
    greedy_match t (c :: rest) = (tree_leaves t).map radix_tree_node.addr ∧
    prefix_match t (c :: rest) = [] := by
  constructor
  · cases hroot : t.m_root with
    | none => unfold greedy_match tree_leaves; rw [hroot]; rfl
    | some root =>
      rw [tree_leaves_root hroot] at h ⊢
      obtain ⟨h1, h2, h3, h4, h5, h6⟩ := tree_wf_root hw hroot
      obtain ⟨g1, g2, g3, g4, g5⟩ := h1.node_inv h2
      have hbad : ∀ e ∈ root.m_children, e.2.m_is_leaf = false →
          key_at (c :: rest) 0 ≠ key_at e.1 0 := by
        intro e he hel hk
        have hne : e.1 ≠ [] := ((g2 e he).2 hel).1
        have hcs : e.2.m_children ≠ [] := ((g2 e he).2 hel).2.1
        have hlv := WF.leaves_ne_nil e.2 _ (g4 e he) (Or.inr hcs)
        obtain ⟨y, hy⟩ := List.exists_mem_of_ne_nil _ hlv
        obtain ⟨r, v, hyf⟩ := (g4 e he).leaves_form e.2 _ y hy
        have hky : stored_key y = some ([] ++ root.m_key ++ e.2.m_key ++ r) := by
          rw [hyf]; rfl
        have hyroot : y ∈ leaves root := by
          rw [leaves_of_internal h2, mem_leaves_children]
          exact ⟨e, he, hy⟩
        apply h y hyroot _ hky
        rw [h3, (g2 e he).1]
        have hh := (key_at_eq_head (List.cons_ne_nil c rest) hne).1 hk
        obtain ⟨d, s, hds⟩ := List.exists_cons_of_ne_nil hne
        rw [hds] at hh ⊢
        simp only [List.head?_cons, Option.some.injEq] at hh
        simp [hh]
      have hfn : find_node (c :: rest) root 0 = [] := by
        rw [find_node_eq]
        rcases find_node_loop_cases [] (c :: rest) root.m_children with
          ⟨hr, -⟩ | ⟨hr, -⟩ | ⟨-, -, e2⟩ | ⟨-, e, he, e1, e2, -⟩ | ⟨-, e, he, e1, e2, -⟩
        · cases hr
        · cases hr
        · exact e2
        · exact absurd e2 (hbad e he e1)
        · exact absurd e2 (hbad e he e1)
      unfold greedy_match
      rw [hroot]
      simp only [hfn, node_at_nil, h2, Bool.false_eq_true, if_false, greedy_match_node_eq]
  · rw [prefix_match_spec hw]
    have : (tree_leaves t).filter (starts_with (c :: rest)) = [] := by
      rw [List.filter_eq_nil_iff]
      intro x hx hp
      obtain ⟨k, v, -, hs⟩ := leaf_stored_key hw hx
      have hpk := (starts_with_iff hs).1 hp
      apply h x hx k hs
      obtain ⟨s, rfl⟩ := hpk
      rfl
    rw [this]; rfl

/-- Erasing the key of a leaf leaves the leaves after it in place: the iterator to the
next leaf, taken before the erase, is still the iterator to that leaf, and the traversal
from it visits the same leaves as before. -/
theorem erase_keeps_successor {t : radix_tree V} (hw : tree_wf t) {k : Key} {a : Nat}
    (h : find t k = some a) (extra : Nat) :
    deref (erase t k).1 (operator_inc t (some a)) = deref t (operator_inc t (some a)) ∧
    ∃ its, walk t (size t + extra) (operator_inc t (some a)) = some its ∧
      walk (erase t k).1 (size t + extra) (operator_inc t (some a)) = some its ∧
      visited_keys (erase t k).1 its = visited_keys t its ∧
      k ∉ visited_keys t its := by
  obtain ⟨x, hx, hs, ha⟩ := find_some_leaf hw h
  obtain ⟨e1, e2, ⟨L1, L2, e3, e4⟩, e5, -⟩ := erase_present hw k hx hs
  have hinc := operator_inc_spec hw e3
  rw [ha] at hinc
  rw [hinc]
  have hlen : L2.length ≤ size t + extra := by
    have : (tree_leaves t).length = size t := (tree_wf_size hw).symm
    rw [e3] at this
    simp only [List.length_append, List.length_cons, List.length_nil] at this
    omega
  have hL2 : ∀ y ∈ L2, y ∈ tree_leaves t := by
    intro y hy; rw [e3]; simp [hy]
  have hL2' : ∀ y ∈ L2, y ∈ tree_leaves (erase t k).1 := by
    intro y hy; rw [e4]; simp [hy]
  refine ⟨?_, L2.map radix_tree_node.addr, walk_spec hw L2 (L1 ++ [x]) _ e3 hlen,
    walk_spec e2 L2 L1 _ e4 hlen, ?_, ?_⟩
  · cases L2 with
    | nil => rfl
    | cons y L2 =>
      simp only [List.head?_cons, Option.map_some']
      rw [deref_spec hw (hL2 y (List.mem_cons_self _ _)),
        deref_spec e2 (hL2' y (List.mem_cons_self _ _))]
  · rw [visited_keys_map hw L2 hL2, visited_keys_map e2 L2 hL2']
  · rw [visited_keys_map hw L2 hL2, mem_filterMap_stored_key]
    rintro ⟨y, hy, hys⟩
    have hyx : y = x := tree_leaf_key_inj hw (hL2 y hy) hx (by rw [hys, hs])
    have hnd := tree_leaves_nodup hw
    rw [e3] at hnd
    have := (List.nodup_append.1 hnd).2.2
    exact this (by simp : x ∈ L1 ++ [x]) (hyx ▸ hy)

/-- A leaf at a position has the empty label and stores the key spelled by the labels of
the nodes above it. -/
theorem leaf_at_path {root : radix_tree_node V} (hw : WF [] root) {p : Path}
    {x : radix_tree_node V} (h : node_at p root = some x) (hl : x.m_is_leaf = true) :
    x.m_key = [] ∧ ∃ v, x.m_value = some (pre_at p root [] ++ x.m_key, v) := by
  have hx := WF.at_path p root [] x hw h
  obtain ⟨v, hv⟩ := hx.leaf_form hl
  refine ⟨hx.leaf_key hl, v, ?_⟩
  rw [hx.leaf_key hl, List.append_nil, hv]
  rfl

theorem leaf_at_path_mem {root : radix_tree_node V} (hw : WF [] root) {p : Path}
    {x : radix_tree_node V} (h : node_at p root = some x) (hl : x.m_is_leaf = true) :
    x ∈ leaves root :=
  leaves_subset_of_node_at hw h x (by rw [leaves_of_leaf hl]; exact List.mem_singleton_self _)

/-- A node that is neither the root nor a leaf has a non-empty label. -/
theorem internal_label_ne_nil {root : radix_tree_node V} (hw : WF [] root) {p : Path}
    {n : radix_tree_node V} (hp : p ≠ []) (h : node_at p root = some n)
    (hl : n.m_is_leaf = false) : n.m_key ≠ [] := by
  rw [← List.dropLast_append_getLast hp] at h
  obtain ⟨par, l1, l2, -, -, -, -, -, -, -, hok, -⟩ := node_at_snoc_inv hw h
  rw [hok.1]
  exact (hok.2 hl).1

end Shape

section Claims2
variable {V : Type}

/-- C11: on every reachable tree and for every query `q`, an iterator that `longest_match(q)`
returns points to a stored key that is a prefix of `q` and is at least as long as every
stored key that is a prefix of `q`; and `longest_match(q)` is `end()` exactly when no
stored key is a prefix of `q`. -/
theorem C11_longest_match [Inhabited V] (ops : List (Op V)) (q : Key) :
    (∀ a, longest_match (run ops) q = some a →
      ∃ k v, deref (run ops) (some a) = some (k, v) ∧ find (run ops) k = some a ∧ k <+: q ∧
        ∀ k1, find (run ops) k1 ≠ end_it → k1 <+: q → k1.length ≤ k.length) ∧
    (longest_match (run ops) q = end_it ↔
      ∀ k, find (run ops) k ≠ end_it → ¬ k <+: q) := by
  have hw := run_wf ops
  have hsome : ∀ a, longest_match (run ops) q = some a →
      ∃ k v, deref (run ops) (some a) = some (k, v) ∧ find (run ops) k = some a ∧ k <+: q ∧
        ∀ k1, find (run ops) k1 ≠ end_it → k1 <+: q → k1.length ≤ k.length := by
    intro a ha
    obtain ⟨x, hx, hxa, kx, hk, hp, hmax⟩ := (longest_match_spec hw q).1 a ha
    obtain ⟨k1, v, hv, hs⟩ := leaf_stored_key hw hx
    rw [hk] at hs
    cases hs
    refine ⟨kx, v, ?_, ?_, hp, ?_⟩
    · rw [← hxa, deref_spec hw hx, hv]
    · rw [(find_spec hw kx).1 x hx hk, hxa]
    · intro k1 hk1 hp1
      obtain ⟨y, hy, hys⟩ := (find_isSome_iff hw k1).1 hk1
      exact hmax y hy k1 hys hp1
  refine ⟨hsome, ?_, ?_⟩
  · intro hn k hk hp
    obtain ⟨y, hy, hys⟩ := (find_isSome_iff hw k).1 hk
    exact (longest_match_spec hw q).2 hn y hy k hys hp
  · intro h
    cases hl : longest_match (run ops) q with
    | none => rfl
    | some a =>
      exfalso
      obtain ⟨k, v, -, hf, hp, -⟩ := hsome a hl
      exact h k (by rw [hf]; exact fun h => Option.noConfusion h) hp

/-- C12: on every reachable tree and for every stored key `k`, `longest_match(k)` returns
the iterator that `find(k)` returns, the leaf of `k` itself with its key and value. -/
theorem C12_longest_match_stored [Inhabited V] (ops : List (Op V)) (k : Key) (a : Nat)
    (h : find (run ops) k = some a) :
    longest_match (run ops) k = find (run ops) k ∧
    ∃ v, deref (run ops) (longest_match (run ops) k) = some (k, v) := by
  have hw := run_wf ops
  rw [longest_match_of_find h, h]
  refine ⟨rfl, ?_⟩
  obtain ⟨x, hx, hs, ha⟩ := find_some_leaf hw h
  obtain ⟨k1, v, hv, hs1⟩ := leaf_stored_key hw hx
  rw [hs] at hs1
  cases hs1
  exact ⟨v, by rw [← ha, deref_spec hw hx, hv]⟩

theorem C12_longest_match_stored_witness :
    find (run sample_ops) ['a', 'b'] = some 2 ∧
    longest_match (run sample_ops) ['a', 'b'] = find (run sample_ops) ['a', 'b'] ∧
    ∃ v, deref (run sample_ops) (longest_match (run sample_ops) ['a', 'b'])
      = some (['a', 'b'], v) :=
  ⟨by decide, C12_longest_match_stored sample_ops ['a', 'b'] 2 (by decide)⟩

/-- C13, as the code has it: on every reachable tree `longest_match("")` returns what
`find("")` returns, so it is `end()` exactly when the empty key is not stored, and the
iterator to the leaf of the empty key when it is stored. -/
theorem C13_longest_match_empty_key [Inhabited V] (ops : List (Op V)) :
    longest_match (run ops) [] = find (run ops) [] ∧
    (longest_match (run ops) [] = end_it ↔ find (run ops) [] = end_it) := by
  have h := longest_match_nil (run_wf ops)
  exact ⟨h, by rw [h]⟩

/-- C13, as stated, fails: on the tree whose only key is the empty key, the empty key is
stored and `longest_match("")` is not `end()`. -/
theorem C13_counterexample :
    find (run empty_key_ops) [] ≠ end_it ∧ longest_match (run empty_key_ops) [] ≠ end_it := by
  decide

/-- C14: on every reachable tree of integers, `tree[k]` for a key `k` that is not stored
adds exactly one to the size and returns the value 0 of a leaf that stores `k`, which
`find(k)` finds afterwards; for a stored key `k` it returns the stored value and leaves
the size (and the tree) as it was. -/
theorem C14_operator_index (ops : List (Op Int)) (k : Key) :
    (find (run ops) k = end_it →
      size (operator_index (run ops) k).1 = size (run ops) + 1 ∧
      ∃ a, (operator_index (run ops) k).2 = some a ∧
        deref (operator_index (run ops) k).1 (some a) = some (k, 0) ∧
        find (operator_index (run ops) k).1 k = some a) ∧
    (∀ a v, find (run ops) k = some a → deref (run ops) (some a) = some (k, v) →
      (operator_index (run ops) k).2 = some a ∧
      deref (operator_index (run ops) k).1 (some a) = some (k, v) ∧
      size (operator_index (run ops) k).1 = size (run ops) ∧
      (operator_index (run ops) k).1 = run ops) := by
  have hw := run_wf ops
  constructor
  · intro h
    have hop : operator_index (run ops) k
        = ((insert (run ops) (k, default)).1, (insert (run ops) (k, default)).2.1) := by
      unfold operator_index
      rw [h]
      rfl
    obtain ⟨a, r1, r2, r3, r4⟩ := insert_new hw (default : Int) h
    rw [hop]
    refine ⟨r4, a, ?_, r2, r3⟩
    show (insert (run ops) (k, default)).2.1 = some a
    rw [r1]
  · intro a v hf hd
    have hop : operator_index (run ops) k = (run ops, some a) := by
      unfold operator_index
      rw [hf]
    rw [hop]
    exact ⟨rfl, hd, rfl, rfl⟩

theorem C14_operator_index_witness :
    find (run sample_int_ops) ['b'] = end_it ∧
    (size (operator_index (run sample_int_ops) ['b']).1 = size (run sample_int_ops) + 1 ∧
      ∃ a, (operator_index (run sample_int_ops) ['b']).2 = some a ∧
        deref (operator_index (run sample_int_ops) ['b']).1 (some a) = some (['b'], 0) ∧
        find (operator_index (run sample_int_ops) ['b']).1 ['b'] = some a) ∧
    find (run sample_int_ops) ['a'] = some 4 ∧
    deref (run sample_int_ops) (some 4) = some (['a'], -2) ∧
    ((operator_index (run sample_int_ops) ['a']).2 = some 4 ∧
      deref (operator_index (run sample_int_ops) ['a']).1 (some 4) = some (['a'], -2) ∧
      size (operator_index (run sample_int_ops) ['a']).1 = size (run sample_int_ops) ∧
      (operator_index (run sample_int_ops) ['a']).1 = run sample_int_ops) :=
  ⟨by decide, (C14_operator_index sample_int_ops ['b']).1 (by decide), by decide, by decide,
    (C14_operator_index sample_int_ops ['a']).2 4 (-2) (by decide) (by decide)⟩

/-- C15: on every reachable tree that stores no key (its size is 0: the tree is freshly
constructed, or cleared, or only a root without children is left), and for every key `q`,
`find(q)` and `longest_match(q)` are `end()`, `prefix_match(q)` and `greedy_match(q)` give
an empty output, `erase(q)` returns false, and `begin()` is `end()`. -/
theorem C15_empty_tree [Inhabited V] (ops : List (Op V)) (q : Key) (h : size (run ops) = 0) :
    find (run ops) q = end_it ∧ longest_match (run ops) q = end_it ∧
    prefix_match (run ops) q = [] ∧ greedy_match (run ops) q = [] ∧
    (erase (run ops) q).2 = false ∧ begin (run ops) = end_it := by
  have hw := run_wf ops
  obtain ⟨h1, h2, h3, h4, h5, h6⟩ :=
    queries_of_no_leaf hw (tree_leaves_of_size_zero hw h) q
  exact ⟨h1, h2, h3, h4, by rw [h5], h6⟩

theorem C15_empty_tree_witness :
    (size (run emptied_ops) = 0 ∧ (run emptied_ops).m_root.isSome = true) ∧
    (find (run emptied_ops) ['a'] = end_it ∧ longest_match (run emptied_ops) ['a'] = end_it ∧
      prefix_match (run emptied_ops) ['a'] = [] ∧ greedy_match (run emptied_ops) ['a'] = [] ∧
      (erase (run emptied_ops) ['a']).2 = false ∧ begin (run emptied_ops) = end_it) ∧
    (size (run cleared_ops) = 0 ∧ (run cleared_ops).m_root.isSome = false) ∧
    (find (run cleared_ops) ['a'] = end_it ∧ longest_match (run cleared_ops) ['a'] = end_it ∧
      prefix_match (run cleared_ops) ['a'] = [] ∧ greedy_match (run cleared_ops) ['a'] = [] ∧
      (erase (run cleared_ops) ['a']).2 = false ∧ begin (run cleared_ops) = end_it) :=
  ⟨by decide, C15_empty_tree emptied_ops ['a'] (by decide), by decide,
    C15_empty_tree cleared_ops ['a'] (by decide)⟩

end Claims2

section Claims3
variable {V : Type}

/-- C17: on every reachable tree `T` and for every predicate on keys, after
`remove_if(pred)` a key is stored exactly when it is stored in `T` and the predicate is
false for it, every such key is found at the same leaf with the same value, and the size
is the number of such keys; and when the key of a leaf is erased, the iterator to the next
leaf that was taken before the erase still points to that leaf with its pair afterwards,
and the traversal from it visits the same leaves as before, the erased key not among
them. -/
theorem C17_remove_if [Inhabited V] (ops : List (Op V)) (pred : Key → Bool) :
    (∀ k, find (remove_if (run ops) pred) k ≠ end_it ↔
      (find (run ops) k ≠ end_it ∧ pred k = false)) ∧
    (∀ k, pred k = false → find (remove_if (run ops) pred) k = find (run ops) k ∧
      deref (remove_if (run ops) pred) (find (run ops) k)
        = deref (run ops) (find (run ops) k)) ∧
    (∃ its, walk (run ops) (size (run ops)) (begin (run ops)) = some its ∧
      size (remove_if (run ops) pred)
        = ((visited_keys (run ops) its).filter (fun k => !pred k)).length) ∧
    (∀ k a, find (run ops) k = some a →
      deref (erase (run ops) k).1 (operator_inc (run ops) (some a))
        = deref (run ops) (operator_inc (run ops) (some a)) ∧
      ∃ its, walk (run ops) (size (run ops)) (operator_inc (run ops) (some a)) = some its ∧
        walk (erase (run ops) k).1 (size (run ops)) (operator_inc (run ops) (some a))
          = some its ∧
        visited_keys (erase (run ops) k).1 its = visited_keys (run ops) its ∧
        k ∉ visited_keys (run ops) its) := by
  have hw := run_wf ops
  obtain ⟨hw1, hl⟩ := remove_if_spec hw pred
  have hpred : ∀ x ∈ tree_leaves (run ops), ∀ k, stored_key x = some k →
      leaf_pred pred x = pred k := by
    intro x hx k hk
    obtain ⟨k1, v, hv, hs⟩ := leaf_stored_key hw hx
    rw [hk] at hs
    cases hs
    unfold leaf_pred
    rw [hv]
  have hmem : ∀ x k, stored_key x = some k →
      (x ∈ tree_leaves (remove_if (run ops) pred) ↔
        x ∈ tree_leaves (run ops) ∧ pred k = false) := by
    intro x k hk
    rw [hl, List.mem_filter]
    constructor
    · rintro ⟨h1, h2⟩
      rw [hpred x h1 k hk] at h2
      exact ⟨h1, by simpa using h2⟩
    · rintro ⟨h1, h2⟩
      exact ⟨h1, by rw [hpred x h1 k hk, h2]; rfl⟩
  refine ⟨?_, ?_, ?_, ?_⟩
  · intro k
    constructor
    · intro h
      obtain ⟨x, hx, hs⟩ := (find_isSome_iff hw1 k).1 h
      obtain ⟨h1, h2⟩ := (hmem x k hs).1 hx
      exact ⟨(find_isSome_iff hw k).2 ⟨x, h1, hs⟩, h2⟩
    · rintro ⟨h, h2⟩
      obtain ⟨x, hx, hs⟩ := (find_isSome_iff hw k).1 h
      exact (find_isSome_iff hw1 k).2 ⟨x, (hmem x k hs).2 ⟨hx, h2⟩, hs⟩
  · intro k hk
    cases hf : find (run ops) k with
    | none =>
      refine ⟨?_, rfl⟩
      apply (find_spec hw1 k).2.1
      intro x hx hs
      exact find_none_absent hw hf x ((hmem x k hs).1 hx).1 hs
    | some a =>
      obtain ⟨x, hx, hs, ha⟩ := find_some_leaf hw hf
      have hx1 := (hmem x k hs).2 ⟨hx, hk⟩
      rw [(find_spec hw1 k).1 x hx1 hs, ha]
      refine ⟨rfl, ?_⟩
      rw [← ha, deref_spec hw1 hx1, deref_spec hw hx]
  · refine ⟨_, walk_begin hw 0, ?_⟩
    rw [visited_keys_map hw _ (fun x hx => hx)]
    show (remove_if (run ops) pred).m_size = _
    rw [tree_wf_size hw1, hl]
    have : ∀ (L : List (radix_tree_node V)), (∀ x ∈ L, x ∈ tree_leaves (run ops)) →
        (L.filter (fun x => !leaf_pred pred x)).length
          = ((L.filterMap stored_key).filter (fun k => !pred k)).length := by
      intro L
      induction L with
      | nil => intro _; rfl
      | cons x L ih =>
        intro hL
        have hx := hL x (List.mem_cons_self _ _)
        obtain ⟨k, v, hv, hs⟩ := leaf_stored_key hw hx
        have ih1 := ih (fun y hy => hL y (List.mem_cons_of_mem _ hy))
        rw [List.filterMap_cons, hs]
        simp only [List.filter_cons, hpred x hx k hs]
        by_cases hp : pred k = true
        · simp only [hp, Bool.not_true, Bool.false_eq_true, if_false]
          exact ih1
        · have hp : pred k = false := by simpa using hp
          simp only [hp, Bool.not_false, if_true, List.length_cons, ih1]
    exact this _ (fun x hx => hx)
  · intro k a hf
    exact erase_keeps_successor hw hf 0

/-- C18: on every reachable tree and for every key `q`, `greedy_match(q)` gives the leaves
below the node that `find_node(q, root, 0)` returns (below its parent when that node is a
leaf), in order; the output of `prefix_match(q)` is empty or equal to that of
`greedy_match(q)`; and when no stored key begins with the first symbol of `q`, the output
of `prefix_match(q)` is empty and that of `greedy_match(q)` is the whole traversal of the
tree, as for the query z on the tree with the six keys abcdef, abcdege, bcdef, cd, ce, c,
where `greedy_match` gives six leaves and `prefix_match` none. -/
theorem C18_greedy_match [Inhabited V] (ops : List (Op V)) (q : Key) :
    (∀ root, (run ops).m_root = some root →
      ∃ node0 node, node_at (find_node q root 0) root = some node0 ∧
        (if node0.m_is_leaf then node_at (find_node q root 0).dropLast root
          else some node0) = some node ∧
        greedy_match (run ops) q = (leaves node).map radix_tree_node.addr) ∧
    (prefix_match (run ops) q = [] ∨ prefix_match (run ops) q = greedy_match (run ops) q) ∧
    (∀ c rest, q = c :: rest → (∀ k, find (run ops) k ≠ end_it → k.head? ≠ some c) →
      prefix_match (run ops) q = [] ∧
      walk (run ops) (size (run ops)) (begin (run ops)) = some (greedy_match (run ops) q)) ∧
    (prefix_match (run prefix_example_ops) ['z'] = [] ∧
      size (run prefix_example_ops) = 6 ∧
      (greedy_match (run prefix_example_ops) ['z']).length = 6) := by
  have hw := run_wf ops
  refine ⟨?_, prefix_match_or _ _, ?_, by decide⟩
  · intro root hroot
    obtain ⟨node0, node, h1, h2, h3, -⟩ := greedy_match_spec hw hroot q
    exact ⟨node0, node, h1, h2, h3⟩
  · intro c rest hq h
    subst hq
    have h' : ∀ x ∈ tree_leaves (run ops), ∀ kx, stored_key x = some kx →
        kx.head? ≠ some c := by
      intro x hx kx hk
      exact h kx ((find_isSome_iff hw kx).2 ⟨x, hx, hk⟩)
    obtain ⟨g1, g2⟩ := greedy_match_no_head hw c rest h'
    exact ⟨g2, by rw [g1]; exact walk_begin hw 0⟩

/-- C19: in every reachable tree, a leaf has the empty edge label and stores the key that
is the concatenation of the edge labels on the way from the root down to it, and two
leaves that store the same key are the same leaf (they lie at the same position). -/
theorem C19_leaf_keys [Inhabited V] (ops : List (Op V)) (root : radix_tree_node V)
    (hroot : (run ops).m_root = some root) :
    (∀ p x, node_at p root = some x → x.m_is_leaf = true →
      x.m_key = [] ∧ ∃ v, x.m_value = some (pre_at p root [] ++ x.m_key, v)) ∧
    (∀ p1 p2 x1 x2, node_at p1 root = some x1 → node_at p2 root = some x2 →
      x1.m_is_leaf = true → x2.m_is_leaf = true → stored_key x1 = stored_key x2 →
      p1 = p2) := by
  have hw := run_wf ops
  obtain ⟨h1, h2, h3, h4, h5, h6⟩ := tree_wf_root hw hroot
  constructor
  · intro p x hp hl
    exact leaf_at_path h1 hp hl
  · intro p1 p2 x1 x2 hp1 hp2 hl1 hl2 hk
    have m1 : x1 ∈ tree_leaves (run ops) := by
      rw [tree_leaves_root hroot]; exact leaf_at_path_mem h1 hp1 hl1
    have m2 : x2 ∈ tree_leaves (run ops) := by
      rw [tree_leaves_root hroot]; exact leaf_at_path_mem h1 hp2 hl2
    have hx : x1 = x2 := tree_leaf_key_inj hw m1 m2 hk
    subst hx
    have e1 := path_of_node_at p1 root [] x1 h1 h5 hp1
    have e2 := path_of_node_at p2 root [] x1 h1 h5 hp2
    rw [e1] at e2
    exact Option.some.inj e2

theorem C19_leaf_keys_witness :
    ∃ root, (run sample_ops).m_root = some root ∧
    (∀ p x, node_at p root = some x → x.m_is_leaf = true →
      x.m_key = [] ∧ ∃ v, x.m_value = some (pre_at p root [] ++ x.m_key, v)) ∧
    (∀ p1 p2 x1 x2, node_at p1 root = some x1 → node_at p2 root = some x2 →
      x1.m_is_leaf = true → x2.m_is_leaf = true → stored_key x1 = stored_key x2 →
      p1 = p2) :=
  ⟨(run sample_ops).m_root.get (by decide), (Option.some_get _).symm,
    C19_leaf_keys sample_ops _ (Option.some_get _).symm⟩

/-- C20: in every reachable tree, a node that is neither the root nor a leaf has a
non-empty edge label. -/
theorem C20_internal_label [Inhabited V] (ops : List (Op V)) (root : radix_tree_node V)
    (hroot : (run ops).m_root = some root) (p : Path) (n : radix_tree_node V)
    (hp : p ≠ []) (hn : node_at p root = some n) (hl : n.m_is_leaf = false) :
    n.m_key ≠ [] :=
  internal_label_ne_nil (tree_wf_root (run_wf ops) hroot).1 hp hn hl

theorem C20_internal_label_witness :
    ∃ root n, (run sample_ops).m_root = some root ∧ [['a', 'b'], ['c']] ≠ [] ∧
      node_at [['a', 'b'], ['c']] root = some n ∧ n.m_is_leaf = false ∧ n.m_key ≠ [] :=
  ⟨(run sample_ops).m_root.get (by decide),
    (node_at [['a', 'b'], ['c']] ((run sample_ops).m_root.get (by decide))).get (by decide),
    (Option.some_get _).symm, by decide, (Option.some_get _).symm, by decide,
    C20_internal_label sample_ops _ (Option.some_get _).symm [['a', 'b'], ['c']] _
      (by decide) (Option.some_get _).symm (by decide)⟩

end Claims3

section ShiftBasic
variable {V : Type}

@[simp]
theorem shift_node_addr (s : Nat) (n : radix_tree_node V) : (shift_node s n).addr = n.addr + s := by
  obtain ⟨a, cs, v, d, l, k⟩ := n; rfl

@[simp]
theorem shift_node_children (s : Nat) (n : radix_tree_node V) :
    (shift_node s n).m_children = shift_children s n.m_children := by
  obtain ⟨a, cs, v, d, l, k⟩ := n; rfl

@[simp]
theorem shift_node_value (s : Nat) (n : radix_tree_node V) :
    (shift_node s n).m_value = n.m_value := by
  obtain ⟨a, cs, v, d, l, k⟩ := n; rfl

@[simp]
theorem shift_node_depth (s : Nat) (n : radix_tree_node V) :
    (shift_node s n).m_depth = n.m_depth := by
  obtain ⟨a, cs, v, d, l, k⟩ := n; rfl

@[simp]
theorem shift_node_is_leaf (s : Nat) (n : radix_tree_node V) :
    (shift_node s n).m_is_leaf = n.m_is_leaf := by
  obtain ⟨a, cs, v, d, l, k⟩ := n; rfl

@[simp]
theorem shift_node_key (s : Nat) (n : radix_tree_node V) :
    (shift_node s n).m_key = n.m_key := by
  obtain ⟨a, cs, v, d, l, k⟩ := n; rfl

theorem shift_node_mk (s a : Nat) (cs : List (Key × radix_tree_node V)) (v : Option (Key × V))
    (d : Nat) (l : Bool) (k : Key) :
    shift_node s (radix_tree_node.mk a cs v d l k)
      = radix_tree_node.mk (a + s) (shift_children s cs) v d l k := rfl

theorem shift_node_set_children (s : Nat) (n : radix_tree_node V)
    (cs : List (Key × radix_tree_node V)) :
    shift_node s (n.set_children cs) = (shift_node s n).set_children (shift_children s cs) := by
  obtain ⟨a, cs0, v, d, l, k⟩ := n; rfl

@[simp]
theorem shift_children_nil (s : Nat) :
    shift_children s ([] : List (Key × radix_tree_node V)) = [] := rfl

@[simp]
theorem shift_children_cons (s : Nat) (e : Key × radix_tree_node V)
    (rest : List (Key × radix_tree_node V)) :
    shift_children s (e :: rest) = (e.1, shift_node s e.2) :: shift_children s rest := by
  obtain ⟨k, c⟩ := e; rfl

theorem shift_children_length (s : Nat) (cs : List (Key × radix_tree_node V)) :
    (shift_children s cs).length = cs.length := by
  induction cs with
  | nil => rfl
  | cons e cs ih => simp [ih]

theorem shift_children_eq_nil (s : Nat) (cs : List (Key × radix_tree_node V)) :
    shift_children s cs = [] ↔ cs = [] := by
  cases cs <;> simp

theorem map_find_shift (s : Nat) (cs : List (Key × radix_tree_node V)) (k : Key) :
    map_find (shift_children s cs) k = (map_find cs k).map (shift_node s) := by
  induction cs with
  | nil => rfl
  | cons e cs ih =>
    obtain ⟨k1, c⟩ := e
    simp only [shift_children_cons, map_find]
    by_cases h : k1 = k
    · simp [h]
    · simp [h, ih]

theorem map_erase_shift (s : Nat) (cs : List (Key × radix_tree_node V)) (k : Key) :
    map_erase (shift_children s cs) k = shift_children s (map_erase cs k) := by
  induction cs with
  | nil => rfl
  | cons e cs ih =>
    obtain ⟨k1, c⟩ := e
    simp only [shift_children_cons, map_erase]
    by_cases h : k1 = k
    · simp [h]
    · simp [h, ih]

theorem map_insert_shift (s : Nat) (cs : List (Key × radix_tree_node V)) (k : Key)
    (c : radix_tree_node V) :
    map_insert (shift_children s cs) k (shift_node s c)
      = shift_children s (map_insert cs k c) := by
  induction cs with
  | nil => rfl
  | cons e cs ih =>
    obtain ⟨k1, c1⟩ := e
    simp only [shift_children_cons, map_insert]
    by_cases h : k < k1
    · simp [h]
    · by_cases h2 : k1 < k
      · simp [h, h2, ih]
      · simp [h, h2]

theorem map_next_shift (s : Nat) (cs : List (Key × radix_tree_node V)) (k : Key) :
    map_next (shift_children s cs) k
      = (map_next cs k).map (Option.map (fun e => (e.1, shift_node s e.2))) := by
  induction cs with
  | nil => rfl
  | cons e cs ih =>
    obtain ⟨k1, c1⟩ := e
    simp only [shift_children_cons, map_next]
    by_cases h : k1 = k
    · simp only [h, if_true, Option.map_some']
      cases cs with
      | nil => rfl
      | cons e2 cs2 => simp
    · simp [h, ih]

theorem map_update_shift (s : Nat) (cs : List (Key × radix_tree_node V)) (k : Key)
    (f g : radix_tree_node V → radix_tree_node V)
    (h : ∀ e ∈ cs, g (shift_node s e.2) = shift_node s (f e.2)) :
    map_update (shift_children s cs) k g = shift_children s (map_update cs k f) := by
  induction cs with
  | nil => rfl
  | cons e cs ih =>
    obtain ⟨k1, c1⟩ := e
    simp only [shift_children_cons, map_update]
    by_cases hk : k1 = k
    · simp only [hk, if_true, shift_children_cons]
      rw [h (k1, c1) (List.mem_cons_self _ _)]
    · simp only [hk, if_false, shift_children_cons]
      rw [ih (fun e he => h e (List.mem_cons_of_mem _ he))]

theorem node_at_shift (s : Nat) : ∀ (p : Path) (n : radix_tree_node V),
    node_at p (shift_node s n) = (node_at p n).map (shift_node s) := by
  intro p
  induction p with
  | nil => intro n; rfl
  | cons lab p ih =>
    intro n
    rw [node_at_cons, node_at_cons, shift_node_children, map_find_shift]
    cases map_find n.m_children lab with
    | none => rfl
    | some c => exact ih c

theorem replace_at_shift (s : Nat) (n1 : radix_tree_node V) : ∀ (p : Path) (n : radix_tree_node V),
    replace_at p (shift_node s n) (shift_node s n1) = shift_node s (replace_at p n n1) := by
  intro p
  induction p with
  | nil => intro n; rfl
  | cons lab p ih =>
    intro n
    rw [replace_at_cons, replace_at_cons, shift_node_set_children, shift_node_children]
    rw [map_update_shift s n.m_children lab (fun c => replace_at p c n1)
      (fun c => replace_at p c (shift_node s n1)) (fun e _ => ih e.2)]

theorem find_node_loop_shift (s : Nat) (key : Key) (cs : List (Key × radix_tree_node V))
    (h : ∀ e ∈ cs, ∀ d, find_node key (shift_node s e.2) d = find_node key e.2 d) (depth : Nat) :
    find_node_loop key depth (shift_children s cs) = find_node_loop key depth cs := by
  induction cs with
  | nil => rfl
  | cons e cs ih =>
    obtain ⟨first, second⟩ := e
    simp only [shift_children_cons, find_node_loop, shift_node_is_leaf]
    rw [ih (fun e he => h e (List.mem_cons_of_mem _ he)),
      h (first, second) (List.mem_cons_self _ _)]

theorem find_node_shift (s : Nat) (key : Key) : ∀ (n : radix_tree_node V) (d : Nat),
    find_node key (shift_node s n) d = find_node key n d := by
  intro n
  induction n using node_induction with
  | h n ih =>
    intro d
    rw [find_node_eq, find_node_eq, shift_node_children]
    exact find_node_loop_shift s key n.m_children ih d

end ShiftBasic

section ShiftWalk
variable {V : Type}

theorem path_of_children_shift (s a : Nat) (cs : List (Key × radix_tree_node V))
    (h : ∀ e ∈ cs, path_of (a + s) (shift_node s e.2) = path_of a e.2) :
    path_of_children (a + s) (shift_children s cs) = path_of_children a cs := by
  induction cs with
  | nil => rfl
  | cons e cs ih =>
    rw [shift_children_cons, path_of_children_cons, path_of_children_cons]
    simp only []
    rw [h e (List.mem_cons_self _ _), ih (fun e he => h e (List.mem_cons_of_mem _ he))]

theorem path_of_shift (s a : Nat) : ∀ (n : radix_tree_node V),
    path_of (a + s) (shift_node s n) = path_of a n := by
  intro n
  induction n using node_induction with
  | h n ih =>
    rw [path_of_eq, path_of_eq, shift_node_addr, shift_node_children,
      path_of_children_shift s a n.m_children ih]
    by_cases h : n.addr = a
    · simp [h]
    · have : ¬ n.addr + s = a + s := fun h1 => h (Nat.add_right_cancel h1)
      simp [h, this]

theorem node_of_shift (s a : Nat) (root : radix_tree_node V) :
    node_of (shift_node s root) (a + s) = (node_of root a).map (shift_node s) := by
  unfold node_of
  rw [path_of_shift]
  cases path_of a root with
  | none => rfl
  | some p => exact node_at_shift s p root

theorem descend_first_shift (s : Nat) (cs : List (Key × radix_tree_node V))
    (h : ∀ e ∈ cs, descend (shift_node s e.2) = shift_it s (descend e.2)) :
    descend_first (shift_children s cs) = shift_it s (descend_first cs) := by
  cases cs with
  | nil => rfl
  | cons e cs =>
    obtain ⟨k, c⟩ := e
    exact h (k, c) (List.mem_cons_self _ _)

theorem descend_shift (s : Nat) : ∀ (n : radix_tree_node V),
    descend (shift_node s n) = shift_it s (descend n) := by
  intro n
  induction n using node_induction with
  | h n ih =>
    rw [descend_eq, descend_eq, shift_node_is_leaf, shift_node_addr, shift_node_children,
      descend_first_shift s n.m_children ih]
    by_cases h : n.m_is_leaf = true
    · simp [h, shift_it]
    · simp [h]

theorem greedy_match_children_shift (s : Nat) (cs : List (Key × radix_tree_node V))
    (h : ∀ e ∈ cs, greedy_match_node (shift_node s e.2)
      = (greedy_match_node e.2).map (fun a => a + s)) :
    greedy_match_children (shift_children s cs)
      = (greedy_match_children cs).map (fun a => a + s) := by
  induction cs with
  | nil => rfl
  | cons e cs ih =>
    obtain ⟨k, c⟩ := e
    simp only [shift_children_cons, greedy_match_children, List.map_append]
    rw [h (k, c) (List.mem_cons_self _ _), ih (fun e he => h e (List.mem_cons_of_mem _ he))]

theorem greedy_match_node_shift (s : Nat) : ∀ (n : radix_tree_node V),
    greedy_match_node (shift_node s n) = (greedy_match_node n).map (fun a => a + s) := by
  intro n
  induction n using node_induction with
  | h n ih =>
    have := greedy_match_children_shift s n.m_children ih
    obtain ⟨a, cs, v, d, l, k⟩ := n
    simp only [mk_children] at this
    cases l
    · simp only [shift_node_mk, greedy_match_node, Bool.false_eq_true, if_false, this]
    · simp only [shift_node_mk, greedy_match_node, if_true, List.map_cons, List.map_nil]

theorem increment_from_shift (s : Nat) (root : radix_tree_node V) : ∀ (rq : List Key),
    increment_from (shift_node s root) rq = shift_it s (increment_from root rq) := by
  intro rq
  induction rq with
  | nil => rfl
  | cons lab rq ih =>
    simp only [increment_from, node_at_shift]
    cases h1 : node_at rq.reverse root with
    | none => rfl
    | some parent =>
      cases h2 : node_at (rq.reverse ++ [lab]) root with
      | none => rfl
      | some node =>
        simp only [Option.map_some', shift_node_children, shift_node_key, map_next_shift]
        cases h3 : map_next parent.m_children node.m_key with
        | none => rfl
        | some o =>
          cases o with
          | none => exact ih
          | some e => exact descend_shift s e.2

theorem increment_shift (s a : Nat) (root : radix_tree_node V) :
    increment (shift_node s root) (a + s) = shift_it s (increment root a) := by
  unfold increment
  rw [path_of_shift]
  cases path_of a root with
  | none => rfl
  | some p => exact increment_from_shift s root p.reverse

theorem nul_leaf_shift (s : Nat) (nul : Key) (n : radix_tree_node V) :
    nul_leaf nul (shift_node s n) = shift_it s (nul_leaf nul n) := by
  unfold nul_leaf
  rw [shift_node_children, map_find_shift]
  cases map_find n.m_children nul with
  | none => rfl
  | some c =>
    simp only [Option.map_some', shift_node_is_leaf, shift_node_addr]
    by_cases h : c.m_is_leaf = true
    · simp [h, shift_it]
    · simp [h, shift_it]

theorem longest_match_loop_shift (s : Nat) (nul : Key) (root : radix_tree_node V) :
    ∀ (rq : List Key), longest_match_loop (shift_node s root) nul rq
      = shift_it s (longest_match_loop root nul rq) := by
  intro rq
  induction rq with
  | nil => exact nul_leaf_shift s nul root
  | cons lab rq ih =>
    simp only [longest_match_loop, node_at_shift]
    cases h2 : node_at (rq.reverse ++ [lab]) root with
    | none => rfl
    | some node =>
      simp only [Option.map_some', nul_leaf_shift]
      cases h3 : nul_leaf nul node with
      | none => exact ih
      | some a => rfl

end ShiftWalk

section ShiftInsert
variable {V : Type}

theorem shift_leaf (s a : Nat) (v : Option (Key × V)) (d : Nat) (l : Bool) (k : Key) :
    radix_tree_node.mk (a + s) [] v d l k = shift_node s (radix_tree_node.mk a [] v d l k) := rfl

theorem map_insert_nil_shift (s : Nat) (k : Key) (c : radix_tree_node V) :
    map_insert [] k (shift_node s c) = shift_children s (map_insert [] k c) := rfl

theorem append_shift (s a : Nat) (parent : radix_tree_node V) (val : Key × V) :
    append (a + s) (shift_node s parent) val
      = (shift_node s (append a parent val).1, (append a parent val).2.1 + s,
          (append a parent val).2.2 + s) := by
  unfold append
  simp only [shift_node_depth, shift_node_key, shift_node_children]
  by_cases h : radix_length val.1 - ((parent.m_depth + parent.m_key.length : Nat) : Int) = 0
  · simp only [h, if_true]
    rw [shift_leaf, map_insert_shift, ← shift_node_set_children]
    simp only [Prod.mk.injEq, true_and]
    omega
  · simp only [h, if_false]
    have e1 : a + s + 1 = a + 1 + s := by omega
    have e2 : a + s + 2 = a + 2 + s := by omega
    rw [e1, e2, shift_leaf, map_insert_nil_shift, ← shift_node_mk, map_insert_shift,
      ← shift_node_set_children]

theorem prepend_shift (s a : Nat) (parent node : radix_tree_node V) (val : Key × V) :
    prepend (a + s) (shift_node s parent) (shift_node s node) val
      = (shift_node s (prepend a parent node val).1, (prepend a parent node val).2.1 + s,
          (prepend a parent node val).2.2 + s) := by
  unfold prepend
  simp only [shift_node_depth, shift_node_key, shift_node_children, shift_node_addr,
    shift_node_value, shift_node_is_leaf, mk_key, mk_depth]
  have e1 : a + s + 1 = a + 1 + s := by omega
  have e2 : a + s + 2 = a + 2 + s := by omega
  have e3 : a + s + 3 = a + 3 + s := by omega
  by_cases h : ((prepend_count node.m_key val.1 node.m_depth (radix_length node.m_key)
      (radix_length val.1 - (node.m_depth : Int)) node.m_key.length 0 : Nat) : Int)
      = radix_length val.1 - (node.m_depth : Int)
  · simp only [h, if_true]
    rw [e1, e2, shift_leaf, ← shift_node_mk, map_insert_nil_shift, map_insert_shift,
      ← shift_node_mk, map_erase_shift, map_insert_shift, ← shift_node_set_children]
  · simp only [h, if_false]
    rw [e1, e2, e3, shift_leaf, map_insert_nil_shift, ← shift_node_mk, ← shift_node_mk,
      map_insert_nil_shift, map_insert_shift, ← shift_node_mk, map_erase_shift,
      map_insert_shift, ← shift_node_set_children]

end ShiftInsert

section ShiftInsertTree
variable {V : Type}

theorem shift_tree_root (s : Nat) (t : radix_tree V) :
    (shift_tree s t).m_root = t.m_root.map (shift_node s) := rfl

theorem shift_tree_size (s : Nat) (t : radix_tree V) : (shift_tree s t).m_size = t.m_size := rfl

theorem shift_tree_next (s : Nat) (t : radix_tree V) :
    (shift_tree s t).next_addr = t.next_addr + s := rfl

theorem shift_tree_mk (s m a : Nat) (r : Option (radix_tree_node V)) :
    shift_tree s (⟨m, r, a⟩ : radix_tree V) = ⟨m, r.map (shift_node s), a + s⟩ := rfl

theorem insert_shift_root (s : Nat) {t : radix_tree V} {root : radix_tree_node V}
    (hroot : t.m_root = some root) (val : Key × V) :
    insert (shift_tree s t) val
      = (shift_tree s (insert t val).1, shift_it s (insert t val).2.1, (insert t val).2.2) := by
  have hroot' : (shift_tree s t).m_root = some (shift_node s root) := by
    rw [shift_tree_root, hroot]; rfl
  cases hn : node_at (find_node val.1 root 0) root with
  | none =>
    have hn' : node_at (find_node val.1 (shift_node s root) 0) (shift_node s root) = none := by
      rw [find_node_shift, node_at_shift, hn]; rfl
    have e1 : insert t val = (t, none, false) := by
      unfold insert; simp only [hroot, hn]
    have e2 : insert (shift_tree s t) val = (shift_tree s t, none, false) := by
      unfold insert; simp only [hroot', hn']
    rw [e1, e2]; rfl
  | some node =>
    have hn' : node_at (find_node val.1 (shift_node s root) 0) (shift_node s root)
        = some (shift_node s node) := by
      rw [find_node_shift, node_at_shift, hn]; rfl
    by_cases hl : node.m_is_leaf = true
    · rw [insert_eq_leaf hroot val hn hl,
        insert_eq_leaf hroot' val hn' (by rw [shift_node_is_leaf]; exact hl)]
      simp [shift_it]
    · have hl : node.m_is_leaf = false := by simpa using hl
      have hl' : (shift_node s node).m_is_leaf = false := by rw [shift_node_is_leaf]; exact hl
      by_cases hcond : find_node val.1 root 0 = [] ∨
          radix_substr val.1 node.m_depth (radix_length node.m_key) = node.m_key
      · rw [insert_eq_append hroot val hn hl hcond,
          insert_eq_append hroot' val hn' hl'
            (by rw [find_node_shift, shift_node_depth, shift_node_key]; exact hcond)]
        rw [shift_tree_next, shift_tree_size, append_shift, find_node_shift, replace_at_shift]
        simp [shift_tree_mk, shift_it]
      · have hp : find_node val.1 root 0 ≠ [] := fun h => hcond (Or.inl h)
        have hc : ¬ radix_substr val.1 node.m_depth (radix_length node.m_key) = node.m_key :=
          fun h => hcond (Or.inr h)
        cases hpar : node_at (find_node val.1 root 0).dropLast root with
        | none =>
          have hpar' : node_at (find_node val.1 (shift_node s root) 0).dropLast
              (shift_node s root) = none := by
            rw [find_node_shift, node_at_shift, hpar]; rfl
          have e1 : insert t val = (t, none, false) := by
            unfold insert; simp [hroot, hn, hl, hp, hc, hpar]
          have e2 : insert (shift_tree s t) val = (shift_tree s t, none, false) := by
            unfold insert
            simp [hroot', find_node_shift, node_at_shift, hn, hl, hp, hc, hpar]
          rw [e1, e2]; rfl
        | some par =>
          have hpar' : node_at (find_node val.1 (shift_node s root) 0).dropLast
              (shift_node s root) = some (shift_node s par) := by
            rw [find_node_shift, node_at_shift, hpar]; rfl
          rw [insert_eq_prepend hroot val hn hl hp hc hpar,
            insert_eq_prepend hroot' val hn' hl' (by rw [find_node_shift]; exact hp)
              (by rw [shift_node_depth, shift_node_key]; exact hc) hpar']
          rw [shift_tree_next, shift_tree_size, prepend_shift, find_node_shift,
            replace_at_shift]
          simp [shift_tree_mk, shift_it]

theorem insert_shift (s : Nat) (t : radix_tree V) (val : Key × V) :
    insert (shift_tree s t) val
      = (shift_tree s (insert t val).1, shift_it s (insert t val).2.1, (insert t val).2.2) := by
  cases hroot : t.m_root with
  | some root => exact insert_shift_root s hroot val
  | none =>
    have hroot' : (shift_tree s t).m_root = none := by rw [shift_tree_root, hroot]; rfl
    rw [insert_root_none hroot, insert_root_none hroot']
    have e : (⟨(shift_tree s t).m_size,
        some (.mk (shift_tree s t).next_addr [] none 0 false []),
        (shift_tree s t).next_addr + 1⟩ : radix_tree V)
        = shift_tree s ⟨t.m_size, some (.mk t.next_addr [] none 0 false []),
            t.next_addr + 1⟩ := by
      have : t.next_addr + s + 1 = t.next_addr + 1 + s := by omega
      show (⟨t.m_size, some (.mk (t.next_addr + s) [] none 0 false []),
        t.next_addr + s + 1⟩ : radix_tree V)
        = ⟨t.m_size, some (.mk (t.next_addr + s) [] none 0 false []), t.next_addr + 1 + s⟩
      rw [this]
    rw [e]
    exact insert_shift_root s rfl val

end ShiftInsertTree

section ShiftErase
variable {V : Type}

theorem shift_children_singleton (s : Nat) {cs : List (Key × radix_tree_node V)} {l : Key}
    {u1 : radix_tree_node V} (h : shift_children s cs = [(l, u1)]) :
    ∃ u, cs = [(l, u)] ∧ u1 = shift_node s u := by
  cases cs with
  | nil => cases h
  | cons e rest =>
    cases rest with
    | nil =>
      obtain ⟨k, c⟩ := e
      simp only [shift_children_cons, shift_children_nil, List.cons.injEq, Prod.mk.injEq,
        and_true] at h
      exact ⟨c, by rw [h.1], h.2.symm⟩
    | cons e2 rest2 => simp at h

theorem erase_merge_shift (s : Nat) (root g : radix_tree_node V) (gq : Path) :
    erase_merge (shift_node s root) gq (shift_node s g) = shift_node s (erase_merge root gq g) := by
  by_cases hq : gq = []
  · subst hq
    rw [erase_merge_nil, erase_merge_nil]
  · by_cases hs : ∃ l uncle, g.m_children = [(l, uncle)] ∧ uncle.m_is_leaf = false
    · obtain ⟨l, uncle, hcs, hu⟩ := hs
      have hcs' : (shift_node s g).m_children = [(l, shift_node s uncle)] := by
        rw [shift_node_children, hcs]; rfl
      have hu' : (shift_node s uncle).m_is_leaf = false := by rw [shift_node_is_leaf]; exact hu
      cases hggp : node_at gq.dropLast root with
      | some ggp =>
        have hggp' : node_at gq.dropLast (shift_node s root) = some (shift_node s ggp) := by
          rw [node_at_shift, hggp]; rfl
        rw [erase_merge_single hq hcs hu hggp, erase_merge_single hq hcs' hu' hggp',
          ← replace_at_shift, shift_node_set_children, ← map_insert_shift, ← map_erase_shift,
          shift_node_mk]
        simp only [shift_node_key, shift_node_children, shift_node_addr, shift_node_value,
          shift_node_depth, shift_node_is_leaf]
      | none =>
        have hggp' : node_at gq.dropLast (shift_node s root) = none := by
          rw [node_at_shift, hggp]; rfl
        have e1 : erase_merge root gq g = replace_at gq root g := by
          unfold erase_merge
          simp only [if_neg hq, hcs, hu, hggp]
          rfl
        have e2 : erase_merge (shift_node s root) gq (shift_node s g)
            = replace_at gq (shift_node s root) (shift_node s g) := by
          unfold erase_merge
          simp only [if_neg hq, hcs', hu', hggp']
          rfl
        rw [e1, e2, replace_at_shift]
    · have h1 : ∀ l uncle, g.m_children = [(l, uncle)] → uncle.m_is_leaf = true := by
        intro l uncle h
        by_contra hu
        exact hs ⟨l, uncle, h, by simpa using hu⟩
      have h2 : ∀ l uncle, (shift_node s g).m_children = [(l, uncle)] →
          uncle.m_is_leaf = true := by
        intro l uncle h
        rw [shift_node_children] at h
        obtain ⟨u, hu1, hu2⟩ := shift_children_singleton s h
        rw [hu2, shift_node_is_leaf]
        exact h1 l u hu1
      rw [erase_merge_other h1, erase_merge_other h2, replace_at_shift]

theorem erase_shift (s : Nat) (t : radix_tree V) (key : Key) :
    erase (shift_tree s t) key = (shift_tree s (erase t key).1, (erase t key).2) := by
  cases hroot : t.m_root with
  | none =>
    have hroot' : (shift_tree s t).m_root = none := by rw [shift_tree_root, hroot]; rfl
    have e1 : erase t key = (t, false) := by unfold erase; simp only [hroot]
    have e2 : erase (shift_tree s t) key = (shift_tree s t, false) := by
      unfold erase; simp only [hroot']
    rw [e1, e2]
  | some root =>
    have hroot' : (shift_tree s t).m_root = some (shift_node s root) := by
      rw [shift_tree_root, hroot]; rfl
    have hfn : find_node key (shift_node s root) 0 = find_node key root 0 := find_node_shift _ _ _ _
    have hno : ∀ (n : radix_tree_node V),
        map_erase (shift_node s n).m_children [] = shift_children s (map_erase n.m_children []) := by
      intro n; rw [shift_node_children, map_erase_shift]
    -- the cases in which nothing is erased
    by_cases hstay : ∃ child parent0, node_at (find_node key root 0) root = some child ∧
        child.m_is_leaf = true ∧ find_node key root 0 ≠ [] ∧
        node_at (find_node key root 0).dropLast root = some parent0 ∧
        ((find_node key root 0).dropLast = [] ∨
          (map_erase parent0.m_children []).length > 1 ∨
          map_erase parent0.m_children [] ≠ [] ∨
          ∃ gp0, node_at (find_node key root 0).dropLast.dropLast root = some gp0)
    · obtain ⟨child, parent0, hn, hl, hp, hpar, hcase⟩ := hstay
      have hn' : node_at (find_node key (shift_node s root) 0) (shift_node s root)
          = some (shift_node s child) := by rw [hfn, node_at_shift, hn]; rfl
      have hl' : (shift_node s child).m_is_leaf = true := by rw [shift_node_is_leaf]; exact hl
      have hp' : find_node key (shift_node s root) 0 ≠ [] := by rw [hfn]; exact hp
      have hpar' : node_at (find_node key (shift_node s root) 0).dropLast (shift_node s root)
          = some (shift_node s parent0) := by rw [hfn, node_at_shift, hpar]; rfl
      by_cases hq : (find_node key root 0).dropLast = []
      · rw [erase_eq_root hroot key hn hl hp hpar hq,
          erase_eq_root hroot' key hn' hl' hp' hpar' (by rw [hfn]; exact hq), hno,
          ← shift_node_set_children]
        rfl
      · have hq' : (find_node key (shift_node s root) 0).dropLast ≠ [] := by rw [hfn]; exact hq
        by_cases hlen : (map_erase parent0.m_children []).length > 1
        · rw [erase_eq_many hroot key hn hl hp hpar hq hlen,
            erase_eq_many hroot' key hn' hl' hp' hpar' hq'
              (by rw [hno, shift_children_length]; exact hlen), hno,
            ← shift_node_set_children, hfn, replace_at_shift]
          rfl
        · by_cases hemp : map_erase parent0.m_children [] = []
          · rcases hcase with h | h | h | ⟨gp0, hgp⟩
            · exact absurd h hq
            · exact absurd h hlen
            · exact absurd hemp h
            · have hgp' : node_at (find_node key (shift_node s root) 0).dropLast.dropLast
                  (shift_node s root) = some (shift_node s gp0) := by
                rw [hfn, node_at_shift, hgp]; rfl
              rw [erase_eq_empty hroot key hn hl hp hpar hq hemp hgp,
                erase_eq_empty hroot' key hn' hl' hp' hpar' hq'
                  (by rw [hno, hemp]; rfl) hgp', shift_node_children, shift_node_key,
                map_erase_shift, ← shift_node_set_children, hfn, erase_merge_shift]
              rfl
          · rw [erase_eq_one hroot key hn hl hp hpar hq hlen hemp,
              erase_eq_one hroot' key hn' hl' hp' hpar' hq'
                (by rw [hno, shift_children_length]; exact hlen)
                (by rw [hno]; exact fun h => hemp ((shift_children_eq_nil s _).1 h)), hno,
              ← shift_node_set_children, hfn, erase_merge_shift]
            rfl
    · have e1 : erase t key = (t, false) := by
        unfold erase
        simp only [hroot, radix_substr_nul]
        cases hn : node_at (find_node key root 0) root with
        | none => rfl
        | some child =>
          simp only []
          by_cases hl : child.m_is_leaf = true
          · simp only [hl, Bool.not_true, Bool.false_eq_true, if_false]
            by_cases hp : find_node key root 0 = []
            · rw [if_pos hp]
            · rw [if_neg hp]
              cases hpar : node_at (find_node key root 0).dropLast root with
              | none => rfl
              | some parent0 =>
                simp only []
                have hc := fun h => hstay ⟨child, parent0, hn, hl, hp, hpar, h⟩
                have h1 : ¬ (find_node key root 0).dropLast = [] := fun h => hc (Or.inl h)
                have h2 : ¬ (map_erase parent0.m_children []).length > 1 :=
                  fun h => hc (Or.inr (Or.inl h))
                have h3 : map_erase parent0.m_children [] = [] := by
                  by_contra h; exact hc (Or.inr (Or.inr (Or.inl h)))
                have h4 : node_at (find_node key root 0).dropLast.dropLast root = none := by
                  cases h : node_at (find_node key root 0).dropLast.dropLast root with
                  | none => rfl
                  | some gp0 => exact absurd (Or.inr (Or.inr (Or.inr ⟨gp0, h⟩))) hc
                simp [h1, h3, h4]
          · simp [hl]
      have e2 : erase (shift_tree s t) key = (shift_tree s t, false) := by
        unfold erase
        simp only [hroot', radix_substr_nul, hfn, node_at_shift]
        cases hn : node_at (find_node key root 0) root with
        | none => rfl
        | some child =>
          simp only [Option.map_some', shift_node_is_leaf]
          by_cases hl : child.m_is_leaf = true
          · simp only [hl, Bool.not_true, Bool.false_eq_true, if_false]
            by_cases hp : find_node key root 0 = []
            · rw [if_pos hp]
            · rw [if_neg hp]
              cases hpar : node_at (find_node key root 0).dropLast root with
              | none => rfl
              | some parent0 =>
                simp only [Option.map_some']
                have hc := fun h => hstay ⟨child, parent0, hn, hl, hp, hpar, h⟩
                have h1 : ¬ (find_node key root 0).dropLast = [] := fun h => hc (Or.inl h)
                have h2 : ¬ (map_erase parent0.m_children []).length > 1 :=
                  fun h => hc (Or.inr (Or.inl h))
                have h3 : map_erase parent0.m_children [] = [] := by
                  by_contra h; exact hc (Or.inr (Or.inr (Or.inl h)))
                have h4 : node_at (find_node key root 0).dropLast.dropLast root = none := by
                  cases h : node_at (find_node key root 0).dropLast.dropLast root with
                  | none => rfl
                  | some gp0 => exact absurd (Or.inr (Or.inr (Or.inr ⟨gp0, h⟩))) hc
                simp [h1, h3, h4, shift_node_set_children, map_erase_shift]
          · simp [hl]
      rw [e1, e2]

end ShiftErase

section ShiftTree
variable {V : Type}

theorem shift_it_some (s a : Nat) : shift_it s (some a) = some (a + s) := rfl

theorem shift_it_none (s : Nat) : shift_it s none = none := rfl

theorem find_shift (s : Nat) (t : radix_tree V) (key : Key) :
    find (shift_tree s t) key = shift_it s (find t key) := by
  unfold find
  rw [shift_tree_root]
  cases t.m_root with
  | none => rfl
  | some root =>
    simp only [Option.map_some', find_node_shift, node_at_shift]
    cases node_at (find_node key root 0) root with
    | none => rfl
    | some node =>
      simp only [Option.map_some', shift_node_is_leaf, shift_node_addr]
      by_cases h : node.m_is_leaf = true
      · simp [h, shift_it]
      · simp [h, shift_it]

theorem begin_shift (s : Nat) (t : radix_tree V) :
    begin (shift_tree s t) = shift_it s (begin t) := by
  unfold begin
  rw [shift_tree_root, shift_tree_size]
  cases t.m_root with
  | none => rfl
  | some root =>
    simp only [Option.map_some']
    by_cases h : t.m_size = 0
    · simp [h, shift_it]
    · simp only [h, if_false]
      exact descend_shift s root

theorem operator_inc_shift (s : Nat) (t : radix_tree V) (it : Option Nat) :
    operator_inc (shift_tree s t) (shift_it s it) = shift_it s (operator_inc t it) := by
  unfold operator_inc
  rw [shift_tree_root]
  cases it with
  | none => rfl
  | some node =>
    cases t.m_root with
    | none => rfl
    | some root => exact increment_shift s node root

theorem deref_shift (s : Nat) (t : radix_tree V) (it : Option Nat) :
    deref (shift_tree s t) (shift_it s it) = deref t it := by
  unfold deref
  rw [shift_tree_root]
  cases it with
  | none => rfl
  | some node =>
    cases t.m_root with
    | none => rfl
    | some root =>
      simp only [shift_it_some, Option.map_some', node_of_shift]
      cases node_of root node with
      | none => rfl
      | some n => exact shift_node_value s n

theorem operator_index_shift [Inhabited V] (s : Nat) (t : radix_tree V) (lhs : Key) :
    operator_index (shift_tree s t) lhs
      = (shift_tree s (operator_index t lhs).1, shift_it s (operator_index t lhs).2) := by
  unfold operator_index
  rw [find_shift]
  cases find t lhs with
  | some node => rfl
  | none =>
    simp only [shift_it_none]
    rw [insert_shift]

theorem remove_if_loop_shift (s : Nat) (pred : Key → Bool) : ∀ (fuel : Nat) (t : radix_tree V)
    (it : Option Nat),
    remove_if_loop pred fuel (shift_tree s t) (shift_it s it)
      = shift_tree s (remove_if_loop pred fuel t it) := by
  intro fuel
  induction fuel with
  | zero => intro t it; rfl
  | succ fuel ih =>
    intro t it
    cases it with
    | none => rfl
    | some node =>
      have hd := deref_shift s t (some node)
      have hi := operator_inc_shift s t (some node)
      rw [shift_it_some] at hd hi ⊢
      cases hdt : deref t (some node) with
      | none =>
        rw [hdt] at hd
        simp only [remove_if_loop, hd, hdt]
      | some kv =>
        rw [hdt] at hd
        rw [remove_if_loop_succ pred fuel t node kv hdt,
          remove_if_loop_succ pred fuel (shift_tree s t) (node + s) kv hd, hi]
        by_cases hp : pred kv.1 = true
        · rw [if_pos hp, if_pos hp, erase_shift]
          exact ih _ _
        · rw [if_neg hp, if_neg hp]
          exact ih _ _

theorem remove_if_shift (s : Nat) (t : radix_tree V) (pred : Key → Bool) :
    remove_if (shift_tree s t) pred = shift_tree s (remove_if t pred) := by
  unfold remove_if
  rw [begin_shift, shift_tree_size]
  exact remove_if_loop_shift s pred _ _ _

theorem clear_shift (s : Nat) (t : radix_tree V) :
    clear (shift_tree s t) = shift_tree s (clear t) := rfl

theorem apply_op_shift [Inhabited V] (s : Nat) (t : radix_tree V) (op : Op V) :
    apply_op (shift_tree s t) op = shift_tree s (apply_op t op) := by
  cases op with
  | insert val => simp only [apply_op, insert_shift]
  | erase key => simp only [apply_op, erase_shift]
  | index key => simp only [apply_op, operator_index_shift]
  | remove_if pred => simp only [apply_op, remove_if_shift]
  | clear => rfl

/-- The calls made on a tree do the same to the tree whose node objects lie `s` addresses
further on. -/
theorem run_from_shift [Inhabited V] (s : Nat) : ∀ (ops : List (Op V)) (t : radix_tree V),
    run_from (shift_tree s t) ops = shift_tree s (run_from t ops) := by
  intro ops
  induction ops with
  | nil => intro t; rfl
  | cons op ops ih =>
    intro t
    show run_from (apply_op (shift_tree s t) op) ops = shift_tree s (run_from (apply_op t op) ops)
    rw [apply_op_shift, ih]

theorem greedy_match_shift (s : Nat) (t : radix_tree V) (key : Key) :
    greedy_match (shift_tree s t) key = (greedy_match t key).map (fun a => a + s) := by
  unfold greedy_match
  rw [shift_tree_root]
  cases t.m_root with
  | none => rfl
  | some root =>
    simp only [Option.map_some', find_node_shift, node_at_shift]
    cases node_at (find_node key root 0) root with
    | none => rfl
    | some node0 =>
      simp only [Option.map_some', shift_node_is_leaf]
      by_cases h : node0.m_is_leaf = true
      · simp only [h, if_true]
        cases node_at (find_node key root 0).dropLast root with
        | none => rfl
        | some node => exact greedy_match_node_shift s node
      · simp only [h, if_false]
        exact greedy_match_node_shift s node0

theorem prefix_match_shift (s : Nat) (t : radix_tree V) (key : Key) :
    prefix_match (shift_tree s t) key = (prefix_match t key).map (fun a => a + s) := by
  unfold prefix_match
  rw [shift_tree_root]
  cases t.m_root with
  | none => rfl
  | some root =>
    simp only [Option.map_some', find_node_shift, node_at_shift]
    cases node_at (find_node key root 0) root with
    | none => rfl
    | some node0 =>
      simp only [Option.map_some', shift_node_is_leaf]
      have hfin : ∀ node : radix_tree_node V,
          (if radix_substr key (shift_node s node).m_depth
                (radix_length key - ((shift_node s node).m_depth : Int))
              ≠ radix_substr (shift_node s node).m_key 0
                (radix_length key - ((shift_node s node).m_depth : Int))
            then [] else greedy_match_node (shift_node s node))
          = (if radix_substr key node.m_depth (radix_length key - (node.m_depth : Int))
              ≠ radix_substr node.m_key 0 (radix_length key - (node.m_depth : Int))
            then [] else greedy_match_node node).map (fun a => a + s) := by
        intro node
        rw [shift_node_depth, shift_node_key, greedy_match_node_shift]
        split <;> rfl
      by_cases h : node0.m_is_leaf = true
      · simp only [h, if_true]
        cases node_at (find_node key root 0).dropLast root with
        | none => rfl
        | some node => exact hfin node
      · simp only [h, if_false]
        exact hfin node0

theorem longest_match_shift (s : Nat) (t : radix_tree V) (key : Key) :
    longest_match (shift_tree s t) key = shift_it s (longest_match t key) := by
  unfold longest_match
  rw [shift_tree_root]
  cases t.m_root with
  | none => rfl
  | some root =>
    simp only [Option.map_some', find_node_shift, node_at_shift]
    cases node_at (find_node key root 0) root with
    | none => rfl
    | some node =>
      simp only [Option.map_some', shift_node_is_leaf, shift_node_addr, shift_node_depth,
        shift_node_key, longest_match_loop_shift]
      by_cases h : node.m_is_leaf = true
      · simp [h, shift_it]
      · have h : node.m_is_leaf = false := by simpa using h
        simp only [h, Bool.false_eq_true, if_false]
        by_cases h1 : ¬ radix_substr key node.m_depth (radix_length node.m_key) = node.m_key
        · rw [if_pos h1, if_pos h1]
          by_cases h2 : find_node key root 0 = []
          · rw [if_pos h2, if_pos h2]; rfl
          · rw [if_neg h2, if_neg h2]
        · rw [if_neg h1, if_neg h1]

end ShiftTree

section Claims4
variable {V : Type}

/-- C16: on every reachable tree, `clear()` leaves a tree of size 0 without a root, in the
state of a freshly constructed tree. Every later sequence of calls then builds the tree
that it builds from a fresh tree, the node objects being those that `new` hands out after
the addresses already used, and every call returns what it returns on that tree (an
iterator to the corresponding node); in particular `find(k)` is `end()` for every `k`, and
a following `insert` returns true. -/
theorem C16_clear [Inhabited V] (ops : List (Op V)) :
    size (clear (run ops)) = 0 ∧ (clear (run ops)).m_root = none ∧
    (clear (run ops)).m_size = (empty_tree : radix_tree V).m_size ∧
    (clear (run ops)).m_root = (empty_tree : radix_tree V).m_root ∧
    (∀ k, find (clear (run ops)) k = end_it) ∧
    (∀ k v, (insert (clear (run ops)) (k, v)).2.2 = true) ∧
    ∀ later : List (Op V),
      run_from (clear (run ops)) later = shift_tree (run ops).next_addr (run later) ∧
      size (run_from (clear (run ops)) later) = size (run later) ∧
      (∀ val, (insert (run_from (clear (run ops)) later) val).2
        = (shift_it (run ops).next_addr (insert (run later) val).2.1,
            (insert (run later) val).2.2)) ∧
      (∀ k, (erase (run_from (clear (run ops)) later) k).2 = (erase (run later) k).2) ∧
      (∀ k, (operator_index (run_from (clear (run ops)) later) k).2
        = shift_it (run ops).next_addr (operator_index (run later) k).2) ∧
      (∀ k, find (run_from (clear (run ops)) later) k
        = shift_it (run ops).next_addr (find (run later) k)) ∧
      (∀ k, longest_match (run_from (clear (run ops)) later) k
        = shift_it (run ops).next_addr (longest_match (run later) k)) ∧
      (∀ k, prefix_match (run_from (clear (run ops)) later) k
        = (prefix_match (run later) k).map (fun a => a + (run ops).next_addr)) ∧
      (∀ k, greedy_match (run_from (clear (run ops)) later) k
        = (greedy_match (run later) k).map (fun a => a + (run ops).next_addr)) ∧
      begin (run_from (clear (run ops)) later)
        = shift_it (run ops).next_addr (begin (run later)) ∧
      (∀ it, operator_inc (run_from (clear (run ops)) later) (shift_it (run ops).next_addr it)
        = shift_it (run ops).next_addr (operator_inc (run later) it)) ∧
      (∀ it, deref (run_from (clear (run ops)) later) (shift_it (run ops).next_addr it)
        = deref (run later) it) := by
  have hclear : clear (run ops) = shift_tree (run ops).next_addr (empty_tree : radix_tree V) := by
    show (⟨0, none, (run ops).next_addr⟩ : radix_tree V) = ⟨0, none, 0 + (run ops).next_addr⟩
    rw [Nat.zero_add]
  have hfind : ∀ k, find (empty_tree : radix_tree V) k = none := fun k => rfl
  refine ⟨rfl, rfl, rfl, rfl, ?_, ?_, ?_⟩
  · intro k; rfl
  · intro k v
    rw [hclear, insert_shift]
    obtain ⟨a, r1, -⟩ := insert_new (empty_tree_wf (V := V)) v (hfind k)
    show (insert empty_tree (k, v)).2.2 = true
    rw [r1]
  · intro later
    have hrun : run_from (clear (run ops)) later
        = shift_tree (run ops).next_addr (run later) := by
      rw [hclear]
      exact run_from_shift _ later empty_tree
    rw [hrun]
    refine ⟨rfl, rfl, ?_, ?_, ?_, ?_, ?_, ?_, ?_, ?_, ?_, ?_⟩
    · intro val; rw [insert_shift]
    · intro k; rw [erase_shift]
    · intro k; rw [operator_index_shift]
    · intro k; exact find_shift _ _ _
    · intro k; exact longest_match_shift _ _ _
    · intro k; exact prefix_match_shift _ _ _
    · intro k; exact greedy_match_shift _ _ _
    · exact begin_shift _ _
    · intro it; exact operator_inc_shift _ _ _
    · intro it; exact deref_shift _ _ _

end Claims4

section ShapeAt
variable {V : Type}

/-- The child map of the node at a position of a tree with the invariant. -/
theorem children_at_path {root : radix_tree_node V} (hw : WF [] root) {p : Path}
    {n : radix_tree_node V} (h : node_at p root = some n) :
    map_sorted n.m_children ∧ (∀ e ∈ n.m_children, child_ok e) ∧
    heads_distinct n.m_children ∧
    (∀ e ∈ n.m_children, WF (pre_at p root [] ++ n.m_key) e.2) := by
  have hn := WF.at_path p root [] n hw h
  by_cases hl : n.m_is_leaf = true
  · rw [hn.leaf_children hl]
    exact ⟨List.Pairwise.nil, fun e he => (nomatch he), fun e he => (nomatch he),
      fun e he => (nomatch he)⟩
  · have hl : n.m_is_leaf = false := by simpa using hl
    obtain ⟨g1, g2, g3, g4, -⟩ := hn.node_inv hl
    exact ⟨g1, g2, g3, g4⟩

/-- A child filed under the empty label is a leaf that stores the key spelled by the
labels down to its parent. -/
theorem nul_child_at_path {root : radix_tree_node V} (hw : WF [] root) {p : Path}
    {n : radix_tree_node V} (h : node_at p root = some n) {e : Key × radix_tree_node V}
    (he : e ∈ n.m_children) (hk : e.1 = []) :
    e.2.m_is_leaf = true ∧ ∃ v, e.2.m_value = some (pre_at p root [] ++ n.m_key, v) := by
  obtain ⟨g1, g2, g3, g4⟩ := children_at_path hw h
  have hl : e.2.m_is_leaf = true := by
    by_contra hl
    exact ((g2 e he).2 (by simpa using hl)).1 hk
  obtain ⟨v, hv⟩ := (g4 e he).leaf_form hl
  exact ⟨hl, v, by rw [hv]; rfl⟩

/-- The fields of a node that is not the root, relative to its parent. -/
theorem child_at_path {root : radix_tree_node V} (hw : WF [] root) {q : Path} {lab : Key}
    {n : radix_tree_node V} (h : node_at (q ++ [lab]) root = some n) :
    ∃ par, node_at q root = some par ∧ par.m_is_leaf = false ∧
      (lab, n) ∈ par.m_children ∧ map_find par.m_children n.m_key = some n ∧
      n.m_key = lab ∧ n.m_depth = par.m_depth + par.m_key.length ∧
      (n.m_is_leaf = false → n.m_key ≠ [] ∧ n.m_children ≠ [] ∧
        ∀ c, n.m_children = [c] → c.2.m_is_leaf = true) ∧
      leaves n ≠ [] := by
  obtain ⟨par, l1, l2, hpar, hwpar, hparl, hcs, h1, h2, hwn, hok, hpre⟩ :=
    node_at_snoc_inv hw h
  have hmem : (lab, n) ∈ par.m_children := by rw [hcs]; simp
  refine ⟨par, hpar, hparl, hmem, ?_, hok.1, ?_, ?_, ?_⟩
  · rw [hcs, hok.1]
    exact map_find_split l1 l2 lab n h1
  · rw [hwn.depth_eq, hwpar.depth_eq, List.length_append]
  · intro hl
    obtain ⟨a, b, c⟩ := hok.2 hl
    rw [hok.1]
    exact ⟨a, b, c⟩
  · apply WF.leaves_ne_nil n _ hwn
    by_cases hl : n.m_is_leaf = true
    · exact Or.inl hl
    · exact Or.inr (hok.2 (by simpa using hl)).2.1

theorem map_next_of_find {β : Type} {m : List (Key × β)} {k : Key} {v : β}
    (h : map_find m k = some v) : map_next m k ≠ none := by
  induction m with
  | nil => cases h
  | cons e m ih =>
    obtain ⟨k1, v1⟩ := e
    simp only [map_find] at h
    simp only [map_next]
    by_cases hk : k1 = k
    · rw [if_pos hk]; exact fun h => Option.noConfusion h
    · rw [if_neg hk] at h ⊢
      exact ih h

/-- The method `descend` ends at a leaf below the node, for a node with a leaf below. -/
theorem descend_leaf {pre : Key} {n : radix_tree_node V} (hw : WF pre n)
    (hne : leaves n ≠ []) :
    ∃ x ∈ leaves n, descend n = some x.addr ∧ x.m_is_leaf = true := by
  obtain ⟨x, L, hx⟩ := List.exists_cons_of_ne_nil hne
  have hxm : x ∈ leaves n := by rw [hx]; exact List.mem_cons_self _ _
  refine ⟨x, hxm, ?_, ?_⟩
  · rw [descend_spec n pre hw, hx]; rfl
  · obtain ⟨r, v, hr⟩ := hw.leaves_form n pre x hxm
    rw [hr]; rfl

end ShapeAt

section Claims5
variable {V : Type}

/-- C21: in every reachable tree and for every node, at most one child that is not a leaf
has an edge label that begins with a given symbol, every child is filed in the child map
under its own edge label (and is what the map finds under that label), at most one child
has the empty label, and a child with the empty label is a leaf whose key is the
concatenation of the labels down to the node. -/
theorem C21_children [Inhabited V] (ops : List (Op V)) (root : radix_tree_node V)
    (hroot : (run ops).m_root = some root) (p : Path) (n : radix_tree_node V)
    (hn : node_at p root = some n) :
    (∀ c e1 e2, e1 ∈ n.m_children → e2 ∈ n.m_children → e1.2.m_is_leaf = false →
      e2.2.m_is_leaf = false → e1.1.head? = some c → e2.1.head? = some c → e1 = e2) ∧
    (∀ e ∈ n.m_children, e.2.m_key = e.1 ∧ map_find n.m_children e.2.m_key = some e.2) ∧
    (∀ e1 e2, e1 ∈ n.m_children → e2 ∈ n.m_children → e1.1 = [] → e2.1 = [] → e1 = e2) ∧
    (∀ e ∈ n.m_children, e.1 = [] →
      e.2.m_is_leaf = true ∧ ∃ v, e.2.m_value = some (pre_at p root [] ++ n.m_key, v)) := by
  have hw := (tree_wf_root (run_wf ops) hroot).1
  obtain ⟨g1, g2, g3, g4⟩ := children_at_path hw hn
  refine ⟨?_, ?_, ?_, ?_⟩
  · intro c e1 e2 h1 h2 l1 l2 c1 c2
    exact map_sorted_key_unique g1 h1 h2 (g3 e1 h1 e2 h2 l1 l2 (by rw [c1, c2]))
  · intro e he
    refine ⟨(g2 e he).1, ?_⟩
    rw [(g2 e he).1]
    exact map_find_of_mem g1 he
  · intro e1 e2 h1 h2 k1 k2
    exact map_sorted_key_unique g1 h1 h2 (by rw [k1, k2])
  · intro e he hk
    exact nul_child_at_path hw hn he hk

theorem C21_children_witness :
    ∃ root n, (run sample_ops).m_root = some root ∧ node_at [['a', 'b']] root = some n ∧
    ((∀ c e1 e2, e1 ∈ n.m_children → e2 ∈ n.m_children → e1.2.m_is_leaf = false →
      e2.2.m_is_leaf = false → e1.1.head? = some c → e2.1.head? = some c → e1 = e2) ∧
    (∀ e ∈ n.m_children, e.2.m_key = e.1 ∧ map_find n.m_children e.2.m_key = some e.2) ∧
    (∀ e1 e2, e1 ∈ n.m_children → e2 ∈ n.m_children → e1.1 = [] → e2.1 = [] → e1 = e2) ∧
    (∀ e ∈ n.m_children, e.1 = [] →
      e.2.m_is_leaf = true ∧
      ∃ v, e.2.m_value = some (pre_at [['a', 'b']] root [] ++ n.m_key, v))) :=
  ⟨(run sample_ops).m_root.get (by decide),
    (node_at [['a', 'b']] ((run sample_ops).m_root.get (by decide))).get (by decide),
    (Option.some_get _).symm, (Option.some_get _).symm,
    C21_children sample_ops _ (Option.some_get _).symm [['a', 'b']] _
      (Option.some_get _).symm⟩

/-- C22: in every reachable tree, a node that is neither the root nor a leaf does not have
exactly one child that is itself not a leaf: when it has one child only, that child is a
leaf. -/
theorem C22_no_single_internal_child [Inhabited V] (ops : List (Op V))
    (root : radix_tree_node V) (hroot : (run ops).m_root = some root) (p : Path)
    (n : radix_tree_node V) (hp : p ≠ []) (hn : node_at p root = some n)
    (hl : n.m_is_leaf = false) (c : Key × radix_tree_node V) (hc : n.m_children = [c]) :
    c.2.m_is_leaf = true := by
  have hw := (tree_wf_root (run_wf ops) hroot).1
  rw [← List.dropLast_append_getLast hp] at hn
  obtain ⟨par, -, -, -, -, -, -, h, -⟩ := child_at_path hw hn
  exact (h hl).2.2 c hc

theorem C22_no_single_internal_child_witness :
    (run sample_ops).m_root = some sample_root ∧ [['a', 'b'], ['c']] ≠ [] ∧
      node_at [['a', 'b'], ['c']] sample_root = some sample_node ∧
      sample_node.m_is_leaf = false ∧ sample_node.m_children = [sample_child] ∧
      sample_child.2.m_is_leaf = true :=
  ⟨rfl, by decide, rfl, rfl, rfl,
    C22_no_single_internal_child sample_ops sample_root rfl [['a', 'b'], ['c']] sample_node
      (by decide) rfl rfl sample_child rfl⟩

/-- C23: in every reachable tree the root has depth 0, and the depth of every other node
is the depth of its parent plus the length of the edge label of its parent. -/
theorem C23_depth [Inhabited V] (ops : List (Op V)) (root : radix_tree_node V)
    (hroot : (run ops).m_root = some root) :
    root.m_depth = 0 ∧
    ∀ q lab par n, node_at q root = some par → node_at (q ++ [lab]) root = some n →
      n.m_depth = par.m_depth + par.m_key.length := by
  have hw := (tree_wf_root (run_wf ops) hroot).1
  refine ⟨hw.depth_eq, ?_⟩
  intro q lab par n hpar hn
  obtain ⟨par1, h1, -, -, -, -, h2, -⟩ := child_at_path hw hn
  rw [hpar] at h1
  cases h1
  exact h2

theorem C23_depth_witness :
    ∃ root, (run sample_ops).m_root = some root ∧ root.m_depth = 0 ∧
    ∀ q lab par n, node_at q root = some par → node_at (q ++ [lab]) root = some n →
      n.m_depth = par.m_depth + par.m_key.length :=
  ⟨(run sample_ops).m_root.get (by decide), (Option.some_get _).symm,
    C23_depth sample_ops _ (Option.some_get _).symm⟩

/-- C24, what the code does: in every reachable tree every leaf holds a pair; but a node
that is not a leaf can hold one too. After `insert((ab, 1))` on the empty tree the child
of the root with the label ab, made by `append` as the parent of the new leaf, is not a
leaf and holds the pair `(ab, 1)`. -/
theorem C24_node_values :
    (∀ (ops : List (Op Nat)) (root : radix_tree_node Nat) (p : Path) (x : radix_tree_node Nat),
      (run ops).m_root = some root → node_at p root = some x → x.m_is_leaf = true →
      ∃ k v, x.m_value = some (k, v)) ∧
    ∃ root n, (run value_example_ops).m_root = some root ∧
      node_at [['a', 'b']] root = some n ∧ n.m_is_leaf = false ∧
      n.m_value = some (['a', 'b'], 1) := by
  constructor
  · intro ops root p x hroot hx hl
    obtain ⟨-, v, hv⟩ := leaf_at_path (tree_wf_root (run_wf ops) hroot).1 hx hl
    exact ⟨_, v, hv⟩
  · exact ⟨(run value_example_ops).m_root.get (by decide),
      (node_at [['a', 'b']] ((run value_example_ops).m_root.get (by decide))).get (by decide),
      (Option.some_get _).symm, (Option.some_get _).symm, by decide, by decide⟩

/-- C30: in every reachable tree, a node that is neither the root nor a leaf has at least
one child, and below every node other than the root there is a leaf: `descend` ends at a
leaf below the node, `begin()` of a tree that is not empty is the iterator of a leaf, and
in `increment` a node is found in the child map of its parent under its own label. -/
theorem C30_children_nonempty [Inhabited V] (ops : List (Op V)) (root : radix_tree_node V)
    (hroot : (run ops).m_root = some root) :
    (∀ p n, p ≠ [] → node_at p root = some n → n.m_is_leaf = false → n.m_children ≠ []) ∧
    (∀ p n, p ≠ [] → node_at p root = some n →
      ∃ x ∈ leaves n, x.m_is_leaf = true ∧ descend n = some x.addr) ∧
    (size (run ops) ≠ 0 →
      ∃ x ∈ leaves root, x.m_is_leaf = true ∧ begin (run ops) = some x.addr) ∧
    (∀ q lab n, node_at (q ++ [lab]) root = some n →
      ∃ par, node_at q root = some par ∧ map_find par.m_children n.m_key = some n ∧
        map_next par.m_children n.m_key ≠ none) := by
  have hwt := run_wf ops
  have hw := (tree_wf_root hwt hroot).1
  refine ⟨?_, ?_, ?_, ?_⟩
  · intro p n hp hn hl
    rw [← List.dropLast_append_getLast hp] at hn
    obtain ⟨par, -, -, -, -, -, -, h, -⟩ := child_at_path hw hn
    exact (h hl).2.1
  · intro p n hp hn
    have hwn := WF.at_path p root [] n hw hn
    rw [← List.dropLast_append_getLast hp] at hn
    obtain ⟨par, -, -, -, -, -, -, -, h⟩ := child_at_path hw hn
    obtain ⟨x, hx, h1, h2⟩ := descend_leaf hwn h
    exact ⟨x, hx, h2, h1⟩
  · intro hs
    have hne : leaves root ≠ [] := by
      intro h
      apply hs
      show (run ops).m_size = 0
      rw [tree_wf_size hwt, tree_leaves_root hroot, h]
      rfl
    obtain ⟨x, L, hx⟩ := List.exists_cons_of_ne_nil hne
    have hxm : x ∈ leaves root := by rw [hx]; exact List.mem_cons_self _ _
    refine ⟨x, hxm, ?_, ?_⟩
    · obtain ⟨r, v, hr⟩ := hw.leaves_form root [] x hxm
      rw [hr]; rfl
    · rw [begin_spec hwt, tree_leaves_root hroot, hx]; rfl
  · intro q lab n hn
    obtain ⟨par, h1, -, -, h2, -⟩ := child_at_path hw hn
    exact ⟨par, h1, h2, map_next_of_find h2⟩

theorem C30_children_nonempty_witness :
    ∃ root, (run sample_ops).m_root = some root ∧
    (∀ p n, p ≠ [] → node_at p root = some n → n.m_is_leaf = false → n.m_children ≠ []) ∧
    (∀ p n, p ≠ [] → node_at p root = some n →
      ∃ x ∈ leaves n, x.m_is_leaf = true ∧ descend n = some x.addr) ∧
    (size (run sample_ops) ≠ 0 →
      ∃ x ∈ leaves root, x.m_is_leaf = true ∧ begin (run sample_ops) = some x.addr) ∧
    (∀ q lab n, node_at (q ++ [lab]) root = some n →
      ∃ par, node_at q root = some par ∧ map_find par.m_children n.m_key = some n ∧
        map_next par.m_children n.m_key ≠ none) :=
  ⟨(run sample_ops).m_root.get (by decide), (Option.some_get _).symm,
    C30_children_nonempty sample_ops _ (Option.some_get _).symm⟩

end Claims5

section Depths
variable {V : Type}

theorem find_node_depths_eq (key : Key) (n : radix_tree_node V) (depth : Nat) :
    find_node_depths key n depth = depth :: find_node_depths_loop key depth n.m_children := by
  obtain ⟨a, cs, v, d, l, k⟩ := n
  simp [find_node_depths, radix_tree_node.m_children]

/-- The loop of `find_node` makes no recursive call, or one call, for a child that is not
a leaf and whose label begins what is left of the key. -/
theorem find_node_depths_loop_cases (K rest : Key) (cs : List (Key × radix_tree_node V)) :
    find_node_depths_loop (K ++ rest) K.length cs = [] ∨
    ∃ e ∈ cs, e.2.m_is_leaf = false ∧ e.1 <+: rest ∧
      find_node_depths_loop (K ++ rest) K.length cs
        = find_node_depths (K ++ rest) e.2 (K.length + e.1.length) := by
  induction cs with
  | nil => exact Or.inl rfl
  | cons e cs ih =>
    obtain ⟨first, second⟩ := e
    have hih : ∀ L, find_node_depths_loop (K ++ rest) K.length ((first, second) :: cs)
          = find_node_depths_loop (K ++ rest) K.length cs →
        (find_node_depths_loop (K ++ rest) K.length ((first, second) :: cs) = [] ∨
          ∃ e ∈ (first, second) :: cs, e.2.m_is_leaf = false ∧ e.1 <+: rest ∧
            find_node_depths_loop (K ++ rest) K.length ((first, second) :: cs)
              = find_node_depths (K ++ rest) e.2 (K.length + e.1.length)) ∨ L := by
      intro L hstep
      left
      rcases ih with h | ⟨e, he, h1, h2, h3⟩
      · exact Or.inl (by rw [hstep, h])
      · exact Or.inr ⟨e, List.mem_cons_of_mem _ he, h1, h2, by rw [hstep, h3]⟩
    by_cases h0 : radix_length (K ++ rest) - ((K.length : Nat) : Int) = 0
    · by_cases hl : second.m_is_leaf = true
      · left
        simp only [find_node_depths_loop, if_pos h0, hl, if_true]
      · have hl1 : second.m_is_leaf = false := by simpa using hl
        have hstep : find_node_depths_loop (K ++ rest) K.length ((first, second) :: cs)
            = find_node_depths_loop (K ++ rest) K.length cs := by
          simp only [find_node_depths_loop, if_pos h0, hl1]
          rfl
        exact (hih False hstep).resolve_right id
    · by_cases hc : (!second.m_is_leaf && key_at (K ++ rest) K.length == key_at first 0) = true
      · by_cases hs : radix_substr (K ++ rest) K.length (radix_length first) = first
        · right
          refine ⟨(first, second), List.mem_cons_self _ _, ?_, ?_, ?_⟩
          · simp only [Bool.and_eq_true, Bool.not_eq_true'] at hc
            exact hc.1
          · rw [radix_substr_append] at hs
            exact (take_eq_iff_starts rest first).1 hs
          · simp only [find_node_depths_loop, if_neg h0, hc, if_true, if_pos hs]
        · left
          simp only [find_node_depths_loop, if_neg h0, hc, if_true, if_neg hs]
      · have hstep : find_node_depths_loop (K ++ rest) K.length ((first, second) :: cs)
            = find_node_depths_loop (K ++ rest) K.length cs := by
          simp only [find_node_depths_loop, if_neg h0, hc]
          rfl
        exact (hih False hstep).resolve_right id

/-- The depths of the calls of `find_node` below a node increase strictly and stay within
the length of the key. -/
theorem find_node_depths_spec : ∀ (n : radix_tree_node V) (pre rest : Key), WF pre n →
    n.m_is_leaf = false →
    List.Chain' (fun a b => a < b)
      (find_node_depths (pre ++ n.m_key ++ rest) n (pre ++ n.m_key).length) ∧
    ∀ d ∈ find_node_depths (pre ++ n.m_key ++ rest) n (pre ++ n.m_key).length,
      (pre ++ n.m_key).length ≤ d ∧ d ≤ (pre ++ n.m_key ++ rest).length := by
  intro n
  induction n using node_induction with
  | h n ih =>
    intro pre rest hw hl
    obtain ⟨g1, g2, g3, g4, -⟩ := hw.node_inv hl
    rw [find_node_depths_eq]
    have hself : (pre ++ n.m_key).length ≤ (pre ++ n.m_key ++ rest).length := by
      rw [List.length_append (pre ++ n.m_key)]; omega
    rcases find_node_depths_loop_cases (pre ++ n.m_key) rest n.m_children with
      h | ⟨e, he, hel, hp, h⟩
    · rw [h]
      refine ⟨List.chain'_singleton _, ?_⟩
      intro d hd
      rw [List.mem_singleton] at hd
      rw [hd]
      exact ⟨le_refl _, hself⟩
    · rw [h]
      obtain ⟨r, hr⟩ := hp
      have hk : e.2.m_key = e.1 := (g2 e he).1
      have hne : e.1 ≠ [] := ((g2 e he).2 hel).1
      have hkey : pre ++ n.m_key ++ rest = (pre ++ n.m_key) ++ e.2.m_key ++ r := by
        rw [hk, ← hr]
        simp only [List.append_assoc]
      have hdep : (pre ++ n.m_key).length + e.1.length = (pre ++ n.m_key ++ e.2.m_key).length := by
        rw [hk, List.length_append (pre ++ n.m_key)]
      obtain ⟨i1, i2⟩ := ih e he (pre ++ n.m_key) r (g4 e he) hel
      rw [hdep, hkey]
      have hpos : 0 < e.1.length := List.length_pos.2 hne
      have hlt : (pre ++ n.m_key).length < (pre ++ n.m_key ++ e.2.m_key).length := by
        rw [← hdep]; omega
      constructor
      · rw [find_node_depths_eq] at i1 ⊢
        exact List.Chain'.cons hlt i1
      · intro d hd
        rcases List.mem_cons.1 hd with rfl | hd
        · exact ⟨le_refl _, by rw [← hkey]; exact hself⟩
        · obtain ⟨j1, j2⟩ := i2 d hd
          exact ⟨by omega, j2⟩

theorem chain_length_le (N : Nat) : ∀ (l : List Nat) (a : Nat),
    List.Chain (fun a b => a < b) a l → (∀ d ∈ l, d ≤ N) → a ≤ N → a + l.length ≤ N := by
  intro l
  induction l with
  | nil => intro a _ _ h; simpa using h
  | cons b l ih =>
    intro a hc hb ha
    rw [List.chain_cons] at hc
    have := ih b hc.2 (fun d hd => hb d (List.mem_cons_of_mem _ hd))
      (hb b (List.mem_cons_self _ _))
    simp only [List.length_cons]
    omega

/-- The indices at which the loop of `prepend` reads the label and the key lie within
them. -/
theorem prepend_reads_in_range (node_key key : Key) (depth : Nat) : ∀ (fuel count : Nat),
    ∀ ij ∈ prepend_reads node_key key depth (radix_length node_key)
      (radix_length key - (depth : Int)) fuel count,
      ij.1 < node_key.length ∧ ij.2 < key.length := by
  intro fuel
  induction fuel with
  | zero => intro count ij h; cases h
  | succ fuel ih =>
    intro count ij h
    simp only [prepend_reads, radix_length] at h
    by_cases hc : (count : Int) < (node_key.length : Int) ∧
        (count : Int) < (key.length : Int) - (depth : Int)
    · rw [if_pos hc] at h
      rcases List.mem_cons.1 h with rfl | h
      · exact ⟨by exact_mod_cast hc.1, by have := hc.2; simp only []; omega⟩
      · by_cases hk : key_at node_key count = key_at key (count + depth)
        · rw [if_neg (not_not.2 hk)] at h
          exact ih (count + 1) ij (by simpa only [radix_length] using h)
        · rw [if_pos hk] at h
          cases h
    · rw [if_neg hc] at h
      cases h

/-- The count that the loop of `prepend` computes, against the label being a prefix of
what is left of the key. -/
theorem prepend_count_cases (K rest lab : Key) :
    (lab <+: rest → prepend_count lab (K ++ rest) K.length (radix_length lab)
      (radix_length (K ++ rest) - (K.length : Int)) lab.length 0 = lab.length) ∧
    (¬ lab <+: rest → prepend_count lab (K ++ rest) K.length (radix_length lab)
      (radix_length (K ++ rest) - (K.length : Int)) lab.length 0 < lab.length) ∧
    (lab ≠ [] → rest ≠ [] → key_at rest 0 = key_at lab 0 →
      0 < prepend_count lab (K ++ rest) K.length (radix_length lab)
        (radix_length (K ++ rest) - (K.length : Int)) lab.length 0) ∧
    lab.take (prepend_count lab (K ++ rest) K.length (radix_length lab)
        (radix_length (K ++ rest) - (K.length : Int)) lab.length 0)
      = rest.take (prepend_count lab (K ++ rest) K.length (radix_length lab)
        (radix_length (K ++ rest) - (K.length : Int)) lab.length 0) := by
  obtain ⟨-, c1, c2, c3, c4⟩ := prepend_count_spec K rest lab lab.length 0
    (by omega) (by omega) (by omega) (by simp)
  generalize prepend_count lab (K ++ rest) K.length (radix_length lab)
    (radix_length (K ++ rest) - (K.length : Int)) lab.length 0 = c at c1 c2 c3 c4
  refine ⟨?_, ?_, ?_, c3⟩
  · intro hp
    by_contra hne
    have hlt : c < lab.length := by omega
    have hlt2 : c < rest.length := by have := hp.length_le; omega
    apply c4 hlt hlt2
    obtain ⟨t, rfl⟩ := hp
    simp [key_at, List.getD_eq_getElem?_getD, List.getElem?_append_left hlt]
  · intro hp
    by_contra hge
    have hc : c = lab.length := by omega
    rw [hc, List.take_length] at c3
    exact hp ((take_eq_iff_starts rest lab).1 c3.symm)
  · intro h1 h2 h3
    by_contra h0
    have hc : c = 0 := by omega
    rw [hc] at c4
    exact c4 (List.length_pos.2 h1) (List.length_pos.2 h2) h3.symm

end Depths

section Stop
variable {V : Type}

/-- Where `find_node` stops in a tree with the invariant: at an anchor node whose labels
begin the key, or at a child of the anchor. -/
theorem find_node_stop {t : radix_tree V} (hw : tree_wf t) {root : radix_tree_node V}
    (hroot : t.m_root = some root) (K : Key) :
    ∃ (q : Path) (m : radix_tree_node V) (rest : Key),
      node_at q root = some m ∧ WF (pre_at q root []) m ∧ m.m_is_leaf = false ∧
      K = pre_at q root [] ++ m.m_key ++ rest ∧
      ∃ res, find_node K root 0 = q ++ res ∧ anchor_cases rest m.m_children res := by
  obtain ⟨h1, h2, h3, h4, h5, h6⟩ := tree_wf_root hw hroot
  obtain ⟨q, m, pre_m, rest_m, res, k1, k2, k3, k4, k8, k5, k6, k7⟩ :=
    find_node_landing root [] K h1 h2
  rw [← find_node_root K root h3] at k6
  have hkk : [] ++ root.m_key ++ K = K := by rw [h3]; rfl
  rw [hkk] at k4
  subst k8
  exact ⟨q, m, rest_m, k1, k2, k3, k4, res, k6, k7⟩

/-- The node that `find_node` returns, and its parent when it is a leaf, lie no deeper
than the key is long. -/
theorem find_node_depth_le {t : radix_tree V} (hw : tree_wf t) {root : radix_tree_node V}
    (hroot : t.m_root = some root) (K : Key) :
    ∃ node0, node_at (find_node K root 0) root = some node0 ∧ node0.m_depth ≤ K.length ∧
      (node0.m_is_leaf = true →
        ∃ par, node_at (find_node K root 0).dropLast root = some par ∧
          par.m_depth ≤ K.length) := by
  obtain ⟨q, m, rest, k1, k2, k3, k4, res, k6, k7⟩ := find_node_stop hw hroot K
  obtain ⟨g1, g2, g3, g4, g5⟩ := k2.node_inv k3
  have hm : m.m_depth ≤ K.length := by
    rw [g5, k4]; simp only [List.length_append]; omega
  have hchild : ∀ e ∈ m.m_children, node_at (q ++ [e.1]) root = some e.2 ∧
      e.2.m_depth ≤ K.length := by
    intro e he
    constructor
    · rw [node_at_append, k1]
      show node_at [e.1] m = some e.2
      rw [node_at_child g1 he]; rfl
    · rw [(g4 e he).depth_eq, k4]; simp only [List.length_append]; omega
  rcases k7 with ⟨hr, e, he, e1, e2⟩ | ⟨hr, e1, e2⟩ | ⟨hr, e1, e2⟩ | ⟨hr, e, he, e1, e2, e3, e4⟩
  · subst e2
    rw [k6]
    refine ⟨e.2, (hchild e he).1, (hchild e he).2, fun _ => ⟨m, ?_, hm⟩⟩
    rw [List.dropLast_concat]; exact k1
  · subst e2
    rw [k6, List.append_nil]
    exact ⟨m, k1, hm, fun h => by rw [k3] at h; cases h⟩
  · subst e2
    rw [k6, List.append_nil]
    exact ⟨m, k1, hm, fun h => by rw [k3] at h; cases h⟩
  · subst e4
    rw [k6]
    exact ⟨e.2, (hchild e he).1, (hchild e he).2, fun h => by rw [e1] at h; cases h⟩

theorem insert_call_eq {t : radix_tree V} {root : radix_tree_node V}
    (hroot : t.m_root = some root) (val : Key × V) {node : radix_tree_node V}
    (hn : node_at (find_node val.1 root 0) root = some node) :
    insert_call t val =
      if node.m_is_leaf then InsertCall.no_call
      else if find_node val.1 root 0 = [] then InsertCall.calls_append
      else if radix_substr val.1 node.m_depth (radix_length node.m_key) = node.m_key then
        InsertCall.calls_append
      else InsertCall.calls_prepend := by
  unfold insert_call
  simp only [hroot, hn]

/-- Whether the label of a node that `find_node` returns, other than the root and not a
leaf, is matched in full by the key. -/
theorem label_match_iff {t : radix_tree V} (hw : tree_wf t) {root : radix_tree_node V}
    (hroot : t.m_root = some root) (K : Key) {node : radix_tree_node V}
    (hn : node_at (find_node K root 0) root = some node) (hl : node.m_is_leaf = false) :
    K = K.take node.m_depth ++ K.drop node.m_depth ∧ (K.take node.m_depth).length = node.m_depth ∧
    (radix_substr K node.m_depth (radix_length node.m_key) = node.m_key ↔
      node.m_key <+: K.drop node.m_depth) ∧
    (find_node K root 0 ≠ [] →
      ¬ radix_substr K node.m_depth (radix_length node.m_key) = node.m_key →
      node.m_key ≠ [] ∧ K.drop node.m_depth ≠ [] ∧
      key_at (K.drop node.m_depth) 0 = key_at node.m_key 0) := by
  obtain ⟨node0, h0, hd, -⟩ := find_node_depth_le hw hroot K
  rw [hn] at h0
  cases h0
  have hlen : (K.take node.m_depth).length = node.m_depth := by
    rw [List.length_take]; omega
  have hsub : radix_substr K node.m_depth (radix_length node.m_key)
      = (K.drop node.m_depth).take node.m_key.length := by
    simp [radix_substr, radix_length]
  refine ⟨(List.take_append_drop _ _).symm, hlen, ?_, ?_⟩
  · rw [hsub]
    exact take_eq_iff_starts _ _
  · intro hp hne
    obtain ⟨q, m, rest, k1, k2, k3, k4, res, k6, k7⟩ := find_node_stop hw hroot K
    obtain ⟨g1, g2, g3, g4, g5⟩ := k2.node_inv k3
    have hfull : radix_substr K m.m_depth (radix_length m.m_key) = m.m_key := by
      have h1 : radix_substr K m.m_depth (radix_length m.m_key)
          = (K.drop m.m_depth).take m.m_key.length := by
        simp [radix_substr, radix_length]
      have h2 : K.drop (pre_at q root []).length = m.m_key ++ rest := by
        rw [k4, List.append_assoc, List.drop_left]
      rw [h1, g5, h2, List.take_left]
    rcases k7 with ⟨hr, e, he, e1, e2⟩ | ⟨hr, e1, e2⟩ | ⟨hr, e1, e2⟩ | ⟨hr, e, he, e1, e2, e3, e4⟩
    · subst e2
      have : node_at (q ++ [e.1]) root = some e.2 := by
        rw [node_at_append, k1]
        show node_at [e.1] m = some e.2
        rw [node_at_child g1 he]; rfl
      rw [k6, this] at hn
      cases hn
      rw [e1] at hl; cases hl
    · -- the anchor itself: its label is matched in full
      exfalso
      subst e2
      rw [k6, List.append_nil, k1] at hn
      cases hn
      exact hne hfull
    · exfalso
      subst e2
      rw [k6, List.append_nil, k1] at hn
      cases hn
      exact hne hfull
    · subst e4
      have : node_at (q ++ [e.1]) root = some e.2 := by
        rw [node_at_append, k1]
        show node_at [e.1] m = some e.2
        rw [node_at_child g1 he]; rfl
      rw [k6, this] at hn
      cases hn
      have hdrop : K.drop e.2.m_depth = rest := by
        rw [(g4 e he).depth_eq, k4, List.drop_left]
      rw [hdrop, (g2 e he).1]
      exact ⟨((g2 e he).2 e1).1, hr, e2⟩

end Stop

section Claims6
variable {V : Type}

theorem sample_root_eq : (run sample_ops).m_root = some sample_root := rfl

theorem sample_find_ax :
    node_at (find_node ['a', 'x'] sample_root 0) sample_root = some sample_ab_node := rfl

theorem sample_call_ax :
    insert_call (run sample_ops) (['a', 'x'], 5) = InsertCall.calls_prepend := by decide

/-- C25: on every reachable tree and for every key, `find_node(key, root, 0)` returns a
node of the tree; the depths passed to its calls increase strictly from call to call and
none exceeds the length of the key, so that it makes at most `length(key) + 1` calls. -/
theorem C25_find_node_terminates [Inhabited V] (ops : List (Op V)) (root : radix_tree_node V)
    (hroot : (run ops).m_root = some root) (key : Key) :
    (∃ node, node_at (find_node key root 0) root = some node) ∧
    List.Chain' (fun a b => a < b) (find_node_depths key root 0) ∧
    (∀ d ∈ find_node_depths key root 0, d ≤ key.length) ∧
    (find_node_depths key root 0).head? = some 0 ∧
    (find_node_depths key root 0).length ≤ key.length + 1 := by
  have hw := run_wf ops
  obtain ⟨h1, h2, h3, -⟩ := tree_wf_root hw hroot
  obtain ⟨node0, hn, -⟩ := find_node_depth_le hw hroot key
  obtain ⟨c1, c2⟩ := find_node_depths_spec root [] key h1 h2
  have hk : [] ++ root.m_key ++ key = key := by rw [h3]; rfl
  have hd : ([] ++ root.m_key).length = 0 := by rw [h3]; rfl
  rw [hk, hd] at c1 c2
  refine ⟨⟨node0, hn⟩, c1, fun d hd => (c2 d hd).2, ?_, ?_⟩
  · rw [find_node_depths_eq]; rfl
  · rw [find_node_depths_eq] at c1 c2 ⊢
    have := chain_length_le key.length _ 0 c1
      (fun d hd => (c2 d (List.mem_cons_of_mem _ hd)).2) (Nat.zero_le _)
    simp only [List.length_cons]
    omega

theorem C25_find_node_terminates_witness :
    (run sample_ops).m_root = some sample_root ∧
    (∃ node, node_at (find_node ['a', 'b', 'c', 'd'] sample_root 0) sample_root = some node) ∧
    List.Chain' (fun a b => a < b) (find_node_depths ['a', 'b', 'c', 'd'] sample_root 0) ∧
    (∀ d ∈ find_node_depths ['a', 'b', 'c', 'd'] sample_root 0,
      d ≤ ['a', 'b', 'c', 'd'].length) ∧
    (find_node_depths ['a', 'b', 'c', 'd'] sample_root 0).head? = some 0 ∧
    (find_node_depths ['a', 'b', 'c', 'd'] sample_root 0).length
      ≤ ['a', 'b', 'c', 'd'].length + 1 :=
  ⟨sample_root_eq,
    C25_find_node_terminates sample_ops sample_root sample_root_eq ['a', 'b', 'c', 'd']⟩

/-- C26: on every reachable tree, when `insert(val)` calls `prepend(node, val)` the count
`c` of the loop of `prepend`, the length of the common prefix of the label of `node` and
of what is left of the key, satisfies `0 < c < length(label)`, so that the label left to
the split node is not empty; `insert` calls `prepend` exactly when `find_node` returns a
node other than the root and not a leaf whose label is matched in part only, it calls
`append` for every other node that is not a leaf, and it returns true exactly when it
calls one of the two. -/
theorem C26_prepend_call [Inhabited V] (ops : List (Op V)) (root : radix_tree_node V)
    (hroot : (run ops).m_root = some root) (val : Key × V) (node : radix_tree_node V)
    (hn : node_at (find_node val.1 root 0) root = some node) :
    (insert_call (run ops) val = InsertCall.calls_prepend →
      0 < prepend_call_count node val ∧ prepend_call_count node val < node.m_key.length ∧
      radix_substr node.m_key (prepend_call_count node val)
        (radix_length node.m_key - (prepend_call_count node val : Int)) ≠ [] ∧
      node.m_key.take (prepend_call_count node val)
        = (val.1.drop node.m_depth).take (prepend_call_count node val)) ∧
    (insert_call (run ops) val = InsertCall.calls_prepend ↔
      (find_node val.1 root 0 ≠ [] ∧ node.m_is_leaf = false ∧
        0 < prepend_call_count node val ∧ prepend_call_count node val < node.m_key.length)) ∧
    (insert_call (run ops) val = InsertCall.calls_append ↔
      (node.m_is_leaf = false ∧
        (find_node val.1 root 0 = [] ∨ prepend_call_count node val = node.m_key.length))) ∧
    ((insert (run ops) val).2.2 = true ↔ insert_call (run ops) val ≠ InsertCall.no_call) := by
  have hw := run_wf ops
  have hcall := insert_call_eq hroot val hn
  by_cases hl : node.m_is_leaf = true
  · -- the key is stored: no call
    have hc : insert_call (run ops) val = InsertCall.no_call := by rw [hcall, if_pos hl]
    have hi : (insert (run ops) val).2.2 = false := by rw [insert_eq_leaf hroot val hn hl]
    rw [hc, hi, hl]
    refine ⟨fun h => (nomatch h), ⟨fun h => (nomatch h), fun h => (nomatch h.2.1)⟩,
      ⟨fun h => (nomatch h), fun h => (nomatch h.1)⟩, ⟨fun h => (nomatch h), fun h => absurd rfl h⟩⟩
  · have hl : node.m_is_leaf = false := by simpa using hl
    obtain ⟨m1, m2, m3, m4⟩ := label_match_iff hw hroot val.1 hn hl
    have hcc := prepend_count_cases (val.1.take node.m_depth) (val.1.drop node.m_depth) node.m_key
    rw [List.take_append_drop, m2] at hcc
    obtain ⟨c1, c2, c3, c4⟩ := hcc
    have hc1 : node.m_key <+: val.1.drop node.m_depth →
        prepend_call_count node val = node.m_key.length := c1
    have hc2 : ¬ node.m_key <+: val.1.drop node.m_depth →
        prepend_call_count node val < node.m_key.length := c2
    have hc3 : node.m_key ≠ [] → val.1.drop node.m_depth ≠ [] →
        key_at (val.1.drop node.m_depth) 0 = key_at node.m_key 0 →
        0 < prepend_call_count node val := c3
    have hc4 : node.m_key.take (prepend_call_count node val)
        = (val.1.drop node.m_depth).take (prepend_call_count node val) := c4
    rw [hcall]
    simp only [hl, Bool.false_eq_true, if_false, true_and]
    by_cases hp : find_node val.1 root 0 = []
    · -- the root: append
      have hi : (insert (run ops) val).2.2 = true := by
        rw [insert_eq_append hroot val hn hl (Or.inl hp)]
      rw [if_pos hp, hi]
      exact ⟨fun h => (nomatch h), ⟨fun h => (nomatch h), fun h => absurd hp h.1⟩,
        ⟨fun _ => Or.inl hp, fun _ => rfl⟩, ⟨fun _ h => (nomatch h), fun _ => rfl⟩⟩
    · rw [if_neg hp]
      by_cases hs : radix_substr val.1 node.m_depth (radix_length node.m_key) = node.m_key
      · have hi : (insert (run ops) val).2.2 = true := by
          rw [insert_eq_append hroot val hn hl (Or.inr hs)]
        have hfull := hc1 (m3.1 hs)
        rw [if_pos hs, hi, hfull]
        exact ⟨fun h => (nomatch h),
          ⟨fun h => (nomatch h), fun h => absurd h.2.2 (Nat.lt_irrefl _)⟩,
          ⟨fun _ => Or.inr rfl, fun _ => rfl⟩, ⟨fun _ h => (nomatch h), fun _ => rfl⟩⟩
      · have hpar : ∃ par, node_at (find_node val.1 root 0).dropLast root = some par := by
          have h := hn
          rw [← List.dropLast_append_getLast hp] at h
          obtain ⟨par, hpar, -⟩ := child_at_path (tree_wf_root hw hroot).1 h
          exact ⟨par, hpar⟩
        obtain ⟨par, hpar⟩ := hpar
        have hi : (insert (run ops) val).2.2 = true := by
          rw [insert_eq_prepend hroot val hn hl hp hs hpar]
        obtain ⟨n1, n2, n3⟩ := m4 hp hs
        have hlt := hc2 (fun h => hs (m3.2 h))
        have hpos := hc3 n1 n2 n3
        rw [if_neg hs, hi]
        refine ⟨fun _ => ⟨hpos, hlt, ?_, hc4⟩, ⟨fun _ => ⟨hp, hpos, hlt⟩, fun _ => rfl⟩,
          ⟨fun h => (nomatch h), ?_⟩, ⟨fun _ h => (nomatch h), fun _ => rfl⟩⟩
        · rw [radix_substr_drop _ _ _ (by rw [radix_length])]
          intro h
          have hlen := congrArg List.length h
          rw [List.length_drop] at hlen
          simp only [List.length_nil] at hlen
          omega
        · rintro (h | h)
          · exact absurd h hp
          · omega

theorem C26_prepend_call_witness :
    (run sample_ops).m_root = some sample_root ∧
    node_at (find_node ['a', 'x'] sample_root 0) sample_root = some sample_ab_node ∧
    insert_call (run sample_ops) (['a', 'x'], 5) = InsertCall.calls_prepend ∧
    0 < prepend_call_count sample_ab_node (['a', 'x'], 5) ∧
    prepend_call_count sample_ab_node (['a', 'x'], 5) < sample_ab_node.m_key.length ∧
    radix_substr sample_ab_node.m_key (prepend_call_count sample_ab_node (['a', 'x'], 5))
      (radix_length sample_ab_node.m_key
        - (prepend_call_count sample_ab_node (['a', 'x'], 5) : Int)) ≠ [] ∧
    sample_ab_node.m_key.take (prepend_call_count sample_ab_node (['a', 'x'], 5))
      = (List.drop sample_ab_node.m_depth ['a', 'x']).take
          (prepend_call_count sample_ab_node (['a', 'x'], 5)) :=
  ⟨sample_root_eq, sample_find_ax,
    sample_call_ax,
    (C26_prepend_call sample_ops sample_root sample_root_eq (['a', 'x'], 5) sample_ab_node
      sample_find_ax).1 sample_call_ax⟩

/-- C29: on every reachable tree and for every key, the node that `find_node(key, root, 0)`
returns lies no deeper than the key is long, and so does its parent when the node is a
leaf, so that every `radix_substr(key, depth, ...)` at the depth of such a node starts
within the key; and the loop of `prepend` reads the label and the key only at indices
within them. -/
theorem C29_depth_in_range [Inhabited V] (ops : List (Op V)) (root : radix_tree_node V)
    (hroot : (run ops).m_root = some root) (key : Key) :
    ∃ node, node_at (find_node key root 0) root = some node ∧ node.m_depth ≤ key.length ∧
      (node.m_is_leaf = true →
        ∃ par, node_at (find_node key root 0).dropLast root = some par ∧
          par.m_depth ≤ key.length) ∧
      ∀ ij ∈ prepend_reads node.m_key key node.m_depth (radix_length node.m_key)
          (radix_length key - (node.m_depth : Int)) node.m_key.length 0,
        ij.1 < node.m_key.length ∧ ij.2 < key.length := by
  obtain ⟨node, h1, h2, h3⟩ := find_node_depth_le (run_wf ops) hroot key
  exact ⟨node, h1, h2, h3, prepend_reads_in_range _ _ _ _ _⟩

theorem C29_depth_in_range_witness :
    (run sample_ops).m_root = some sample_root ∧
    ∃ node, node_at (find_node ['a', 'x'] sample_root 0) sample_root = some node ∧
      node.m_depth ≤ ['a', 'x'].length ∧
      (node.m_is_leaf = true →
        ∃ par, node_at (find_node ['a', 'x'] sample_root 0).dropLast sample_root = some par ∧
          par.m_depth ≤ ['a', 'x'].length) ∧
      ∀ ij ∈ prepend_reads node.m_key ['a', 'x'] node.m_depth (radix_length node.m_key)
          (radix_length ['a', 'x'] - (node.m_depth : Int)) node.m_key.length 0,
        ij.1 < node.m_key.length ∧ ij.2 < ['a', 'x'].length :=
  ⟨sample_root_eq, C29_depth_in_range sample_ops sample_root sample_root_eq ['a', 'x']⟩

end Claims6

section Order
variable {V : Type}

theorem key_lt_append_left (pre : Key) {a b : Key} (h : a < b) : pre ++ a < pre ++ b := by
  induction pre with
  | nil => exact h
  | cons c pre ih => exact List.Lex.cons ih

theorem key_lt_append_ne_nil (pre : Key) {t : Key} (h : t ≠ []) : pre < pre ++ t := by
  induction pre with
  | nil =>
    obtain ⟨c, r, rfl⟩ := List.exists_cons_of_ne_nil h
    exact List.Lex.nil
  | cons c pre ih => exact List.Lex.cons ih

theorem key_ne_nil_of_lt {a b : Key} (h : a < b) : b ≠ [] := by
  intro hb
  subst hb
  cases h

/-- The keys below a child come before the keys below a child with a greater label. -/
theorem keys_of_children_lt {pre : Key} {e1 e2 : Key × radix_tree_node V}
    (h1 : WF pre e1.2) (h2 : WF pre e2.2) (k1 : child_ok e1) (k2 : child_ok e2)
    (hd : e1.2.m_is_leaf = false → e2.2.m_is_leaf = false → e1.1.head? = e2.1.head? →
      e1.1 = e2.1)
    (hlt : e1.1 < e2.1) {x y : radix_tree_node V} (hx : x ∈ leaves e1.2) (hy : y ∈ leaves e2.2)
    {kx ky : Key} (hkx : stored_key x = some kx) (hky : stored_key y = some ky) : kx < ky := by
  obtain ⟨r1, v1, f1⟩ := h1.leaves_form e1.2 pre x hx
  obtain ⟨r2, v2, f2⟩ := h2.leaves_form e2.2 pre y hy
  have ex : kx = pre ++ e1.2.m_key ++ r1 := by
    rw [f1] at hkx; exact (Option.some.inj hkx).symm
  have ey : ky = pre ++ e2.2.m_key ++ r2 := by
    rw [f2] at hky; exact (Option.some.inj hky).symm
  rw [k1.1] at ex
  rw [k2.1] at ey
  have hne2 : e2.1 ≠ [] := key_ne_nil_of_lt hlt
  have hl2 : e2.2.m_is_leaf = false := by
    by_contra h
    have h : e2.2.m_is_leaf = true := by simpa using h
    exact hne2 (by rw [← k2.1]; exact h2.leaf_key h)
  rw [ex, ey, List.append_assoc, List.append_assoc]
  apply key_lt_append_left
  by_cases hl1 : e1.2.m_is_leaf = true
  · have hk : e1.1 = [] := by rw [← k1.1]; exact h1.leaf_key hl1
    have hr : r1 = [] := by
      rw [leaves_of_leaf hl1, List.mem_singleton] at hx
      obtain ⟨v, hv⟩ := h1.leaf_form hl1
      have h3 : stored_key x = some pre := by rw [hx, hv]; rfl
      rw [hkx, ex, hk] at h3
      have h4 := Option.some.inj h3
      simpa using h4
    rw [hk, hr]
    obtain ⟨c, s, hcs⟩ := List.exists_cons_of_ne_nil hne2
    rw [hcs]
    exact List.Lex.nil
  · have hl1 : e1.2.m_is_leaf = false := by simpa using hl1
    have hne1 : e1.1 ≠ [] := (k1.2 hl1).1
    obtain ⟨c, s, hcs⟩ := List.exists_cons_of_ne_nil hne1
    obtain ⟨d, s2, hds⟩ := List.exists_cons_of_ne_nil hne2
    have hcd : c ≠ d := by
      intro h
      have := hd hl1 hl2 (by rw [hcs, hds, h]; rfl)
      rw [this] at hlt
      exact lt_irrefl _ hlt
    rw [hcs, hds] at hlt ⊢
    exact List.Lex.rel ((key_lt_cons_iff_of_ne hcd s s2).1 hlt)

theorem leaves_children_sorted {pre : Key} : ∀ (cs : List (Key × radix_tree_node V)),
    map_sorted cs → (∀ e ∈ cs, child_ok e) → heads_distinct cs → (∀ e ∈ cs, WF pre e.2) →
    (∀ e ∈ cs, (leaves e.2).Pairwise (fun x y => ∀ kx ky, stored_key x = some kx →
      stored_key y = some ky → kx < ky)) →
    (leaves_children cs).Pairwise (fun x y => ∀ kx ky, stored_key x = some kx →
      stored_key y = some ky → kx < ky) := by
  intro cs
  induction cs with
  | nil => intro _ _ _ _ _; exact List.Pairwise.nil
  | cons e cs ih =>
    intro hs hok hd hwf hih
    rw [leaves_children_cons, List.pairwise_append]
    rw [map_sorted_cons] at hs
    refine ⟨hih e (List.mem_cons_self _ _), ?_, ?_⟩
    · exact ih hs.2 (fun e1 h1 => hok e1 (List.mem_cons_of_mem _ h1))
        (fun a ha b hb => hd a (List.mem_cons_of_mem _ ha) b (List.mem_cons_of_mem _ hb))
        (fun e1 h1 => hwf e1 (List.mem_cons_of_mem _ h1))
        (fun e1 h1 => hih e1 (List.mem_cons_of_mem _ h1))
    · intro x hx y hy kx ky hkx hky
      rw [mem_leaves_children] at hy
      obtain ⟨e2, he2, hy2⟩ := hy
      exact keys_of_children_lt (hwf e (List.mem_cons_self _ _))
        (hwf e2 (List.mem_cons_of_mem _ he2)) (hok e (List.mem_cons_self _ _))
        (hok e2 (List.mem_cons_of_mem _ he2))
        (hd e (List.mem_cons_self _ _) e2 (List.mem_cons_of_mem _ he2))
        (hs.1 e2 he2) hx hy2 hkx hky

/-- The leaves below a node come in the strictly increasing order of their keys. -/
theorem leaves_sorted : ∀ (n : radix_tree_node V) (pre : Key), WF pre n →
    (leaves n).Pairwise (fun x y => ∀ kx ky, stored_key x = some kx →
      stored_key y = some ky → kx < ky) := by
  intro n
  induction n using node_induction with
  | h n ih =>
    intro pre hw
    by_cases hl : n.m_is_leaf = true
    · rw [leaves_of_leaf hl]
      exact List.pairwise_singleton _ _
    · have hl : n.m_is_leaf = false := by simpa using hl
      obtain ⟨g1, g2, g3, g4, -⟩ := hw.node_inv hl
      rw [leaves_of_internal hl]
      exact leaves_children_sorted n.m_children g1 g2 g3 g4
        (fun e he => ih e he _ (g4 e he))

/-- The keys of the leaves of a tree, in iteration order, increase strictly. -/
theorem tree_keys_sorted {t : radix_tree V} (hw : tree_wf t) :
    ((tree_leaves t).filterMap stored_key).Pairwise (fun a b => a < b) := by
  have h : (tree_leaves t).Pairwise (fun x y => ∀ kx ky, stored_key x = some kx →
      stored_key y = some ky → kx < ky) := by
    cases hroot : t.m_root with
    | none => unfold tree_leaves; rw [hroot]; exact List.Pairwise.nil
    | some root =>
      rw [tree_leaves_root hroot]
      exact leaves_sorted root [] (tree_wf_root hw hroot).1
  exact List.Pairwise.filterMap _ (fun a a' hr b hb b' hb' => hr b b' hb hb') h

/-- Two lists of keys that increase strictly and have the same members are equal. -/
theorem sorted_keys_unique : ∀ (l1 l2 : List Key), l1.Pairwise (fun a b => a < b) →
    l2.Pairwise (fun a b => a < b) → (∀ k, k ∈ l1 ↔ k ∈ l2) → l1 = l2 := by
  intro l1
  induction l1 with
  | nil =>
    intro l2 _ _ h
    cases l2 with
    | nil => rfl
    | cons b l2 => exact absurd ((h b).2 (List.mem_cons_self _ _)) (List.not_mem_nil _)
  | cons a l1 ih =>
    intro l2 h1 h2 h
    cases l2 with
    | nil => exact absurd ((h a).1 (List.mem_cons_self _ _)) (List.not_mem_nil _)
    | cons b l2 =>
      rw [List.pairwise_cons] at h1 h2
      have hab : a = b := by
        rcases List.mem_cons.1 ((h a).1 (List.mem_cons_self _ _)) with e | ha
        · exact e
        · rcases List.mem_cons.1 ((h b).2 (List.mem_cons_self _ _)) with e | hb
          · exact e.symm
          · exact absurd (lt_trans (h2.1 a ha) (h1.1 b hb)) (lt_irrefl _)
      subst hab
      congr 1
      apply ih l2 h1.2 h2.2
      intro k
      constructor
      · intro hk
        rcases List.mem_cons.1 ((h k).1 (List.mem_cons_of_mem _ hk)) with e | hk2
        · rw [e] at hk
          exact absurd (h1.1 a hk) (lt_irrefl _)
        · exact hk2
      · intro hk
        rcases List.mem_cons.1 ((h k).2 (List.mem_cons_of_mem _ hk)) with e | hk2
        · rw [e] at hk
          exact absurd (h2.1 a hk) (lt_irrefl _)
        · exact hk2

end Order

section Claims7
variable {V : Type}

/-- The output of `greedy_match` is a part of the traversal of the tree. -/
theorem greedy_match_sublist {t : radix_tree V} (hw : tree_wf t) (q : Key) :
    (greedy_match t q).Sublist ((tree_leaves t).map radix_tree_node.addr) := by
  cases hroot : t.m_root with
  | none =>
    have : greedy_match t q = [] := by unfold greedy_match; rw [hroot]
    rw [this]
    exact List.nil_sublist _
  | some root =>
    obtain ⟨node0, node, h0, h1, h3, -⟩ := greedy_match_spec hw hroot q
    obtain ⟨node0', h0', node', h1', -, p, hp⟩ := find_node_valid hw hroot q
    rw [h0] at h0'
    cases h0'
    rw [h1] at h1'
    cases h1'
    obtain ⟨L1, L2, e, -⟩ := leaves_replace p root [] node (tree_wf_root hw hroot).1 hp
    rw [h3, tree_leaves_root hroot, e]
    apply List.Sublist.map
    exact (List.sublist_append_right _ _).trans (List.sublist_append_left _ _)

/-- C27: on every reachable tree the traversal from `begin()` to `end()` visits the stored
keys in strictly increasing lexicographic order, so that `begin()` points to the smallest
stored key, and the sequence of keys visited is the same for every reachable tree with the
same stored keys, whatever calls built it; the outputs of `prefix_match` and
`greedy_match` are parts of the traversal, in its order. -/
theorem C27_iteration_order [Inhabited V] (ops : List (Op V)) :
    ∃ its, walk (run ops) (size (run ops)) (begin (run ops)) = some its ∧
      (visited_keys (run ops) its).Pairwise (fun a b => a < b) ∧
      (∀ k v, deref (run ops) (begin (run ops)) = some (k, v) →
        ∀ k1, find (run ops) k1 ≠ end_it → k = k1 ∨ k < k1) ∧
      (∀ q, (prefix_match (run ops) q).Sublist its ∧ (greedy_match (run ops) q).Sublist its) ∧
      (∀ ops2 : List (Op V),
        (∀ k, find (run ops2) k ≠ end_it ↔ find (run ops) k ≠ end_it) →
        ∃ its2, walk (run ops2) (size (run ops2)) (begin (run ops2)) = some its2 ∧
          visited_keys (run ops2) its2 = visited_keys (run ops) its) := by
  have hw := run_wf ops
  have hkeys := visited_keys_map hw (tree_leaves (run ops)) (fun x hx => hx)
  have hsorted := tree_keys_sorted hw
  refine ⟨_, walk_begin hw 0, ?_, ?_, ?_, ?_⟩
  · rw [hkeys]; exact hsorted
  · intro k v hd k1 hk1
    obtain ⟨y, hy, hys⟩ := (find_isSome_iff hw k1).1 hk1
    rw [begin_spec hw] at hd
    cases hL : tree_leaves (run ops) with
    | nil => rw [hL] at hy; cases hy
    | cons x L =>
      have hxm : x ∈ tree_leaves (run ops) := by rw [hL]; exact List.mem_cons_self _ _
      rw [hL] at hd hsorted hy
      simp only [List.head?_cons, Option.map_some'] at hd
      rw [deref_spec hw hxm] at hd
      have hxs : stored_key x = some k := stored_key_eq_of_value hd
      rw [List.filterMap_cons, hxs] at hsorted
      simp only [] at hsorted
      rw [List.pairwise_cons] at hsorted
      rcases List.mem_cons.1 hy with e | hyL
      · left
        rw [e, hxs] at hys
        exact Option.some.inj hys
      · right
        exact hsorted.1 k1 (mem_filterMap_stored_key.2 ⟨y, hyL, hys⟩)
  · intro q
    constructor
    · rw [prefix_match_spec hw q]
      exact List.Sublist.map _ (List.filter_sublist _)
    · exact greedy_match_sublist hw q
  · intro ops2 h
    have hw2 := run_wf ops2
    refine ⟨_, walk_begin hw2 0, ?_⟩
    rw [hkeys, visited_keys_map hw2 (tree_leaves (run ops2)) (fun x hx => hx)]
    apply sorted_keys_unique _ _ (tree_keys_sorted hw2) hsorted
    intro k
    rw [mem_filterMap_stored_key, mem_filterMap_stored_key, ← find_isSome_iff hw2 k,
      ← find_isSome_iff hw k]
    exact h k

end Claims7

section Undo
variable {V : Type}

theorem map_find_insert_same {β : Type} (cs : List (Key × β)) (k : Key) (v : β) :
    map_find (map_insert cs k v) k = some v := by
  induction cs with
  | nil => simp [map_insert, map_find]
  | cons e cs ih =>
    obtain ⟨k1, v1⟩ := e
    simp only [map_insert]
    by_cases h1 : k < k1
    · rw [if_pos h1]; simp [map_find]
    · rw [if_neg h1]
      by_cases h2 : k1 < k
      · rw [if_pos h2]
        simp only [map_find, if_neg (ne_of_lt h2)]
        exact ih
      · rw [if_neg h2]; simp [map_find]

theorem map_erase_insert_same {β : Type} (cs : List (Key × β)) (k : Key) (v : β)
    (h : ∀ x ∈ cs, x.1 ≠ k) : map_erase (map_insert cs k v) k = cs := by
  induction cs with
  | nil => simp [map_insert, map_erase]
  | cons e cs ih =>
    obtain ⟨k1, v1⟩ := e
    have hk1 : k1 ≠ k := h (k1, v1) (List.mem_cons_self _ _)
    simp only [map_insert]
    by_cases h1 : k < k1
    · rw [if_pos h1]; simp [map_erase]
    · rw [if_neg h1]
      by_cases h2 : k1 < k
      · rw [if_pos h2]
        simp only [map_erase, if_neg hk1]
        rw [ih (fun x hx => h x (List.mem_cons_of_mem _ hx))]
      · exact absurd (le_antisymm (not_lt.1 h1) (not_lt.1 h2)) hk1

theorem map_find_update {β : Type} (cs : List (Key × β)) (k : Key) (f : β → β) :
    map_find (map_update cs k f) k = (map_find cs k).map f := by
  induction cs with
  | nil => rfl
  | cons e cs ih =>
    obtain ⟨k1, v1⟩ := e
    simp only [map_update, map_find]
    by_cases h : k1 = k
    · simp [h, map_find]
    · simp [h, map_find, ih]

theorem map_update_update {β : Type} (cs : List (Key × β)) (k : Key) (f g : β → β) :
    map_update (map_update cs k f) k g = map_update cs k (fun c => g (f c)) := by
  induction cs with
  | nil => rfl
  | cons e cs ih =>
    obtain ⟨k1, v1⟩ := e
    simp only [map_update]
    by_cases h : k1 = k
    · simp [h, map_update]
    · simp [h, map_update, ih]

theorem map_update_id {β : Type} (cs : List (Key × β)) (k : Key) (f : β → β) {c : β}
    (h : map_find cs k = some c) (hf : f c = c) : map_update cs k f = cs := by
  induction cs with
  | nil => rfl
  | cons e cs ih =>
    obtain ⟨k1, v1⟩ := e
    simp only [map_update, map_find] at h ⊢
    by_cases hk : k1 = k
    · rw [if_pos hk] at h ⊢
      cases h
      rw [hf]
    · rw [if_neg hk] at h ⊢
      rw [ih h]

theorem node_at_replace_at (m1 : radix_tree_node V) (s : Path) : ∀ (q : Path)
    (n m : radix_tree_node V), node_at q n = some m →
    node_at (q ++ s) (replace_at q n m1) = node_at s m1 := by
  intro q
  induction q with
  | nil => intro n m _; rfl
  | cons lab q ih =>
    intro n m h
    rw [node_at_cons] at h
    show node_at (lab :: (q ++ s)) (replace_at (lab :: q) n m1) = _
    rw [replace_at_cons, node_at_cons, set_children_children, map_find_update]
    cases hf : map_find n.m_children lab with
    | none => rw [hf] at h; cases h
    | some c =>
      rw [hf] at h
      exact ih c m h

theorem node_at_replace_same {q : Path} {n m : radix_tree_node V} (h : node_at q n = some m)
    (m1 : radix_tree_node V) : node_at q (replace_at q n m1) = some m1 := by
  have := node_at_replace_at m1 [] q n m h
  rw [List.append_nil] at this
  exact this

theorem replace_at_twice (x y : radix_tree_node V) : ∀ (q : Path) (n : radix_tree_node V),
    replace_at q (replace_at q n x) y = replace_at q n y := by
  intro q
  induction q with
  | nil => intro n; rfl
  | cons lab q ih =>
    intro n
    rw [replace_at_cons, replace_at_cons, replace_at_cons, set_children_children,
      map_update_update]
    have : (fun c => replace_at q (replace_at q c x) y) = (fun c => replace_at q c y) :=
      funext (fun c => ih c)
    rw [this]
    obtain ⟨a, cs, v, d, l, k⟩ := n
    rfl

theorem replace_at_same : ∀ (q : Path) (n m : radix_tree_node V), node_at q n = some m →
    replace_at q n m = n := by
  intro q
  induction q with
  | nil => intro n m h; cases h; rfl
  | cons lab q ih =>
    intro n m h
    rw [node_at_cons] at h
    rw [replace_at_cons]
    cases hf : map_find n.m_children lab with
    | none => rw [hf] at h; cases h
    | some c =>
      rw [hf] at h
      rw [map_update_id n.m_children lab _ hf (ih c m h)]
      exact set_children_self n

/-- Putting back the old contents of a node undoes a replacement. -/
theorem replace_at_undo {q : Path} {n m : radix_tree_node V} (h : node_at q n = some m)
    (m1 : radix_tree_node V) : replace_at q (replace_at q n m1) m = n := by
  rw [replace_at_twice, replace_at_same q n m h]

theorem set_children_twice (n : radix_tree_node V) (cs1 cs2 : List (Key × radix_tree_node V)) :
    (n.set_children cs1).set_children cs2 = n.set_children cs2 := by
  obtain ⟨a, cs, v, d, l, k⟩ := n; rfl

theorem node_eta (n : radix_tree_node V) :
    radix_tree_node.mk n.addr n.m_children n.m_value n.m_depth n.m_is_leaf n.m_key = n := by
  obtain ⟨a, cs, v, d, l, k⟩ := n; rfl

/-- A label that begins like the label of a child that is not a leaf compares with the
labels of the other children as that label does. -/
theorem sibling_order {pre : Key} {m : radix_tree_node V} (hw : WF pre m)
    (hl : m.m_is_leaf = false) {l1 l2 : List (Key × radix_tree_node V)} {lab : Key}
    {c : radix_tree_node V} (hcs : m.m_children = l1 ++ (lab, c) :: l2)
    (hc : c.m_is_leaf = false) {b : Key} (hhead : b.head? = lab.head?) :
    (∀ x ∈ l1, x.1 < b) ∧ (∀ y ∈ l2, b < y.1) ∧ (∀ x ∈ l1, x.1 < lab) ∧ (∀ y ∈ l2, lab < y.1) := by
  obtain ⟨g1, g2, g3, g4, g5⟩ := hw.node_inv hl
  have hmem : (lab, c) ∈ m.m_children := by rw [hcs]; simp
  have hlab : lab ≠ [] := ((g2 _ hmem).2 hc).1
  have hs := g1
  rw [hcs, map_sorted_append, map_sorted_cons] at hs
  have hother : ∀ x ∈ l1 ++ l2, x.1.head? ≠ lab.head? := by
    intro x hx
    have hxm : x ∈ m.m_children := by
      rw [hcs]
      rcases List.mem_append.1 hx with h | h
      · exact List.mem_append_left _ h
      · exact List.mem_append_right _ (List.mem_cons_of_mem _ h)
    refine hw.other_head_ne hl hmem hc hxm ?_
    rcases List.mem_append.1 hx with h | h
    · exact ne_of_lt (hs.2.2 x h _ (List.mem_cons_self _ _))
    · exact (ne_of_lt (hs.2.1.1 x h)).symm
  refine ⟨?_, ?_, fun x hx => hs.2.2 x hx _ (List.mem_cons_self _ _), fun y hy => hs.2.1.1 y hy⟩
  · intro x hx
    have h1 := hs.2.2 x hx _ (List.mem_cons_self _ _)
    exact (key_lt_same_head hlab hhead.symm (hother x (List.mem_append_left _ hx))).1.1 h1
  · intro y hy
    have h1 := hs.2.1.1 y hy
    exact (key_lt_same_head hlab hhead.symm (hother y (List.mem_append_right _ hy))).2.1 h1

end Undo

section UndoLocal
variable {V : Type}

/-- The position at which `find_node` stops for a key that `find` finds at a given
leaf. -/
theorem find_node_eq_of_leaf {t : radix_tree V} (hw : tree_wf t) {root : radix_tree_node V}
    (hroot : t.m_root = some root) {p : Path} {x : radix_tree_node V}
    (hx : node_at p root = some x) {K : Key} (hf : find t K = some x.addr) :
    find_node K root 0 = p := by
  obtain ⟨h1, h2, h3, h4, h5, h6⟩ := tree_wf_root hw hroot
  unfold find at hf
  rw [hroot] at hf
  simp only [] at hf
  cases hn : node_at (find_node K root 0) root with
  | none => rw [hn] at hf; cases hf
  | some y =>
    rw [hn] at hf
    simp only [] at hf
    by_cases hl : y.m_is_leaf = true
    · simp only [hl, Bool.not_true, Bool.false_eq_true, if_false, Option.some.injEq] at hf
      have e1 := path_of_node_at _ root [] y h1 h5 hn
      have e2 := path_of_node_at p root [] x h1 h5 hx
      rw [hf, e2] at e1
      exact (Option.some.inj e1).symm
    · have hl : y.m_is_leaf = false := by simpa using hl
      simp [hl] at hf

theorem append_shape_leaf (a : Nat) (m : radix_tree_node V) (val : Key × V)
    (h : radix_length val.1 - ((m.m_depth + m.m_key.length : Nat) : Int) = 0) :
    ∃ leaf, (append a m val).1 = m.set_children (map_insert m.m_children [] leaf) ∧
      leaf.m_is_leaf = true ∧ some leaf.addr = some (append a m val).2.1 := by
  refine ⟨.mk a [] (some val) (m.m_depth + m.m_key.length) true [], ?_, rfl, ?_⟩
  · unfold append
    simp only [h, if_true, radix_substr_nul]
  · unfold append
    simp only [h, if_true, mk_addr]

theorem append_shape_chain (a : Nat) (m : radix_tree_node V) (val : Key × V)
    (h : ¬ radix_length val.1 - ((m.m_depth + m.m_key.length : Nat) : Int) = 0) :
    ∃ d, (append a m val).1
        = m.set_children (map_insert m.m_children
            (radix_substr val.1 (m.m_depth + m.m_key.length)
              (radix_length val.1 - ((m.m_depth + m.m_key.length : Nat) : Int)))
            (.mk a [([], .mk (a + 1) [] (some val) d true [])] (some val)
              (m.m_depth + m.m_key.length) false
              (radix_substr val.1 (m.m_depth + m.m_key.length)
                (radix_length val.1 - ((m.m_depth + m.m_key.length : Nat) : Int))))) ∧
      (append a m val).2.1 = a + 1 := by
  refine ⟨(((m.m_depth + m.m_key.length : Nat) : Int) +
    (radix_length val.1 - ((m.m_depth + m.m_key.length : Nat) : Int))).toNat, ?_, ?_⟩
  · unfold append
    simp only [h, if_false, radix_substr_nul, map_insert_nil]
  · unfold append
    simp only [h, if_false]

theorem prepend_shape_leaf (a : Nat) (m n : radix_tree_node V) (val : Key × V)
    (h : (prepend_call_count n val : Int) = radix_length val.1 - (n.m_depth : Int)) :
    ∃ nb, (prepend a m n val).1
        = m.set_children (map_insert (map_erase m.m_children n.m_key)
            (radix_substr n.m_key 0 (prepend_call_count n val))
            (.mk a (map_insert
                [(radix_substr n.m_key (prepend_call_count n val)
                    (radix_length n.m_key - (prepend_call_count n val : Int)),
                  .mk n.addr n.m_children n.m_value (n.m_depth + prepend_call_count n val)
                    n.m_is_leaf
                    (radix_substr n.m_key (prepend_call_count n val)
                      (radix_length n.m_key - (prepend_call_count n val : Int))))]
                [] nb) none n.m_depth false
              (radix_substr n.m_key 0 (prepend_call_count n val)))) ∧
      nb.m_is_leaf = true ∧ some nb.addr = some (prepend a m n val).2.1 := by
  unfold prepend_call_count at h
  refine ⟨.mk (a + 1) [] (some val) (n.m_depth + prepend_call_count n val) true [], ?_, rfl, ?_⟩
  · unfold prepend prepend_call_count
    simp only [h, if_true, radix_substr_nul, mk_key, map_insert_nil]
  · unfold prepend
    simp only [h, if_true, mk_addr]

theorem prepend_shape_chain (a : Nat) (m n : radix_tree_node V) (val : Key × V)
    (h : ¬ (prepend_call_count n val : Int) = radix_length val.1 - (n.m_depth : Int)) :
    ∃ kb nb leaf, (prepend a m n val).1
        = m.set_children (map_insert (map_erase m.m_children n.m_key)
            (radix_substr n.m_key 0 (prepend_call_count n val))
            (.mk a (map_insert
                [(radix_substr n.m_key (prepend_call_count n val)
                    (radix_length n.m_key - (prepend_call_count n val : Int)),
                  .mk n.addr n.m_children n.m_value (n.m_depth + prepend_call_count n val)
                    n.m_is_leaf
                    (radix_substr n.m_key (prepend_call_count n val)
                      (radix_length n.m_key - (prepend_call_count n val : Int))))]
                kb nb) none n.m_depth false
              (radix_substr n.m_key 0 (prepend_call_count n val)))) ∧
      kb = radix_substr val.1 (n.m_depth + prepend_call_count n val)
        (radix_length val.1 - (n.m_depth : Int) - (prepend_call_count n val : Int)) ∧
      nb.m_key = kb ∧ nb.m_children = [([], leaf)] ∧
      leaf.m_is_leaf = true ∧ some leaf.addr = some (prepend a m n val).2.1 := by
  unfold prepend_call_count at h
  refine ⟨_, .mk (a + 1) [([], .mk (a + 2) [] (some val) val.1.length true [])] none
    (n.m_depth + prepend_call_count n val) false _, .mk (a + 2) [] (some val) val.1.length true [],
    ?_, rfl, rfl, rfl, rfl, ?_⟩
  · unfold prepend prepend_call_count
    simp only [h, if_false, radix_substr_nul, mk_key, mk_depth, map_insert_nil]
    rfl
  · unfold prepend
    simp only [h, if_false, mk_addr]

end UndoLocal

section UndoErase
variable {V : Type}

theorem map_sorted_relabel {β : Type} {l1 l2 : List (Key × β)} {k k1 : Key} {v v1 : β}
    (hs : map_sorted (l1 ++ (k, v) :: l2))
    (h1 : ∀ x ∈ l1, x.1 < k1) (h2 : ∀ y ∈ l2, k1 < y.1) :
    map_sorted (l1 ++ (k1, v1) :: l2) := by
  unfold map_sorted at hs ⊢
  rw [List.pairwise_append] at hs ⊢
  obtain ⟨a1, a2, a3⟩ := hs
  rw [List.pairwise_cons] at a2 ⊢
  refine ⟨a1, ⟨fun y hy => h2 y hy, a2.2⟩, ?_⟩
  intro x hx y hy
  rcases List.mem_cons.1 hy with rfl | hy
  · exact h1 x hx
  · exact a3 x hx y (List.mem_cons_of_mem _ hy)

/-- Erasing a key whose leaf was added to the child map of the node at `q`. -/
theorem erase_added_leaf {t1 : radix_tree V} {root m leaf : radix_tree_node V} {q : Path}
    {K : Key} (hq : node_at q root = some m)
    (hroot : t1.m_root = some (replace_at q root
      (m.set_children (map_insert m.m_children [] leaf))))
    (hleaf : leaf.m_is_leaf = true) (hne : ∀ x ∈ m.m_children, x.1 ≠ [])
    (hw1 : tree_wf t1) (hf : find t1 K = some leaf.addr)
    (hmany : q ≠ [] → m.m_children.length > 1) :
    erase t1 K = ((⟨t1.m_size - 1, some root, t1.next_addr⟩ : radix_tree V), true) := by
  have hpar : node_at q (replace_at q root (m.set_children (map_insert m.m_children [] leaf)))
      = some (m.set_children (map_insert m.m_children [] leaf)) := node_at_replace_same hq _
  have hnode : node_at (q ++ [[]])
      (replace_at q root (m.set_children (map_insert m.m_children [] leaf))) = some leaf := by
    rw [node_at_replace_at _ _ q root m hq, node_at_cons, set_children_children,
      map_find_insert_same]
    rfl
  have hp := find_node_eq_of_leaf hw1 hroot hnode hf
  have hback : (m.set_children (map_insert m.m_children [] leaf)).set_children
      (map_erase (m.set_children (map_insert m.m_children [] leaf)).m_children []) = m := by
    rw [set_children_children, map_erase_insert_same _ _ _ hne, set_children_twice,
      set_children_self]
  by_cases hq0 : q = []
  · subst hq0
    cases hq
    have h := @erase_eq_root V _ _ hroot K leaf
      (root.set_children (map_insert root.m_children [] leaf))
      (by rw [hp]; exact hnode) hleaf (by rw [hp]; simp) (by rw [hp]; exact hpar)
      (by rw [hp]; rfl)
    rw [h, hback]
  · have h := @erase_eq_many V _ _ hroot K leaf
      (m.set_children (map_insert m.m_children [] leaf))
      (by rw [hp]; exact hnode) hleaf (by rw [hp]; simp)
      (by rw [hp, List.dropLast_concat]; exact hpar)
      (by rw [hp, List.dropLast_concat]; exact hq0)
      (by rw [set_children_children, map_erase_insert_same _ _ _ hne]; exact hmany hq0)
    rw [h, hback, hp, List.dropLast_concat, replace_at_undo hq]

/-- Erasing a key whose leaf hangs below a node that was added to the child map of the
node at `q`. -/
theorem erase_added_chain {t1 : radix_tree V} {root m nc leaf : radix_tree_node V} {q : Path}
    {K ks : Key} (hq : node_at q root = some m)
    (hroot : t1.m_root = some (replace_at q root
      (m.set_children (map_insert m.m_children ks nc))))
    (hleaf : leaf.m_is_leaf = true) (hne : ∀ x ∈ m.m_children, x.1 ≠ ks)
    (hk : nc.m_key = ks) (hcs : nc.m_children = [([], leaf)])
    (hw1 : tree_wf t1) (hf : find t1 K = some leaf.addr)
    (hsingle : q ≠ [] → ∀ l u, m.m_children = [(l, u)] → u.m_is_leaf = true) :
    erase t1 K = ((⟨t1.m_size - 1, some root, t1.next_addr⟩ : radix_tree V), true) := by
  have hpath : q ++ [ks, []] = (q ++ [ks]) ++ [[]] := by simp
  have hgp : node_at q (replace_at q root (m.set_children (map_insert m.m_children ks nc)))
      = some (m.set_children (map_insert m.m_children ks nc)) := node_at_replace_same hq _
  have hpar : node_at (q ++ [ks])
      (replace_at q root (m.set_children (map_insert m.m_children ks nc))) = some nc := by
    rw [node_at_replace_at _ _ q root m hq, node_at_cons, set_children_children,
      map_find_insert_same]
    rfl
  have hnode : node_at (q ++ [ks, []])
      (replace_at q root (m.set_children (map_insert m.m_children ks nc))) = some leaf := by
    rw [hpath, node_at_append, hpar]
    show node_at [[]] nc = some leaf
    rw [node_at_cons, hcs]
    rfl
  have hp := find_node_eq_of_leaf hw1 hroot hnode hf
  have hback : (m.set_children (map_insert m.m_children ks nc)).set_children
      (map_erase (m.set_children (map_insert m.m_children ks nc)).m_children nc.m_key) = m := by
    rw [set_children_children, hk, map_erase_insert_same _ _ _ hne, set_children_twice,
      set_children_self]
  have h := @erase_eq_empty V _ _ hroot K leaf nc
    (m.set_children (map_insert m.m_children ks nc))
    (by rw [hp]; exact hnode) hleaf (by rw [hp]; simp)
    (by rw [hp, hpath, List.dropLast_concat]; exact hpar)
    (by rw [hp, hpath, List.dropLast_concat]; simp)
    (by rw [hcs]; simp [map_erase])
    (by rw [hp, hpath, List.dropLast_concat, List.dropLast_concat]; exact hgp)
  rw [h, hback, hp, hpath, List.dropLast_concat, List.dropLast_concat]
  by_cases hq0 : q = []
  · subst hq0
    cases hq
    rw [erase_merge_nil]
  · rw [erase_merge_other (hsingle hq0), replace_at_undo hq]

end UndoErase

section UndoSplit
variable {V : Type}

/-- The merge of `erase` undoes the split of `prepend`: the node that took the place of
`n` below the node at `q`, left with the re-attached `n` as its only child, is merged
with it, and the tree is the one before the split. -/
theorem merge_undoes_split {pre : Key} {root m n node_a : radix_tree_node V} {q : Path}
    (hw : WF pre m) (hl : m.m_is_leaf = false) (hq : node_at q root = some m)
    {l1 l2 : List (Key × radix_tree_node V)} {lab ka k1 : Key}
    (hcs : m.m_children = l1 ++ (lab, n) :: l2) (hn : n.m_is_leaf = false)
    (hnk : n.m_key = lab) (hsplit : ka ++ k1 = lab) (hhead : ka.head? = lab.head?)
    (a d1 : Nat) :
    erase_merge (replace_at q root
        (m.set_children (map_insert (map_erase m.m_children lab) ka node_a))) (q ++ [ka])
      (.mk a [(k1, .mk n.addr n.m_children n.m_value d1 n.m_is_leaf k1)] none n.m_depth false ka)
      = root := by
  obtain ⟨o1, o2, o3, o4⟩ := sibling_order hw hl hcs hn hhead
  obtain ⟨g1, -⟩ := hw.node_inv hl
  rw [hcs] at g1
  have hm1 : map_insert (map_erase m.m_children lab) ka node_a = l1 ++ (ka, node_a) :: l2 := by
    rw [hcs]; exact map_insert_erase_same_pos g1 o1 o2
  have hs1 : map_sorted (l1 ++ (ka, node_a) :: l2) := map_sorted_relabel g1 o1 o2
  have hn1 : radix_tree_node.mk n.addr n.m_children n.m_value n.m_depth n.m_is_leaf lab = n := by
    rw [← hnk]; exact node_eta n
  rw [@erase_merge_single V _ _
    (m.set_children (map_insert (map_erase m.m_children lab) ka node_a)) _ (q ++ [ka]) _
    (by simp) (mk_children _ _ _ _ _ _) (by rw [mk_is_leaf]; exact hn)
    (by rw [List.dropLast_concat]; exact node_at_replace_same hq _)]
  simp only [mk_key, mk_addr, mk_children, mk_value, mk_is_leaf, mk_depth, radix_join, hsplit,
    List.dropLast_concat, set_children_children, set_children_twice]
  rw [hm1, map_insert_erase_same_pos hs1 o3 o4, hn1, ← hcs, set_children_self,
    replace_at_undo hq]

end UndoSplit

section UndoSplitErase
variable {V : Type}

/-- Erasing a key whose leaf was attached to the node made by a split. -/
theorem erase_split_leaf {t1 : radix_tree V} {pre : Key} {root m n nb : radix_tree_node V}
    {q : Path} {K : Key}
    (hw : WF pre m) (hl : m.m_is_leaf = false) (hq : node_at q root = some m)
    {l1 l2 : List (Key × radix_tree_node V)} {lab ka k1 : Key}
    (hcs : m.m_children = l1 ++ (lab, n) :: l2) (hn : n.m_is_leaf = false)
    (hnk : n.m_key = lab) (hsplit : ka ++ k1 = lab) (hhead : ka.head? = lab.head?)
    (hk1 : k1 ≠ []) (a d1 : Nat) (hleaf : nb.m_is_leaf = true)
    (hroot : t1.m_root = some (replace_at q root
      (m.set_children (map_insert (map_erase m.m_children lab) ka
        (.mk a (map_insert [(k1, .mk n.addr n.m_children n.m_value d1 n.m_is_leaf k1)] [] nb)
          none n.m_depth false ka)))))
    (hw1 : tree_wf t1) (hf : find t1 K = some nb.addr) :
    erase t1 K = ((⟨t1.m_size - 1, some root, t1.next_addr⟩ : radix_tree V), true) := by
  have hpath : q ++ [ka, []] = (q ++ [ka]) ++ [[]] := by simp
  have hpar : node_at (q ++ [ka]) (replace_at q root
      (m.set_children (map_insert (map_erase m.m_children lab) ka
        (.mk a (map_insert [(k1, .mk n.addr n.m_children n.m_value d1 n.m_is_leaf k1)] [] nb)
          none n.m_depth false ka))))
      = some (.mk a (map_insert [(k1, .mk n.addr n.m_children n.m_value d1 n.m_is_leaf k1)] [] nb)
          none n.m_depth false ka) := by
    rw [node_at_replace_at _ _ q root m hq, node_at_cons, set_children_children,
      map_find_insert_same]
    rfl
  have hnode : node_at (q ++ [ka, []]) (replace_at q root
      (m.set_children (map_insert (map_erase m.m_children lab) ka
        (.mk a (map_insert [(k1, .mk n.addr n.m_children n.m_value d1 n.m_is_leaf k1)] [] nb)
          none n.m_depth false ka)))) = some nb := by
    rw [hpath, node_at_append, hpar]
    show node_at [[]] _ = some nb
    rw [node_at_cons, mk_children, map_find_insert_same]
    rfl
  have hp := find_node_eq_of_leaf hw1 hroot hnode hf
  have hback : map_erase
      (map_insert [(k1, radix_tree_node.mk n.addr n.m_children n.m_value d1 n.m_is_leaf k1)] [] nb)
      [] = [(k1, .mk n.addr n.m_children n.m_value d1 n.m_is_leaf k1)] := by
    apply map_erase_insert_same
    intro x hx
    rw [List.mem_singleton] at hx
    rw [hx]
    exact hk1
  have h := @erase_eq_one V _ _ hroot K nb
    (.mk a
      (map_insert [(k1, .mk n.addr n.m_children n.m_value d1 n.m_is_leaf k1)] [] nb)
      none n.m_depth false ka)
    (by rw [hp]; exact hnode) hleaf (by rw [hp]; simp)
    (by rw [hp, hpath, List.dropLast_concat]; exact hpar)
    (by rw [hp, hpath, List.dropLast_concat]; simp)
    (by rw [mk_children, hback]; simp)
    (by rw [mk_children, hback]; simp)
  rw [h, hp, hpath, List.dropLast_concat, mk_children, hback, mk_set_children]
  rw [merge_undoes_split hw hl hq hcs hn hnk hsplit hhead a d1]

/-- Erasing a key whose leaf hangs below a node attached to the node made by a split. -/
theorem erase_split_chain {t1 : radix_tree V} {pre : Key} {root m n nb leaf : radix_tree_node V}
    {q : Path} {K : Key}
    (hw : WF pre m) (hl : m.m_is_leaf = false) (hq : node_at q root = some m)
    {l1 l2 : List (Key × radix_tree_node V)} {lab ka k1 kb : Key}
    (hcs : m.m_children = l1 ++ (lab, n) :: l2) (hn : n.m_is_leaf = false)
    (hnk : n.m_key = lab) (hsplit : ka ++ k1 = lab) (hhead : ka.head? = lab.head?)
    (hkb : kb ≠ k1) (a d1 : Nat) (hbk : nb.m_key = kb) (hbc : nb.m_children = [([], leaf)])
    (hleaf : leaf.m_is_leaf = true)
    (hroot : t1.m_root = some (replace_at q root
      (m.set_children (map_insert (map_erase m.m_children lab) ka
        (.mk a (map_insert [(k1, .mk n.addr n.m_children n.m_value d1 n.m_is_leaf k1)] kb nb)
          none n.m_depth false ka)))))
    (hw1 : tree_wf t1) (hf : find t1 K = some leaf.addr) :
    erase t1 K = ((⟨t1.m_size - 1, some root, t1.next_addr⟩ : radix_tree V), true) := by
  have hpath : q ++ [ka, kb, []] = ((q ++ [ka]) ++ [kb]) ++ [[]] := by simp
  have hgp : node_at (q ++ [ka]) (replace_at q root
      (m.set_children (map_insert (map_erase m.m_children lab) ka
        (.mk a (map_insert [(k1, .mk n.addr n.m_children n.m_value d1 n.m_is_leaf k1)] kb nb)
          none n.m_depth false ka))))
      = some (.mk a (map_insert [(k1, .mk n.addr n.m_children n.m_value d1 n.m_is_leaf k1)] kb nb)
          none n.m_depth false ka) := by
    rw [node_at_replace_at _ _ q root m hq, node_at_cons, set_children_children,
      map_find_insert_same]
    rfl
  have hpar : node_at ((q ++ [ka]) ++ [kb]) (replace_at q root
      (m.set_children (map_insert (map_erase m.m_children lab) ka
        (.mk a (map_insert [(k1, .mk n.addr n.m_children n.m_value d1 n.m_is_leaf k1)] kb nb)
          none n.m_depth false ka)))) = some nb := by
    rw [node_at_append, hgp]
    show node_at [kb] _ = some nb
    rw [node_at_cons, mk_children, map_find_insert_same]
    rfl
  have hnode : node_at (q ++ [ka, kb, []]) (replace_at q root
      (m.set_children (map_insert (map_erase m.m_children lab) ka
        (.mk a (map_insert [(k1, .mk n.addr n.m_children n.m_value d1 n.m_is_leaf k1)] kb nb)
          none n.m_depth false ka)))) = some leaf := by
    rw [hpath, node_at_append, hpar]
    show node_at [[]] nb = some leaf
    rw [node_at_cons, hbc]
    rfl
  have hp := find_node_eq_of_leaf hw1 hroot hnode hf
  have hback : map_erase
      (map_insert [(k1, radix_tree_node.mk n.addr n.m_children n.m_value d1 n.m_is_leaf k1)] kb nb)
      kb = [(k1, .mk n.addr n.m_children n.m_value d1 n.m_is_leaf k1)] := by
    apply map_erase_insert_same
    intro x hx
    rw [List.mem_singleton] at hx
    rw [hx]
    exact fun h => hkb h.symm
  have h := @erase_eq_empty V _ _ hroot K leaf nb
    (.mk a
      (map_insert [(k1, .mk n.addr n.m_children n.m_value d1 n.m_is_leaf k1)] kb nb)
      none n.m_depth false ka)
    (by rw [hp]; exact hnode) hleaf (by rw [hp]; simp)
    (by rw [hp, hpath, List.dropLast_concat]; exact hpar)
    (by rw [hp, hpath, List.dropLast_concat]; simp)
    (by rw [hbc]; simp [map_erase])
    (by rw [hp, hpath, List.dropLast_concat, List.dropLast_concat]; exact hgp)
  rw [h, hp, hpath, List.dropLast_concat, List.dropLast_concat, mk_children, hbk, hback,
    mk_set_children]
  rw [merge_undoes_split hw hl hq hcs hn hnk hsplit hhead a d1]

end UndoSplitErase

section InsertErase
variable {V : Type}

/-- A node that is not the root and not a leaf has a child, and an only child of it is
a leaf. -/
theorem inner_node_children {root : radix_tree_node V} (hw : WF [] root) {q : Path}
    {m : radix_tree_node V} (hq : node_at q root = some m) (hl : m.m_is_leaf = false)
    (hne : q ≠ []) :
    m.m_children ≠ [] ∧ ∀ c, m.m_children = [c] → c.2.m_is_leaf = true := by
  rw [← List.dropLast_append_getLast hne] at hq
  obtain ⟨par, -, -, -, -, -, -, h7, -⟩ := child_at_path hw hq
  exact (h7 hl).2

/-- A node that is not the root and has only children that are not leaves has at least
two children. -/
theorem inner_node_two_children {root : radix_tree_node V} (hw : WF [] root) {q : Path}
    {m : radix_tree_node V} (hq : node_at q root = some m) (hl : m.m_is_leaf = false)
    (hne : q ≠ []) (hall : ∀ e ∈ m.m_children, e.2.m_is_leaf = false) :
    m.m_children.length > 1 := by
  obtain ⟨h1, h2⟩ := inner_node_children hw hq hl hne
  cases hcs : m.m_children with
  | nil => exact absurd hcs h1
  | cons c cs =>
    cases cs with
    | nil =>
      have := h2 c hcs
      rw [hall c (by rw [hcs]; exact List.mem_singleton_self _)] at this
      cases this
    | cons c1 cs => simp

/-- The rest of a key past the label of the node at which the search stops. -/
theorem append_rest (pre lab rest : Key) :
    radix_substr (pre ++ lab ++ rest) (pre.length + lab.length)
      (radix_length (pre ++ lab ++ rest) - ((pre.length + lab.length : Nat) : Int)) = rest := by
  rw [radix_substr_drop _ _ _ (by simp [radix_length])]
  rw [← List.length_append, List.drop_left]

end InsertErase

section InsertEraseMain
variable {V : Type}

/-- The state after `insert((K, v))` and `erase(K)` from the facts of the insertion. -/
theorem erase_after_insert_finish {t : radix_tree V} {root : radix_tree_node V} {K : Key} {v : V}
    (hsize : (insert t (K, v)).1.m_size = t.m_size + 1)
    (h : erase (insert t (K, v)).1 K = ((⟨(insert t (K, v)).1.m_size - 1, some root,
      (insert t (K, v)).1.next_addr⟩ : radix_tree V), true)) :
    erase (insert t (K, v)).1 K
      = ((⟨t.m_size, some root, (insert t (K, v)).1.next_addr⟩ : radix_tree V), true) := by
  rw [h, hsize, Nat.add_sub_cancel]

/-- Inserting an absent key with `append` and erasing it gives back the root. -/
theorem insert_erase_append {t : radix_tree V} (hw : tree_wf t) {root : radix_tree_node V}
    (hroot : t.m_root = some root) (K : Key) (v : V) (hK : find t K = none)
    {q : Path} {m : radix_tree_node V} {pre_m rest_m : Key}
    (k1 : node_at q root = some m) (k2 : WF pre_m m) (k3 : m.m_is_leaf = false)
    (k4 : K = pre_m ++ m.m_key ++ rest_m) (k6 : find_node K root 0 = q)
    (hcase : (rest_m = [] ∧ ∀ e ∈ m.m_children, e.2.m_is_leaf = false) ∨
      (rest_m ≠ [] ∧
        ∀ e ∈ m.m_children, e.2.m_is_leaf = false → key_at rest_m 0 ≠ key_at e.1 0)) :
    erase (insert t (K, v)).1 K
      = ((⟨t.m_size, some root, (insert t (K, v)).1.next_addr⟩ : radix_tree V), true) := by
  obtain ⟨h1, h2, h3, h4, h5, h6⟩ := tree_wf_root hw hroot
  obtain ⟨g1, g2, g3, g4, g5⟩ := k2.node_inv k3
  obtain ⟨a1, i1, i2, i3, i4⟩ := insert_new hw v hK
  obtain ⟨a2, j1, j2, -, j4, -⟩ := insert_absent hw K v (find_none_absent hw hK)
  have hnode : node_at (find_node (K, v).1 root 0) root = some m := by
    show node_at (find_node K root 0) root = some m
    rw [k6]; exact k1
  have hcond : radix_substr (K, v).1 m.m_depth (radix_length m.m_key) = m.m_key := by
    show radix_substr K m.m_depth (radix_length m.m_key) = m.m_key
    rw [k4, g5]; exact radix_substr_label _ _ _
  have heq := insert_eq_append hroot (K, v) hnode k3 (Or.inr hcond)
  have hq : find_node (K, v).1 root 0 = q := k6
  rw [hq] at heq
  have ha1 : some a1 = some (append t.next_addr m (K, v)).2.1 := by
    have := congrArg (fun x => x.2.1) heq
    simp only [] at this
    rw [i1] at this
    exact this
  have hroot1 : (insert t (K, v)).1.m_root
      = some (replace_at q root (append t.next_addr m (K, v)).1) := by
    rw [heq]
  apply erase_after_insert_finish j4
  rcases hcase with ⟨hr, e1⟩ | ⟨hr, e1⟩
  · have hlen : radix_length (K, v).1 - ((m.m_depth + m.m_key.length : Nat) : Int) = 0 := by
      show radix_length K - ((m.m_depth + m.m_key.length : Nat) : Int) = 0
      rw [k4, hr, g5]; simp [radix_length]
    obtain ⟨leaf, s1, s2, s3⟩ := append_shape_leaf t.next_addr m (K, v) hlen
    rw [s1] at hroot1
    refine erase_added_leaf k1 hroot1 s2 ?_ j2 ?_ ?_
    · intro x hx h0
      exact ((g2 x hx).2 (e1 x hx)).1 h0
    · rw [i3, s3]; exact ha1
    · intro hq0
      exact inner_node_two_children h1 k1 k3 hq0 e1
  · have hlen : ¬ radix_length (K, v).1 - ((m.m_depth + m.m_key.length : Nat) : Int) = 0 := by
      show ¬ radix_length K - ((m.m_depth + m.m_key.length : Nat) : Int) = 0
      rw [k4, g5]
      intro h
      have := List.length_pos.2 hr
      simp only [radix_length, List.length_append] at h
      push_cast at h
      omega
    obtain ⟨d, s1, s2⟩ := append_shape_chain t.next_addr m (K, v) hlen
    have hks : radix_substr (K, v).1 (m.m_depth + m.m_key.length)
        (radix_length (K, v).1 - ((m.m_depth + m.m_key.length : Nat) : Int)) = rest_m := by
      show radix_substr K (m.m_depth + m.m_key.length)
        (radix_length K - ((m.m_depth + m.m_key.length : Nat) : Int)) = rest_m
      rw [k4, g5]; exact append_rest _ _ _
    rw [hks] at s1
    rw [s1] at hroot1
    refine @erase_added_chain V _ _ _ _ (.mk (t.next_addr + 1) [] (some (K, v)) d true []) _ _ _
      k1 hroot1 rfl ?_ rfl rfl j2 ?_ ?_
    · intro x hx h0
      by_cases hxl : x.2.m_is_leaf = true
      · have := (g4 x hx).leaf_key hxl
        rw [(g2 x hx).1, h0] at this
        exact hr this
      · have hxl : x.2.m_is_leaf = false := by simpa using hxl
        apply e1 x hx hxl
        rw [h0]
    · rw [i3, ha1, s2]
      rfl
    · intro hq0 l u hcs
      exact (inner_node_children h1 k1 k3 hq0).2 (l, u) hcs

end InsertEraseMain

section InsertErasePrepend
variable {V : Type}

/-- The number of symbols that `prepend` finds shared by the label of the node at which
the search stops and the rest of the key. -/
theorem prepend_call_count_facts (pre rest : Key) (v : V) {n : radix_tree_node V}
    (hd : n.m_depth = pre.length) (hlab : n.m_key ≠ []) (hr : rest ≠ [])
    (hh : key_at rest 0 = key_at n.m_key 0) (hp : ¬ n.m_key <+: rest) :
    0 < prepend_call_count n (pre ++ rest, v) ∧
    prepend_call_count n (pre ++ rest, v) < n.m_key.length ∧
    prepend_call_count n (pre ++ rest, v) ≤ rest.length ∧
    n.m_key.take (prepend_call_count n (pre ++ rest, v))
      = rest.take (prepend_call_count n (pre ++ rest, v)) ∧
    (prepend_call_count n (pre ++ rest, v) < rest.length →
      (rest.drop (prepend_call_count n (pre ++ rest, v))).head?
        ≠ (n.m_key.drop (prepend_call_count n (pre ++ rest, v))).head?) := by
  have hc : prepend_call_count n (pre ++ rest, v)
      = prepend_count n.m_key (pre ++ rest) pre.length (radix_length n.m_key)
          (radix_length (pre ++ rest) - (pre.length : Int)) n.m_key.length 0 := by
    unfold prepend_call_count
    rw [hd]
  obtain ⟨-, c1, c2, c3, c4⟩ := prepend_count_spec pre rest n.m_key n.m_key.length 0
    (by omega) (Nat.zero_le _) (Nat.zero_le _) (by simp)
  rw [← hc] at c1 c2 c3 c4
  generalize prepend_call_count n (pre ++ rest, v) = c at c1 c2 c3 c4
  have hrl : 0 < rest.length := List.length_pos.2 hr
  have hll : 0 < n.m_key.length := List.length_pos.2 hlab
  have hc0 : 0 < c := by
    rcases Nat.eq_zero_or_pos c with h0 | h0
    · subst h0
      exact absurd hh.symm (c4 hll hrl)
    · exact h0
  have hc1 : c < n.m_key.length := by
    rcases Nat.lt_or_ge c n.m_key.length with h | h
    · exact h
    · exfalso
      apply hp
      have : c = n.m_key.length := le_antisymm c1 h
      rw [this, List.take_length] at c3
      exact (take_eq_iff_starts rest n.m_key).1 c3.symm
  refine ⟨hc0, hc1, c2, c3, ?_⟩
  intro hc2 h
  rw [head_drop_eq_key_at hc1, head_drop_eq_key_at hc2] at h
  exact c4 hc1 hc2 (Option.some.inj h).symm

end InsertErasePrepend

section InsertErasePrependMain
variable {V : Type}

/-- Inserting an absent key with `prepend` and erasing it gives back the root. -/
theorem insert_erase_prepend {t : radix_tree V} (hw : tree_wf t) {root : radix_tree_node V}
    (hroot : t.m_root = some root) (K : Key) (v : V) (hK : find t K = none)
    {q : Path} {m n : radix_tree_node V} {pre_m rest_m lab : Key}
    (k1 : node_at q root = some m) (k2 : WF pre_m m) (k3 : m.m_is_leaf = false)
    (k4 : K = pre_m ++ m.m_key ++ rest_m) (k6 : find_node K root 0 = q ++ [lab])
    (he : (lab, n) ∈ m.m_children) (hn : n.m_is_leaf = false) (hr : rest_m ≠ [])
    (hh : key_at rest_m 0 = key_at lab 0) (hp : ¬ lab <+: rest_m) :
    erase (insert t (K, v)).1 K
      = ((⟨t.m_size, some root, (insert t (K, v)).1.next_addr⟩ : radix_tree V), true) := by
  obtain ⟨h1, h2, h3, h4, h5, h6⟩ := tree_wf_root hw hroot
  obtain ⟨g1, g2, g3, g4, g5⟩ := k2.node_inv k3
  obtain ⟨a1, i1, i2, i3, i4⟩ := insert_new hw v hK
  obtain ⟨a2, j1, j2, -, j4, -⟩ := insert_absent hw K v (find_none_absent hw hK)
  obtain ⟨l1, l2, hcs, -, -⟩ := map_split_of_mem g1 he
  have hnk : n.m_key = lab := (g2 _ he).1
  have hnd : n.m_depth = (pre_m ++ m.m_key).length := (g4 _ he).depth_eq
  have hlab : lab ≠ [] := ((g2 _ he).2 hn).1
  subst hnk
  have hq : find_node (K, v).1 root 0 = q ++ [n.m_key] := k6
  have hnode : node_at (find_node (K, v).1 root 0) root = some n := by
    rw [hq, node_at_append, k1]
    show node_at [n.m_key] m = some n
    rw [node_at_child g1 he]; rfl
  have hpne : find_node (K, v).1 root 0 ≠ [] := by
    rw [hq]; exact List.append_ne_nil_of_right_ne_nil _ (List.cons_ne_nil _ _)
  have hcond : ¬ radix_substr (K, v).1 n.m_depth (radix_length n.m_key) = n.m_key := by
    show ¬ radix_substr K n.m_depth (radix_length n.m_key) = n.m_key
    rw [k4, hnd, radix_substr_append]
    exact fun h => hp ((take_eq_iff_starts rest_m n.m_key).1 h)
  have hpar : node_at (find_node (K, v).1 root 0).dropLast root = some m := by
    rw [hq, List.dropLast_concat]; exact k1
  have heq := insert_eq_prepend hroot (K, v) hnode hn hpne hcond hpar
  rw [hq, List.dropLast_concat] at heq
  have ha1 : some a1 = some (prepend t.next_addr m n (K, v)).2.1 := by
    have := congrArg (fun x => x.2.1) heq
    simp only [] at this
    rw [i1] at this
    exact this
  have hroot1 : (insert t (K, v)).1.m_root
      = some (replace_at q root (prepend t.next_addr m n (K, v)).1) := by
    rw [heq]
  apply erase_after_insert_finish j4
  obtain ⟨c0, c1, c2, c3, c4⟩ := prepend_call_count_facts (pre_m ++ m.m_key) rest_m v hnd hlab
    hr hh hp
  rw [← k4] at c0 c1 c2 c3 c4
  have hka : radix_substr n.m_key 0 (prepend_call_count n (K, v))
      = n.m_key.take (prepend_call_count n (K, v)) := radix_substr_take _ _
  have hk1 : radix_substr n.m_key (prepend_call_count n (K, v))
      (radix_length n.m_key - (prepend_call_count n (K, v) : Int))
      = n.m_key.drop (prepend_call_count n (K, v)) :=
    radix_substr_drop _ _ _ (by simp [radix_length])
  have hsplit : radix_substr n.m_key 0 (prepend_call_count n (K, v)) ++
      radix_substr n.m_key (prepend_call_count n (K, v))
        (radix_length n.m_key - (prepend_call_count n (K, v) : Int)) = n.m_key := by
    rw [hka, hk1, List.take_append_drop]
  have hhead : (radix_substr n.m_key 0 (prepend_call_count n (K, v))).head? = n.m_key.head? := by
    rw [hka]; exact head_take_eq c0
  have hk1ne : radix_substr n.m_key (prepend_call_count n (K, v))
      (radix_length n.m_key - (prepend_call_count n (K, v) : Int)) ≠ [] := by
    rw [hk1]
    intro h
    have := congrArg List.length h
    rw [List.length_drop, List.length_nil] at this
    omega
  have hlen2 : radix_length (K, v).1 - (n.m_depth : Int) = (rest_m.length : Int) := by
    show radix_length K - (n.m_depth : Int) = (rest_m.length : Int)
    rw [k4, hnd]; simp [radix_length]
  by_cases hcr : (prepend_call_count n (K, v) : Int) = radix_length (K, v).1 - (n.m_depth : Int)
  · obtain ⟨nb, s1, s2, s3⟩ := prepend_shape_leaf t.next_addr m n (K, v) hcr
    rw [s1] at hroot1
    exact erase_split_leaf k2 k3 k1 hcs hn rfl hsplit hhead hk1ne _ _ s2 hroot1 j2
      (by rw [i3, s3]; exact ha1)
  · obtain ⟨kb, nb, leaf, s1, s2, s3, s4, s5, s6⟩ :=
      prepend_shape_chain t.next_addr m n (K, v) hcr
    rw [s1] at hroot1
    have hc2 : prepend_call_count n (K, v) < rest_m.length := by
      rw [hlen2] at hcr
      have : prepend_call_count n (K, v) ≠ rest_m.length := fun h => hcr (by rw [h])
      omega
    have hkb : kb = rest_m.drop (prepend_call_count n (K, v)) := by
      rw [s2]
      show radix_substr K _ _ = _
      rw [radix_substr_drop _ _ _ (by
        have := hlen2
        simp only [radix_length] at this ⊢
        show (K.length : Int) - _ ≤ _
        push_cast
        omega)]
      rw [k4, hnd, drop_append_add]
    refine erase_split_chain k2 k3 k1 hcs hn rfl hsplit hhead ?_ _ _ s3 s4 s5 hroot1 j2
      (by rw [i3, s6]; exact ha1)
    rw [hkb, hk1]
    intro h
    exact c4 hc2 (by rw [h])

end InsertErasePrependMain

section InsertEraseAll
variable {V : Type}

/-- Inserting a key that is not stored and erasing it gives back the root and the
size, for every tree with the invariant whose root is allocated. -/
theorem insert_erase_restores {t : radix_tree V} (hw : tree_wf t) {root : radix_tree_node V}
    (hroot : t.m_root = some root) (K : Key) (v : V) (hK : find t K = none) :
    erase (insert t (K, v)).1 K
      = ((⟨t.m_size, some root, (insert t (K, v)).1.next_addr⟩ : radix_tree V), true) := by
  obtain ⟨h1, h2, h3, h4, h5, h6⟩ := tree_wf_root hw hroot
  obtain ⟨q, m, pre_m, rest_m, res, k1, k2, k3, k4, k8, k5, k6, k7⟩ :=
    find_node_landing root [] K h1 h2
  rw [← find_node_root K root h3] at k6
  have hk : [] ++ root.m_key ++ K = K := by rw [h3]; rfl
  rw [hk] at k4
  obtain ⟨g1, g2, g3, g4, g5⟩ := k2.node_inv k3
  rcases k7 with ⟨hr, e, he, e1, e2⟩ | ⟨hr, e1, e2⟩ | ⟨hr, e1, e2⟩ | ⟨hr, e, he, e1, e2, e3, e4⟩
  · exfalso
    have hnode : node_at (find_node K root 0) root = some e.2 := by
      rw [k6, e2, node_at_append, k1]
      show node_at [e.1] m = some e.2
      rw [node_at_child g1 he]; rfl
    unfold find at hK
    rw [hroot] at hK
    simp only [hnode, e1, Bool.not_true, Bool.false_eq_true, if_false] at hK
    cases hK
  · subst e2
    rw [List.append_nil] at k6
    exact insert_erase_append hw hroot K v hK k1 k2 k3 k4 k6 (Or.inl ⟨hr, e1⟩)
  · subst e2
    rw [List.append_nil] at k6
    exact insert_erase_append hw hroot K v hK k1 k2 k3 k4 k6 (Or.inr ⟨hr, e1⟩)
  · subst e4
    obtain ⟨lab, n⟩ := e
    exact insert_erase_prepend hw hroot K v hK k1 k2 k3 k4 k6 he e1 hr e2 e3

end InsertEraseAll

section ClaimsInsertErase
variable {V : Type}

/-- C28: for every reachable tree whose root is allocated, every key k that is not stored
in it and every value v, insert((k, v)) followed by erase(k) gives back the same root
node, that is the same nodes with the same addresses, edge labels, depths, child maps,
leaf flags and stored values, and the same size; the insertion reports a new element and
the erasure reports that the key was removed. -/
theorem C28_insert_erase_restores [Inhabited V] (ops : List (Op V)) (k : Key) (v : V)
    (hroot : (run ops).m_root ≠ none) (hk : find (run ops) k = end_it) :
    (erase (insert (run ops) (k, v)).1 k).1.m_root = (run ops).m_root ∧
    size (erase (insert (run ops) (k, v)).1 k).1 = size (run ops) ∧
    (insert (run ops) (k, v)).2.2 = true ∧
    (erase (insert (run ops) (k, v)).1 k).2 = true := by
  cases hr : (run ops).m_root with
  | none => exact absurd hr hroot
  | some root =>
    have h := insert_erase_restores (run_wf ops) hr k v hk
    obtain ⟨a, i1, -⟩ := insert_new (run_wf ops) v hk
    rw [h, i1]
    exact ⟨rfl, rfl, rfl, rfl⟩

/-- C28 on the tree with the keys ab and abc: inserting ax splits the edge ab, and
erasing ax merges it back. -/
theorem C28_insert_erase_restores_witness :
    (run sample_ops).m_root ≠ none ∧ find (run sample_ops) ['a', 'x'] = end_it ∧
    (erase (insert (run sample_ops) (['a', 'x'], 7)).1 ['a', 'x']).1.m_root
      = (run sample_ops).m_root ∧
    size (erase (insert (run sample_ops) (['a', 'x'], 7)).1 ['a', 'x']).1
      = size (run sample_ops) ∧
    (insert (run sample_ops) (['a', 'x'], 7)).2.2 = true ∧
    (erase (insert (run sample_ops) (['a', 'x'], 7)).1 ['a', 'x']).2 = true :=
  ⟨fun h => Option.noConfusion (sample_root_eq.symm.trans h), by decide,
    C28_insert_erase_restores sample_ops ['a', 'x'] 7
      (fun h => Option.noConfusion (sample_root_eq.symm.trans h)) (by decide)⟩

end ClaimsInsertErase

end RadixTree
